import Mathlib

/-! # diffuse~ : ramp scheduling, block mixing, states and dictionaries

A shallow embedding of `diffuse~.c`, `diffuse_state.c` and `dict.c`.

* `t_double` values are rationals and the arithmetic on them is exact, except where a
  double is cast to `t_int32`: the casts of the methods (`to_int32`) round the operation to
  binary64 (`fl`), truncate and give `INT_MIN` outside of `t_int32`, and so does the division
  that gives the samplerate in milliseconds. The two casts of the chunk loop are taken on
  the exact value (`trunc`); `cast_exact` says where this is the value of the program.
* `t_int32` values are integers, array counts are naturals; the cast of a `t_atom_long` to
  `t_int32` in `_state_find` and `_channel_find` keeps the low 32 bits (`wrap_int32`).
* C arrays of doubles are lists; a read outside the list gives `0` and a write outside
  the list is dropped (both are undefined behaviour in C).
* Signal vectors (`t_double **`) are maps from a buffer index and a sample index to a value.
* A pointer into `channel_arr` or `state_arr` is the index of the element.
* The function pointers `t_ramp` are functions `ℚ → ℚ → ℚ` (abscissa or ordinate, parameter).
* `MY_ASSERT (cond, ...)` posts an error and leaves the method when `cond` holds: a method
  returns the engine it leaves behind together with a flag telling that no assertion fired.
* The `while (smp_left)` loop of the perform routine is run with a bound on the number of
  iterations; `none` means that the bound was reached with samples still left.
* The dictionaries of the host are association lists from names to values, looked up by
  the registry of the host under the name of the root dictionary.
* The calls that the host makes on the object are the commands of `t_command`; a run is a
  list of commands applied to the object that `diffuse_new` creates.
-/

namespace Diffuse

/-! ## Scalars, arrays and loops -/

/-- The power `2^e` of two, for an exponent of either sign. -/
def pow2 (e : Int) : ℚ :=
  if 0 ≤ e then ((2 ^ e.toNat : Nat) : ℚ) else 1 / ((2 ^ (-e).toNat : Nat) : ℚ)

/-- The number of halvings that bring `n` below 2, counted in at most `fuel` steps. -/
def ilog2_aux : Nat → Nat → Nat
  | 0, _ => 0
  | fuel + 1, n => if n < 2 then 0 else ilog2_aux fuel (n / 2) + 1

/-- The integer part of the binary logarithm of `n`. -/
def ilog2 (n : Nat) : Nat := ilog2_aux n n

/-- The binary exponent `e` of a positive rational `a`: `2^e ≤ a < 2^(e+1)`. -/
def exponent (a : ℚ) : Int :=
  let e0 : Int := (ilog2 a.num.natAbs : Int) - (ilog2 a.den : Int)
  if pow2 e0 ≤ a then e0 else e0 - 1

/-- The integer nearest to `m`, the even one of the two when `m` lies half way. -/
def round_even (m : ℚ) : Int :=
  let f := ⌊m⌋
  let r := m - f
  if r < 1/2 then f else if 1/2 < r then f + 1 else if f % 2 = 0 then f else f + 1

/-- The `t_double` nearest to the real value `q`: a significand of 53 bits, rounded to
nearest with ties to even (IEEE 754 binary64, without the bounds on the exponent). It is
the value that a single operation on doubles with the exact result `q` stores. -/
def fl (q : ℚ) : ℚ :=
  if q = 0 then 0
  else if 0 < q then round_even (q / pow2 (exponent q - 52)) * pow2 (exponent q - 52)
  else -(round_even (-q / pow2 (exponent (-q) - 52)) * pow2 (exponent (-q) - 52))

/-- Truncation toward zero. -/
def trunc (q : ℚ) : Int := if 0 ≤ q then ⌊q⌋ else ⌈q⌉

/-- The C cast `(t_int32)` applied to a double operation whose exact result is `q`: the
operation stores `fl q`, the cast truncates toward zero, and when the truncated value is
outside of `t_int32` the conversion of the processor (`cvttsd2si`) gives `INT_MIN`. -/
def to_int32 (q : ℚ) : Int :=
  if -2147483648 ≤ trunc (fl q) ∧ trunc (fl q) ≤ 2147483647 then trunc (fl q)
  else -2147483648

/-- The cast `(t_int32)` of a double operation with the exact result `q` does not overflow:
the truncated value is within `t_int32`. -/
def cast_in_range (q : ℚ) : Prop :=
  -2147483648 ≤ trunc (fl q) ∧ trunc (fl q) ≤ 2147483647

/-- The cast `(t_int32)` of a double operation with the exact result `q` gives the
truncation of `q`: it does not overflow and the rounding of the operation does not reach
another integer. -/
def cast_exact (q : ℚ) : Prop := to_int32 q = trunc q

instance (q : ℚ) : Decidable (cast_exact q) :=
  inferInstanceAs (Decidable (to_int32 q = trunc q))

instance (q : ℚ) : Decidable (cast_in_range q) :=
  inferInstanceAs (Decidable (-2147483648 ≤ trunc (fl q) ∧ trunc (fl q) ≤ 2147483647))

/-- The C cast `(t_int32)` applied to a `t_atom_long` (64 bits): the low 32 bits, read as
a signed number. -/
def wrap_int32 (n : Int) : Int := Int.emod (n + 2147483648) 4294967296 - 2147483648

/-- The C cast `(t_int32)` applied to the `t_atom_long` `n` that is to index an array of
`cnt` elements, `cnt` being a `t_int32` in the program: a value from 0 to below the count is
within `t_int32` and is its own cast, any other value keeps its low 32 bits. For a count
within `t_int32` this is `wrap_int32 n`. -/
def index_int32 (n : Int) (cnt : Nat) : Int := if 0 ≤ n ∧ n < cnt then n else wrap_int32 n

/-- The value `#define INDEFINITE -1`. -/
def INDEFINITE : Int := -1

/-- Read `a[i]`. -/
def rd (a : List ℚ) (i : Nat) : ℚ := a.getD i 0

/-- Write `a[i] = v`. -/
def wr (a : List ℚ) (i : Nat) (v : ℚ) : List ℚ := a.set i v

/-- Write `a[i] = v` for a signed index. -/
def wr_int (a : List ℚ) (i : Int) (v : ℚ) : List ℚ := if 0 ≤ i then a.set i.toNat v else a

/-- The loop `for (i = 0; i < n; i++) body`, acting on the state `s`. -/
def for_loop {σ : Type} (body : Nat → σ → σ) : Nat → σ → σ
  | 0, s => s
  | n + 1, s => body n (for_loop body n s)

/-- The loop `for (i = 0; i < n; i++) body` where the body may fail to return. -/
def for_loop_opt {σ : Type} (body : Nat → σ → Option σ) : Nat → σ → Option σ
  | 0, s => some s
  | n + 1, s => (for_loop_opt body n s).bind (body n)

/-! ## Atoms and messages of the host -/

/-- A Max atom: `A_LONG`, `A_FLOAT` or `A_SYM`. -/
inductive t_atom where
  | A_LONG (n : Int)
  | A_FLOAT (f : ℚ)
  | A_SYM (s : String)
  deriving DecidableEq

/-- The host function `atom_getfloat`. -/
def atom_getfloat : t_atom → ℚ
  | .A_LONG n => n
  | .A_FLOAT f => f
  | .A_SYM _ => 0

/-- The host function `atom_getlong`: a `t_atom_long`. -/
def atom_getlong : t_atom → Int
  | .A_LONG n => n
  | .A_FLOAT f => trunc f
  | .A_SYM _ => 0

/-- The host function `atom_getsym`; the empty symbol for an atom that holds no symbol. -/
def atom_getsym : t_atom → String
  | .A_SYM s => s
  | _ => ""

/-- The test `atom_gettype(a) == A_LONG`. -/
def is_long : t_atom → Bool
  | .A_LONG _ => true
  | _ => false

/-- The test `(atom_gettype(a) == A_FLOAT) || (atom_gettype(a) == A_LONG)`. -/
def is_number : t_atom → Bool
  | .A_SYM _ => false
  | _ => true

/-- The atom `argv + k`. -/
def atom_at (argv : List t_atom) (k : Nat) : t_atom := argv.getD k (.A_SYM "")

/-- A message sent through the message outlet: selector and arguments. -/
structure t_msg where
  sel : String
  args : List t_atom
  deriving DecidableEq

/-! ## Data model (`diffuse~.h`) -/

/-- The target of the pointer `state->U_cur`: `U_rm_arr` or `U_xf_arr`. -/
inductive t_absc where
  | rm
  | xf
  deriving DecidableEq

/-- The structure `t_state`. -/
structure t_state where
  A_arr : List ℚ
  U_rm_arr : List ℚ
  U_xf_arr : List ℚ
  U_cur : t_absc
  cnt : Nat
  index : Int
  name : String
  deriving DecidableEq

/-- The array that `state->U_cur` points to. -/
def t_state.U_cur_arr (state : t_state) : List ℚ :=
  match state.U_cur with
  | .rm => state.U_rm_arr
  | .xf => state.U_xf_arr

/-- The assignment `state->U_cur[i] = v`. -/
def t_state.set_U_cur (state : t_state) (i : Nat) (v : ℚ) : t_state :=
  match state.U_cur with
  | .rm => { state with U_rm_arr := wr state.U_rm_arr i v }
  | .xf => { state with U_xf_arr := wr state.U_xf_arr i v }

/-- The enumeration `t_mode_type`. -/
inductive t_mode_type where
  | MODE_TYPE_OFF
  | MODE_TYPE_FIX
  | MODE_TYPE_VAR
  deriving DecidableEq

export t_mode_type (MODE_TYPE_OFF MODE_TYPE_FIX MODE_TYPE_VAR)

/-- The structure `t_channel`. -/
structure t_channel where
  U_cur : List ℚ
  A_cur : List ℚ
  U_targ : List ℚ
  A_targ : List ℚ
  cntd : Int
  velocity : ℚ
  gain : ℚ
  interp_func : ℚ → ℚ → ℚ
  interp_inv_func : ℚ → ℚ → ℚ
  interp_param : ℚ
  out_cnt : Nat
  state_ind : Int
  is_on : Bool
  is_frozen : Bool
  is_mute_ramp : Bool
  mode_type : t_mode_type

/-- The enumeration `t_output_type`. -/
inductive t_output_type where
  | OUTP_TYPE_OFF
  | OUTP_TYPE_DB
  | OUTP_TYPE_AMPL
  deriving DecidableEq

export t_output_type (OUTP_TYPE_OFF OUTP_TYPE_DB OUTP_TYPE_AMPL)

/-- The structure `t_diffuse`, without the host object header and the outlets. -/
structure t_diffuse where
  channel_arr : List t_channel
  channel_cnt : Nat
  state_arr : List t_state
  state_cnt : Nat
  state_tmp : t_state
  master : ℚ
  out_cnt : Nat
  out_gain : List ℚ
  ramp_param : ℚ
  ramp_func : ℚ → ℚ → ℚ
  ramp_inv_func : ℚ → ℚ → ℚ
  xfade_param : ℚ
  xfade_func : ℚ → ℚ → ℚ
  xfade_inv_func : ℚ → ℚ → ℚ
  samplerate : ℚ
  msr : ℚ
  outp_channel : Nat
  outp_type : t_output_type
  dict_sym : String

/-- A channel with empty arrays, read where `channel_arr` has no element. -/
def channel_null : t_channel :=
  { U_cur := [], A_cur := [], U_targ := [], A_targ := [], cntd := INDEFINITE, velocity := 1,
    gain := 1, interp_func := fun u _ => u, interp_inv_func := fun a _ => a, interp_param := 0,
    out_cnt := 0, state_ind := -1, is_on := false, is_frozen := false, is_mute_ramp := false,
    mode_type := MODE_TYPE_FIX }

/-- A state with empty arrays, read where `state_arr` has no element. -/
def state_null : t_state :=
  { A_arr := [], U_rm_arr := [], U_xf_arr := [], U_cur := .xf, cnt := 0, index := -1,
    name := "null" }

/-- The channel `x->channel_arr + ind`. -/
def t_diffuse.channel (x : t_diffuse) (ind : Nat) : t_channel := x.channel_arr.getD ind channel_null

/-- The state `x->state_arr + ind`. -/
def t_diffuse.state (x : t_diffuse) (ind : Nat) : t_state := x.state_arr.getD ind state_null

/-- Store a channel at `x->channel_arr + ind`. -/
def t_diffuse.set_channel (x : t_diffuse) (ind : Nat) (channel : t_channel) : t_diffuse :=
  { x with channel_arr := x.channel_arr.set ind channel }

/-- Store a state at `x->state_arr + ind`. -/
def t_diffuse.set_state (x : t_diffuse) (ind : Nat) (state : t_state) : t_diffuse :=
  { x with state_arr := x.state_arr.set ind state }

/-- The result of an interface method: the engine left behind, and `ok = false` when an
assertion fired. -/
structure t_ret where
  x : t_diffuse
  ok : Bool

/-! ## `diffuse_state.c` : `_state_find`, `_state_iterate`, `_state_ramp` -/

/-- The function `_state_find`: the index of the state, `none` for `NULL`. The index is
`(t_int32)atom_getlong(atom)`. -/
def _state_find (state_arr : List t_state) (state_cnt : Nat) (atom : t_atom) : Option Nat :=
  if state_arr = [] ∨ is_long atom = false then none
  else
    let state_ind := index_int32 (atom_getlong atom) state_cnt
    if state_ind < 0 ∨ state_ind ≥ state_cnt then none
    else some state_ind.toNat

/-- The function `_channel_find` of `diffuse~.c`: the index of the channel, `none` for `NULL`.
The index is `(t_int32)atom_getlong(argv)`. -/
def _channel_find (x : t_diffuse) (atom : t_atom) : Option Nat :=
  if is_long atom = true ∧ index_int32 (atom_getlong atom) x.channel_cnt ≥ 0
      ∧ index_int32 (atom_getlong atom) x.channel_cnt < x.channel_cnt then
    some (index_int32 (atom_getlong atom) x.channel_cnt).toNat
  else none

/-- The body of the loop of `_state_iterate`: `channel->U_cur[ch] = channel->U_targ[ch]`
then `channel->A_cur[ch] = channel->A_targ[ch]`. -/
def iterate_body (ch : Nat) (c : t_channel) : t_channel :=
  let c1 := { c with U_cur := wr c.U_cur ch (rd c.U_targ ch) }
  { c1 with A_cur := wr c1.A_cur ch (rd c1.A_targ ch) }

/-- The function `_state_iterate` on the channel `x->channel_arr + ind`: the channel after
the call and the messages sent. -/
def _state_iterate (ind : Nat) (channel : t_channel) : t_channel × List t_msg :=
  let msgs : List t_msg :=
    if channel.is_mute_ramp = false then
      [{ sel := "end_ramp", args := [.A_LONG ind, .A_LONG channel.state_ind] }]
    else []
  match channel.mode_type with
  | MODE_TYPE_VAR =>
    let channel1 := { channel with cntd := INDEFINITE, mode_type := MODE_TYPE_FIX }
    (for_loop iterate_body channel1.out_cnt channel1, msgs)
  | _ => (channel, msgs)

/-- The body of the loop of `_state_ramp`: `ch2 = (ch1 + offset) % x->out_cnt` with the
truncating remainder of C, then `channel->U_targ[ch2] = state->U_cur[ch1]` and
`channel->A_targ[ch2] = state->A_arr[ch1]`. -/
def ramp_body (out_cnt : Nat) (state : t_state) (offset : Int) (ch1 : Nat) (c : t_channel) :
    t_channel :=
  let ch2 := Int.tmod (ch1 + offset) out_cnt
  let c1 := { c with U_targ := wr_int c.U_targ ch2 (rd state.U_cur_arr ch1) }
  { c1 with A_targ := wr_int c1.A_targ ch2 (rd state.A_arr ch1) }

/-- The function `_state_ramp` on the channel `x->channel_arr + ind`; `state` is the state
pointed to, an element of `state_arr` or `state_tmp`. -/
def _state_ramp (x : t_diffuse) (ind : Nat) (state : t_state) (cntd : Int) (offset : Int) :
    t_diffuse :=
  let channel := x.channel ind
  let channel1 := { channel with cntd := cntd, mode_type := MODE_TYPE_VAR,
                                 state_ind := state.index }
  x.set_channel ind (for_loop (ramp_body x.out_cnt state offset) state.cnt channel1)

/-! ## `diffuse~.c` : `diffuse_perform64` -/

/-- The state of the chunk loop of one input channel: the channel, the samples left, the
output vectors, the messages sent and the errors posted. -/
structure t_chunk where
  channel : t_channel
  smp_left : Int
  out_arr : Nat → Nat → ℚ
  msgs : List t_msg
  errs : List String

/-- The sample loop of a fixed, frozen or indefinite channel, on one output vector:
`*sig_out += *sig_in * channel->A_cur[out] * gain`. -/
def fix_samples (sig_in : Nat → ℚ) (a gain : ℚ) (smp_proc chunk_len : Nat)
    (sig_out : Nat → ℚ) : Nat → ℚ :=
  for_loop (fun smp so =>
      Function.update so (smp_proc + smp) (so (smp_proc + smp) + sig_in (smp_proc + smp) * a * gain))
    chunk_len sig_out

/-- The sample loop of a ramping channel, on `channel->A_cur[out]` and one output vector:
`*sig_out += *sig_in * channel->A_cur[out] * gain` then `channel->A_cur[out] += dA`. -/
def var_samples (sig_in : Nat → ℚ) (gain dA : ℚ) (smp_proc chunk_len : Nat)
    (s : ℚ × (Nat → ℚ)) : ℚ × (Nat → ℚ) :=
  for_loop (fun smp (s : ℚ × (Nat → ℚ)) =>
      (s.1 + dA,
       Function.update s.2 (smp_proc + smp)
         (s.2 (smp_proc + smp) + sig_in (smp_proc + smp) * s.1 * gain)))
    chunk_len s

/-- The body of the loop through the output channels, for the output `out`. -/
def out_body (x : t_diffuse) (sig_in : Nat → ℚ) (smp_proc chunk_len cntd_d_vel : Int)
    (out : Nat) (st : t_chunk) : t_chunk :=
  let channel := st.channel
  let gain := x.master * channel.gain * rd x.out_gain out
  if channel.mode_type = MODE_TYPE_FIX ∨ channel.is_frozen = true ∨ channel.cntd = INDEFINITE then
    if gain = 0 ∨ rd channel.A_cur out = 0 then st
    else
      let sig_out := fix_samples sig_in (rd channel.A_cur out) gain smp_proc.toNat
        chunk_len.toNat (st.out_arr out)
      { st with out_arr := Function.update st.out_arr out sig_out }
  else if channel.mode_type = MODE_TYPE_VAR then
    let U_new := rd channel.U_cur out
      + chunk_len * (rd channel.U_targ out - rd channel.U_cur out) / cntd_d_vel
    let channel1 := { channel with U_cur := wr channel.U_cur out U_new }
    let A_U_dU := channel1.interp_func (rd channel1.U_cur out) channel1.interp_param
    if gain = 0 ∨ (rd channel1.A_cur out = 0 ∧ rd channel1.A_targ out = 0) then
      { st with channel := { channel1 with A_cur := wr channel1.A_cur out A_U_dU } }
    else
      let dA := (A_U_dU - rd channel1.A_cur out) / chunk_len
      let r := var_samples sig_in gain dA smp_proc.toNat chunk_len.toNat
        (rd channel1.A_cur out, st.out_arr out)
      { st with channel := { channel1 with A_cur := wr channel1.A_cur out r.1 },
                out_arr := Function.update st.out_arr out r.2 }
  else { st with errs := st.errs ++ ["diffuse_perform64:  Invalid mode type."] }

/-- The loop through the output channels for one chunk. -/
def out_loop (x : t_diffuse) (sig_in : Nat → ℚ) (smp_proc chunk_len cntd_d_vel : Int)
    (st : t_chunk) : t_chunk :=
  for_loop (out_body x sig_in smp_proc chunk_len cntd_d_vel) x.out_cnt st

/-- The temporary `smp_left_x_vel = (t_int32)(smp_left * channel->velocity)`, on the exact
product: the value of the program where `cast_exact (smp_left * channel.velocity)`. -/
def smp_left_x_vel (smp_left : Int) (channel : t_channel) : Int :=
  trunc (smp_left * channel.velocity)

/-- The temporary `cntd_d_vel = (t_int32)(channel->cntd / channel->velocity)`, corrected to 1
when it rounds down to 0 while `cntd` is not 0. The cast is taken on the exact quotient: the
value of the program where `cast_exact (channel.cntd / channel.velocity)`. With a velocity 0
the division gives an infinity or a NaN, which the cast turns into `INT_MIN`. -/
def cntd_d_vel (channel : t_channel) : Int :=
  let cntd_d_vel :=
    if channel.velocity = 0 then -2147483648 else trunc (channel.cntd / channel.velocity)
  if cntd_d_vel = 0 ∧ channel.cntd ≠ 0 then 1 else cntd_d_vel

/-- One pass through the body of `while (smp_left)` for the input channel `in_`. -/
def chunk_iter (x : t_diffuse) (in_ : Nat) (sig_in : Nat → ℚ) (sampleframes : Int)
    (st : t_chunk) : t_chunk :=
  let channel := st.channel
  let smp_left := st.smp_left
  let smp_left_x_vel := smp_left_x_vel smp_left channel
  let cntd_d_vel := cntd_d_vel channel
  let smp_proc := sampleframes - smp_left
  if channel.is_frozen = true then
    out_loop x sig_in smp_proc sampleframes cntd_d_vel { st with smp_left := 0 }
  else if channel.cntd = 0 then
    let r := _state_iterate in_ channel
    { st with channel := r.1, msgs := st.msgs ++ r.2 }
  else if channel.cntd = INDEFINITE then
    out_loop x sig_in smp_proc smp_left cntd_d_vel { st with smp_left := 0 }
  else if channel.cntd > smp_left_x_vel then
    out_loop x sig_in smp_proc smp_left cntd_d_vel
      { st with smp_left := 0, channel := { channel with cntd := channel.cntd - smp_left_x_vel } }
  else
    out_loop x sig_in smp_proc cntd_d_vel cntd_d_vel
      { st with smp_left := smp_left - cntd_d_vel, channel := { channel with cntd := 0 } }

/-- The loop `while (smp_left)`, run for at most `fuel` passes; `none` when samples are
still left after that. -/
def chunk_loop (x : t_diffuse) (in_ : Nat) (sig_in : Nat → ℚ) (sampleframes : Int) :
    Nat → t_chunk → Option t_chunk
  | 0, st => if st.smp_left = 0 then some st else none
  | fuel + 1, st =>
    if st.smp_left = 0 then some st
    else chunk_loop x in_ sig_in sampleframes fuel (chunk_iter x in_ sig_in sampleframes st)

/-- The engine, the output vectors, the messages sent and the errors posted, as the perform
routine threads them. -/
structure t_perform where
  x : t_diffuse
  out_arr : Nat → Nat → ℚ
  msgs : List t_msg
  errs : List String

/-- Set all the output vectors to zero. -/
def zero_outputs (out_cnt sampleframes : Nat) (out_arr : Nat → Nat → ℚ) : Nat → Nat → ℚ :=
  for_loop (fun out oa =>
      for_loop (fun smp oa1 => Function.update oa1 out (Function.update (oa1 out) smp 0))
        sampleframes oa)
    out_cnt out_arr

/-- The body of the loop through the input channels, for the channel `in_`. -/
def channel_body (fuel : Nat) (in_arr : Nat → Nat → ℚ) (sampleframes : Nat) (in_ : Nat)
    (s : t_perform) : Option t_perform :=
  let channel := s.x.channel in_
  if channel.is_on = false then some s
  else
    (chunk_loop s.x in_ (in_arr in_) sampleframes fuel
        { channel := channel, smp_left := sampleframes, out_arr := s.out_arr,
          msgs := s.msgs, errs := s.errs }).map
      (fun st => { x := s.x.set_channel in_ st.channel, out_arr := st.out_arr,
                   msgs := st.msgs, errs := st.errs })

/-- The method `diffuse_perform64`; every chunk loop runs for at most `fuel` passes. -/
def diffuse_perform64 (fuel : Nat) (x : t_diffuse) (in_arr out_arr : Nat → Nat → ℚ)
    (sampleframes : Nat) : Option t_perform :=
  (for_loop_opt (channel_body fuel in_arr sampleframes) x.channel_cnt
      { x := x, out_arr := zero_outputs x.out_cnt sampleframes out_arr, msgs := [], errs := [] }).map
    (fun s =>
      if s.x.outp_type ≠ OUTP_TYPE_OFF then
        let args := (List.range s.x.out_cnt).map
          (fun i => t_atom.A_FLOAT (rd (s.x.channel s.x.outp_channel).A_cur i))
        { s with msgs := s.msgs ++ [{ sel := "output", args := args }] }
      else s)

/-- The method `diffuse_dsp64`: the samplerate and the samplerate in milliseconds. -/
def diffuse_dsp64 (x : t_diffuse) (samplerate : ℚ) : t_diffuse :=
  { x with samplerate := samplerate, msr := fl (samplerate / 1000) }

/-- The method `diffuse_perform64` called once for each block of a list (input vectors and
length); the engine after the last block. -/
def perform_blocks (fuel : Nat) (out_arr : Nat → Nat → ℚ) :
    List ((Nat → Nat → ℚ) × Nat) → t_diffuse → Option t_diffuse
  | [], x => some x
  | b :: bs, x =>
    (diffuse_perform64 fuel x b.1 out_arr b.2).bind (fun s => perform_blocks fuel out_arr bs s.x)

/-! ## `diffuse_state.c` : the ramping methods -/

/-- The assignments `channel->interp_func = x->ramp_func` etc. of the `"ramp"` branch. -/
def set_interp_ramp (x : t_diffuse) (channel : t_channel) : t_channel :=
  { channel with interp_func := x.ramp_func, interp_inv_func := x.ramp_inv_func,
                 interp_param := x.ramp_param }

/-- The assignments `channel->interp_func = x->xfade_func` etc. of the `"xfade"` branch. -/
def set_interp_xfade (x : t_diffuse) (channel : t_channel) : t_channel :=
  { channel with interp_func := x.xfade_func, interp_inv_func := x.xfade_inv_func,
                 interp_param := x.xfade_param }

/-- The method `state_ramp_to`:
`ramp_to (int: channel index) (int: state index) (float: time in ms) (sym: ramp or xfade)`. -/
def state_ramp_to (x : t_diffuse) (argv : List t_atom) : t_ret :=
  if argv.length ≠ 4 then ⟨x, false⟩ else
  match _channel_find x (atom_at argv 0) with
  | none => ⟨x, false⟩
  | some channel =>
  match _state_find x.state_arr x.state_cnt (atom_at argv 1) with
  | none => ⟨x, false⟩
  | some state =>
  if is_number (atom_at argv 2) = false then ⟨x, false⟩ else
  let time := atom_getfloat (atom_at argv 2)
  if time ≤ 0 then ⟨x, false⟩ else
  let interp_type := atom_getsym (atom_at argv 3)
  if interp_type = "ramp" then
    let x1 := x.set_state state { x.state state with U_cur := .rm }
    let x2 := x1.set_channel channel (set_interp_ramp x1 (x1.channel channel))
    ⟨_state_ramp x2 channel (x2.state state) (to_int32 (time * x2.msr)) 0, true⟩
  else if interp_type = "xfade" then
    let x1 := x.set_state state { x.state state with U_cur := .xf }
    let x2 := x1.set_channel channel (set_interp_xfade x1 (x1.channel channel))
    ⟨_state_ramp x2 channel (x2.state state) (to_int32 (time * x2.msr)) 0, true⟩
  else ⟨x, false⟩

/-- The method `state_ramp_between`: `ramp_betweeen (int: channel) (int: state 1)
(int: state 2) (float: interpolation) (float: time in ms) (sym: ramp or xfade)`. -/
def state_ramp_between (x : t_diffuse) (argv : List t_atom) : t_ret :=
  if argv.length ≠ 6 then ⟨x, false⟩ else
  match _channel_find x (atom_at argv 0) with
  | none => ⟨x, false⟩
  | some channel =>
  match _state_find x.state_arr x.state_cnt (atom_at argv 1) with
  | none => ⟨x, false⟩
  | some state1 =>
  match _state_find x.state_arr x.state_cnt (atom_at argv 2) with
  | none => ⟨x, false⟩
  | some state2 =>
  if is_number (atom_at argv 3) = false then ⟨x, false⟩ else
  let interp := atom_getfloat (atom_at argv 3)
  if interp < 0 ∨ interp > 1 then ⟨x, false⟩ else
  if is_number (atom_at argv 4) = false then ⟨x, false⟩ else
  let time := atom_getfloat (atom_at argv 4)
  if time ≤ 0 then ⟨x, false⟩ else
  let interp_type := atom_getsym (atom_at argv 5)
  let sel : Option (t_absc × (t_diffuse → t_channel → t_channel)) :=
    if interp_type = "ramp" then some (.rm, set_interp_ramp)
    else if interp_type = "xfade" then some (.xf, set_interp_xfade)
    else none
  match sel with
  | none => ⟨x, false⟩
  | some (absc, set_interp) =>
    let x1 := x.set_state state1 { x.state state1 with U_cur := absc }
    let x2 := x1.set_state state2 { x1.state state2 with U_cur := absc }
    let x3 := x2.set_channel channel (set_interp x2 (x2.channel channel))
    let x4 := for_loop (fun ch (y : t_diffuse) =>
        let u := rd (y.state state1).U_cur_arr ch
          + interp * (rd (y.state state2).U_cur_arr ch - rd (y.state state1).U_cur_arr ch)
        let y1 := { y with state_tmp := y.state_tmp.set_U_cur ch u }
        let a := (y1.channel channel).interp_func (rd y1.state_tmp.U_cur_arr ch)
          (y1.channel channel).interp_param
        { y1 with state_tmp := { y1.state_tmp with A_arr := wr y1.state_tmp.A_arr ch a } })
      (x3.channel channel).out_cnt x3
    ⟨_state_ramp x4 channel x4.state_tmp (to_int32 (time * x4.msr)) 0, true⟩

/-- The macro `MAX (a, b)`: `((a) > (b) ? (a) : (b))`. -/
def MAX (a b : ℚ) : ℚ := if a > b then a else b

/-- The loop `while (state_cnt--)` of `state_ramp_max` over the pairs
`(int: state) (float: interpolation)`; `atom` is the position of the next atom. -/
def ramp_max_pairs (channel : Nat) (interp_type : String) (argv : List t_atom) :
    Nat → Nat → t_diffuse → t_ret
  | 0, _, x => ⟨x, true⟩
  | state_cnt + 1, atom, x =>
    match _state_find x.state_arr x.state_cnt (atom_at argv atom) with
    | none => ⟨x, false⟩
    | some state =>
    if is_number (atom_at argv (atom + 1)) = false then ⟨x, false⟩ else
    let interp := atom_getfloat (atom_at argv (atom + 1))
    if interp < 0 ∨ interp > 1 then ⟨x, false⟩ else
    let absc := if interp_type = "ramp" then t_absc.rm else t_absc.xf
    let x1 := x.set_state state { x.state state with U_cur := absc }
    let x2 := for_loop (fun ch (y : t_diffuse) =>
        let u := MAX (interp * rd (y.state state).U_cur_arr ch) (rd y.state_tmp.U_cur_arr ch)
        { y with state_tmp := y.state_tmp.set_U_cur ch u })
      (x1.channel channel).out_cnt x1
    ramp_max_pairs channel interp_type argv state_cnt (atom + 2) x2

/-- The method `state_ramp_max`: `ramp_max (int: channel) [(int: state)
(float: interpolation)] {x N} (float: time in ms) (sym: ramp or xfade)`. -/
def state_ramp_max (x : t_diffuse) (argv : List t_atom) : t_ret :=
  let argc := argv.length
  if argc % 2 ≠ 1 ∨ argc < 4 then ⟨x, false⟩ else
  match _channel_find x (atom_at argv 0) with
  | none => ⟨x, false⟩
  | some channel =>
  if is_number (atom_at argv (argc - 2)) = false then ⟨x, false⟩ else
  let time := atom_getfloat (atom_at argv (argc - 2))
  if time ≤ 0 then ⟨x, false⟩ else
  let interp_type := atom_getsym (atom_at argv (argc - 1))
  let sel : Option (t_diffuse → t_channel → t_channel) :=
    if interp_type = "ramp" then some set_interp_ramp
    else if interp_type = "xfade" then some set_interp_xfade
    else none
  match sel with
  | none => ⟨x, false⟩
  | some set_interp =>
    let x1 := x.set_channel channel (set_interp x (x.channel channel))
    let state_cnt := argc / 2 - 1
    let x2 := for_loop (fun res (y : t_diffuse) =>
        { y with state_tmp := y.state_tmp.set_U_cur res 0 })
      (x1.channel channel).out_cnt x1
    let r := ramp_max_pairs channel interp_type argv state_cnt 1 x2
    if r.ok = false then r else
    let x3 := for_loop (fun ch (y : t_diffuse) =>
        let a := (y.channel channel).interp_func (rd y.state_tmp.U_cur_arr ch) y.ramp_param
        { y with state_tmp := { y.state_tmp with A_arr := wr y.state_tmp.A_arr ch a } })
      (r.x.channel channel).out_cnt r.x
    ⟨_state_ramp x3 channel x3.state_tmp (to_int32 (time * x3.msr)) 0, true⟩

/-- The method `state_circular`: `circular (int: channel first index) (int: channel count)
(int: state index) (float: interpolation) (float: time in ms)`. -/
def state_circular (x : t_diffuse) (argv : List t_atom) : t_ret :=
  if argv.length ≠ 5 then ⟨x, false⟩ else
  match _channel_find x (atom_at argv 0) with
  | none => ⟨x, false⟩
  | some channel =>
  if is_long (atom_at argv 1) = false then ⟨x, false⟩ else
  let ch_cnt := atom_getlong (atom_at argv 1)
  if ch_cnt < 1 ∨ (channel : Int) + ch_cnt > x.channel_cnt then ⟨x, false⟩ else
  match _state_find x.state_arr x.state_cnt (atom_at argv 2) with
  | none => ⟨x, false⟩
  | some state =>
  if is_number (atom_at argv 3) = false then ⟨x, false⟩ else
  let interp := atom_getfloat (atom_at argv 3)
  if is_number (atom_at argv 4) = false then ⟨x, false⟩ else
  let time := atom_getfloat (atom_at argv 4)
  if time ≤ 0 then ⟨x, false⟩ else
  let offset : Int := to_int32 (⌊interp⌋ : ℚ)
  let interp := interp - offset
  let offset := if offset < 0 then Int.tmod offset x.out_cnt + 8 else Int.tmod offset x.out_cnt
  let x1 := x.set_state state { x.state state with U_cur := .xf }
  let x2 := for_loop (fun ch (y : t_diffuse) =>
      let u := rd (y.state state).U_cur_arr ch
        + interp * (rd (y.state state).U_cur_arr ((ch + y.out_cnt - 1) % y.out_cnt)
                    - rd (y.state state).U_cur_arr ch)
      let y1 := { y with state_tmp := y.state_tmp.set_U_cur ch u }
      let a := y1.xfade_func (rd y1.state_tmp.U_cur_arr ch) y1.xfade_param
      { y1 with state_tmp := { y1.state_tmp with A_arr := wr y1.state_tmp.A_arr ch a } })
    x1.out_cnt x1
  ⟨for_loop (fun inp (y : t_diffuse) =>
      let y1 := y.set_channel (channel + inp) (set_interp_xfade y (y.channel (channel + inp)))
      _state_ramp y1 (channel + inp) y1.state_tmp (to_int32 (time * y1.msr)) (offset + inp))
    ch_cnt.toNat x2, true⟩

/-- The method `state_velocity`: `velocity (int: channel index) (float: velocity)`. -/
def state_velocity (x : t_diffuse) (argv : List t_atom) : t_ret :=
  if argv.length ≠ 2 then ⟨x, false⟩ else
  match _channel_find x (atom_at argv 0) with
  | none => ⟨x, false⟩
  | some channel =>
  if is_number (atom_at argv 1) = false then ⟨x, false⟩ else
  let velocity := atom_getfloat (atom_at argv 1)
  if velocity < 0 then ⟨x, false⟩ else
  ⟨x.set_channel channel { x.channel channel with velocity := velocity }, true⟩

/-- The method `state_freeze`: `freeze (int: channel index) (int: 0 or 1)`. -/
def state_freeze (x : t_diffuse) (argv : List t_atom) : t_ret :=
  if argv.length ≠ 2 then ⟨x, false⟩ else
  match _channel_find x (atom_at argv 0) with
  | none => ⟨x, false⟩
  | some channel =>
  if is_long (atom_at argv 1) = false then ⟨x, false⟩ else
  let is_frozen := atom_getlong (atom_at argv 1)
  if is_frozen ≠ 0 ∧ is_frozen ≠ 1 then ⟨x, false⟩ else
  ⟨x.set_channel channel
    { x.channel channel with is_frozen := if is_frozen = 1 then true else false }, true⟩

/-! ## The allocation invariant -/

/-- The arrays of a channel have `out_cnt` entries, as `_channel_init` and `_channel_alloc`
leave them. -/
@[reducible] def channel_wf (out_cnt : Nat) (c : t_channel) : Prop :=
  c.out_cnt = out_cnt ∧ c.U_cur.length = out_cnt ∧ c.A_cur.length = out_cnt
    ∧ c.U_targ.length = out_cnt ∧ c.A_targ.length = out_cnt

/-- The arrays of a state have `out_cnt` entries, as `_state_alloc` leaves them. -/
@[reducible] def state_wf (out_cnt : Nat) (s : t_state) : Prop :=
  s.cnt = out_cnt ∧ s.A_arr.length = out_cnt ∧ s.U_rm_arr.length = out_cnt
    ∧ s.U_xf_arr.length = out_cnt

/-- The engine is allocated as `diffuse_new` does it: the arrays have the lengths that the
counts tell and there is one output at least. -/
@[reducible] def engine_wf (x : t_diffuse) : Prop :=
  1 ≤ x.out_cnt ∧ x.channel_arr.length = x.channel_cnt ∧ x.state_arr.length = x.state_cnt
    ∧ x.out_gain.length = x.out_cnt
    ∧ (∀ c ∈ x.channel_arr, channel_wf x.out_cnt c)
    ∧ (∀ s ∈ x.state_arr, state_wf x.out_cnt s)
    ∧ state_wf x.out_cnt x.state_tmp

/-! ## Curves and engines used in the worked cases -/

/-- Modelled from the spec: the curve `ramp_linear` of `envelopes.h`, a header that is not
among the sources; the linear curve gives the abscissa itself as amplitude. -/
def ramp_linear (u _param : ℚ) : ℚ := u

/-- Modelled from the spec: the curve `ramp_linear_inv` of `envelopes.h`, a header that is
not among the sources; the exact inverse of the linear curve. -/
def ramp_linear_inv (a _param : ℚ) : ℚ := a

/-- A channel with two outputs, switched on, fixed at silence, with the linear curve as its
curve selection. -/
def channel_2 : t_channel :=
  { U_cur := [0, 0], A_cur := [0, 0], U_targ := [0, 0], A_targ := [0, 0], cntd := INDEFINITE,
    velocity := 1, gain := 1, interp_func := ramp_linear, interp_inv_func := ramp_linear_inv,
    interp_param := -3, out_cnt := 2, state_ind := -1, is_on := true, is_frozen := false,
    is_mute_ramp := false, mode_type := MODE_TYPE_FIX }

/-- The state of index `index` with gains `[a0, a1]` under linear curves. -/
def state_2 (index : Int) (a0 a1 : ℚ) : t_state :=
  { A_arr := [a0, a1], U_rm_arr := [a0, a1], U_xf_arr := [a0, a1], U_cur := .xf, cnt := 2,
    index := index, name := "null" }

/-- An engine with one input channel (on), two outputs, two states with gains `[0, 1]` and
`[1, 0]`, linear curves and a samplerate of 1000 Hz. -/
def x_2 : t_diffuse :=
  { channel_arr := [channel_2], channel_cnt := 1,
    state_arr := [state_2 0 0 1, state_2 1 1 0], state_cnt := 2,
    state_tmp := state_2 (-1) 0 0, master := 1, out_cnt := 2, out_gain := [1, 1],
    ramp_param := 4, ramp_func := ramp_linear, ramp_inv_func := ramp_linear_inv,
    xfade_param := -3, xfade_func := ramp_linear, xfade_inv_func := ramp_linear_inv,
    samplerate := 1000, msr := 1, outp_channel := 0, outp_type := OUTP_TYPE_DB,
    dict_sym := "" }

/-- The channel `channel_2` frozen in the middle of a ramp towards `[0, 1]`, five samples
before its end. -/
def channel_2_frozen : t_channel :=
  { channel_2 with U_cur := [1/4, 1/2], A_cur := [1/4, 1/2], U_targ := [0, 1], A_targ := [0, 1],
                   cntd := 5, mode_type := MODE_TYPE_VAR, state_ind := 0, is_frozen := true }

/-- The engine `x_2` with its channel frozen in the middle of a ramp. -/
def x_2_frozen : t_diffuse := { x_2 with channel_arr := [channel_2_frozen] }

/-- The chunk loop of the channel of `x_2` at the end of a ramp towards `[0, 1]`: the
countdown is 0, the amplitudes are short of the targets, four samples of the block are left. -/
def chunk_2_end : t_chunk :=
  { channel := { channel_2 with U_cur := [0, 9/10], A_cur := [0, 9/10], U_targ := [0, 1],
                                A_targ := [0, 1], cntd := 0, mode_type := MODE_TYPE_VAR,
                                state_ind := 0 },
    smp_left := 4, out_arr := fun _ _ => 0, msgs := [], errs := [] }

/-- The arguments of `ramp_to 0 1 10. xfade`. -/
def argv_to_xfade : List t_atom := [.A_LONG 0, .A_LONG 1, .A_FLOAT 10, .A_SYM "xfade"]

/-- The arguments of `ramp_to 0 0 10. ramp`. -/
def argv_to_ramp : List t_atom := [.A_LONG 0, .A_LONG 0, .A_FLOAT 10, .A_SYM "ramp"]

/-- The arguments of `ramp_max 0 0 1. 7 0.5 10. ramp`: the second pair names a state that
does not exist. -/
def argv_max_bad : List t_atom :=
  [.A_LONG 0, .A_LONG 0, .A_FLOAT 1, .A_LONG 7, .A_FLOAT (1/2), .A_FLOAT 10, .A_SYM "ramp"]

/-- The engine `x_2` after `ramp_to 0 0 10. ramp`: the channel ramps towards `[0, 1]` with a
countdown of 10 samples. -/
def x_2_ramp : t_diffuse := (state_ramp_to x_2 argv_to_ramp).x

/-- The engine `x_2` after `velocity 0 1.5` and `ramp_to 0 0 10. ramp`. -/
def x_2_fast : t_diffuse :=
  (state_ramp_to (state_velocity x_2 [.A_LONG 0, .A_FLOAT (3/2)]).x argv_to_ramp).x

/-- The engine `x_2` after `velocity 0 0.5` and `ramp_to 0 0 10. ramp`. -/
def x_2_slow : t_diffuse :=
  (state_ramp_to (state_velocity x_2 [.A_LONG 0, .A_FLOAT (1/2)]).x argv_to_ramp).x

/-! ## Relations and closed forms used in the statements -/

/-- The vectors after a chunk of a channel that is not ramped: the samples of the chunk
are added with the constant gain `A_cur[out] * gain`. -/
def fixed_chunk_out (x : t_diffuse) (sig_in : Nat → ℚ) (channel : t_channel) (p cl n : Nat)
    (out_arr : Nat → Nat → ℚ) : Nat → Nat → ℚ :=
  fun o s =>
    if o < n ∧ p ≤ s ∧ s < p + cl then
      out_arr o s + sig_in s * rd channel.A_cur o * (x.master * channel.gain * rd x.out_gain o)
    else out_arr o s

/-- The contribution of the channel `c` to the sample `s` of the output `o` when the
channel is not ramped. -/
def fixed_term (x : t_diffuse) (in_arr : Nat → Nat → ℚ) (o s c : Nat) : ℚ :=
  if (x.channel c).is_on = true then
    in_arr c s * rd (x.channel c).A_cur o * x.master * (x.channel c).gain * rd x.out_gain o
  else 0

/-- The output vectors after the first `k` channels of a block of channels that are not
ramped. -/
def fixed_block_out (x : t_diffuse) (in_arr : Nat → Nat → ℚ) (sampleframes k : Nat)
    (out_arr : Nat → Nat → ℚ) : Nat → Nat → ℚ :=
  fun o s =>
    if o < x.out_cnt ∧ s < sampleframes then
      out_arr o s + ∑ c ∈ Finset.range k, fixed_term x in_arr o s c
    else out_arr o s

/-- The channel `c1` is the channel `c` but for the entries of `U_cur` and `A_cur`. -/
def cur_only (c c1 : t_channel) : Prop :=
  c1 = { c with U_cur := c1.U_cur, A_cur := c1.A_cur }
    ∧ c1.U_cur.length = c.U_cur.length ∧ c1.A_cur.length = c.A_cur.length

/-- The abscissa of the output `out` after a ramped chunk of `cl` samples. -/
def U_next (c : t_channel) (cl cdv : Int) (out : Nat) : ℚ :=
  rd c.U_cur out + cl * (rd c.U_targ out - rd c.U_cur out) / cdv

/-- The engine `y` is the engine `x` but for the channels, of which there are as many. -/
def channels_only (x y : t_diffuse) : Prop :=
  y = { x with channel_arr := y.channel_arr } ∧ y.channel_arr.length = x.channel_arr.length

/-- The chunk loop returns on such a channel: it is frozen, or its countdown is indefinite,
or it is ramping with a countdown that is not negative and a positive velocity. -/
def chan_run (c : t_channel) : Prop :=
  c.is_frozen = true ∨ c.cntd = INDEFINITE
    ∨ (c.mode_type = MODE_TYPE_VAR ∧ 0 ≤ c.cntd ∧ 0 < c.velocity)

/-- What a block of `L` samples makes of a switched-on channel `c`: nothing, or a ramp that
goes on with a countdown `n`, or a ramp that is completed. -/
def block_rel (L : Nat) (c c1 : t_channel) : Prop :=
  (c1 = c ∧ (c.is_frozen = true ∨ c.cntd = INDEFINITE ∨ L = 0))
  ∨ (c.is_frozen = false ∧ c.mode_type = MODE_TYPE_VAR ∧ 0 < L ∧ 0 ≤ c.cntd
      ∧ ∃ n : Int, 0 ≤ n ∧ (1 ≤ c.velocity → n + L ≤ c.cntd) ∧ cur_only { c with cntd := n } c1)
  ∨ (c.is_frozen = false ∧ c.mode_type = MODE_TYPE_VAR ∧ 0 < L ∧ 0 ≤ c.cntd
      ∧ cur_only { c with cntd := INDEFINITE, mode_type := MODE_TYPE_FIX } c1
      ∧ (c.out_cnt ≤ c.U_cur.length → c.out_cnt ≤ c.A_cur.length →
          ∀ i, i < c.out_cnt → rd c1.U_cur i = rd c.U_targ i ∧ rd c1.A_cur i = rd c.A_targ i))

/-- The total number of samples of a list of blocks. -/
def blocks_len (blocks : List ((Nat → Nat → ℚ) × Nat)) : Nat := (blocks.map (fun b => b.2)).sum

/-- The channel `c1` is the channel `c` but for the entries of `U_targ` and `A_targ`. -/
def targ_only (c c1 : t_channel) : Prop :=
  c1 = { c with U_targ := c1.U_targ, A_targ := c1.A_targ }
    ∧ c1.U_targ.length = c.U_targ.length ∧ c1.A_targ.length = c.A_targ.length

/-- The channel that a ramping method leaves for a channel `c0`: the curve selection of the
family, then the countdown, the ramping mode and the index of the state, then the targets
copied from the state `sched` with the offset `off`. -/
def scheduled (x : t_diffuse) (set_interp : t_diffuse → t_channel → t_channel)
    (sched : t_state) (cntd off : Int) (c0 : t_channel) : t_channel :=
  for_loop (ramp_body x.out_cnt sched off) sched.cnt
    { set_interp x c0 with cntd := cntd, mode_type := MODE_TYPE_VAR, state_ind := sched.index }

/-- The selection of a family: one of the two groups of assignments of the methods. -/
def is_family (set_interp : t_diffuse → t_channel → t_channel) : Prop :=
  set_interp = set_interp_ramp ∨ set_interp = set_interp_xfade

/-- What a scheduled channel keeps of the channel of before: the current values, the
velocity, the input gain, the flags and the lengths of the arrays. -/
def sched_frame (c c1 : t_channel) : Prop :=
  c1.U_cur = c.U_cur ∧ c1.A_cur = c.A_cur ∧ c1.velocity = c.velocity ∧ c1.gain = c.gain
    ∧ c1.is_on = c.is_on ∧ c1.is_frozen = c.is_frozen ∧ c1.is_mute_ramp = c.is_mute_ramp
    ∧ c1.out_cnt = c.out_cnt ∧ c1.U_targ.length = c.U_targ.length
    ∧ c1.A_targ.length = c.A_targ.length

/-- The engine `y` is the engine `x` but for the states and the scratch state, of which the
counts are kept. -/
def states_only (x y : t_diffuse) : Prop :=
  y = { x with state_arr := y.state_arr, state_tmp := y.state_tmp }
    ∧ y.state_arr.length = x.state_arr.length ∧ y.state_tmp.cnt = x.state_tmp.cnt

/-- The engine `y` is the engine `x` with the curve selection of a family given to the
channel `c`, but for the states and the scratch state. -/
def armed (x : t_diffuse) (set_interp : t_diffuse → t_channel → t_channel) (c : Nat)
    (y : t_diffuse) : Prop :=
  y = { x with channel_arr := x.channel_arr.set c (set_interp x (x.channel c)),
               state_arr := y.state_arr, state_tmp := y.state_tmp }
    ∧ y.state_arr.length = x.state_arr.length ∧ y.state_tmp.cnt = x.state_tmp.cnt

/-- The scheduling part of `state_ramp_to` for a family. -/
def ramp_to_sched (x : t_diffuse) (channel state : Nat) (absc : t_absc)
    (set_interp : t_diffuse → t_channel → t_channel) (time : ℚ) : t_diffuse :=
  let x1 := x.set_state state { x.state state with U_cur := absc }
  let x2 := x1.set_channel channel (set_interp x1 (x1.channel channel))
  _state_ramp x2 channel (x2.state state) (to_int32 (time * x2.msr)) 0

/-- The offset that `state_circular` computes from the interpolation argument. -/
def circ_offset (x : t_diffuse) (interp : ℚ) : Int :=
  if to_int32 (⌊interp⌋ : ℚ) < 0 then Int.tmod (to_int32 (⌊interp⌋ : ℚ)) x.out_cnt + 8
  else Int.tmod (to_int32 (⌊interp⌋ : ℚ)) x.out_cnt

/-- The start of a ramp at velocity 1: an unfrozen ramping channel whose countdown is not
negative and whose arrays have an entry for every output. -/
def ramp_start (c0 : t_channel) : Prop :=
  c0.is_frozen = false ∧ c0.mode_type = MODE_TYPE_VAR ∧ c0.velocity = 1 ∧ 0 ≤ c0.cntd
    ∧ c0.out_cnt ≤ c0.U_cur.length ∧ c0.out_cnt ≤ c0.A_cur.length

/-- The channel `c` that a ramp started at `c0` with velocity 1 has become after `n` samples:
the start itself, a ramp on its way, or a completed ramp. -/
def ramp_v1 (c0 : t_channel) (n : Nat) (c : t_channel) : Prop :=
  (n = 0 ∧ c = c0)
  ∨ (0 < n ∧ (n : Int) ≤ c0.cntd ∧ cur_only { c0 with cntd := c0.cntd - n } c
      ∧ ∀ i, i < c0.out_cnt →
          rd c.U_cur i = rd c0.U_cur i + n * (rd c0.U_targ i - rd c0.U_cur i) / c0.cntd
          ∧ rd c.A_cur i = c0.interp_func (rd c.U_cur i) c0.interp_param)
  ∨ (c0.cntd < n ∧ cur_only { c0 with cntd := INDEFINITE, mode_type := MODE_TYPE_FIX } c
      ∧ ∀ i, i < c0.out_cnt → rd c.U_cur i = rd c0.U_targ i ∧ rd c.A_cur i = rd c0.A_targ i)

/-- The statement `U_cur[out] += chunk_len * (U_targ[out] - U_cur[out]) / cntd_d_vel` of the
loop over the outputs in the arithmetic of `t_double`: every operation is rounded to
binary64. -/
def U_step_fl (U_cur U_targ : ℚ) (chunk_len cntd_d_vel : Int) : ℚ :=
  fl (U_cur + fl (fl (chunk_len * fl (U_targ - U_cur)) / cntd_d_vel))

/-- The statement `A_cur[out] += dA` of the loop over the samples, executed `n` times in the
arithmetic of `t_double`. -/
def A_loop_fl (dA : ℚ) : Nat → ℚ → ℚ
  | 0, A_cur => A_cur
  | n + 1, A_cur => fl (A_loop_fl dA n A_cur + dA)

/-- The gain `A_cur[out]` after a ramped chunk in the arithmetic of `t_double`, for an output
that goes through the loop over the samples: the new abscissa, `A_U_dU = interp_func (...)`
(the value of the curve taken as it is), `dA = (A_U_dU - A_cur[out]) / chunk_len` and the
`chunk_len` additions of `dA`. -/
def A_chunk_fl (interp_func : ℚ → ℚ → ℚ) (interp_param U_cur U_targ A_cur : ℚ)
    (chunk_len cntd_d_vel : Int) : ℚ :=
  let A_U_dU := interp_func (U_step_fl U_cur U_targ chunk_len cntd_d_vel) interp_param
  let dA := fl (fl (A_U_dU - A_cur) / chunk_len)
  A_loop_fl dA chunk_len.toNat A_cur

/-- The channel `c` that a ramp started at `c0`, with a velocity of 1 at least, has become
after `n` samples: a ramp on its way with a countdown that has gone down by `n` at least, or
a completed ramp, fixed on the targets. -/
def ramp_ge1 (c0 : t_channel) (n : Nat) (c : t_channel) : Prop :=
  (∃ k : Int, 0 ≤ k ∧ k + n ≤ c0.cntd ∧ cur_only { c0 with cntd := k } c)
  ∨ (cur_only { c0 with cntd := INDEFINITE, mode_type := MODE_TYPE_FIX } c
      ∧ ∀ i, i < c0.out_cnt → rd c.U_cur i = rd c0.U_targ i ∧ rd c.A_cur i = rd c0.A_targ i)

/-- The two casts to `t_int32` that the chunk loop executes for the channel `c` on a block of
`L` samples, `(t_int32)(smp_left * velocity)` and `(t_int32)(cntd / velocity)`, give the
truncations of the exact product and quotient, as the embedding has them. The loop uses
their values, once for the block, when the channel is switched on and not frozen and its
countdown is neither 0 nor indefinite. -/
def chunk_casts_exact (c : t_channel) (L : Nat) : Prop :=
  c.is_on = true → c.is_frozen = false → c.cntd ≠ 0 → c.cntd ≠ INDEFINITE → 1 ≤ L →
    cast_exact (L * c.velocity) ∧ (c.velocity ≠ 0 → cast_exact (c.cntd / c.velocity))

instance (c : t_channel) (L : Nat) : Decidable (chunk_casts_exact c L) :=
  inferInstanceAs (Decidable (c.is_on = true → c.is_frozen = false → c.cntd ≠ 0 →
    c.cntd ≠ INDEFINITE → 1 ≤ L →
    cast_exact (L * c.velocity) ∧ (c.velocity ≠ 0 → cast_exact (c.cntd / c.velocity))))

/-- The casts of the chunk loop are exact for every channel in every block of a sequence of
blocks that the engine `x` processes. -/
def blocks_casts_exact (fuel : Nat) (out_arr : Nat → Nat → ℚ) :
    List ((Nat → Nat → ℚ) × Nat) → t_diffuse → Prop
  | [], _ => True
  | b :: bs, x =>
    (∀ c ∈ x.channel_arr, chunk_casts_exact c b.2)
      ∧ ∀ r ∈ diffuse_perform64 fuel x b.1 out_arr b.2, blocks_casts_exact fuel out_arr bs r.x

instance blocks_casts_exact_dec (fuel : Nat) (out_arr : Nat → Nat → ℚ) :
    ∀ (blocks : List ((Nat → Nat → ℚ) × Nat)) (x : t_diffuse),
      Decidable (blocks_casts_exact fuel out_arr blocks x)
  | [], _ => isTrue trivial
  | b :: bs, x =>
    have := fun y => blocks_casts_exact_dec fuel out_arr bs y
    inferInstanceAs (Decidable ((∀ c ∈ x.channel_arr, chunk_casts_exact c b.2)
      ∧ ∀ r ∈ diffuse_perform64 fuel x b.1 out_arr b.2,
          blocks_casts_exact fuel out_arr bs r.x))

/-- The engine `x_2` after `velocity 0 1.5`. -/
def x_2_vel : t_diffuse := (state_velocity x_2 [.A_LONG 0, .A_FLOAT (3/2)]).x

/-- A forward curve that depends on its parameter, as a value of the function pointer type
`t_ramp`: the abscissa raised to the integer part of the parameter. The curves of
`envelopes.h` are not among the sources. -/
def curve_pow (u param : ℚ) : ℚ := u ^ (to_int32 param).toNat

/-- The engine `x_2` with the curve `curve_pow` as its crossfade curve, a ramping parameter
of 2, a crossfade parameter of 3 and crossfade abscissas `[1/2, 1]` in its state 0. -/
def x_pow : t_diffuse :=
  { x_2 with ramp_param := 2, xfade_param := 3, xfade_func := curve_pow,
             state_arr := [{ state_2 0 (1/8) 1 with U_xf_arr := [1/2, 1] }, state_2 1 1 0] }

/-- The arguments of `ramp_max 0 0 1. 10. xfade`. -/
def argv_max_xfade : List t_atom :=
  [.A_LONG 0, .A_LONG 0, .A_FLOAT 1, .A_FLOAT 10, .A_SYM "xfade"]

/-- An engine with one input channel (on), three outputs and one state with gains
`[1, 0, 0]`, linear curves and a samplerate of 1000 Hz. -/
def x_3 : t_diffuse :=
  { channel_arr := [{ channel_2 with U_cur := [0, 0, 0], A_cur := [0, 0, 0],
                                     U_targ := [0, 0, 0], A_targ := [0, 0, 0], out_cnt := 3 }],
    channel_cnt := 1,
    state_arr := [{ A_arr := [1, 0, 0], U_rm_arr := [1, 0, 0], U_xf_arr := [1, 0, 0],
                    U_cur := .xf, cnt := 3, index := 0, name := "null" }],
    state_cnt := 1,
    state_tmp := { A_arr := [0, 0, 0], U_rm_arr := [0, 0, 0], U_xf_arr := [0, 0, 0],
                   U_cur := .xf, cnt := 3, index := -1, name := "null" },
    master := 1, out_cnt := 3, out_gain := [1, 1, 1],
    ramp_param := 4, ramp_func := ramp_linear, ramp_inv_func := ramp_linear_inv,
    xfade_param := -3, xfade_func := ramp_linear, xfade_inv_func := ramp_linear_inv,
    samplerate := 1000, msr := 1, outp_channel := 0, outp_type := OUTP_TYPE_DB,
    dict_sym := "" }

/-- The arguments of `circular 0 1 0 -1. 10.`. -/
def argv_circ_neg : List t_atom :=
  [.A_LONG 0, .A_LONG 1, .A_LONG 0, .A_FLOAT (-1), .A_FLOAT 10]

/-- The arguments of `circular 0 1 0 1.25 10.`. -/
def argv_circ_pos : List t_atom :=
  [.A_LONG 0, .A_LONG 1, .A_LONG 0, .A_FLOAT (5/4), .A_FLOAT 10]

/-- Modelled from the spec: the error codes `t_my_err` of `max_util.h`, a header that is not
among the sources; the codes that `dict.c` and `diffuse_state.c` return. -/
inductive t_my_err where
  | ERR_NONE
  | ERR_COUNT
  | ERR_ALLOC
  | ERR_ARG0
  | ERR_ARG1
  | ERR_ARG2
  | ERR_DICT_NONE
  | ERR_DICT_PROTECT
  deriving DecidableEq

export t_my_err (ERR_NONE ERR_COUNT ERR_ALLOC ERR_ARG0 ERR_ARG1 ERR_ARG2 ERR_DICT_NONE
  ERR_DICT_PROTECT)

/-- Modelled from the spec: a value stored under a key of a host dictionary (`ext_dictobj.h`
is not among the sources): a symbol, an integer or an array of atoms. -/
inductive t_value where
  | v_sym (s : String)
  | v_long (n : Int)
  | v_atoms (l : List t_atom)
  deriving DecidableEq

/-- Modelled from the spec: a dictionary of values, the sub-sub-dictionary that holds one
saved structure; keys are unique. -/
abbrev t_entry := List (String × t_value)

/-- Modelled from the spec: what a key of a sub-dictionary holds, a dictionary of values or
a plain value. -/
inductive t_item where
  | i_dict (e : t_entry)
  | i_value (v : t_value)
  deriving DecidableEq

/-- Modelled from the spec: a sub-dictionary, which holds the saved structures of one
array under their names. -/
abbrev t_dict_sub := List (String × t_item)

/-- Modelled from the spec: what a key of a root dictionary holds, a sub-dictionary or a
plain value. -/
inductive t_top where
  | t_dict (d : t_dict_sub)
  | t_value (v : t_value)
  deriving DecidableEq

/-- Modelled from the spec: a root dictionary. -/
abbrev t_dict_root := List (String × t_top)

/-- Modelled from the spec: the dictionaries registered with the host under a name, which
`dictobj_findregistered_retain` looks up. -/
abbrev t_registry := List (String × t_dict_root)

/-- Modelled from the spec: the value under a key of a host dictionary, if any. -/
def dict_get {α : Type} (d : List (String × α)) (key : String) : Option α :=
  match d with
  | [] => none
  | (k, v) :: rest => if k = key then some v else dict_get rest key

/-- Modelled from the spec: the host functions `dictionary_append...`: the value is stored
under the key, in the place of the value that the key held if it held one. -/
def dict_append {α : Type} (d : List (String × α)) (key : String) (v : α) :
    List (String × α) :=
  match d with
  | [] => [(key, v)]
  | (k, w) :: rest => if k = key then (key, v) :: rest else (k, w) :: dict_append rest key v

/-- Modelled from the spec: the host functions `dictionary_deleteentry` and
`dictionary_chuckentry`: the key and its value are taken out of the dictionary. -/
def dict_remove {α : Type} (d : List (String × α)) (key : String) : List (String × α) :=
  match d with
  | [] => []
  | (k, w) :: rest => if k = key then rest else (k, w) :: dict_remove rest key

/-- Modelled from the spec: the host function `dictionary_getdictionary` on a root
dictionary; `none` for `NULL`. -/
def root_getdictionary (d : t_dict_root) (key : String) : Option t_dict_sub :=
  match dict_get d key with
  | some (.t_dict s) => some s
  | _ => none

/-- Modelled from the spec: the host function `dictionary_getdictionary` on a
sub-dictionary; `none` for `NULL`. -/
def sub_getdictionary (d : t_dict_sub) (key : String) : Option t_entry :=
  match dict_get d key with
  | some (.i_dict e) => some e
  | _ => none

/-- Modelled from the spec: the host function `dictionary_getsym`; the value passed in is
kept when the key holds no symbol. -/
def dictionary_getsym (d : t_entry) (key : String) (value : String) : String :=
  match dict_get d key with
  | some (.v_sym s) => s
  | _ => value

/-- Modelled from the spec: the host function `dictionary_getlong`; the value passed in is
kept when the key holds no integer. -/
def dictionary_getlong (d : t_entry) (key : String) (value : Int) : Int :=
  match dict_get d key with
  | some (.v_long n) => n
  | _ => value

/-- Modelled from the spec: the host function `dictionary_getatoms`; no atoms when the key
holds no array of atoms. -/
def dictionary_getatoms (d : t_entry) (key : String) : List t_atom :=
  match dict_get d key with
  | some (.v_atoms l) => l
  | _ => []

/-- The sub-dictionary `dict_sub_sym` of the root dictionary, created empty and appended to
the root dictionary when there is none (`dict_save`, `dict_save_protect`). -/
def sub_or_new (dict_root : t_dict_root) (dict_sub_sym : String) : t_dict_sub :=
  match root_getdictionary dict_root dict_sub_sym with
  | some dict_sub => dict_sub
  | none => []

/-- The registry once the sub-dictionary `dict_sub_sym` of the root dictionary
`dict_root_sym` has become `dict_sub`: the dictionaries are shared, a change of the
sub-dictionary is a change of the registered root. -/
def registry_set_sub (reg : t_registry) (dict_root_sym dict_sub_sym : String)
    (dict_sub : t_dict_sub) : t_registry :=
  match dict_get reg dict_root_sym with
  | none => reg
  | some dict_root =>
    dict_append reg dict_root_sym (dict_append dict_root dict_sub_sym (.t_dict dict_sub))

/-- The result of a function of `dict.c`: the error code and the registry left behind. -/
structure t_dict_ret where
  err : t_my_err
  reg : t_registry
  deriving DecidableEq

/-- The function `dict_save_protect`, without the arguments that only serve the posts
(`x`, `cmd_sym`, `offset`); `argv_prot = none` stands for `NULL`. The saving function gets
the structure, the sub-dictionary, the name and the protection status and gives the error
code and the sub-dictionary it leaves. -/
def dict_save_protect {σ : Type} (reg : t_registry) (dict_root_sym dict_sub_sym : String)
    (struct_ptr : σ) (argv_dict_sub_sub : t_atom) (argv_prot : Option t_atom)
    (dict_save_func : σ → t_dict_sub → String → String → t_my_err × t_dict_sub) :
    t_dict_ret :=
  let dict_sub_sub_sym := atom_getsym argv_dict_sub_sub
  if dict_sub_sub_sym = "" then ⟨ERR_ARG1, reg⟩ else
  let prot : Option String :=
    match argv_prot with
    | some a =>
      if atom_getsym a ≠ "protect" ∧ atom_getsym a ≠ "override" then none
      else some (atom_getsym a)
    | none => some "no_arg"
  match prot with
  | none => ⟨ERR_ARG2, reg⟩
  | some prot_sym =>
  match dict_get reg dict_root_sym with
  | none => ⟨ERR_DICT_NONE, reg⟩
  | some dict_root =>
  let dict_sub := sub_or_new dict_root dict_sub_sym
  let reg1 := registry_set_sub reg dict_root_sym dict_sub_sym dict_sub
  let blocked : Bool :=
    match sub_getdictionary dict_sub dict_sub_sub_sym with
    | some dict_sub_sub =>
      prot_sym = "no_arg" ∧ dictionary_getsym dict_sub_sub "protected" "" = "true"
    | none => false
  if blocked then ⟨ERR_DICT_PROTECT, reg1⟩ else
  let is_prot := if prot_sym = "protect" then "true" else "false"
  let r := dict_save_func struct_ptr dict_sub dict_sub_sub_sym is_prot
  ⟨r.1, registry_set_sub reg1 dict_root_sym dict_sub_sym r.2⟩

/-- The function `dict_save`, without the arguments that only serve the posts. -/
def dict_save {σ : Type} (reg : t_registry) (dict_root_sym dict_sub_sym : String)
    (struct_ptr : σ) (argv_dict_sub_sub : t_atom)
    (dict_save_func : σ → t_dict_sub → String → String → t_my_err × t_dict_sub) :
    t_dict_ret :=
  let dict_sub_sub_sym := atom_getsym argv_dict_sub_sub
  if dict_sub_sub_sym = "" then ⟨ERR_ARG1, reg⟩ else
  match dict_get reg dict_root_sym with
  | none => ⟨ERR_DICT_NONE, reg⟩
  | some dict_root =>
  let dict_sub := sub_or_new dict_root dict_sub_sym
  let reg1 := registry_set_sub reg dict_root_sym dict_sub_sym dict_sub
  let r := dict_save_func struct_ptr dict_sub dict_sub_sub_sym ""
  ⟨r.1, registry_set_sub reg1 dict_root_sym dict_sub_sym r.2⟩

/-- The function `dict_load`, without the arguments that only serve the posts: the error
code and the structure that the loading function leaves. -/
def dict_load {σ : Type} (reg : t_registry) (dict_root_sym dict_sub_sym : String)
    (struct_ptr : σ) (argv_dict_sub_sub : t_atom)
    (dict_load_func : t_entry → σ → t_my_err × σ) : t_my_err × σ :=
  let dict_sub_sub_sym := atom_getsym argv_dict_sub_sub
  if dict_sub_sub_sym = "" then (ERR_ARG0, struct_ptr) else
  match dict_get reg dict_root_sym with
  | none => (ERR_DICT_NONE, struct_ptr)
  | some dict_root =>
  match root_getdictionary dict_root dict_sub_sym with
  | none => (ERR_DICT_NONE, struct_ptr)
  | some dict_sub =>
  match sub_getdictionary dict_sub dict_sub_sub_sym with
  | none => (ERR_DICT_NONE, struct_ptr)
  | some dict_sub_sub => dict_load_func dict_sub_sub struct_ptr

/-- The function `dict_delete_protect`, without the arguments that only serve the posts. -/
def dict_delete_protect (reg : t_registry) (dict_root_sym dict_sub_sym : String)
    (argv_dict_sub_sub : t_atom) (argv_prot : Option t_atom) : t_dict_ret :=
  let dict_sub_sub_sym := atom_getsym argv_dict_sub_sub
  if dict_sub_sub_sym = "" then ⟨ERR_ARG0, reg⟩ else
  let prot : Option String :=
    match argv_prot with
    | some a => if atom_getsym a ≠ "override" then none else some (atom_getsym a)
    | none => some "no_arg"
  match prot with
  | none => ⟨ERR_ARG1, reg⟩
  | some prot_sym =>
  match dict_get reg dict_root_sym with
  | none => ⟨ERR_DICT_NONE, reg⟩
  | some dict_root =>
  match root_getdictionary dict_root dict_sub_sym with
  | none => ⟨ERR_DICT_NONE, reg⟩
  | some dict_sub =>
  match sub_getdictionary dict_sub dict_sub_sub_sym with
  | none => ⟨ERR_DICT_NONE, reg⟩
  | some dict_sub_sub =>
  if prot_sym = "no_arg" ∧ dictionary_getsym dict_sub_sub "protected" "" = "true" then
    ⟨ERR_DICT_PROTECT, reg⟩
  else
    ⟨ERR_NONE, registry_set_sub reg dict_root_sym dict_sub_sym
      (dict_remove dict_sub dict_sub_sub_sym)⟩

/-- The function `dict_delete`, without the arguments that only serve the posts. -/
def dict_delete (reg : t_registry) (dict_root_sym dict_sub_sym : String)
    (argv_dict_sub_sub : t_atom) : t_dict_ret :=
  let dict_sub_sub_sym := atom_getsym argv_dict_sub_sub
  if dict_sub_sub_sym = "" then ⟨ERR_ARG0, reg⟩ else
  match dict_get reg dict_root_sym with
  | none => ⟨ERR_DICT_NONE, reg⟩
  | some dict_root =>
  match root_getdictionary dict_root dict_sub_sym with
  | none => ⟨ERR_DICT_NONE, reg⟩
  | some dict_sub =>
  match sub_getdictionary dict_sub dict_sub_sub_sym with
  | none => ⟨ERR_DICT_NONE, reg⟩
  | some _ =>
    ⟨ERR_NONE, registry_set_sub reg dict_root_sym dict_sub_sym
      (dict_remove dict_sub dict_sub_sub_sym)⟩

/-- The function `dict_rename_protect`, without the arguments that only serve the posts:
the entry is chucked and appended again under the new name. -/
def dict_rename_protect (reg : t_registry) (dict_root_sym dict_sub_sym : String)
    (argv_dict_sub_sub argv_new_dict_sub_sub : t_atom) (argv_prot : Option t_atom) :
    t_dict_ret :=
  let dict_sub_sub_sym := atom_getsym argv_dict_sub_sub
  if dict_sub_sub_sym = "" then ⟨ERR_ARG0, reg⟩ else
  let new_dict_sub_sub_sym := atom_getsym argv_new_dict_sub_sub
  if new_dict_sub_sub_sym = "" then ⟨ERR_ARG1, reg⟩ else
  let prot : Option String :=
    match argv_prot with
    | some a => if atom_getsym a ≠ "override" then none else some (atom_getsym a)
    | none => some "no_arg"
  match prot with
  | none => ⟨ERR_ARG2, reg⟩
  | some prot_sym =>
  match dict_get reg dict_root_sym with
  | none => ⟨ERR_DICT_NONE, reg⟩
  | some dict_root =>
  match root_getdictionary dict_root dict_sub_sym with
  | none => ⟨ERR_DICT_NONE, reg⟩
  | some dict_sub =>
  match sub_getdictionary dict_sub dict_sub_sub_sym with
  | none => ⟨ERR_DICT_NONE, reg⟩
  | some dict_sub_sub =>
  if prot_sym = "no_arg" ∧ dictionary_getsym dict_sub_sub "protected" "" = "true" then
    ⟨ERR_DICT_PROTECT, reg⟩
  else
    ⟨ERR_NONE, registry_set_sub reg dict_root_sym dict_sub_sym
      (dict_append (dict_remove dict_sub dict_sub_sub_sym) new_dict_sub_sub_sym
        (.i_dict dict_sub_sub))⟩

/-- The function `dict_rename`, without the arguments that only serve the posts. -/
def dict_rename (reg : t_registry) (dict_root_sym dict_sub_sym : String)
    (argv_dict_sub_sub argv_new_dict_sub_sub : t_atom) : t_dict_ret :=
  let dict_sub_sub_sym := atom_getsym argv_dict_sub_sub
  if dict_sub_sub_sym = "" then ⟨ERR_ARG0, reg⟩ else
  let new_dict_sub_sub_sym := atom_getsym argv_new_dict_sub_sub
  if new_dict_sub_sub_sym = "" then ⟨ERR_ARG1, reg⟩ else
  match dict_get reg dict_root_sym with
  | none => ⟨ERR_DICT_NONE, reg⟩
  | some dict_root =>
  match root_getdictionary dict_root dict_sub_sym with
  | none => ⟨ERR_DICT_NONE, reg⟩
  | some dict_sub =>
  match sub_getdictionary dict_sub dict_sub_sub_sym with
  | none => ⟨ERR_DICT_NONE, reg⟩
  | some dict_sub_sub =>
    ⟨ERR_NONE, registry_set_sub reg dict_root_sym dict_sub_sym
      (dict_append (dict_remove dict_sub dict_sub_sub_sym) new_dict_sub_sub_sym
        (.i_dict dict_sub_sub))⟩

/-- The function `dict_dictionary`: the name of the dictionary, or the empty symbol when no
dictionary is registered under the name. -/
def dict_dictionary (reg : t_registry) (dict_sym : String) : String :=
  match dict_get reg dict_sym with
  | none => ""
  | some _ => dict_sym

/-! ## `diffuse_state.c` : the states and the method `state_state` -/

/-- The test `atom_gettype(a) == A_SYM`. -/
def is_sym : t_atom → Bool
  | .A_SYM _ => true
  | _ => false

/-- The body of the loop of `_state_calc_absc`. -/
def calc_absc_body (x : t_diffuse) (ch : Nat) (state : t_state) : t_state :=
  let state1 :=
    { state with
      U_rm_arr := wr state.U_rm_arr ch (x.ramp_inv_func (rd state.A_arr ch) x.ramp_param) }
  { state1 with
    U_xf_arr := wr state1.U_xf_arr ch (x.xfade_inv_func (rd state1.A_arr ch) x.xfade_param) }

/-- The function `_state_calc_absc`: the abscissa values of a state for the current ramping
and crossfade functions. -/
def _state_calc_absc (x : t_diffuse) (state : t_state) : t_state :=
  for_loop (calc_absc_body x) state.cnt state

/-- The function `_state_store`: the state takes the current gains of the channel, its
abscissa values are calculated and it gets the name. -/
def _state_store (x : t_diffuse) (channel : t_channel) (state : t_state) (name : String) :
    t_state :=
  let state1 := for_loop (fun ch (s : t_state) =>
      { s with A_arr := wr s.A_arr ch (rd channel.A_cur ch) }) state.cnt state
  { _state_calc_absc x state1 with name := name }

/-- The function `_state_alloc` for a count that is not negative, with allocations that
succeed: the three arrays hold `param_cnt` values and `U_cur` points to `U_xf_arr`. -/
def _state_alloc (state : t_state) (param_cnt : Nat) (u a : ℚ) : t_state :=
  if param_cnt = 0 then { state with cnt := 0 }
  else
    { state with A_arr := List.replicate param_cnt a, U_rm_arr := List.replicate param_cnt u,
                 U_xf_arr := List.replicate param_cnt u, U_cur := .xf, cnt := param_cnt }

/-- The function `_state_arr_new` for a count of at least 1, with allocations that succeed:
the states are initialised as `_state_init` does, indexed and allocated with zeros. -/
def _state_arr_new (_state_cnt : Nat) (param_cnt : Nat) : List t_state :=
  (List.range _state_cnt).map (fun st => _state_alloc { state_null with index := st } param_cnt 0 0)

/-- The function `_state_dict_save`, with an allocation that succeeds: the sub-dictionary
gets under `state_sym` a dictionary with the name, the count and the gains of the state. The
protection status `is_prot` is not used. -/
def _state_dict_save (state : t_state) (dict_arr_states : t_dict_sub) (state_sym : String)
    (_is_prot : String) : t_my_err × t_dict_sub :=
  let dict_state : t_entry := [("name", .v_sym state_sym), ("count", .v_long state.cnt)]
  let atom_arr := (List.range state.cnt).map (fun i => t_atom.A_FLOAT (rd state.A_arr i))
  let dict_state := dict_append dict_state "ordinate" (.v_atoms atom_arr)
  (ERR_NONE, dict_append dict_arr_states state_sym (.i_dict dict_state))

/-- The function `_state_dict_load`: the error code and the state it leaves. The name is
read before the array of gains is checked. -/
def _state_dict_load (dict_state : t_entry) (state : t_state) : t_my_err × t_state :=
  let a_count := dictionary_getlong dict_state "count" 0
  if a_count < 1 ∨ a_count ≠ state.cnt then (ERR_COUNT, state) else
  let state1 := { state with name := dictionary_getsym dict_state "name" state.name }
  let atom_arr := dictionary_getatoms dict_state "ordinate"
  if atom_arr.length ≠ state1.cnt then (ERR_COUNT, state1) else
  (ERR_NONE, for_loop (fun param (s : t_state) =>
      { s with A_arr := wr s.A_arr param (atom_getfloat (atom_at atom_arr param)) })
    state1.cnt state1)

/-- The result of `state_state`: the engine and the registry of dictionaries left behind,
`ok = false` when an assertion fired or an error was posted, and the error code of the
function of `dict.c` that was called, if one was. -/
structure t_state_ret where
  x : t_diffuse
  reg : t_registry
  ok : Bool
  err : t_my_err

/-- The test of the values of `state set` and `channel set`: `true` when the atoms
`argv + 2` to `argv + n + 1` are all numbers between 0 and 1. -/
def gains_valid (argv : List t_atom) (n : Nat) : Bool :=
  (List.range n).all (fun ch =>
    is_number (atom_at argv (ch + 2)) ∧ 0 ≤ atom_getfloat (atom_at argv (ch + 2))
      ∧ atom_getfloat (atom_at argv (ch + 2)) ≤ 1)

/-- The method `state_state`: `state (new / free / resize / set / name / get / post / store
/ save / load / rename / delete) ...`. The messages of `get` and the posts are left out. -/
def state_state (x : t_diffuse) (reg : t_registry) (argv : List t_atom) : t_state_ret :=
  let argc := argv.length
  if argc < 1 ∨ is_sym (atom_at argv 0) = false then ⟨x, reg, false, ERR_NONE⟩ else
  let cmd := atom_getsym (atom_at argv 0)
  if cmd ≠ "new" ∧ cmd ≠ "rename" ∧ cmd ≠ "delete" ∧ x.state_arr = [] then
    ⟨x, reg, false, ERR_NONE⟩ else
  if cmd = "new" then
    if x.state_arr ≠ [] then ⟨x, reg, false, ERR_NONE⟩ else
    if argc ≠ 2 then ⟨x, reg, false, ERR_NONE⟩ else
    if is_long (atom_at argv 1) = false then ⟨x, reg, false, ERR_NONE⟩ else
    let state_cnt := atom_getlong (atom_at argv 1)
    if state_cnt < 1 then ⟨x, reg, false, ERR_NONE⟩ else
    ⟨{ x with state_arr := _state_arr_new state_cnt.toNat x.out_cnt,
              state_cnt := state_cnt.toNat }, reg, true, ERR_NONE⟩
  else if cmd = "free" then
    if argc ≠ 1 then ⟨x, reg, false, ERR_NONE⟩ else
    ⟨{ x with state_arr := [], state_cnt := 0 }, reg, true, ERR_NONE⟩
  else if cmd = "resize" ∧ argc = 3 ∧ is_long (atom_at argv 2) = true then
    ⟨x, reg, true, ERR_NONE⟩
  else if cmd = "set" then
    if argc ≠ x.out_cnt + 2 then ⟨x, reg, false, ERR_NONE⟩ else
    match _state_find x.state_arr x.state_cnt (atom_at argv 1) with
    | none => ⟨x, reg, false, ERR_NONE⟩
    | some state =>
    if gains_valid argv (x.state state).cnt = false then ⟨x, reg, false, ERR_NONE⟩ else
    let state1 := for_loop (fun ch (s : t_state) =>
        { s with A_arr := wr s.A_arr ch (atom_getfloat (atom_at argv (ch + 2))) })
      (x.state state).cnt (x.state state)
    ⟨x.set_state state (_state_calc_absc x state1), reg, true, ERR_NONE⟩
  else if cmd = "name" then
    if argc ≠ 3 then ⟨x, reg, false, ERR_NONE⟩ else
    match _state_find x.state_arr x.state_cnt (atom_at argv 1) with
    | none => ⟨x, reg, false, ERR_NONE⟩
    | some state =>
    match atom_at argv 2 with
    | .A_SYM name => ⟨x.set_state state { x.state state with name := name }, reg, true, ERR_NONE⟩
    | _ => ⟨x, reg, false, ERR_NONE⟩
  else if cmd = "get" then
    if argc ≠ 2 then ⟨x, reg, false, ERR_NONE⟩ else
    match _state_find x.state_arr x.state_cnt (atom_at argv 1) with
    | none => ⟨x, reg, false, ERR_NONE⟩
    | some _ => ⟨x, reg, true, ERR_NONE⟩
  else if cmd = "post" then
    if argc ≠ 2 then ⟨x, reg, false, ERR_NONE⟩ else
    if atom_at argv 1 = .A_SYM "all" then ⟨x, reg, true, ERR_NONE⟩
    else if is_long (atom_at argv 1) = true then
      match _state_find x.state_arr x.state_cnt (atom_at argv 1) with
      | none => ⟨x, reg, false, ERR_NONE⟩
      | some _ => ⟨x, reg, true, ERR_NONE⟩
    else ⟨x, reg, true, ERR_NONE⟩
  else if cmd = "store" then
    if argc ≠ 4 then ⟨x, reg, false, ERR_NONE⟩ else
    match _channel_find x (atom_at argv 1) with
    | none => ⟨x, reg, false, ERR_NONE⟩
    | some channel =>
    match _state_find x.state_arr x.state_cnt (atom_at argv 2) with
    | none => ⟨x, reg, false, ERR_NONE⟩
    | some state =>
    let name := atom_getsym (atom_at argv 3)
    if name = "" then ⟨x, reg, false, ERR_NONE⟩ else
    ⟨x.set_state state (_state_store x (x.channel channel) (x.state state) name), reg, true,
      ERR_NONE⟩
  else if cmd = "save" then
    if argc ≠ 3 then ⟨x, reg, false, ERR_NONE⟩ else
    match _state_find x.state_arr x.state_cnt (atom_at argv 1) with
    | none => ⟨x, reg, false, ERR_NONE⟩
    | some state =>
    if (x.state state).cnt = 0 then ⟨x, reg, false, ERR_NONE⟩ else
    let r := dict_save reg x.dict_sym "states" (x.state state) (atom_at argv 2) _state_dict_save
    ⟨x, r.reg, true, r.err⟩
  else if cmd = "load" then
    if argc ≠ 3 then ⟨x, reg, false, ERR_NONE⟩ else
    match _state_find x.state_arr x.state_cnt (atom_at argv 2) with
    | none => ⟨x, reg, false, ERR_NONE⟩
    | some state =>
    let r := dict_load reg x.dict_sym "states" (x.state state) (atom_at argv 1) _state_dict_load
    if r.1 = ERR_NONE then ⟨x.set_state state (_state_calc_absc x r.2), reg, true, ERR_NONE⟩
    else ⟨x.set_state state r.2, reg, true, r.1⟩
  else if cmd = "delete" then
    if argc ≠ 2 then ⟨x, reg, false, ERR_NONE⟩ else
    let r := dict_delete reg x.dict_sym "states" (atom_at argv 1)
    ⟨x, r.reg, true, r.err⟩
  else if cmd = "rename" then
    if argc ≠ 3 then ⟨x, reg, false, ERR_NONE⟩ else
    let r := dict_rename reg x.dict_sym "states" (atom_at argv 1) (atom_at argv 2)
    ⟨x, r.reg, true, r.err⟩
  else ⟨x, reg, false, ERR_NONE⟩

/-! ## `diffuse~.c` : the methods of the object and of the channels -/

/-- The curves of `envelopes.h`, a header that is not among the sources, as far as the
methods name them: the forward and inverse functions of the ramping curves `poly`, `exp`
and `sigmoid` and of the crossfade curves `linear`, `sqrt` and `sinus`. The ramping curve
`linear` is `ramp_linear`. -/
structure t_envelopes where
  ramp_poly : ℚ → ℚ → ℚ
  ramp_poly_inv : ℚ → ℚ → ℚ
  ramp_exp : ℚ → ℚ → ℚ
  ramp_exp_inv : ℚ → ℚ → ℚ
  ramp_sigmoid : ℚ → ℚ → ℚ
  ramp_sigmoid_inv : ℚ → ℚ → ℚ
  xfade_linear : ℚ → ℚ → ℚ
  xfade_linear_inv : ℚ → ℚ → ℚ
  xfade_sqrt : ℚ → ℚ → ℚ
  xfade_sqrt_inv : ℚ → ℚ → ℚ
  xfade_sinus : ℚ → ℚ → ℚ
  xfade_sinus_inv : ℚ → ℚ → ℚ

/-- The function `_channel_init` followed by `_channel_alloc (x, channel, u, a)`, with
allocations that succeed. -/
def _channel_alloc (x : t_diffuse) (u a : ℚ) : t_channel :=
  { U_cur := List.replicate x.out_cnt u, A_cur := List.replicate x.out_cnt a,
    U_targ := List.replicate x.out_cnt u, A_targ := List.replicate x.out_cnt a,
    cntd := INDEFINITE, velocity := 1, gain := 1,
    interp_func := x.xfade_func, interp_inv_func := x.xfade_inv_func,
    interp_param := x.xfade_param, out_cnt := x.out_cnt, state_ind := -1,
    is_on := false, is_frozen := false, is_mute_ramp := false, mode_type := MODE_TYPE_FIX }

/-- The value `#define CHANNEL_CNT_DEF 2`. -/
def CHANNEL_CNT_DEF : Nat := 2

/-- The value `#define OUT_CNT_DEF 2`. -/
def OUT_CNT_DEF : Nat := 2

/-- The value `#define STATE_CNT_DEF 10`. -/
def STATE_CNT_DEF : Nat := 10

/-- The counts that `diffuse_new` reads from its arguments: input channels, output
channels and states. -/
def new_counts (argv : List t_atom) : Nat × Nat × Nat :=
  if argv.length = 2 ∧ is_long (atom_at argv 0) = true ∧ atom_getlong (atom_at argv 0) ≥ 1
      ∧ is_long (atom_at argv 1) = true ∧ atom_getlong (atom_at argv 1) ≥ 1 then
    ((atom_getlong (atom_at argv 0)).toNat, (atom_getlong (atom_at argv 1)).toNat, STATE_CNT_DEF)
  else if argv.length = 3 ∧ is_long (atom_at argv 0) = true ∧ atom_getlong (atom_at argv 0) ≥ 1
      ∧ is_long (atom_at argv 1) = true ∧ atom_getlong (atom_at argv 1) ≥ 1
      ∧ is_long (atom_at argv 2) = true ∧ atom_getlong (atom_at argv 2) ≥ 1 then
    ((atom_getlong (atom_at argv 0)).toNat, (atom_getlong (atom_at argv 1)).toNat,
      (atom_getlong (atom_at argv 2)).toNat)
  else (CHANNEL_CNT_DEF, OUT_CNT_DEF, STATE_CNT_DEF)

/-- The routine `diffuse_new`, with allocations that succeed; `sr` is the samplerate that
the host function `sys_getsr` gives. -/
def diffuse_new (env : t_envelopes) (sr : ℚ) (argv : List t_atom) : t_diffuse :=
  let cnts := new_counts argv
  let x0 : t_diffuse :=
    { channel_arr := [], channel_cnt := cnts.1, state_arr := [], state_cnt := cnts.2.2,
      state_tmp := state_null, master := 1, out_cnt := cnts.2.1, out_gain := [],
      ramp_param := 4, ramp_func := env.ramp_exp, ramp_inv_func := env.ramp_exp_inv,
      xfade_param := -3, xfade_func := env.xfade_sinus, xfade_inv_func := env.xfade_sinus_inv,
      samplerate := sr, msr := fl (sr / 1000), outp_channel := 0, outp_type := OUTP_TYPE_DB,
      dict_sym := "" }
  { x0 with channel_arr := List.replicate x0.channel_cnt (_channel_alloc x0 0 0),
            state_arr := _state_arr_new x0.state_cnt x0.out_cnt,
            state_tmp := _state_alloc state_null x0.out_cnt 0 0,
            out_gain := List.replicate x0.out_cnt 1 }

/-- The method `diffuse_dictionary`. -/
def diffuse_dictionary (x : t_diffuse) (reg : t_registry) (dict_sym : String) : t_diffuse :=
  { x with dict_sym := dict_dictionary reg dict_sym }

/-- The method `diffuse_master`. -/
def diffuse_master (x : t_diffuse) (master : ℚ) : t_diffuse := { x with master := master }

/-- The method `diffuse_gain_out`:
`gain_out (int: output channel index) (float: channel gain)`. -/
def diffuse_gain_out (x : t_diffuse) (argv : List t_atom) : t_ret :=
  if argv.length ≠ 2 then ⟨x, false⟩ else
  if is_long (atom_at argv 0) = false then ⟨x, false⟩ else
  let index := atom_getlong (atom_at argv 0)
  if index < 0 ∨ index ≥ x.out_cnt then ⟨x, false⟩ else
  if is_number (atom_at argv 1) = false then ⟨x, false⟩ else
  let gain := atom_getfloat (atom_at argv 1)
  if gain < 0 then ⟨x, false⟩ else
  ⟨{ x with out_gain := wr x.out_gain index.toNat gain }, true⟩

/-- The method `diffuse_output`. -/
def diffuse_output (x : t_diffuse) (outp_type : String) : t_ret :=
  if outp_type = "off" then ⟨{ x with outp_type := OUTP_TYPE_OFF }, true⟩
  else if outp_type = "db" then ⟨{ x with outp_type := OUTP_TYPE_DB }, true⟩
  else if outp_type = "ampl" then ⟨{ x with outp_type := OUTP_TYPE_AMPL }, true⟩
  else ⟨x, false⟩

/-- The loop of `diffuse_set` that updates the states: `_state_calc_absc` on every state. -/
def set_update (x : t_diffuse) : t_diffuse :=
  for_loop (fun st (y : t_diffuse) => y.set_state st (_state_calc_absc y (y.state st)))
    x.state_cnt x

/-- The branch `ramp` of `diffuse_set` up to the update of the states; `none` when an
assertion fires. -/
def set_ramp (env : t_envelopes) (x : t_diffuse) (argv : List t_atom) : Option t_diffuse :=
  let argc := argv.length
  if argc = 2 ∧ is_number (atom_at argv 1) = true then
    some { x with ramp_param := atom_getfloat (atom_at argv 1) }
  else if (argc = 2 ∧ is_sym (atom_at argv 1) = true)
      ∨ (argc = 3 ∧ is_sym (atom_at argv 1) = true ∧ is_number (atom_at argv 2) = true) then
    let ramp_type := atom_getsym (atom_at argv 1)
    let sel : Option ((ℚ → ℚ → ℚ) × (ℚ → ℚ → ℚ)) :=
      if ramp_type = "linear" then some (ramp_linear, ramp_linear_inv)
      else if ramp_type = "poly" then some (env.ramp_poly, env.ramp_poly_inv)
      else if ramp_type = "exp" then some (env.ramp_exp, env.ramp_exp_inv)
      else if ramp_type = "sigmoid" then some (env.ramp_sigmoid, env.ramp_sigmoid_inv)
      else none
    match sel with
    | none => none
    | some (f, f_inv) =>
      let x1 := { x with ramp_func := f, ramp_inv_func := f_inv }
      if argc = 3 then some { x1 with ramp_param := atom_getfloat (atom_at argv 2) }
      else some x1
  else none

/-- The branch `xfade` of `diffuse_set` up to the update of the states; `none` when an
assertion fires. -/
def set_xfade (env : t_envelopes) (x : t_diffuse) (argv : List t_atom) : Option t_diffuse :=
  let argc := argv.length
  if argc = 2 ∧ is_number (atom_at argv 1) = true then
    some { x with xfade_param := atom_getfloat (atom_at argv 1) }
  else if (argc = 2 ∧ is_sym (atom_at argv 1) = true)
      ∨ (argc = 3 ∧ is_sym (atom_at argv 1) = true ∧ is_number (atom_at argv 2) = true) then
    let xfade_type := atom_getsym (atom_at argv 1)
    let sel : Option ((ℚ → ℚ → ℚ) × (ℚ → ℚ → ℚ)) :=
      if xfade_type = "linear" then some (env.xfade_linear, env.xfade_linear_inv)
      else if xfade_type = "sqrt" then some (env.xfade_sqrt, env.xfade_sqrt_inv)
      else if xfade_type = "sinus" then some (env.xfade_sinus, env.xfade_sinus_inv)
      else none
    match sel with
    | none => none
    | some (f, f_inv) =>
      let x1 := { x with xfade_func := f, xfade_inv_func := f_inv }
      if argc = 3 then some { x1 with xfade_param := atom_getfloat (atom_at argv 2) }
      else some x1
  else none

/-- The method `diffuse_set`: `set ramp [sym: linear / poly / exp / sigmoid] [float:
ramping parameter]` and `set xfade [sym: linear / sqrt / sinus] [float: crossfade
parameter]`. -/
def diffuse_set (env : t_envelopes) (x : t_diffuse) (argv : List t_atom) : t_ret :=
  if argv.length < 1 ∨ is_sym (atom_at argv 0) = false then ⟨x, false⟩ else
  let cmd := atom_getsym (atom_at argv 0)
  let r : Option t_diffuse :=
    if cmd = "ramp" then set_ramp env x argv
    else if cmd = "xfade" then set_xfade env x argv
    else none
  match r with
  | none => ⟨x, false⟩
  | some x1 => ⟨set_update x1, true⟩

/-- The method `channel_channel`: `channel (set / get / post / on / off / current) ...`.
The message of `get` and the posts are left out. -/
def channel_channel (x : t_diffuse) (argv : List t_atom) : t_ret :=
  let argc := argv.length
  if argc < 1 ∨ is_sym (atom_at argv 0) = false then ⟨x, false⟩ else
  let cmd := atom_getsym (atom_at argv 0)
  if x.channel_arr.length = 0 then ⟨x, false⟩ else
  if cmd = "set" then
    if argc ≠ x.out_cnt + 2 then ⟨x, false⟩ else
    match _channel_find x (atom_at argv 1) with
    | none => ⟨x, false⟩
    | some channel =>
    if gains_valid argv x.out_cnt = false then ⟨x, false⟩ else
    ⟨x.set_channel channel (for_loop (fun ch (c : t_channel) =>
        { c with A_cur := wr c.A_cur ch (atom_getfloat (atom_at argv (ch + 2))) })
      x.out_cnt (x.channel channel)), true⟩
  else if cmd = "get" then
    if argc ≠ 2 then ⟨x, false⟩ else
    match _channel_find x (atom_at argv 1) with
    | none => ⟨x, false⟩
    | some _ => ⟨x, true⟩
  else if cmd = "post" then
    if argc ≠ 2 then ⟨x, false⟩ else
    if atom_at argv 1 = .A_SYM "all" then ⟨x, true⟩
    else if is_long (atom_at argv 1) = true then
      match _channel_find x (atom_at argv 1) with
      | none => ⟨x, false⟩
      | some _ => ⟨x, true⟩
    else ⟨x, true⟩
  else if cmd = "on" ∨ cmd = "off" then
    let on_off : Bool := cmd = "on"
    if argc ≠ 2 then ⟨x, false⟩ else
    if atom_at argv 1 = .A_SYM "all" then
      ⟨{ x with channel_arr := x.channel_arr.map (fun c => { c with is_on := on_off }) }, true⟩
    else if is_long (atom_at argv 1) = true then
      match _channel_find x (atom_at argv 1) with
      | none => ⟨x, false⟩
      | some channel =>
        ⟨x.set_channel channel { x.channel channel with is_on := on_off }, true⟩
    else ⟨x, true⟩
  else if cmd = "current" then
    if argc ≠ 2 then ⟨x, false⟩ else
    match _channel_find x (atom_at argv 1) with
    | none => ⟨x, false⟩
    | some channel => ⟨{ x with outp_channel := channel }, true⟩
  else ⟨x, false⟩

/-- The method `channel_gain_in`:
`gain_in (int: input channel index) (float: channel gain)`. -/
def channel_gain_in (x : t_diffuse) (argv : List t_atom) : t_ret :=
  if argv.length ≠ 2 then ⟨x, false⟩ else
  match _channel_find x (atom_at argv 0) with
  | none => ⟨x, false⟩
  | some channel =>
  if is_number (atom_at argv 1) = false then ⟨x, false⟩ else
  let gain := atom_getfloat (atom_at argv 1)
  if gain < 0 then ⟨x, false⟩ else
  ⟨x.set_channel channel { x.channel channel with gain := gain }, true⟩

/-- The method `channel_mute_ramp`: `mute_ramp (int: channel index) (int: 0 or 1)`. -/
def channel_mute_ramp (x : t_diffuse) (argv : List t_atom) : t_ret :=
  if argv.length ≠ 2 then ⟨x, false⟩ else
  match _channel_find x (atom_at argv 0) with
  | none => ⟨x, false⟩
  | some channel =>
  if is_long (atom_at argv 1) = false then ⟨x, false⟩ else
  let is_mute_ramp := atom_getlong (atom_at argv 1)
  if is_mute_ramp ≠ 0 ∧ is_mute_ramp ≠ 1 then ⟨x, false⟩ else
  ⟨x.set_channel channel
    { x.channel channel with is_mute_ramp := if is_mute_ramp = 1 then true else false }, true⟩

/-- The method `state_velocity_all`: `velocity_all (float: velocity)`, on an engine with one
channel at least. -/
def state_velocity_all (x : t_diffuse) (velocity : ℚ) : t_ret :=
  if velocity < 0 then ⟨x, false⟩ else
  ⟨{ x with channel_arr := x.channel_arr.map (fun c => { c with velocity := velocity }) }, true⟩

/-- The method `state_freeze_all`: `freeze_all (int: 0 or 1)`, on an engine with one channel
at least. -/
def state_freeze_all (x : t_diffuse) (is_frozen : Int) : t_ret :=
  if is_frozen ≠ 0 ∧ is_frozen ≠ 1 then ⟨x, false⟩ else
  let b : Bool := if is_frozen = 1 then true else false
  ⟨{ x with channel_arr := x.channel_arr.map (fun c => { c with is_frozen := b }) }, true⟩

/-! ## The command surface -/

/-- The engine together with the dictionaries registered with the host. -/
structure t_world where
  x : t_diffuse
  reg : t_registry

/-- A call that the host makes on the object: one of the methods registered by `ext_main`
with its arguments, the perform routine on one block, or a change that the host makes to
its registered dictionaries. -/
inductive t_command where
  | bang
  | dictionary (dict_sym : String)
  | get
  | master (master : ℚ)
  | gain_out (argv : List t_atom)
  | output (outp_type : String)
  | set (argv : List t_atom)
  | channel (argv : List t_atom)
  | gain_in (argv : List t_atom)
  | mute_ramp (argv : List t_atom)
  | state (argv : List t_atom)
  | ramp_to (argv : List t_atom)
  | ramp_between (argv : List t_atom)
  | ramp_max (argv : List t_atom)
  | circular (argv : List t_atom)
  | velocity (argv : List t_atom)
  | velocity_all (velocity : ℚ)
  | freeze (argv : List t_atom)
  | freeze_all (is_frozen : Int)
  | dsp64 (samplerate : ℚ)
  | assist
  | perform64 (in_arr out_arr : Nat → Nat → ℚ) (sampleframes : Nat)
  | host_dictionaries (reg : t_registry)

/-- One call on the object; `none` when the perform routine does not return within `fuel`
passes of a chunk loop. -/
def run_command (env : t_envelopes) (fuel : Nat) (w : t_world) : t_command → Option t_world
  | .bang => some w
  | .dictionary dict_sym => some { w with x := diffuse_dictionary w.x w.reg dict_sym }
  | .get => some w
  | .master master => some { w with x := diffuse_master w.x master }
  | .gain_out argv => some { w with x := (diffuse_gain_out w.x argv).x }
  | .output outp_type => some { w with x := (diffuse_output w.x outp_type).x }
  | .set argv => some { w with x := (diffuse_set env w.x argv).x }
  | .channel argv => some { w with x := (channel_channel w.x argv).x }
  | .gain_in argv => some { w with x := (channel_gain_in w.x argv).x }
  | .mute_ramp argv => some { w with x := (channel_mute_ramp w.x argv).x }
  | .state argv => some { x := (state_state w.x w.reg argv).x, reg := (state_state w.x w.reg argv).reg }
  | .ramp_to argv => some { w with x := (state_ramp_to w.x argv).x }
  | .ramp_between argv => some { w with x := (state_ramp_between w.x argv).x }
  | .ramp_max argv => some { w with x := (state_ramp_max w.x argv).x }
  | .circular argv => some { w with x := (state_circular w.x argv).x }
  | .velocity argv => some { w with x := (state_velocity w.x argv).x }
  | .velocity_all velocity => some { w with x := (state_velocity_all w.x velocity).x }
  | .freeze argv => some { w with x := (state_freeze w.x argv).x }
  | .freeze_all is_frozen => some { w with x := (state_freeze_all w.x is_frozen).x }
  | .dsp64 samplerate => some { w with x := diffuse_dsp64 w.x samplerate }
  | .assist => some w
  | .perform64 in_arr out_arr sampleframes =>
    (diffuse_perform64 fuel w.x in_arr out_arr sampleframes).map (fun r => { w with x := r.x })
  | .host_dictionaries reg => some { w with reg := reg }

/-- A sequence of calls on the object, from the first to the last. -/
def run_commands (env : t_envelopes) (fuel : Nat) : t_world → List t_command → Option t_world
  | w, [] => some w
  | w, c :: cs => (run_command env fuel w c).bind (fun w1 => run_commands env fuel w1 cs)

/-- The object as `diffuse_new` creates it, with the dictionaries that the host holds. -/
def world_new (env : t_envelopes) (sr : ℚ) (argv : List t_atom) (reg : t_registry) : t_world :=
  { x := diffuse_new env sr argv, reg := reg }

/-! ## Relations, invariants and worked cases of the later statements -/

/-- The state `s1` is the state `s` but for its two arrays of abscissa values, of which the
lengths are kept. -/
def absc_only (s s1 : t_state) : Prop :=
  s1 = { s with U_rm_arr := s1.U_rm_arr, U_xf_arr := s1.U_xf_arr }
    ∧ s1.U_rm_arr.length = s.U_rm_arr.length ∧ s1.U_xf_arr.length = s.U_xf_arr.length

/-- The abscissa values of the state are those of its gains under the curves of the
engine, for every index below `n`. -/
def state_consistent (x : t_diffuse) (n : Nat) (s : t_state) : Prop :=
  ∀ i, i < n →
    rd s.U_rm_arr i = x.ramp_inv_func (rd s.A_arr i) x.ramp_param
    ∧ rd s.U_xf_arr i = x.xfade_inv_func (rd s.A_arr i) x.xfade_param

/-- The engine `y` is the engine `x` but for the content of its states: the array keeps its
length and each state its count and the lengths of its arrays. -/
def slots_only (x y : t_diffuse) : Prop :=
  y = { x with state_arr := y.state_arr } ∧ y.state_arr.length = x.state_arr.length
    ∧ ∀ s, s < x.state_arr.length → state_wf x.out_cnt (y.state s)

/-- The loop of `state set` on the gains of a state. -/
def set_gains (argv : List t_atom) (state : t_state) : t_state :=
  for_loop (fun ch (s : t_state) =>
      { s with A_arr := wr s.A_arr ch (atom_getfloat (atom_at argv (ch + 2))) })
    state.cnt state

/-- The engine `y` is the engine `x` but for its curves and their parameters. -/
def curves_only (x y : t_diffuse) : Prop :=
  y = { x with ramp_param := y.ramp_param, ramp_func := y.ramp_func,
               ramp_inv_func := y.ramp_inv_func, xfade_param := y.xfade_param,
               xfade_func := y.xfade_func, xfade_inv_func := y.xfade_inv_func }

/-- An assignment of the curves of `envelopes.h` for the worked cases: every curve is the
linear one. -/
def env_linear : t_envelopes :=
  { ramp_poly := ramp_linear, ramp_poly_inv := ramp_linear_inv, ramp_exp := ramp_linear,
    ramp_exp_inv := ramp_linear_inv, ramp_sigmoid := ramp_linear,
    ramp_sigmoid_inv := ramp_linear_inv, xfade_linear := ramp_linear,
    xfade_linear_inv := ramp_linear_inv, xfade_sqrt := ramp_linear,
    xfade_sqrt_inv := ramp_linear_inv, xfade_sinus := ramp_linear,
    xfade_sinus_inv := ramp_linear_inv }

/-- The dictionary that `_state_dict_save` stores for a state under a name: the name, the
count and the gains. -/
def saved_entry (state : t_state) (state_sym : String) : t_entry :=
  [("name", .v_sym state_sym), ("count", .v_long state.cnt),
   ("ordinate", .v_atoms ((List.range state.cnt).map (fun i => t_atom.A_FLOAT (rd state.A_arr i))))]

/-- A saved state with the gains `[1, 1]` that carries the value `protected = "true"`. -/
def entry_protected : t_entry :=
  [("name", .v_sym "x"), ("count", .v_long 2),
   ("ordinate", .v_atoms [.A_FLOAT 1, .A_FLOAT 1]), ("protected", .v_sym "true")]

/-- A saved state with the gains `[1/2, 1/2]` that carries no protection. -/
def entry_plain : t_entry :=
  [("name", .v_sym "y"), ("count", .v_long 2), ("ordinate", .v_atoms [.A_FLOAT (1/2), .A_FLOAT (1/2)])]

/-- A registry with one dictionary, `store`, whose sub-dictionary `states` holds the
protected state `x` and the unprotected state `y`. -/
def reg_store : t_registry :=
  [("store", [("states", .t_dict [("x", .i_dict entry_protected), ("y", .i_dict entry_plain)])])]

/-- The engine `x_2` linked to the dictionary `store`. -/
def x_2_store : t_diffuse := diffuse_dictionary x_2 reg_store "store"

/-- The arguments of `state save 0 x`. -/
def argv_save_x : List t_atom := [.A_SYM "save", .A_LONG 0, .A_SYM "x"]

/-- The states saved in the dictionary `store` of a registry. -/
def store_states (reg : t_registry) : Option t_dict_sub :=
  (dict_get reg "store").bind (fun root => root_getdictionary root "states")

/-- The abscissas of the channel are at their targets, for every output. -/
def absc_reached (c : t_channel) : Prop :=
  ∀ i, i < c.out_cnt → rd c.U_cur i = rd c.U_targ i

/-- The gains of the channel are at their targets, for every output. -/
def gains_reached (c : t_channel) : Prop :=
  ∀ i, i < c.out_cnt → rd c.A_cur i = rd c.A_targ i

/-- The invariant of a channel: its mode is not `MODE_TYPE_OFF`; when it is fixed its
countdown is indefinite, its abscissas are at their targets and, if `a` is asked for, so are
its gains; when it is ramping, if `b` is asked for, its countdown is not negative. -/
def chan_inv (a b : Prop) (c : t_channel) : Prop :=
  c.mode_type ≠ MODE_TYPE_OFF
  ∧ (c.mode_type = MODE_TYPE_FIX →
      c.cntd = INDEFINITE ∧ absc_reached c ∧ (a → gains_reached c))
  ∧ (b → c.mode_type = MODE_TYPE_VAR → 0 ≤ c.cntd)

/-- The invariant of the engine: every channel is allocated for the outputs of the engine
and has its invariant, with `a i` for the channel `i`, and, if `b` is asked for, the
samplerate is not negative. -/
def engine_inv (a : Nat → Prop) (b : Prop) (x : t_diffuse) : Prop :=
  (b → 0 ≤ x.msr)
    ∧ ∀ i, i < x.channel_arr.length →
        channel_wf x.out_cnt (x.channel i) ∧ chan_inv (a i) b (x.channel i)

/-- The engine `y` has the channels, the samplerate and the output count of `x`. -/
def chan_frame (x y : t_diffuse) : Prop :=
  y.channel_arr = x.channel_arr ∧ y.msr = x.msr ∧ y.out_cnt = x.out_cnt

/-- The channel `c1` has the arrays, the countdown, the mode and the count of `c`. -/
def chan_core (c c1 : t_channel) : Prop :=
  c1.U_cur = c.U_cur ∧ c1.A_cur = c.A_cur ∧ c1.U_targ = c.U_targ ∧ c1.A_targ = c.A_targ
    ∧ c1.cntd = c.cntd ∧ c1.mode_type = c.mode_type ∧ c1.out_cnt = c.out_cnt

/-- What the invariant asks of a command on the engine `x`: that an accepted `channel set`
is not for a channel `k` with `a k`; with `b`, that a samplerate given by the host is not
negative and that the cast `(t_int32)(time * msr)` of a ramping method does not overflow. -/
def cmd_ok (a : Nat → Prop) (b : Prop) (x : t_diffuse) : t_command → Prop
  | .channel argv =>
    atom_getsym (atom_at argv 0) = "set" → (channel_channel x argv).ok = true →
      ∀ k, _channel_find x (atom_at argv 1) = some k → ¬ a k
  | .dsp64 samplerate => b → 0 ≤ samplerate
  | .ramp_to argv => b → cast_in_range (atom_getfloat (atom_at argv 2) * x.msr)
  | .ramp_between argv => b → cast_in_range (atom_getfloat (atom_at argv 4) * x.msr)
  | .ramp_max argv =>
    b → cast_in_range (atom_getfloat (atom_at argv (argv.length - 2)) * x.msr)
  | .circular argv => b → cast_in_range (atom_getfloat (atom_at argv 4) * x.msr)
  | _ => True

/-- Every command of a run has what the invariant asks, on the engine that it is given. -/
def cmds_ok (a : Nat → Prop) (b : Prop) (env : t_envelopes) (fuel : Nat) :
    t_world → List t_command → Prop
  | _, [] => True
  | w, c :: cs =>
    cmd_ok a b w.x c ∧ ∀ w1 ∈ run_command env fuel w c, cmds_ok a b env fuel w1 cs

/-- The casts to `t_int32` that a command executes on the engine `x`: the cast
`(t_int32)(time * msr)` of a ramping method does not overflow, and the two casts of the
chunk loop are exact for every channel of a block. -/
def cmd_casts (x : t_diffuse) : t_command → Prop
  | .ramp_to argv => cast_in_range (atom_getfloat (atom_at argv 2) * x.msr)
  | .ramp_between argv => cast_in_range (atom_getfloat (atom_at argv 4) * x.msr)
  | .ramp_max argv => cast_in_range (atom_getfloat (atom_at argv (argv.length - 2)) * x.msr)
  | .circular argv => cast_in_range (atom_getfloat (atom_at argv 4) * x.msr)
  | .perform64 _ _ sampleframes => ∀ c ∈ x.channel_arr, chunk_casts_exact c sampleframes
  | _ => True

instance cmd_casts_dec (x : t_diffuse) : (cmd : t_command) → Decidable (cmd_casts x cmd)
  | .ramp_to argv =>
    inferInstanceAs (Decidable (cast_in_range (atom_getfloat (atom_at argv 2) * x.msr)))
  | .ramp_between argv =>
    inferInstanceAs (Decidable (cast_in_range (atom_getfloat (atom_at argv 4) * x.msr)))
  | .ramp_max argv =>
    inferInstanceAs (Decidable
      (cast_in_range (atom_getfloat (atom_at argv (argv.length - 2)) * x.msr)))
  | .circular argv =>
    inferInstanceAs (Decidable (cast_in_range (atom_getfloat (atom_at argv 4) * x.msr)))
  | .perform64 _ _ sampleframes =>
    inferInstanceAs (Decidable (∀ c ∈ x.channel_arr, chunk_casts_exact c sampleframes))
  | .bang => isTrue trivial
  | .dictionary _ => isTrue trivial
  | .get => isTrue trivial
  | .master _ => isTrue trivial
  | .gain_out _ => isTrue trivial
  | .output _ => isTrue trivial
  | .set _ => isTrue trivial
  | .channel _ => isTrue trivial
  | .gain_in _ => isTrue trivial
  | .mute_ramp _ => isTrue trivial
  | .state _ => isTrue trivial
  | .velocity _ => isTrue trivial
  | .velocity_all _ => isTrue trivial
  | .freeze _ => isTrue trivial
  | .freeze_all _ => isTrue trivial
  | .dsp64 _ => isTrue trivial
  | .assist => isTrue trivial
  | .host_dictionaries _ => isTrue trivial

/-- No cast to `t_int32` overflows in a run: every command has `cmd_casts` on the engine
that it is given. -/
def run_casts (env : t_envelopes) (fuel : Nat) : t_world → List t_command → Prop
  | _, [] => True
  | w, c :: cs => cmd_casts w.x c ∧ ∀ w1 ∈ run_command env fuel w c, run_casts env fuel w1 cs

instance run_casts_dec (env : t_envelopes) (fuel : Nat) :
    ∀ (cmds : List t_command) (w : t_world), Decidable (run_casts env fuel w cmds)
  | [], _ => isTrue trivial
  | c :: cs, w =>
    have := fun w1 => run_casts_dec env fuel cs w1
    inferInstanceAs (Decidable (cmd_casts w.x c
      ∧ ∀ w1 ∈ run_command env fuel w c, run_casts env fuel w1 cs))

/-- The arguments of `channel on 0`. -/
def argv_channel_on : List t_atom := [.A_SYM "on", .A_LONG 0]

/-- The arguments of `ramp_to 0 0 4. ramp`. -/
def argv_to_4 : List t_atom := [.A_LONG 0, .A_LONG 0, .A_FLOAT 4, .A_SYM "ramp"]

/-- The commands `channel on 0`, `ramp_to 0 0 4. ramp` and one block of 4 samples. -/
def cmds_ramp_4 : List t_command :=
  [.channel argv_channel_on, .ramp_to argv_to_4, .perform64 (fun _ _ => 1) (fun _ _ => 0) 4]

/-- The commands `cmds_ramp_4` followed by one more block of 4 samples. -/
def cmds_ramp_8 : List t_command :=
  cmds_ramp_4 ++ [.perform64 (fun _ _ => 1) (fun _ _ => 0) 4]

/-- The command is a `channel set` that the engine `x` accepts for the channel `k`. -/
def sets_channel (x : t_diffuse) (k : Nat) : t_command → Prop
  | .channel argv =>
    atom_getsym (atom_at argv 0) = "set" ∧ (channel_channel x argv).ok = true
      ∧ _channel_find x (atom_at argv 1) = some k
  | _ => False

instance sets_channel_dec (x : t_diffuse) (k : Nat) :
    (cmd : t_command) → Decidable (sets_channel x k cmd)
  | .channel argv =>
    inferInstanceAs (Decidable (atom_getsym (atom_at argv 0) = "set"
      ∧ (channel_channel x argv).ok = true ∧ _channel_find x (atom_at argv 1) = some k))
  | .bang => isFalse id
  | .dictionary _ => isFalse id
  | .get => isFalse id
  | .master _ => isFalse id
  | .gain_out _ => isFalse id
  | .output _ => isFalse id
  | .set _ => isFalse id
  | .gain_in _ => isFalse id
  | .mute_ramp _ => isFalse id
  | .state _ => isFalse id
  | .ramp_to _ => isFalse id
  | .ramp_between _ => isFalse id
  | .ramp_max _ => isFalse id
  | .circular _ => isFalse id
  | .velocity _ => isFalse id
  | .velocity_all _ => isFalse id
  | .freeze _ => isFalse id
  | .freeze_all _ => isFalse id
  | .dsp64 _ => isFalse id
  | .assist => isFalse id
  | .perform64 _ _ _ => isFalse id
  | .host_dictionaries _ => isFalse id

/-- The arguments of `ramp_to 0 0 0. ramp`. -/
def argv_to_zero : List t_atom := [.A_LONG 0, .A_LONG 0, .A_FLOAT 0, .A_SYM "ramp"]

/-- The arguments of `ramp_between 0 0 1 0.5 -1. xfade`. -/
def argv_between_neg : List t_atom :=
  [.A_LONG 0, .A_LONG 0, .A_LONG 1, .A_FLOAT (1/2), .A_FLOAT (-1), .A_SYM "xfade"]

/-- The arguments of `ramp_max 0 0 1. 1 0.5 0. ramp`. -/
def argv_max_zero : List t_atom :=
  [.A_LONG 0, .A_LONG 0, .A_FLOAT 1, .A_LONG 1, .A_FLOAT (1/2), .A_FLOAT 0, .A_SYM "ramp"]

/-- The arguments of `circular 0 1 0 0.25 -10.`. -/
def argv_circ_zero : List t_atom :=
  [.A_LONG 0, .A_LONG 1, .A_LONG 0, .A_FLOAT (1/4), .A_FLOAT (-10)]

/-- The arguments of `state set 0 0.5 2.`, with a gain outside `[0, 1]`. -/
def argv_state_set_bad : List t_atom := [.A_SYM "set", .A_LONG 0, .A_FLOAT (1/2), .A_FLOAT 2]

/-- The arguments of `state set 4294967296 0.5 0.25`: the index is `2^32`. -/
def argv_state_set_wrap : List t_atom :=
  [.A_SYM "set", .A_LONG 4294967296, .A_FLOAT (1/2), .A_FLOAT (1/4)]

/-- The arguments of `state save 0 a`. -/
def argv_save_a : List t_atom := [.A_SYM "save", .A_LONG 0, .A_SYM "a"]

/-- The arguments of `state load a 1`. -/
def argv_load_a : List t_atom := [.A_SYM "load", .A_SYM "a", .A_LONG 1]

/-- The command `state` with the arguments `argv_load`, on the engine and the dictionaries
that the command `state` with the arguments `argv_save` leaves. -/
def save_then_load (x : t_diffuse) (reg : t_registry) (argv_save argv_load : List t_atom) :
    t_state_ret :=
  state_state (state_state x reg argv_save).x (state_state x reg argv_save).reg argv_load

/-- The chunk loop of the channel of `x_2_slow`, of velocity 1/2 and countdown 10, with 4
samples left of a block of 4. -/
def chunk_slow_4 : t_chunk :=
  { channel := x_2_slow.channel 0, smp_left := 4, out_arr := fun _ _ => 0, msgs := [],
    errs := [] }

/-- A chunk loop with 1 sample left for a ramping channel of velocity 3/4 and countdown 1,
whose first abscissa is the double nearest to 0.075, on its way to the double nearest to
0.225. -/
def chunk_round : t_chunk :=
  { channel := { channel_2 with velocity := 3/4, cntd := 1, mode_type := MODE_TYPE_VAR,
                                U_cur := [fl (3/40), 0], U_targ := [fl (9/40), 0],
                                A_targ := [fl (9/40), 0] },
    smp_left := 1, out_arr := fun _ _ => 0, msgs := [], errs := [] }

/-- The length of the chunk that a pass of the chunk loop processes on an unfrozen channel
whose countdown is neither 0 nor indefinite: the samples left when the countdown extends
beyond them, the scaled countdown otherwise. -/
def chunk_len (st : t_chunk) : Int :=
  if st.channel.cntd > smp_left_x_vel st.smp_left st.channel then st.smp_left
  else cntd_d_vel st.channel

/-- The chunk states `st` and `st1` hold the same channel and the same number of samples
left, and the output vectors of `st1` are those of `st` with `d` added. -/
def chunk_shift (d : Nat → Nat → ℚ) (st st1 : t_chunk) : Prop :=
  st1.channel = st.channel ∧ st1.smp_left = st.smp_left
    ∧ ∀ o j, st1.out_arr o j = st.out_arr o j + d o j

/-- The engines `y` and `y1` mix with the same master gain, output gains and number of
outputs. -/
def mix_same (y y1 : t_diffuse) : Prop :=
  y1.master = y.master ∧ y1.out_gain = y.out_gain ∧ y1.out_cnt = y.out_cnt

/-- The chunk loop of a channel for one block, on output vectors that hold zeros. -/
def chan_out (x : t_diffuse) (fuel sampleframes : Nat) (channel : t_channel)
    (sig_in : Nat → ℚ) : Option t_chunk :=
  chunk_loop x 0 sig_in sampleframes fuel
    { channel := channel, smp_left := sampleframes, out_arr := fun _ _ => 0, msgs := [],
      errs := [] }

/-- The chunk loop of the channel returns for the block, or the channel is switched off. -/
def chan_returns (x : t_diffuse) (fuel sampleframes : Nat) (channel : t_channel)
    (sig_in : Nat → ℚ) : Prop :=
  channel.is_on = false ∨ ∃ r, chan_out x fuel sampleframes channel sig_in = some r

/-- What the channel adds to the sample `j` of the output `o` in one block: nothing when it
is switched off, else what its chunk loop leaves on output vectors that held zeros. -/
def chan_add (x : t_diffuse) (fuel sampleframes : Nat) (channel : t_channel)
    (sig_in : Nat → ℚ) (o j : Nat) : ℚ :=
  if channel.is_on = false then 0
  else
    match chan_out x fuel sampleframes channel sig_in with
    | some r => r.out_arr o j
    | none => 0

/-- The channel after one block: itself when it is switched off, else what its chunk loop
leaves. -/
def chan_after (x : t_diffuse) (fuel sampleframes : Nat) (channel : t_channel)
    (sig_in : Nat → ℚ) : t_channel :=
  if channel.is_on = false then channel
  else
    match chan_out x fuel sampleframes channel sig_in with
    | some r => r.channel
    | none => channel

/-- What the channels below `k` add together to the sample `j` of the output `o`. -/
def chans_add (x : t_diffuse) (fuel sampleframes : Nat) (in_arr : Nat → Nat → ℚ) (k : Nat)
    (o j : Nat) : ℚ :=
  ((List.range k).map
    (fun c => chan_add x fuel sampleframes (x.channel c) (in_arr c) o j)).sum

/-- The engine with its channel array rearranged along `l`: the channel at the place `i` is
the channel that was at the place `l[i]`. -/
def permute_channels (l : List Nat) (x : t_diffuse) : t_diffuse :=
  { x with channel_arr := l.map x.channel }

/-- The input vectors rearranged along `l`: the vector at the place `i` is the vector that
was at the place `l[i]`. -/
def permute_inputs (l : List Nat) (in_arr : Nat → Nat → ℚ) : Nat → Nat → ℚ :=
  fun i => in_arr (l.getD i 0)

/-- The engine `x_2` with two channels: the first ramps towards `[0, 1]` with a countdown of
10 samples, the second is fixed at `[1/2, 1/4]`. -/
def x_2_pair : t_diffuse :=
  { x_2 with
    channel_arr := [x_2_ramp.channel 0,
      { channel_2 with U_cur := [1/2, 1/4], A_cur := [1/2, 1/4], U_targ := [1/2, 1/4],
                       A_targ := [1/2, 1/4] }],
    channel_cnt := 2 }

/-- Two input vectors: ones for the first channel, the ramp `2, 3, 4, ...` for the second. -/
def in_pair : Nat → Nat → ℚ := fun c j => if c = 0 then 1 else 2 + j

/-- A channel that is switched off, in fixed mode with a countdown of 0 and amplitudes
`[1, 1]`. -/
def channel_2_off : t_channel :=
  { channel_2 with U_cur := [1, 1], A_cur := [1, 1], U_targ := [1, 1], A_targ := [1, 1],
                   cntd := 0, is_on := false }

/-- The engine `x_2_pair` with its second channel switched off. -/
def x_2_pair_off : t_diffuse :=
  x_2_pair.set_channel 1 { x_2_pair.channel 1 with is_on := false }

/-- The arguments of `channel set 0 0.5 0.25`. -/
def argv_channel_set_half : List t_atom :=
  [.A_SYM "set", .A_LONG 0, .A_FLOAT (1/2), .A_FLOAT (1/4)]

/-- One pass of `while (smp_left)` as the trace records it: the chunk processed, as the
sample where it starts and its length, if the pass processes one, and the number of samples
left after the pass. -/
structure t_pass where
  chunk : Option (Int × Int)
  smp_left : Int
  deriving DecidableEq

/-- The values of `smp_proc` and `chunk_len` with which a pass of `while (smp_left)` goes
through the outputs; none for the pass that calls `_state_iterate` and continues. -/
def chunk_plan (sampleframes : Int) (st : t_chunk) : Option (Int × Int) :=
  let channel := st.channel
  let smp_left := st.smp_left
  let smp_left_x_vel := smp_left_x_vel smp_left channel
  let cntd_d_vel := cntd_d_vel channel
  let smp_proc := sampleframes - smp_left
  if channel.is_frozen = true then some (smp_proc, sampleframes)
  else if channel.cntd = 0 then none
  else if channel.cntd = INDEFINITE then some (smp_proc, smp_left)
  else if channel.cntd > smp_left_x_vel then some (smp_proc, smp_left)
  else some (smp_proc, cntd_d_vel)

/-- The passes of the loop `while (smp_left)`, run for at most `fuel` passes on the states
that `chunk_iter` gives; `none` when samples are still left after that. -/
def chunk_trace (x : t_diffuse) (in_ : Nat) (sig_in : Nat → ℚ) (sampleframes : Int) :
    Nat → t_chunk → Option (List t_pass)
  | 0, st => if st.smp_left = 0 then some [] else none
  | fuel + 1, st =>
    if st.smp_left = 0 then some []
    else
      (chunk_trace x in_ sig_in sampleframes fuel (chunk_iter x in_ sig_in sampleframes st)).map
        (fun tr =>
          { chunk := chunk_plan sampleframes st,
            smp_left := (chunk_iter x in_ sig_in sampleframes st).smp_left } :: tr)

/-- The calls `dsp64` at 1000 samples per second, `channel on 0` and `ramp_to 0 0 4. ramp`:
the first channel is on and ramps with a countdown of 4 samples. -/
def cmds_on_ramp : List t_command :=
  [.dsp64 1000, .channel argv_channel_on, .ramp_to argv_to_4]

/-- What the perform routine keeps of a channel: the targets, the velocity, the input
gain, the curve selection, the index of the state, the three flags and the count. -/
def perform_frame (c c1 : t_channel) : Prop :=
  c1.U_targ = c.U_targ ∧ c1.A_targ = c.A_targ ∧ c1.velocity = c.velocity ∧ c1.gain = c.gain
    ∧ c1.interp_func = c.interp_func ∧ c1.interp_inv_func = c.interp_inv_func
    ∧ c1.interp_param = c.interp_param ∧ c1.state_ind = c.state_ind ∧ c1.is_on = c.is_on
    ∧ c1.is_frozen = c.is_frozen ∧ c1.is_mute_ramp = c.is_mute_ramp ∧ c1.out_cnt = c.out_cnt

/-- The trace has the shape of a ramp that ends inside the block: a chunk, a pass without
chunk that leaves the samples left, a chunk. -/
def trace_finishing (tr : List t_pass) : Prop :=
  ∃ c1 c2 : Int × Int, ∃ l : Int,
    tr = [{ chunk := some c1, smp_left := l }, { chunk := none, smp_left := l },
          { chunk := some c2, smp_left := 0 }]

/-- A channel in the middle of the ramp of `x_2_slow`: switched on, unfrozen, ramping, with
the countdown 10 and the velocity 1/2. -/
def stalled (c : t_channel) : Prop :=
  c.is_on = true ∧ c.is_frozen = false ∧ c.mode_type = MODE_TYPE_VAR ∧ c.cntd = 10
    ∧ c.velocity = 1/2

/-- The index `ch2 = (ch1 + offset) % x->out_cnt` at which the loop of `_state_ramp` writes
the targets for the output `ch1`, with the truncating remainder of C. -/
def ramp_index (out_cnt : Nat) (offset : Int) (ch1 : Nat) : Int :=
  Int.tmod (ch1 + offset) out_cnt

/-- The arguments of `state set 0 1. 0. 0. 0. 0. 0. 0. 0. 0. 0.`. -/
def argv_state_set_10 : List t_atom :=
  [.A_SYM "set", .A_LONG 0, .A_FLOAT 1, .A_FLOAT 0, .A_FLOAT 0, .A_FLOAT 0, .A_FLOAT 0,
   .A_FLOAT 0, .A_FLOAT 0, .A_FLOAT 0, .A_FLOAT 0, .A_FLOAT 0]

/-- The object created with one channel and ten outputs, linear curves, at 1000 samples
per second, after `state set 0 1. 0. 0. 0. 0. 0. 0. 0. 0. 0.`. -/
def x_10 : t_diffuse :=
  (state_state (diffuse_new env_linear 1000 [.A_LONG 1, .A_LONG 10]) [] argv_state_set_10).x

/-- The arguments of `circular 0 1 0 -9. 10.`. -/
def argv_circ_neg_9 : List t_atom :=
  [.A_LONG 0, .A_LONG 1, .A_LONG 0, .A_FLOAT (-9), .A_FLOAT 10]

/-- A saved state named `z` with the count 2 and an array of three gains. -/
def entry_long : t_entry :=
  [("name", .v_sym "z"), ("count", .v_long 2),
   ("ordinate", .v_atoms [.A_FLOAT (1/2), .A_FLOAT (1/2), .A_FLOAT (1/2)])]

/-- A saved state named `t` with the count 3 and an array of three gains. -/
def entry_three : t_entry :=
  [("name", .v_sym "t"), ("count", .v_long 3),
   ("ordinate", .v_atoms [.A_FLOAT (1/2), .A_FLOAT (1/2), .A_FLOAT (1/2)])]

/-- A registry with one dictionary, `store`, whose sub-dictionary `states` holds the states
`z` and `t`. -/
def reg_long : t_registry :=
  [("store", [("states", .t_dict [("z", .i_dict entry_long), ("t", .i_dict entry_three)])])]

/-- The engine `x_2` linked to the dictionary `store` of `reg_long`. -/
def x_2_long : t_diffuse := diffuse_dictionary x_2 reg_long "store"

/-- The arguments of `state load z 0`. -/
def argv_load_z : List t_atom := [.A_SYM "load", .A_SYM "z", .A_LONG 0]

/-- The arguments of `state load t 0`. -/
def argv_load_t : List t_atom := [.A_SYM "load", .A_SYM "t", .A_LONG 0]

/-- The call `channel set 0 0.5 0.25`, alone and followed by a block of 4 samples. -/
def cmds_channel_set (blocks : Nat) : List t_command :=
  .channel argv_channel_set_half
    :: List.replicate blocks (.perform64 (fun _ _ => 1) (fun _ _ => 0) 4)

/-- The amplitudes that the curve of the channel gives at its current abscissa values. -/
def curve_at_U_cur (c : t_channel) : List ℚ :=
  (List.range c.out_cnt).map (fun i => c.interp_func (rd c.U_cur i) c.interp_param)

theorem length_wr (a : List ℚ) (i : Nat) (v : ℚ) : (wr a i v).length = a.length := by
  simp [wr]

theorem rd_wr (a : List ℚ) (i j : Nat) (v : ℚ) :
    rd (wr a i v) j = if i = j ∧ i < a.length then v else rd a j := by
  unfold rd wr
  rw [List.getD_eq_getElem?_getD, List.getD_eq_getElem?_getD, List.getElem?_set]
  by_cases h : i = j
  · subst h
    by_cases h2 : i < a.length
    · simp [h2]
    · have h3 : a.length ≤ i := by omega
      simp [h2, List.getElem?_eq_none h3]
  · simp [h]

theorem rd_wr_same (a : List ℚ) (i : Nat) (v : ℚ) (h : i < a.length) : rd (wr a i v) i = v := by
  simp [rd_wr, h]

theorem rd_wr_ne (a : List ℚ) (i j : Nat) (v : ℚ) (h : i ≠ j) : rd (wr a i v) j = rd a j := by
  simp [rd_wr, h]

theorem for_loop_inv {σ : Type} (P : Nat → σ → Prop) (body : Nat → σ → σ) (n : Nat) (s : σ)
    (h0 : P 0 s) (hstep : ∀ i, i < n → ∀ t, P i t → P (i + 1) (body i t)) :
    P n (for_loop body n s) := by
  induction n with
  | zero => exact h0
  | succ k ih =>
    exact hstep k (Nat.lt_succ_self k) _ (ih (fun i hi t ht => hstep i (Nat.lt_succ_of_lt hi) t ht))

theorem set_getD_self {α : Type} : ∀ (l : List α) (i : Nat) (d : α), l.set i (l.getD i d) = l
  | [], _, _ => rfl
  | _ :: _, 0, _ => rfl
  | a :: l, i + 1, d => by
    have := set_getD_self l i d
    simpa using this

theorem getD_set_same {α : Type} (l : List α) (i : Nat) (a d : α) (h : i < l.length) :
    (l.set i a).getD i d = a := by
  rw [List.getD_eq_getElem?_getD, List.getElem?_set]; simp [h]

theorem getD_set_ne {α : Type} (l : List α) (i j : Nat) (a d : α) (h : i ≠ j) :
    (l.set i a).getD j d = l.getD j d := by
  rw [List.getD_eq_getElem?_getD, List.getD_eq_getElem?_getD, List.getElem?_set]; simp [h]

theorem channel_set_channel_same (x : t_diffuse) (i : Nat) (c : t_channel)
    (h : i < x.channel_arr.length) : (x.set_channel i c).channel i = c := by
  unfold t_diffuse.channel t_diffuse.set_channel
  exact getD_set_same _ _ _ _ h

theorem channel_set_channel_ne (x : t_diffuse) (i j : Nat) (c : t_channel) (h : i ≠ j) :
    (x.set_channel i c).channel j = x.channel j := by
  unfold t_diffuse.channel t_diffuse.set_channel
  exact getD_set_ne _ _ _ _ _ h

theorem set_channel_self (x : t_diffuse) (i : Nat) : x.set_channel i (x.channel i) = x := by
  unfold t_diffuse.channel t_diffuse.set_channel
  rw [set_getD_self]

/-! ## The sample loops and the zeroing of the outputs -/

theorem fix_samples_eq (sig_in : Nat → ℚ) (a gain : ℚ) (p n : Nat) (so : Nat → ℚ) :
    fix_samples sig_in a gain p n so
      = fun s => if p ≤ s ∧ s < p + n then so s + sig_in s * a * gain else so s := by
  induction n with
  | zero =>
    funext s
    have h : ¬ (p ≤ s ∧ s < p + 0) := by omega
    rw [if_neg h]
    rfl
  | succ k ih =>
    unfold fix_samples at ih ⊢
    rw [for_loop, ih]
    funext s
    rw [Function.update_apply]
    by_cases h1 : s = p + k
    · subst h1; simp
    · have h2 : (p ≤ s ∧ s < p + (k + 1)) ↔ (p ≤ s ∧ s < p + k) := by omega
      simp [h1, h2]

theorem zero_outputs_eq (out_cnt sampleframes : Nat) (out_arr : Nat → Nat → ℚ) :
    zero_outputs out_cnt sampleframes out_arr
      = fun o s => if o < out_cnt ∧ s < sampleframes then 0 else out_arr o s := by
  have inner : ∀ (out n : Nat) (oa : Nat → Nat → ℚ),
      for_loop (fun smp oa1 => Function.update oa1 out (Function.update (oa1 out) smp 0)) n oa
        = fun o s => if o = out ∧ s < n then 0 else oa o s := by
    intro out n oa
    induction n with
    | zero => funext o s; simp [for_loop]
    | succ k ih =>
      rw [for_loop, ih]
      funext o s
      by_cases h1 : o = out
      · subst h1
        by_cases h2 : s = k
        · subst h2; simp
        · have h3 : s < k + 1 ↔ s < k := by omega
          simp [Function.update_apply, h2, h3]
      · simp [Function.update_apply, h1]
  unfold zero_outputs
  induction out_cnt with
  | zero => funext o s; simp [for_loop]
  | succ k ih =>
    rw [for_loop, ih, inner]
    funext o s
    by_cases h1 : o = k
    · subst h1
      by_cases h2 : s < sampleframes
      · simp [h2]
      · simp [h2]
    · have h3 : o < k + 1 ↔ o < k := by omega
      simp [h1, h3]

/-! ## The output loop of a fixed, frozen or indefinite channel -/

theorem out_body_fixed (x : t_diffuse) (sig_in : Nat → ℚ) (p cl cdv : Int) (out : Nat)
    (st : t_chunk)
    (hfix : st.channel.mode_type = MODE_TYPE_FIX ∨ st.channel.is_frozen = true
      ∨ st.channel.cntd = INDEFINITE) :
    out_body x sig_in p cl cdv out st =
      { st with out_arr := Function.update st.out_arr out (fun s =>
          if p.toNat ≤ s ∧ s < p.toNat + cl.toNat then
            st.out_arr out s + sig_in s * rd st.channel.A_cur out
              * (x.master * st.channel.gain * rd x.out_gain out)
          else st.out_arr out s) } := by
  unfold out_body
  simp only [hfix, if_true]
  by_cases hskip : x.master * st.channel.gain * rd x.out_gain out = 0 ∨ rd st.channel.A_cur out = 0
  · rw [if_pos hskip]
    have hz : (fun s => if p.toNat ≤ s ∧ s < p.toNat + cl.toNat then
            st.out_arr out s + sig_in s * rd st.channel.A_cur out
              * (x.master * st.channel.gain * rd x.out_gain out)
          else st.out_arr out s) = st.out_arr out := by
      funext s
      split
      · rcases hskip with h | h <;> simp [h]
      · rfl
    rw [hz, Function.update_eq_self]
  · rw [if_neg hskip, fix_samples_eq]

theorem out_loop_fixed (x : t_diffuse) (sig_in : Nat → ℚ) (p cl cdv : Int) (st : t_chunk)
    (hfix : st.channel.mode_type = MODE_TYPE_FIX ∨ st.channel.is_frozen = true
      ∨ st.channel.cntd = INDEFINITE) :
    out_loop x sig_in p cl cdv st =
      { st with out_arr :=
          fixed_chunk_out x sig_in st.channel p.toNat cl.toNat x.out_cnt st.out_arr } := by
  unfold out_loop
  generalize x.out_cnt = n
  induction n with
  | zero =>
    have : fixed_chunk_out x sig_in st.channel p.toNat cl.toNat 0 st.out_arr = st.out_arr := by
      funext o s; simp [fixed_chunk_out]
    rw [this]; rfl
  | succ k ih =>
    rw [for_loop, ih, out_body_fixed _ _ _ _ _ _ _ (by exact hfix)]
    congr 1
    funext o s
    by_cases h1 : o = k
    · subst h1
      simp [fixed_chunk_out, mul_assoc]
    · have h3 : o < k + 1 ↔ o < k := by omega
      simp [fixed_chunk_out, Function.update_apply, h1, h3]

/-! ## The chunk loop of a frozen or indefinite channel -/

theorem chunk_iter_frozen (x : t_diffuse) (in_ : Nat) (sig_in : Nat → ℚ) (sampleframes : Int)
    (st : t_chunk) (hfrozen : st.channel.is_frozen = true) :
    chunk_iter x in_ sig_in sampleframes st =
      { st with smp_left := 0,
                out_arr := fixed_chunk_out x sig_in st.channel (sampleframes - st.smp_left).toNat
                  sampleframes.toNat x.out_cnt st.out_arr } := by
  unfold chunk_iter
  simp only [hfrozen, if_true]
  rw [out_loop_fixed]
  exact Or.inr (Or.inl hfrozen)

theorem chunk_iter_indefinite (x : t_diffuse) (in_ : Nat) (sig_in : Nat → ℚ)
    (sampleframes : Int) (st : t_chunk) (hfrozen : st.channel.is_frozen = false)
    (hcntd : st.channel.cntd = INDEFINITE) :
    chunk_iter x in_ sig_in sampleframes st =
      { st with smp_left := 0,
                out_arr := fixed_chunk_out x sig_in st.channel (sampleframes - st.smp_left).toNat
                  st.smp_left.toNat x.out_cnt st.out_arr } := by
  unfold chunk_iter
  have h0 : ¬ (st.channel.cntd = 0) := by rw [hcntd]; decide
  simp only [hfrozen, h0, if_false, Bool.false_eq_true]
  rw [if_pos hcntd, out_loop_fixed]
  exact Or.inr (Or.inr hcntd)

theorem fixed_chunk_out_zero_len (x : t_diffuse) (sig_in : Nat → ℚ) (channel : t_channel)
    (p n : Nat) (out_arr : Nat → Nat → ℚ) :
    fixed_chunk_out x sig_in channel p 0 n out_arr = out_arr := by
  funext o s
  have h : ¬ (o < n ∧ p ≤ s ∧ s < p + 0) := by omega
  simp only [fixed_chunk_out, if_neg h]

theorem chunk_loop_done (x : t_diffuse) (in_ : Nat) (sig_in : Nat → ℚ) (sampleframes : Int)
    (fuel : Nat) (st : t_chunk) (h : st.smp_left = 0) :
    chunk_loop x in_ sig_in sampleframes fuel st = some st := by
  cases fuel <;> simp [chunk_loop, h]

/-- A channel that is frozen, or unfrozen with an indefinite countdown, goes through the
chunk loop in one pass at most, is left as it was and adds its samples with constant gains. -/
theorem chunk_loop_fixed (x : t_diffuse) (in_ : Nat) (sig_in : Nat → ℚ) (sampleframes : Nat)
    (fuel : Nat) (hfuel : 1 ≤ fuel) (st : t_chunk) (hleft : st.smp_left = sampleframes)
    (hfix : st.channel.is_frozen = true ∨ st.channel.cntd = INDEFINITE) :
    chunk_loop x in_ sig_in sampleframes fuel st =
      some { st with smp_left := 0,
                     out_arr := fixed_chunk_out x sig_in st.channel 0 sampleframes x.out_cnt
                       st.out_arr } := by
  obtain ⟨f, rfl⟩ : ∃ f, fuel = f + 1 := ⟨fuel - 1, by omega⟩
  by_cases h0 : sampleframes = 0
  · subst h0
    have h1 : st.smp_left = 0 := by simpa using hleft
    rw [chunk_loop_done _ _ _ _ _ _ h1, fixed_chunk_out_zero_len]
    cases st
    simp at h1
    simp [h1]
  · have h1 : st.smp_left ≠ 0 := by rw [hleft]; exact_mod_cast h0
    rw [chunk_loop, if_neg h1]
    by_cases hfr : st.channel.is_frozen = true
    · rw [chunk_iter_frozen _ _ _ _ _ hfr, chunk_loop_done _ _ _ _ _ _ rfl, hleft]
      simp
    · have hfr2 : st.channel.is_frozen = false := by simpa using hfr
      have hc : st.channel.cntd = INDEFINITE := by
        rcases hfix with h | h
        · exact absurd h hfr
        · exact h
      rw [chunk_iter_indefinite _ _ _ _ _ hfr2 hc, chunk_loop_done _ _ _ _ _ _ rfl, hleft]
      simp

theorem channel_body_off (fuel : Nat) (in_arr : Nat → Nat → ℚ) (sampleframes in_ : Nat)
    (s : t_perform) (hoff : (s.x.channel in_).is_on = false) :
    channel_body fuel in_arr sampleframes in_ s = some s := by
  simp [channel_body, hoff]

theorem channel_body_fixed (fuel : Nat) (hfuel : 1 ≤ fuel) (in_arr : Nat → Nat → ℚ)
    (sampleframes in_ : Nat) (s : t_perform) (hon : (s.x.channel in_).is_on = true)
    (hfix : (s.x.channel in_).is_frozen = true ∨ (s.x.channel in_).cntd = INDEFINITE) :
    channel_body fuel in_arr sampleframes in_ s =
      some { s with out_arr := fixed_chunk_out s.x (in_arr in_) (s.x.channel in_) 0 sampleframes
                      s.x.out_cnt s.out_arr } := by
  unfold channel_body
  simp only [hon, Bool.true_eq_false, if_false]
  rw [chunk_loop_fixed _ _ _ _ _ hfuel _ rfl hfix]
  simp [set_channel_self]

/-! ## C1 : a block of frozen and fixed channels -/

theorem channels_loop_fixed (fuel : Nat) (hfuel : 1 ≤ fuel) (in_arr : Nat → Nat → ℚ)
    (sampleframes : Nat) (s0 : t_perform) (k : Nat)
    (hfix : ∀ c, c < k → (s0.x.channel c).is_on = true →
      (s0.x.channel c).is_frozen = true ∨ (s0.x.channel c).cntd = INDEFINITE) :
    for_loop_opt (channel_body fuel in_arr sampleframes) k s0 =
      some { s0 with out_arr := fixed_block_out s0.x in_arr sampleframes k s0.out_arr } := by
  induction k with
  | zero =>
    have h : fixed_block_out s0.x in_arr sampleframes 0 s0.out_arr = s0.out_arr := by
      funext o s
      simp [fixed_block_out]
    rw [h]
    rfl
  | succ k ih =>
    rw [for_loop_opt, ih (fun c hc => hfix c (Nat.lt_succ_of_lt hc))]
    simp only [Option.bind_eq_bind, Option.some_bind]
    by_cases hon : (s0.x.channel k).is_on = true
    · rw [channel_body_fixed fuel hfuel _ _ _ _ (by exact hon)
        (by exact hfix k (Nat.lt_succ_self k) hon)]
      congr 2
      funext o s
      simp only [fixed_chunk_out, fixed_block_out, Finset.sum_range_succ, fixed_term, hon, if_true]
      by_cases h : o < s0.x.out_cnt ∧ s < sampleframes
      · have h2 : o < s0.x.out_cnt ∧ 0 ≤ s ∧ s < 0 + sampleframes := by omega
        rw [if_pos h, if_pos h2, if_pos h]
        ring
      · have h2 : ¬ (o < s0.x.out_cnt ∧ 0 ≤ s ∧ s < 0 + sampleframes) := by omega
        rw [if_neg h, if_neg h2, if_neg h]
    · have hoff : (s0.x.channel k).is_on = false := by simpa using hon
      rw [channel_body_off _ _ _ _ _ (by exact hoff)]
      congr 2
      funext o s
      simp [fixed_block_out, Finset.sum_range_succ, fixed_term, hoff]

/-- C1: in a block in which every switched-on channel is frozen or fixed with an indefinite
countdown, `diffuse_perform64` returns and every output sample `out[o][s]` is the sum, over the
switched-on channels `c`, of `in[c][s] * A_cur[c][o] * master * gain[c] * out_gain[o]`, whatever
the output vectors held before the call and also when a factor is zero. -/
theorem C1_fixed_block_mix (fuel : Nat) (hfuel : 1 ≤ fuel) (x : t_diffuse)
    (in_arr out_arr : Nat → Nat → ℚ) (sampleframes : Nat)
    (hfix : ∀ c, c < x.channel_cnt → (x.channel c).is_on = true →
      (x.channel c).is_frozen = true ∨
        ((x.channel c).mode_type = MODE_TYPE_FIX ∧ (x.channel c).cntd = INDEFINITE)) :
    ∃ r, diffuse_perform64 fuel x in_arr out_arr sampleframes = some r ∧
      ∀ o, o < x.out_cnt → ∀ s, s < sampleframes →
        r.out_arr o s =
          ∑ c ∈ (Finset.range x.channel_cnt).filter (fun c => (x.channel c).is_on = true),
            in_arr c s * rd (x.channel c).A_cur o * x.master * (x.channel c).gain
              * rd x.out_gain o := by
  unfold diffuse_perform64
  rw [channels_loop_fixed fuel hfuel in_arr sampleframes _ x.channel_cnt
    (fun c hc hon => (hfix c hc hon).imp_right (fun h => h.2))]
  refine ⟨_, rfl, ?_⟩
  intro o ho s hs
  rw [Finset.sum_filter]
  simp only [Option.map_some']
  split
  · simp [fixed_block_out, zero_outputs_eq, ho, hs, fixed_term]
  · simp [fixed_block_out, zero_outputs_eq, ho, hs, fixed_term]

/-- C1 at work: the engine `x_2_frozen`, whose channel is frozen in the middle of a ramp, on
a block of three samples, the output vectors holding the value 7 before the call. -/
theorem C1_fixed_block_mix_witness :
    ∃ r, diffuse_perform64 1 x_2_frozen (fun _ s => s + 1) (fun _ _ => 7) 3 = some r ∧
      ∀ o, o < x_2_frozen.out_cnt → ∀ s, s < 3 →
        r.out_arr o s =
          ∑ c ∈ (Finset.range x_2_frozen.channel_cnt).filter
              (fun c => (x_2_frozen.channel c).is_on = true),
            (fun (_ : Nat) (s : Nat) => ((s : ℚ) + 1)) c s * rd (x_2_frozen.channel c).A_cur o
              * x_2_frozen.master * (x_2_frozen.channel c).gain * rd x_2_frozen.out_gain o :=
  C1_fixed_block_mix 1 (le_refl 1) x_2_frozen (fun _ s => s + 1) (fun _ _ => 7) 3
    (fun c hc _ => by
      have h0 : c = 0 := by
        have : c < 1 := hc
        omega
      subst h0
      exact Or.inl rfl)

/-! ## C2 : the completion step -/

theorem iterate_loop (c0 : t_channel) (n : Nat) (hU : n ≤ c0.U_cur.length)
    (hA : n ≤ c0.A_cur.length) :
    for_loop iterate_body n c0 =
        { c0 with U_cur := (for_loop iterate_body n c0).U_cur,
                  A_cur := (for_loop iterate_body n c0).A_cur }
      ∧ (for_loop iterate_body n c0).U_cur.length = c0.U_cur.length
      ∧ (for_loop iterate_body n c0).A_cur.length = c0.A_cur.length
      ∧ ∀ i, i < n → rd (for_loop iterate_body n c0).U_cur i = rd c0.U_targ i
          ∧ rd (for_loop iterate_body n c0).A_cur i = rd c0.A_targ i := by
  induction n with
  | zero =>
    refine ⟨rfl, rfl, rfl, ?_⟩
    intro i hi
    omega
  | succ k ih =>
    obtain ⟨h1, h2, h3, h4⟩ := ih (by omega) (by omega)
    rw [for_loop]
    generalize for_loop iterate_body k c0 = c at h1 h2 h3 h4 ⊢
    have hT : c.U_targ = c0.U_targ := by rw [h1]
    have hAT : c.A_targ = c0.A_targ := by rw [h1]
    refine ⟨?_, ?_, ?_, ?_⟩
    · rw [h1]; rfl
    · simp [iterate_body, length_wr, h2]
    · simp [iterate_body, length_wr, h3]
    · intro i hi
      by_cases hik : i = k
      · subst hik
        simp only [iterate_body, hT, hAT]
        exact ⟨rd_wr_same _ _ _ (by omega), rd_wr_same _ _ _ (by omega)⟩
      · have hlt : i < k := by omega
        simp only [iterate_body]
        rw [rd_wr_ne _ _ _ _ (Ne.symm hik), rd_wr_ne _ _ _ _ (Ne.symm hik)]
        exact h4 i hlt

theorem state_iterate_var (ind : Nat) (channel : t_channel)
    (hmode : channel.mode_type = MODE_TYPE_VAR)
    (hU : channel.out_cnt ≤ channel.U_cur.length) (hA : channel.out_cnt ≤ channel.A_cur.length) :
    (_state_iterate ind channel).1 =
        { channel with cntd := INDEFINITE, mode_type := MODE_TYPE_FIX,
                       U_cur := (_state_iterate ind channel).1.U_cur,
                       A_cur := (_state_iterate ind channel).1.A_cur }
      ∧ (_state_iterate ind channel).1.U_cur.length = channel.U_cur.length
      ∧ (_state_iterate ind channel).1.A_cur.length = channel.A_cur.length
      ∧ ∀ i, i < channel.out_cnt →
          rd (_state_iterate ind channel).1.U_cur i = rd channel.U_targ i
          ∧ rd (_state_iterate ind channel).1.A_cur i = rd channel.A_targ i := by
  have h := iterate_loop { channel with cntd := INDEFINITE, mode_type := MODE_TYPE_FIX }
    channel.out_cnt hU hA
  unfold _state_iterate
  simp only [hmode]
  obtain ⟨h1, h2, h3, h4⟩ := h
  refine ⟨?_, h2, h3, h4⟩
  conv_lhs => rw [h1]

/-- C2: when the chunk loop meets an unfrozen, ramping channel whose countdown is 0, the pass
calls `_state_iterate`: afterwards `U_cur[out] = U_targ[out]` and `A_cur[out] = A_targ[out]`
for every output, the targets are the ones of before, the mode is fixed, the countdown is
indefinite, and the pass has consumed no sample and written no output sample. -/
theorem C2_completion_step (x : t_diffuse) (in_ : Nat) (sig_in : Nat → ℚ) (sampleframes : Int)
    (st : t_chunk) (hfrozen : st.channel.is_frozen = false)
    (hmode : st.channel.mode_type = MODE_TYPE_VAR) (hcntd : st.channel.cntd = 0)
    (hU : st.channel.U_cur.length = st.channel.out_cnt)
    (hA : st.channel.A_cur.length = st.channel.out_cnt) :
    (chunk_iter x in_ sig_in sampleframes st).channel = (_state_iterate in_ st.channel).1
    ∧ (chunk_iter x in_ sig_in sampleframes st).smp_left = st.smp_left
    ∧ (chunk_iter x in_ sig_in sampleframes st).out_arr = st.out_arr
    ∧ (chunk_iter x in_ sig_in sampleframes st).channel.mode_type = MODE_TYPE_FIX
    ∧ (chunk_iter x in_ sig_in sampleframes st).channel.cntd = INDEFINITE
    ∧ (chunk_iter x in_ sig_in sampleframes st).channel.U_targ = st.channel.U_targ
    ∧ (chunk_iter x in_ sig_in sampleframes st).channel.A_targ = st.channel.A_targ
    ∧ ∀ out, out < st.channel.out_cnt →
        rd (chunk_iter x in_ sig_in sampleframes st).channel.U_cur out = rd st.channel.U_targ out
        ∧ rd (chunk_iter x in_ sig_in sampleframes st).channel.A_cur out
            = rd st.channel.A_targ out := by
  have hit : chunk_iter x in_ sig_in sampleframes st =
      { st with channel := (_state_iterate in_ st.channel).1,
                msgs := st.msgs ++ (_state_iterate in_ st.channel).2 } := by
    unfold chunk_iter
    simp only [hfrozen, hcntd, if_true, if_false, Bool.false_eq_true]
  obtain ⟨h1, _, _, h4⟩ := state_iterate_var in_ st.channel hmode (by omega) (by omega)
  rw [hit]
  refine ⟨rfl, rfl, rfl, ?_, ?_, ?_, ?_, h4⟩
  · show (_state_iterate in_ st.channel).1.mode_type = MODE_TYPE_FIX
    rw [h1]
  · show (_state_iterate in_ st.channel).1.cntd = INDEFINITE
    rw [h1]
  · show (_state_iterate in_ st.channel).1.U_targ = st.channel.U_targ
    rw [h1]
  · show (_state_iterate in_ st.channel).1.A_targ = st.channel.A_targ
    rw [h1]

/-- C2 at work: the channel of `x_2` at the end of a ramp towards `[0, 1]`, the countdown
being 0 while four samples of the block are left. -/
theorem C2_completion_step_witness :
    (chunk_iter x_2 0 (fun _ => 1) 10 chunk_2_end).channel
        = (_state_iterate 0 chunk_2_end.channel).1
    ∧ (chunk_iter x_2 0 (fun _ => 1) 10 chunk_2_end).smp_left = chunk_2_end.smp_left
    ∧ (chunk_iter x_2 0 (fun _ => 1) 10 chunk_2_end).out_arr = chunk_2_end.out_arr
    ∧ (chunk_iter x_2 0 (fun _ => 1) 10 chunk_2_end).channel.mode_type = MODE_TYPE_FIX
    ∧ (chunk_iter x_2 0 (fun _ => 1) 10 chunk_2_end).channel.cntd = INDEFINITE
    ∧ (chunk_iter x_2 0 (fun _ => 1) 10 chunk_2_end).channel.U_targ = chunk_2_end.channel.U_targ
    ∧ (chunk_iter x_2 0 (fun _ => 1) 10 chunk_2_end).channel.A_targ = chunk_2_end.channel.A_targ
    ∧ ∀ out, out < chunk_2_end.channel.out_cnt →
        rd (chunk_iter x_2 0 (fun _ => 1) 10 chunk_2_end).channel.U_cur out
          = rd chunk_2_end.channel.U_targ out
        ∧ rd (chunk_iter x_2 0 (fun _ => 1) 10 chunk_2_end).channel.A_cur out
            = rd chunk_2_end.channel.A_targ out :=
  C2_completion_step x_2 0 (fun _ => 1) 10 chunk_2_end rfl rfl rfl rfl rfl

/-! ## The output loop of a ramping channel -/

theorem cur_only_refl (c : t_channel) : cur_only c c := ⟨rfl, rfl, rfl⟩

theorem cur_only_trans {a b c : t_channel} (h1 : cur_only a b) (h2 : cur_only b c) :
    cur_only a c := by
  obtain ⟨e1, u1, a1⟩ := h1
  obtain ⟨e2, u2, a2⟩ := h2
  refine ⟨?_, by omega, by omega⟩
  conv_lhs => rw [e2, e1]

theorem var_samples_fst (sig_in : Nat → ℚ) (gain dA : ℚ) (p n : Nat) (s : ℚ × (Nat → ℚ)) :
    (var_samples sig_in gain dA p n s).1 = s.1 + n * dA := by
  unfold var_samples
  induction n with
  | zero => simp [for_loop]
  | succ k ih =>
    rw [for_loop]
    simp only [ih]
    push_cast
    ring

theorem out_body_frame (x : t_diffuse) (sig_in : Nat → ℚ) (p cl cdv : Int) (out : Nat)
    (st : t_chunk) :
    cur_only st.channel (out_body x sig_in p cl cdv out st).channel
      ∧ (out_body x sig_in p cl cdv out st).smp_left = st.smp_left
      ∧ (out_body x sig_in p cl cdv out st).msgs = st.msgs := by
  unfold out_body
  simp only []
  split
  · split
    · exact ⟨cur_only_refl _, rfl, rfl⟩
    · exact ⟨cur_only_refl _, rfl, rfl⟩
  · split
    · split
      · exact ⟨⟨rfl, by simp [length_wr], by simp [length_wr]⟩, rfl, rfl⟩
      · exact ⟨⟨rfl, by simp [length_wr], by simp [length_wr]⟩, rfl, rfl⟩
    · exact ⟨cur_only_refl _, rfl, rfl⟩

theorem out_loop_frame (x : t_diffuse) (sig_in : Nat → ℚ) (p cl cdv : Int) (st : t_chunk) :
    cur_only st.channel (out_loop x sig_in p cl cdv st).channel
      ∧ (out_loop x sig_in p cl cdv st).smp_left = st.smp_left
      ∧ (out_loop x sig_in p cl cdv st).msgs = st.msgs := by
  unfold out_loop
  refine for_loop_inv
    (fun _ (t : t_chunk) =>
      cur_only st.channel t.channel ∧ t.smp_left = st.smp_left ∧ t.msgs = st.msgs)
    _ _ _ ⟨cur_only_refl _, rfl, rfl⟩ ?_
  intro i _ t ⟨h1, h2, h3⟩
  obtain ⟨g1, g2, g3⟩ := out_body_frame x sig_in p cl cdv i t
  exact ⟨cur_only_trans h1 g1, g2.trans h2, g3.trans h3⟩

theorem out_body_var (x : t_diffuse) (sig_in : Nat → ℚ) (p cl cdv : Int) (out : Nat)
    (st : t_chunk) (hmode : st.channel.mode_type = MODE_TYPE_VAR)
    (hfrozen : st.channel.is_frozen = false) (hcntd : st.channel.cntd ≠ INDEFINITE)
    (hcl : 1 ≤ cl) (hU : out < st.channel.U_cur.length) (hA : out < st.channel.A_cur.length) :
    rd (out_body x sig_in p cl cdv out st).channel.U_cur out = U_next st.channel cl cdv out
    ∧ rd (out_body x sig_in p cl cdv out st).channel.A_cur out
        = st.channel.interp_func (U_next st.channel cl cdv out) st.channel.interp_param
    ∧ ∀ i, i ≠ out →
        rd (out_body x sig_in p cl cdv out st).channel.U_cur i = rd st.channel.U_cur i
        ∧ rd (out_body x sig_in p cl cdv out st).channel.A_cur i = rd st.channel.A_cur i := by
  unfold out_body
  have hnot : ¬ (st.channel.mode_type = MODE_TYPE_FIX ∨ st.channel.is_frozen = true
      ∨ st.channel.cntd = INDEFINITE) := by
    rw [hmode, hfrozen]
    simp [hcntd]
  rw [if_neg hnot, if_pos hmode]
  simp only []
  have hclq : (cl : ℚ) ≠ 0 := by
    have : (1 : ℚ) ≤ (cl : ℚ) := by exact_mod_cast hcl
    linarith
  have hnat : ((cl.toNat : ℕ) : ℚ) = (cl : ℚ) := by
    have : ((cl.toNat : ℕ) : ℤ) = cl := Int.toNat_of_nonneg (by omega)
    exact_mod_cast this
  split
  · refine ⟨?_, ?_, ?_⟩
    · simp only [rd_wr_same _ _ _ hU, U_next]
    · simp only [rd_wr_same _ _ _ hU, rd_wr_same _ _ _ hA, U_next]
    · intro i hi
      exact ⟨rd_wr_ne _ _ _ _ (Ne.symm hi), rd_wr_ne _ _ _ _ (Ne.symm hi)⟩
  · refine ⟨?_, ?_, ?_⟩
    · simp only [rd_wr_same _ _ _ hU, U_next]
    · simp only [rd_wr_same _ _ _ hU, rd_wr_same _ _ _ hA, var_samples_fst, U_next, hnat]
      field_simp
    · intro i hi
      exact ⟨rd_wr_ne _ _ _ _ (Ne.symm hi), rd_wr_ne _ _ _ _ (Ne.symm hi)⟩

theorem out_loop_var (x : t_diffuse) (sig_in : Nat → ℚ) (p cl cdv : Int) (st : t_chunk)
    (hmode : st.channel.mode_type = MODE_TYPE_VAR)
    (hfrozen : st.channel.is_frozen = false) (hcntd : st.channel.cntd ≠ INDEFINITE)
    (hcl : 1 ≤ cl) (hU : x.out_cnt ≤ st.channel.U_cur.length)
    (hA : x.out_cnt ≤ st.channel.A_cur.length) :
    ∀ i, i < x.out_cnt →
      rd (out_loop x sig_in p cl cdv st).channel.U_cur i = U_next st.channel cl cdv i
      ∧ rd (out_loop x sig_in p cl cdv st).channel.A_cur i
          = st.channel.interp_func (U_next st.channel cl cdv i) st.channel.interp_param := by
  unfold out_loop
  have key := for_loop_inv
    (fun k (t : t_chunk) => cur_only st.channel t.channel
      ∧ (∀ i, i < k → rd t.channel.U_cur i = U_next st.channel cl cdv i
          ∧ rd t.channel.A_cur i
              = st.channel.interp_func (U_next st.channel cl cdv i) st.channel.interp_param)
      ∧ (∀ i, k ≤ i → rd t.channel.U_cur i = rd st.channel.U_cur i
          ∧ rd t.channel.A_cur i = rd st.channel.A_cur i))
    (out_body x sig_in p cl cdv) x.out_cnt st
    ⟨cur_only_refl _, fun i hi => absurd hi (Nat.not_lt_zero i), fun i _ => ⟨rfl, rfl⟩⟩ ?_
  · exact key.2.1
  · intro k hk t ⟨h1, h2, h3⟩
    have e := h1.1
    have tmode : t.channel.mode_type = MODE_TYPE_VAR := by rw [e]; exact hmode
    have tfrozen : t.channel.is_frozen = false := by rw [e]; exact hfrozen
    have tcntd : t.channel.cntd ≠ INDEFINITE := by rw [e]; exact hcntd
    have tfun : t.channel.interp_func = st.channel.interp_func := by rw [e]
    have tpar : t.channel.interp_param = st.channel.interp_param := by rw [e]
    have ttarg : t.channel.U_targ = st.channel.U_targ := by rw [e]
    obtain ⟨b1, b2, b3⟩ := out_body_var x sig_in p cl cdv k t tmode tfrozen tcntd hcl
      (by rw [h1.2.1]; omega) (by rw [h1.2.2]; omega)
    have hnext : U_next t.channel cl cdv k = U_next st.channel cl cdv k := by
      simp only [U_next, ttarg, (h3 k (le_refl k)).1]
    refine ⟨cur_only_trans h1 (out_body_frame x sig_in p cl cdv k t).1, ?_, ?_⟩
    · intro i hi
      by_cases hik : i = k
      · subst hik
        rw [b1, b2, hnext, tfun, tpar]
        exact ⟨rfl, rfl⟩
      · rw [(b3 i hik).1, (b3 i hik).2]
        exact h2 i (by omega)
    · intro i hi
      have hik : i ≠ k := by omega
      rw [(b3 i hik).1, (b3 i hik).2]
      exact h3 i (by omega)

/-! ## The scaling by the velocity -/

theorem trunc_of_nonneg (q : ℚ) (h : 0 ≤ q) : trunc q = ⌊q⌋ := by
  simp [trunc, h]

theorem trunc_intCast (n : Int) : trunc (n : ℚ) = n := by
  unfold trunc
  split <;> simp

theorem pow2_pos (e : Int) : 0 < pow2 e := by
  unfold pow2
  split
  · exact_mod_cast Nat.pos_pow_of_pos _ (by decide)
  · apply div_pos one_pos
    exact_mod_cast Nat.pos_pow_of_pos _ (by decide)

theorem round_even_nonneg (m : ℚ) (h : 0 ≤ m) : 0 ≤ round_even m := by
  have hf : 0 ≤ ⌊m⌋ := Int.floor_nonneg.mpr h
  unfold round_even
  simp only []
  split
  · exact hf
  · split
    · omega
    · split
      · exact hf
      · omega

/-- The rounding to a double keeps the sign of a value that is not negative. -/
theorem fl_nonneg (q : ℚ) (h : 0 ≤ q) : 0 ≤ fl q := by
  unfold fl
  split
  · exact le_refl 0
  · rename_i h0
    have hq : 0 < q := lt_of_le_of_ne h (Ne.symm h0)
    rw [if_pos hq]
    apply mul_nonneg
    · exact_mod_cast round_even_nonneg _ (div_nonneg h (le_of_lt (pow2_pos _)))
    · exact le_of_lt (pow2_pos _)

theorem trunc_nonneg (q : ℚ) (h : 0 ≤ q) : 0 ≤ trunc q := by
  unfold trunc
  rw [if_pos h]
  exact Int.floor_nonneg.mpr h

/-- A cast that does not overflow keeps the sign of a value that is not negative. -/
theorem to_int32_nonneg (q : ℚ) (h : 0 ≤ q) (hr : cast_in_range q) : 0 ≤ to_int32 q := by
  unfold to_int32
  unfold cast_in_range at hr
  rw [if_pos hr]
  exact trunc_nonneg _ (fl_nonneg q h)

theorem to_int32_in_range (q : ℚ) (hr : cast_in_range q) : to_int32 q = trunc (fl q) := by
  unfold to_int32
  unfold cast_in_range at hr
  rw [if_pos hr]

/-- The scaled countdown for a velocity that is not 0. -/
theorem cntd_d_vel_of_ne (c : t_channel) (hv : c.velocity ≠ 0) :
    cntd_d_vel c
      = if trunc ((c.cntd : ℚ) / c.velocity) = 0 ∧ c.cntd ≠ 0 then 1
        else trunc ((c.cntd : ℚ) / c.velocity) := by
  unfold cntd_d_vel
  simp only [if_neg hv]

theorem cntd_d_vel_le_left (c : t_channel) (L : Int) (hv : 0 < c.velocity) (hc : 0 < c.cntd)
    (hL : 0 < L) (hle : c.cntd ≤ smp_left_x_vel L c) : cntd_d_vel c ≤ L := by
  rw [cntd_d_vel_of_ne c (ne_of_gt hv)]
  unfold smp_left_x_vel at hle
  have hLv : (0 : ℚ) ≤ (L : ℚ) * c.velocity :=
    mul_nonneg (by exact_mod_cast hL.le) hv.le
  rw [trunc_of_nonneg _ hLv] at hle
  have h1 : (c.cntd : ℚ) ≤ (L : ℚ) * c.velocity := Int.le_floor.mp hle
  have h2 : (c.cntd : ℚ) / c.velocity ≤ (L : ℚ) := (div_le_iff₀ hv).mpr h1
  have hq : (0 : ℚ) ≤ (c.cntd : ℚ) / c.velocity :=
    div_nonneg (by exact_mod_cast hc.le) hv.le
  split
  · omega
  · rw [trunc_of_nonneg _ hq]
    have h3 : ((⌊(c.cntd : ℚ) / c.velocity⌋ : Int) : ℚ) ≤ (L : ℚ) :=
      le_trans (Int.floor_le _) h2
    exact_mod_cast h3

theorem le_smp_left_x_vel (c : t_channel) (L : Int) (hv : 1 ≤ c.velocity) (hL : 0 ≤ L) :
    L ≤ smp_left_x_vel L c := by
  unfold smp_left_x_vel
  have hLq : (0 : ℚ) ≤ (L : ℚ) := by exact_mod_cast hL
  have hLv : (0 : ℚ) ≤ (L : ℚ) * c.velocity := mul_nonneg hLq (by linarith)
  rw [trunc_of_nonneg _ hLv]
  apply Int.le_floor.mpr
  nlinarith

theorem cntd_d_vel_le_cntd (c : t_channel) (hv : 1 ≤ c.velocity) (hc : 0 < c.cntd) :
    cntd_d_vel c ≤ c.cntd := by
  rw [cntd_d_vel_of_ne c (ne_of_gt (lt_of_lt_of_le one_pos hv))]
  have hcq : (0 : ℚ) ≤ (c.cntd : ℚ) := by exact_mod_cast hc.le
  have hq : (0 : ℚ) ≤ (c.cntd : ℚ) / c.velocity := div_nonneg hcq (by linarith)
  split
  · omega
  · rw [trunc_of_nonneg _ hq]
    have h3 : ((⌊(c.cntd : ℚ) / c.velocity⌋ : Int) : ℚ) ≤ (c.cntd : ℚ) :=
      le_trans (Int.floor_le _) (div_le_self hcq hv)
    exact_mod_cast h3

theorem smp_left_x_vel_one (c : t_channel) (L : Int) (hv : c.velocity = 1) :
    smp_left_x_vel L c = L := by
  unfold smp_left_x_vel
  rw [hv, mul_one, trunc_intCast]

theorem cntd_d_vel_one (c : t_channel) (hv : c.velocity = 1) : cntd_d_vel c = c.cntd := by
  rw [cntd_d_vel_of_ne c (by rw [hv]; exact one_ne_zero), hv, div_one, trunc_intCast]
  split
  · rename_i h
    exact absurd h.1 h.2
  · rfl

/-! ## The passes of the chunk loop on a ramping channel -/

theorem chunk_iter_zero (x : t_diffuse) (in_ : Nat) (sig_in : Nat → ℚ) (sampleframes : Int)
    (st : t_chunk) (hfrozen : st.channel.is_frozen = false) (hcntd : st.channel.cntd = 0) :
    chunk_iter x in_ sig_in sampleframes st =
      { st with channel := (_state_iterate in_ st.channel).1,
                msgs := st.msgs ++ (_state_iterate in_ st.channel).2 } := by
  unfold chunk_iter
  simp only [hfrozen, hcntd, if_true, if_false, Bool.false_eq_true]

theorem chunk_iter_whole (x : t_diffuse) (in_ : Nat) (sig_in : Nat → ℚ) (sampleframes : Int)
    (st : t_chunk) (hfrozen : st.channel.is_frozen = false) (hcntd : 0 < st.channel.cntd)
    (hgt : st.channel.cntd > smp_left_x_vel st.smp_left st.channel) :
    chunk_iter x in_ sig_in sampleframes st =
      out_loop x sig_in (sampleframes - st.smp_left) st.smp_left (cntd_d_vel st.channel)
        { st with smp_left := 0,
                  channel := { st.channel with
                    cntd := st.channel.cntd - smp_left_x_vel st.smp_left st.channel } } := by
  unfold chunk_iter
  have h0 : ¬ (st.channel.cntd = 0) := by omega
  have h1 : ¬ (st.channel.cntd = INDEFINITE) := by unfold INDEFINITE; omega
  simp only [hfrozen, Bool.false_eq_true, if_false]
  rw [if_neg h0, if_neg h1, if_pos hgt]

theorem chunk_iter_finish (x : t_diffuse) (in_ : Nat) (sig_in : Nat → ℚ) (sampleframes : Int)
    (st : t_chunk) (hfrozen : st.channel.is_frozen = false) (hcntd : 0 < st.channel.cntd)
    (hle : ¬ st.channel.cntd > smp_left_x_vel st.smp_left st.channel) :
    chunk_iter x in_ sig_in sampleframes st =
      out_loop x sig_in (sampleframes - st.smp_left) (cntd_d_vel st.channel)
        (cntd_d_vel st.channel)
        { st with smp_left := st.smp_left - cntd_d_vel st.channel,
                  channel := { st.channel with cntd := 0 } } := by
  unfold chunk_iter
  have h0 : ¬ (st.channel.cntd = 0) := by omega
  have h1 : ¬ (st.channel.cntd = INDEFINITE) := by unfold INDEFINITE; omega
  simp only [hfrozen, Bool.false_eq_true, if_false]
  rw [if_neg h0, if_neg h1, if_neg hle]

/-! ## The chunk loop of a ramping channel -/

theorem iterate_loop_frame (c0 : t_channel) (n : Nat) :
    cur_only c0 (for_loop iterate_body n c0) := by
  refine for_loop_inv (fun _ (c : t_channel) => cur_only c0 c) iterate_body n c0
    (cur_only_refl c0) ?_
  intro i _ t ht
  exact cur_only_trans ht ⟨rfl, by simp [iterate_body, length_wr], by simp [iterate_body, length_wr]⟩

theorem state_iterate_frame (ind : Nat) (channel : t_channel)
    (hmode : channel.mode_type = MODE_TYPE_VAR) :
    cur_only { channel with cntd := INDEFINITE, mode_type := MODE_TYPE_FIX }
      (_state_iterate ind channel).1 := by
  unfold _state_iterate
  simp only [hmode]
  exact iterate_loop_frame _ _

/-- The two passes that end a ramp inside a block: the completion step, then one chunk with
the countdown indefinite. -/
theorem chunk_loop_at_zero (x : t_diffuse) (in_ : Nat) (sig_in : Nat → ℚ) (sampleframes : Int)
    (fuel : Nat) (hfuel : 2 ≤ fuel) (st : t_chunk) (hfrozen : st.channel.is_frozen = false)
    (hmode : st.channel.mode_type = MODE_TYPE_VAR) (hcntd : st.channel.cntd = 0)
    (hleft : st.smp_left ≠ 0) :
    ∃ st1, chunk_loop x in_ sig_in sampleframes fuel st = some st1
      ∧ st1.smp_left = 0 ∧ st1.channel = (_state_iterate in_ st.channel).1 := by
  obtain ⟨f, rfl⟩ : ∃ f, fuel = f + 2 := ⟨fuel - 2, by omega⟩
  have hfr := state_iterate_frame in_ st.channel hmode
  rw [chunk_loop, if_neg hleft, chunk_iter_zero _ _ _ _ _ hfrozen hcntd, chunk_loop,
    if_neg (by exact hleft)]
  rw [chunk_iter_indefinite _ _ _ _ _ (by rw [hfr.1]; exact hfrozen) (by rw [hfr.1]),
    chunk_loop_done _ _ _ _ _ _ rfl]
  exact ⟨_, rfl, rfl, rfl⟩

/-- The chunk loop on an unfrozen ramping channel returns after three passes at most; the
channel it leaves is told apart by the countdown and the scaled lengths. -/
theorem chunk_loop_ramp (x : t_diffuse) (in_ : Nat) (sig_in : Nat → ℚ) (sampleframes : Int)
    (fuel : Nat) (hfuel : 3 ≤ fuel) (st : t_chunk) (hfrozen : st.channel.is_frozen = false)
    (hmode : st.channel.mode_type = MODE_TYPE_VAR) (hcntd : 0 ≤ st.channel.cntd)
    (hv : 0 < st.channel.velocity) (hleft : 0 < st.smp_left) :
    ∃ st1, chunk_loop x in_ sig_in sampleframes fuel st = some st1 ∧ st1.smp_left = 0 ∧
      ((st.channel.cntd = 0 ∧ st1.channel = (_state_iterate in_ st.channel).1)
      ∨ (0 < st.channel.cntd ∧ st.channel.cntd > smp_left_x_vel st.smp_left st.channel
          ∧ st1.channel =
            (out_loop x sig_in (sampleframes - st.smp_left) st.smp_left (cntd_d_vel st.channel)
              { st with smp_left := 0,
                        channel := { st.channel with
                          cntd := st.channel.cntd
                            - smp_left_x_vel st.smp_left st.channel } }).channel)
      ∨ (0 < st.channel.cntd ∧ ¬ st.channel.cntd > smp_left_x_vel st.smp_left st.channel
          ∧ st.smp_left = cntd_d_vel st.channel
          ∧ st1.channel =
            (out_loop x sig_in (sampleframes - st.smp_left) (cntd_d_vel st.channel)
              (cntd_d_vel st.channel)
              { st with smp_left := st.smp_left - cntd_d_vel st.channel,
                        channel := { st.channel with cntd := 0 } }).channel)
      ∨ (0 < st.channel.cntd ∧ ¬ st.channel.cntd > smp_left_x_vel st.smp_left st.channel
          ∧ cntd_d_vel st.channel < st.smp_left
          ∧ st1.channel =
            (_state_iterate in_
              (out_loop x sig_in (sampleframes - st.smp_left) (cntd_d_vel st.channel)
                (cntd_d_vel st.channel)
                { st with smp_left := st.smp_left - cntd_d_vel st.channel,
                          channel := { st.channel with cntd := 0 } }).channel).1)) := by
  have hleft0 : st.smp_left ≠ 0 := by omega
  by_cases hz : st.channel.cntd = 0
  · obtain ⟨st1, h1, h2, h3⟩ := chunk_loop_at_zero x in_ sig_in sampleframes fuel (by omega) st
      hfrozen hmode hz hleft0
    exact ⟨st1, h1, h2, Or.inl ⟨hz, h3⟩⟩
  · have hpos : 0 < st.channel.cntd := by omega
    obtain ⟨f, rfl⟩ : ∃ f, fuel = f + 1 := ⟨fuel - 1, by omega⟩
    by_cases hgt : st.channel.cntd > smp_left_x_vel st.smp_left st.channel
    · refine ⟨_, ?_, ?_, Or.inr (Or.inl ⟨hpos, hgt, rfl⟩)⟩
      · rw [chunk_loop, if_neg hleft0, chunk_iter_whole _ _ _ _ _ hfrozen hpos hgt]
        exact chunk_loop_done _ _ _ _ _ _ (out_loop_frame _ _ _ _ _ _).2.1
      · exact (out_loop_frame _ _ _ _ _ _).2.1
    · have hle := cntd_d_vel_le_left st.channel st.smp_left hv hpos hleft (by omega)
      have hfr := out_loop_frame x sig_in (sampleframes - st.smp_left) (cntd_d_vel st.channel)
        (cntd_d_vel st.channel)
        { st with smp_left := st.smp_left - cntd_d_vel st.channel,
                  channel := { st.channel with cntd := 0 } }
      by_cases heq : st.smp_left = cntd_d_vel st.channel
      · refine ⟨_, ?_, ?_, Or.inr (Or.inr (Or.inl ⟨hpos, hgt, heq, rfl⟩))⟩
        · rw [chunk_loop, if_neg hleft0, chunk_iter_finish _ _ _ _ _ hfrozen hpos hgt]
          refine chunk_loop_done _ _ _ _ _ _ ?_
          rw [hfr.2.1]
          show st.smp_left - cntd_d_vel st.channel = 0
          omega
        · rw [hfr.2.1]
          show st.smp_left - cntd_d_vel st.channel = 0
          omega
      · have hlt : cntd_d_vel st.channel < st.smp_left := by omega
        rw [chunk_loop, if_neg hleft0, chunk_iter_finish _ _ _ _ _ hfrozen hpos hgt]
        obtain ⟨st1, h1, h2, h3⟩ := chunk_loop_at_zero x in_ sig_in sampleframes f (by omega)
          (out_loop x sig_in (sampleframes - st.smp_left) (cntd_d_vel st.channel)
            (cntd_d_vel st.channel)
            { st with smp_left := st.smp_left - cntd_d_vel st.channel,
                      channel := { st.channel with cntd := 0 } })
          (by rw [hfr.1.1]; exact hfrozen) (by rw [hfr.1.1]; exact hmode) (by rw [hfr.1.1])
          (by
            rw [hfr.2.1]
            show st.smp_left - cntd_d_vel st.channel ≠ 0
            omega)
        exact ⟨st1, h1, h2, Or.inr (Or.inr (Or.inr ⟨hpos, hgt, hlt, h3⟩))⟩

/-! ## The loop through the input channels -/

theorem channel_on_lt (x : t_diffuse) (c : Nat) (hon : (x.channel c).is_on = true) :
    c < x.channel_arr.length := by
  by_contra h
  have hn : x.channel c = channel_null := by
    unfold t_diffuse.channel
    rw [List.getD_eq_getElem?_getD, List.getElem?_eq_none (by omega)]
    rfl
  rw [hn] at hon
  exact absurd hon (by decide)

theorem channels_only_refl (x : t_diffuse) : channels_only x x := ⟨rfl, rfl⟩

theorem channels_only_trans {a b c : t_diffuse} (h1 : channels_only a b)
    (h2 : channels_only b c) : channels_only a c := by
  obtain ⟨e1, l1⟩ := h1
  obtain ⟨e2, l2⟩ := h2
  refine ⟨?_, by omega⟩
  conv_lhs => rw [e2, e1]

theorem channels_only_set (x : t_diffuse) (i : Nat) (c : t_channel) :
    channels_only x (x.set_channel i c) :=
  ⟨rfl, by simp [t_diffuse.set_channel]⟩

/-- What a returning pass of the channel loop does to the engine: the channel `in_` alone
may change, and it does through its chunk loop. -/
theorem channel_body_some (fuel : Nat) (in_arr : Nat → Nat → ℚ) (sampleframes in_ : Nat)
    (s s1 : t_perform) (h : channel_body fuel in_arr sampleframes in_ s = some s1) :
    channels_only s.x s1.x
    ∧ (∀ c, c ≠ in_ → s1.x.channel c = s.x.channel c)
    ∧ ((s.x.channel in_).is_on = false → s1.x.channel in_ = s.x.channel in_)
    ∧ ((s.x.channel in_).is_on = true →
        ∃ st st1 : t_chunk, st.channel = s.x.channel in_ ∧ st.smp_left = sampleframes
          ∧ chunk_loop s.x in_ (in_arr in_) sampleframes fuel st = some st1
          ∧ s1.x.channel in_ = st1.channel) := by
  unfold channel_body at h
  by_cases hon : (s.x.channel in_).is_on = true
  · have hoff : ¬ (s.x.channel in_).is_on = false := by simp [hon]
    simp only [if_neg hoff, Option.map_eq_some'] at h
    obtain ⟨st1, h1, h2⟩ := h
    subst h2
    refine ⟨channels_only_set _ _ _, ?_, ?_, ?_⟩
    · intro c hc
      exact channel_set_channel_ne _ _ _ _ (Ne.symm hc)
    · intro h0
      exact absurd h0 hoff
    · intro _
      exact ⟨_, st1, rfl, rfl, h1, channel_set_channel_same _ _ _ (channel_on_lt _ _ hon)⟩
  · have hoff : (s.x.channel in_).is_on = false := by simpa using hon
    simp only [hoff, if_true, Option.some.injEq] at h
    subst h
    exact ⟨channels_only_refl _, fun _ _ => rfl, fun _ => rfl, fun h0 => absurd h0 hon⟩

/-- Partial correctness of the channel loop for a relation `R` between a switched-on
channel before and after its chunk loop. -/
theorem channels_loop_some (fuel : Nat) (in_arr : Nat → Nat → ℚ) (sampleframes : Nat)
    (R : Nat → t_channel → t_channel → Prop) (s0 : t_perform)
    (hR : ∀ c (y : t_diffuse) (st st1 : t_chunk), (s0.x.channel c).is_on = true →
      channels_only s0.x y → st.channel = s0.x.channel c → st.smp_left = sampleframes →
      chunk_loop y c (in_arr c) sampleframes fuel st = some st1 →
      R c (s0.x.channel c) st1.channel) :
    ∀ (k : Nat) (s : t_perform),
      for_loop_opt (channel_body fuel in_arr sampleframes) k s0 = some s →
      channels_only s0.x s.x
      ∧ (∀ c, k ≤ c → s.x.channel c = s0.x.channel c)
      ∧ (∀ c, c < k → (s0.x.channel c).is_on = false → s.x.channel c = s0.x.channel c)
      ∧ (∀ c, c < k → (s0.x.channel c).is_on = true →
          R c (s0.x.channel c) (s.x.channel c)) := by
  intro k
  induction k with
  | zero =>
    intro s h
    simp only [for_loop_opt, Option.some.injEq] at h
    subst h
    exact ⟨channels_only_refl _, fun _ _ => rfl, fun c hc => absurd hc (Nat.not_lt_zero c),
      fun c hc => absurd hc (Nat.not_lt_zero c)⟩
  | succ k ih =>
    intro s h
    rw [for_loop_opt] at h
    obtain ⟨sk, hk, hb⟩ := Option.bind_eq_some.mp h
    obtain ⟨i1, i2, i3, i4⟩ := ih sk hk
    obtain ⟨b1, b2, b3, b4⟩ := channel_body_some fuel in_arr sampleframes k sk s hb
    have hkk : sk.x.channel k = s0.x.channel k := i2 k (le_refl k)
    refine ⟨channels_only_trans i1 b1, ?_, ?_, ?_⟩
    · intro c hc
      rw [b2 c (by omega)]
      exact i2 c (by omega)
    · intro c hc hoff
      by_cases hck : c = k
      · subst hck
        rw [b3 (by rw [hkk]; exact hoff)]
        exact hkk
      · rw [b2 c hck]
        exact i3 c (by omega) hoff
    · intro c hc hon
      by_cases hck : c = k
      · subst hck
        obtain ⟨st, st1, e1, e2, e3, e4⟩ := b4 (by rw [hkk]; exact hon)
        rw [e4]
        exact hR c sk.x st st1 hon i1 (e1.trans hkk) e2 e3
      · rw [b2 c hck]
        exact i4 c (by omega) hon

/-- The channel loop returns when the chunk loop of every switched-on channel does. -/
theorem channels_loop_returns (fuel : Nat) (in_arr : Nat → Nat → ℚ) (sampleframes : Nat)
    (s0 : t_perform)
    (hT : ∀ c (y : t_diffuse) (st : t_chunk), (s0.x.channel c).is_on = true →
      channels_only s0.x y → st.channel = s0.x.channel c → st.smp_left = sampleframes →
      ∃ st1, chunk_loop y c (in_arr c) sampleframes fuel st = some st1) :
    ∀ k : Nat, ∃ s, for_loop_opt (channel_body fuel in_arr sampleframes) k s0 = some s := by
  intro k
  induction k with
  | zero => exact ⟨s0, rfl⟩
  | succ k ih =>
    obtain ⟨sk, hk⟩ := ih
    obtain ⟨i1, i2, _, _⟩ := channels_loop_some fuel in_arr sampleframes (fun _ _ _ => True) s0
      (fun _ _ _ _ _ _ _ _ _ => trivial) k sk hk
    have hkk : sk.x.channel k = s0.x.channel k := i2 k (le_refl k)
    rw [for_loop_opt, hk]
    simp only [Option.bind_eq_bind, Option.some_bind]
    unfold channel_body
    by_cases hon : (s0.x.channel k).is_on = true
    · have hoff : ¬ (sk.x.channel k).is_on = false := by rw [hkk]; simp [hon]
      obtain ⟨st1, h1⟩ := hT k sk.x
        { channel := sk.x.channel k, smp_left := sampleframes, out_arr := sk.out_arr,
          msgs := sk.msgs, errs := sk.errs } hon i1 hkk rfl
      simp only [if_neg hoff, h1, Option.map_some']
      exact ⟨_, rfl⟩
    · have hoff : (sk.x.channel k).is_on = false := by rw [hkk]; simpa using hon
      simp only [hoff, if_true]
      exact ⟨_, rfl⟩

/-- Partial correctness of `diffuse_perform64` for a relation `R` between a switched-on
channel before and after its chunk loop. -/
theorem perform64_some (fuel : Nat) (x : t_diffuse) (in_arr out_arr : Nat → Nat → ℚ)
    (sampleframes : Nat) (R : Nat → t_channel → t_channel → Prop) (r : t_perform)
    (hR : ∀ c (y : t_diffuse) (st st1 : t_chunk), (x.channel c).is_on = true →
      channels_only x y → st.channel = x.channel c → st.smp_left = sampleframes →
      chunk_loop y c (in_arr c) sampleframes fuel st = some st1 →
      R c (x.channel c) st1.channel)
    (h : diffuse_perform64 fuel x in_arr out_arr sampleframes = some r) :
    channels_only x r.x
    ∧ (∀ c, x.channel_cnt ≤ c → r.x.channel c = x.channel c)
    ∧ (∀ c, c < x.channel_cnt → (x.channel c).is_on = false → r.x.channel c = x.channel c)
    ∧ (∀ c, c < x.channel_cnt → (x.channel c).is_on = true →
        R c (x.channel c) (r.x.channel c)) := by
  unfold diffuse_perform64 at h
  obtain ⟨s, hs, hr⟩ := Option.map_eq_some'.mp h
  have key := channels_loop_some fuel in_arr sampleframes R
    { x := x, out_arr := zero_outputs x.out_cnt sampleframes out_arr, msgs := [], errs := [] }
    hR x.channel_cnt s hs
  have hx : r.x = s.x := by
    rw [← hr]
    split <;> rfl
  rw [hx]
  exact key

/-- The method `diffuse_perform64` returns when the chunk loop of every switched-on channel
does. -/
theorem perform64_returns (fuel : Nat) (x : t_diffuse) (in_arr out_arr : Nat → Nat → ℚ)
    (sampleframes : Nat)
    (hT : ∀ c (y : t_diffuse) (st : t_chunk), (x.channel c).is_on = true →
      channels_only x y → st.channel = x.channel c → st.smp_left = sampleframes →
      ∃ st1, chunk_loop y c (in_arr c) sampleframes fuel st = some st1) :
    ∃ r, diffuse_perform64 fuel x in_arr out_arr sampleframes = some r := by
  unfold diffuse_perform64
  obtain ⟨s, hs⟩ := channels_loop_returns fuel in_arr sampleframes
    { x := x, out_arr := zero_outputs x.out_cnt sampleframes out_arr, msgs := [], errs := [] }
    hT x.channel_cnt
  rw [hs]
  exact ⟨_, rfl⟩

/-! ## One block on one channel -/

theorem completed_of_cur_only (in_ : Nat) (c c1 : t_channel)
    (hmode : c.mode_type = MODE_TYPE_VAR) (h : cur_only { c with cntd := 0 } c1) :
    cur_only { c with cntd := INDEFINITE, mode_type := MODE_TYPE_FIX } (_state_iterate in_ c1).1
    ∧ (c.out_cnt ≤ c.U_cur.length → c.out_cnt ≤ c.A_cur.length →
        ∀ i, i < c.out_cnt → rd (_state_iterate in_ c1).1.U_cur i = rd c.U_targ i
          ∧ rd (_state_iterate in_ c1).1.A_cur i = rd c.A_targ i) := by
  have m1 : c1.mode_type = MODE_TYPE_VAR := by rw [h.1]; exact hmode
  have hfr := state_iterate_frame in_ c1 m1
  have hv := fun hU hA => (state_iterate_var in_ c1 m1 hU hA).2.2.2
  obtain ⟨e1, l1u, l1a⟩ := h
  obtain ⟨e2, l2u, l2a⟩ := hfr
  generalize (_state_iterate in_ c1).1 = r at e2 l2u l2a hv ⊢
  have ho : c1.out_cnt = c.out_cnt := by rw [e1]
  have hT : c1.U_targ = c.U_targ := by rw [e1]
  have hAT : c1.A_targ = c.A_targ := by rw [e1]
  refine ⟨⟨?_, by rw [l2u]; exact l1u, by rw [l2a]; exact l1a⟩, ?_⟩
  · conv_lhs => rw [e2]
    congr 1 <;> rw [e1]
  · intro hU hA i hi
    have := hv (by rw [ho, l1u]; exact hU) (by rw [ho, l1a]; exact hA) i (by omega)
    rw [hT, hAT] at this
    exact this

/-- The chunk loop of a block of `sampleframes` samples returns, with three passes at most,
on every channel on which it can run, and leaves the channel as `block_rel` tells. -/
theorem chunk_loop_block (x : t_diffuse) (in_ : Nat) (sig_in : Nat → ℚ) (sampleframes : Nat)
    (fuel : Nat) (hfuel : 3 ≤ fuel) (st : t_chunk) (hleft : st.smp_left = sampleframes)
    (hrun : chan_run st.channel) :
    ∃ st1, chunk_loop x in_ sig_in sampleframes fuel st = some st1
      ∧ block_rel sampleframes st.channel st1.channel := by
  by_cases hfix : st.channel.is_frozen = true ∨ st.channel.cntd = INDEFINITE
  · refine ⟨_, chunk_loop_fixed x in_ sig_in sampleframes fuel (by omega) st hleft hfix, ?_⟩
    exact Or.inl ⟨rfl, by tauto⟩
  · have hfrozen : st.channel.is_frozen = false := by
      cases h : st.channel.is_frozen
      · rfl
      · exact absurd (Or.inl h) hfix
    obtain ⟨hmode, hc, hv⟩ : st.channel.mode_type = MODE_TYPE_VAR ∧ 0 ≤ st.channel.cntd
        ∧ 0 < st.channel.velocity := by
      rcases hrun with h | h | h
      · exact absurd (Or.inl h) hfix
      · exact absurd (Or.inr h) hfix
      · exact h
    by_cases h0 : sampleframes = 0
    · refine ⟨st, chunk_loop_done _ _ _ _ _ _ (by rw [hleft, h0]; rfl), ?_⟩
      exact Or.inl ⟨rfl, Or.inr (Or.inr h0)⟩
    · have hL : 0 < sampleframes := Nat.pos_of_ne_zero h0
      have hLi : 0 < st.smp_left := by rw [hleft]; exact_mod_cast hL
      obtain ⟨st1, h1, _, h3⟩ := chunk_loop_ramp x in_ sig_in sampleframes fuel hfuel st hfrozen
        hmode hc hv hLi
      refine ⟨st1, h1, ?_⟩
      rcases h3 with ⟨hz, e⟩ | ⟨hpos, hgt, e⟩ | ⟨hpos, hgt, heq, e⟩ | ⟨hpos, hgt, hlt, e⟩
      · have hco : cur_only { st.channel with cntd := 0 } st.channel := by
          refine ⟨?_, rfl, rfl⟩
          conv_lhs => rw [show st.channel = { st.channel with cntd := st.channel.cntd } from rfl]
          rw [hz]
        obtain ⟨k1, k2⟩ := completed_of_cur_only in_ st.channel st.channel hmode hco
        rw [e]
        exact Or.inr (Or.inr ⟨hfrozen, hmode, hL, hc, k1, k2⟩)
      · rw [e]
        refine Or.inr (Or.inl ⟨hfrozen, hmode, hL, hc, _, ?_, ?_, (out_loop_frame _ _ _ _ _ _).1⟩)
        · omega
        · intro hv1
          have := le_smp_left_x_vel st.channel st.smp_left hv1 hLi.le
          rw [hleft] at this ⊢
          omega
      · rw [e]
        refine Or.inr (Or.inl ⟨hfrozen, hmode, hL, hc, 0, le_refl 0, ?_,
          (out_loop_frame _ _ _ _ _ _).1⟩)
        intro hv1
        have := cntd_d_vel_le_cntd st.channel hv1 hpos
        rw [hleft] at heq
        omega
      · obtain ⟨k1, k2⟩ := completed_of_cur_only in_ st.channel _ hmode
          (out_loop_frame x sig_in (sampleframes - st.smp_left) (cntd_d_vel st.channel)
            (cntd_d_vel st.channel)
            { st with smp_left := st.smp_left - cntd_d_vel st.channel,
                      channel := { st.channel with cntd := 0 } }).1
        rw [e]
        exact Or.inr (Or.inr ⟨hfrozen, hmode, hL, hc, k1, k2⟩)

theorem block_rel_run (L : Nat) (c c1 : t_channel) (h : block_rel L c c1) (hrun : chan_run c) :
    chan_run c1 ∧ c1.is_on = c.is_on ∧ c1.is_frozen = c.is_frozen := by
  rcases h with ⟨e, _⟩ | ⟨hfrozen, hmode, _, hc, n, hn, _, hco⟩ | ⟨_, _, _, _, hco, _⟩
  · rw [e]
    exact ⟨hrun, rfl, rfl⟩
  · have hv : 0 < c.velocity := by
      rcases hrun with h | h | h
      · rw [hfrozen] at h; exact absurd h (by decide)
      · rw [h] at hc; exact absurd hc (by decide)
      · exact h.2.2
    refine ⟨Or.inr (Or.inr ⟨by rw [hco.1]; exact hmode, by rw [hco.1]; exact hn,
      by rw [hco.1]; exact hv⟩), by rw [hco.1], by rw [hco.1]⟩
  · exact ⟨Or.inr (Or.inl (by rw [hco.1])), by rw [hco.1], by rw [hco.1]⟩

/-! ## One block and a sequence of blocks on the engine -/

/-- Total correctness of `diffuse_perform64`: when the chunk loop can run on every
switched-on channel, the method returns with three passes at most for each channel, and every
channel is either left as it was or changed as `block_rel` tells. -/
theorem perform64_block (fuel : Nat) (hfuel : 3 ≤ fuel) (x : t_diffuse)
    (in_arr out_arr : Nat → Nat → ℚ) (sampleframes : Nat)
    (hrun : ∀ c, (x.channel c).is_on = true → chan_run (x.channel c)) :
    ∃ r, diffuse_perform64 fuel x in_arr out_arr sampleframes = some r
      ∧ channels_only x r.x
      ∧ (∀ c, c < x.channel_cnt → (x.channel c).is_on = true →
          block_rel sampleframes (x.channel c) (r.x.channel c))
      ∧ (∀ c, ¬ (c < x.channel_cnt ∧ (x.channel c).is_on = true) →
          r.x.channel c = x.channel c) := by
  obtain ⟨r, hr⟩ := perform64_returns fuel x in_arr out_arr sampleframes
    (fun c y st hon _ e1 e2 => by
      obtain ⟨st1, h1, _⟩ := chunk_loop_block y c (in_arr c) sampleframes fuel hfuel st e2
        (by rw [e1]; exact hrun c hon)
      exact ⟨st1, h1⟩)
  obtain ⟨k1, k2, k3, k4⟩ := perform64_some fuel x in_arr out_arr sampleframes
    (fun _ ch ch1 => block_rel sampleframes ch ch1) r
    (fun c y st st1 hon _ e1 e2 e3 => by
      obtain ⟨st2, h1, h2⟩ := chunk_loop_block y c (in_arr c) sampleframes fuel hfuel st e2
        (by rw [e1]; exact hrun c hon)
      rw [h1] at e3
      rw [← Option.some.inj e3, ← e1]
      exact h2) hr
  refine ⟨r, hr, k1, k4, ?_⟩
  intro c hc
  by_cases hlt : c < x.channel_cnt
  · exact k3 c hlt (by
      cases h : (x.channel c).is_on
      · rfl
      · exact absurd ⟨hlt, h⟩ hc)
  · exact k2 c (by omega)

/-- Induction over a sequence of blocks, for a property `I n x` of the engine `x` reached
after `n` samples. -/
theorem perform_blocks_ind (fuel : Nat) (out_arr : Nat → Nat → ℚ) (I : Nat → t_diffuse → Prop)
    (hstep : ∀ n x in_arr sampleframes, I n x →
      ∃ r, diffuse_perform64 fuel x in_arr out_arr sampleframes = some r
        ∧ I (n + sampleframes) r.x) :
    ∀ (blocks : List ((Nat → Nat → ℚ) × Nat)) (n : Nat) (x : t_diffuse), I n x →
      ∃ x1, perform_blocks fuel out_arr blocks x = some x1 ∧ I (n + blocks_len blocks) x1 := by
  intro blocks
  induction blocks with
  | nil =>
    intro n x h
    exact ⟨x, rfl, by simpa [blocks_len] using h⟩
  | cons b bs ih =>
    intro n x h
    obtain ⟨r, h1, h2⟩ := hstep n x b.1 b.2 h
    obtain ⟨x1, h3, h4⟩ := ih (n + b.2) r.x h2
    refine ⟨x1, ?_, ?_⟩
    · rw [perform_blocks, h1]
      exact h3
    · have e : n + blocks_len (b :: bs) = n + b.2 + blocks_len bs := by
        simp [blocks_len, Nat.add_assoc]
      rw [e]
      exact h4

/-- Induction over a sequence of blocks that returns, for a property `I` of the engine. -/
theorem perform_blocks_some (fuel : Nat) (out_arr : Nat → Nat → ℚ) (I : t_diffuse → Prop)
    (hstep : ∀ x in_arr sampleframes r, I x →
      diffuse_perform64 fuel x in_arr out_arr sampleframes = some r → I r.x) :
    ∀ (blocks : List ((Nat → Nat → ℚ) × Nat)) (x x1 : t_diffuse), I x →
      perform_blocks fuel out_arr blocks x = some x1 → I x1 := by
  intro blocks
  induction blocks with
  | nil =>
    intro x x1 h e
    simp only [perform_blocks, Option.some.injEq] at e
    rw [← e]
    exact h
  | cons b bs ih =>
    intro x x1 h e
    rw [perform_blocks] at e
    obtain ⟨r, h1, h2⟩ := Option.bind_eq_some.mp e
    exact ih r.x x1 (hstep x b.1 b.2 r h h1) h2

theorem run_preserved (sampleframes : Nat) (x y : t_diffuse)
    (hrun : ∀ c, (x.channel c).is_on = true → chan_run (x.channel c))
    (h1 : ∀ c, c < x.channel_cnt → (x.channel c).is_on = true →
      block_rel sampleframes (x.channel c) (y.channel c))
    (h2 : ∀ c, ¬ (c < x.channel_cnt ∧ (x.channel c).is_on = true) →
      y.channel c = x.channel c) :
    ∀ c, (y.channel c).is_on = true → chan_run (y.channel c) := by
  intro c hon
  by_cases hc : c < x.channel_cnt ∧ (x.channel c).is_on = true
  · exact (block_rel_run _ _ _ (h1 c hc.1 hc.2) (hrun c hc.2)).1
  · rw [h2 c hc] at hon ⊢
    exact hrun c hon

/-! ## C5 : a frozen channel -/

theorem chunk_loop_frozen_some (x : t_diffuse) (in_ : Nat) (sig_in : Nat → ℚ)
    (sampleframes : Nat) (fuel : Nat) (st st1 : t_chunk) (hleft : st.smp_left = sampleframes)
    (hfrozen : st.channel.is_frozen = true)
    (h : chunk_loop x in_ sig_in sampleframes fuel st = some st1) :
    st1.channel = st.channel := by
  cases fuel with
  | zero =>
    unfold chunk_loop at h
    split at h
    · rw [← Option.some.inj h]
    · exact absurd h (by simp)
  | succ f =>
    rw [chunk_loop_fixed x in_ sig_in sampleframes (f + 1) (by omega) st hleft (Or.inl hfrozen)]
      at h
    rw [← Option.some.inj h]

theorem channel_frozen_lt (x : t_diffuse) (c : Nat) (h : (x.channel c).is_frozen = true) :
    c < x.channel_arr.length := by
  by_contra hn
  have e : x.channel c = channel_null := by
    unfold t_diffuse.channel
    rw [List.getD_eq_getElem?_getD, List.getElem?_eq_none (by omega)]
    rfl
  rw [e] at h
  exact absurd h (by decide)

/-- C5: a frozen channel, in any mode and with any countdown, is left as it was by
`diffuse_perform64` over any sequence of blocks that returns: `U_cur`, `A_cur`, the countdown
and the mode are unchanged, and unfreezing the channel afterwards gives back the channel of
before the freeze period, with the same countdown. The sequence does return, with three
passes of the chunk loop at most, when the chunk loop can run on every switched-on channel. -/
theorem C5_frozen_channel_unchanged (x : t_diffuse) (out_arr : Nat → Nat → ℚ)
    (blocks : List ((Nat → Nat → ℚ) × Nat)) (c : Nat)
    (hfrozen : (x.channel c).is_frozen = true) :
    (∀ fuel x1, perform_blocks fuel out_arr blocks x = some x1 →
        x1.channel c = x.channel c
        ∧ (c < x.channel_cnt →
            (state_freeze x1 [.A_LONG c, .A_LONG 0]).x.channel c
              = { x.channel c with is_frozen := false }))
    ∧ (∀ fuel, 3 ≤ fuel → (∀ c1, (x.channel c1).is_on = true → chan_run (x.channel c1)) →
        ∃ x1, perform_blocks fuel out_arr blocks x = some x1) := by
  refine ⟨?_, ?_⟩
  · intro fuel x1 h
    have key := perform_blocks_some fuel out_arr
      (fun y => channels_only x y ∧ y.channel c = x.channel c)
      (fun y in_arr sampleframes r hy hr => by
        obtain ⟨k1, k2, k3, k4⟩ := perform64_some fuel y in_arr out_arr sampleframes
          (fun _ ch ch1 => ch.is_frozen = true → ch1 = ch) r
          (fun c1 z st st1 _ _ e1 e2 e3 hf => by
            rw [← e1]
            exact chunk_loop_frozen_some z c1 (in_arr c1) sampleframes fuel st st1 e2
              (by rw [e1]; exact hf) e3) hr
        refine ⟨channels_only_trans hy.1 k1, ?_⟩
        rw [← hy.2]
        by_cases hc : c < y.channel_cnt
        · by_cases hon : (y.channel c).is_on = true
          · exact k4 c hc hon (by rw [hy.2]; exact hfrozen)
          · exact k3 c hc (by simpa using hon)
        · exact k2 c (by omega))
      blocks x x1 ⟨channels_only_refl x, rfl⟩ h
    obtain ⟨hco, hch⟩ := key
    refine ⟨hch, ?_⟩
    intro hc
    have hcnt : x1.channel_cnt = x.channel_cnt := by rw [hco.1]
    have hlt : c < x1.channel_arr.length := by
      rw [hco.2]
      exact channel_frozen_lt x c hfrozen
    have hfind : _channel_find x1 (.A_LONG c) = some c := by
      have hi : index_int32 (c : Int) x.channel_cnt = c := by
        unfold index_int32
        rw [if_pos ⟨Int.natCast_nonneg c, by exact_mod_cast hc⟩]
      simp [_channel_find, is_long, atom_getlong, hcnt, hi, hc]
    simp only [state_freeze, atom_at, List.getD_cons_zero, List.getD_cons_succ, hfind,
      is_long, atom_getlong]
    simp only [List.length_cons, List.length_nil]
    have h2 : ¬ (0 + 1 + 1 ≠ 2) := by decide
    have h3 : ¬ ((0 : Int) ≠ 0 ∧ (0 : Int) ≠ 1) := by decide
    rw [if_neg h2, if_neg (by decide), if_neg h3, channel_set_channel_same _ _ _ hlt, hch]
    simp
  · intro fuel hfuel hrun
    obtain ⟨x1, h1, _⟩ := perform_blocks_ind fuel out_arr
      (fun _ y => ∀ c1, (y.channel c1).is_on = true → chan_run (y.channel c1))
      (fun n y in_arr sampleframes hy => by
        obtain ⟨r, h1, _, h3, h4⟩ := perform64_block fuel hfuel y in_arr out_arr sampleframes hy
        exact ⟨r, h1, run_preserved sampleframes y r.x hy h3 h4⟩)
      blocks 0 x hrun
    exact ⟨x1, h1⟩

/-- C5 at work: the engine `x_2_frozen`, frozen five samples before the end of a ramp,
over blocks of 4, 0 and 64 samples. -/
theorem C5_frozen_channel_unchanged_witness :
    (∀ fuel x1,
        perform_blocks fuel (fun _ _ => 0)
          [(fun _ _ => 1, 4), (fun _ _ => 1, 0), (fun _ _ => 1, 64)] x_2_frozen = some x1 →
        x1.channel 0 = x_2_frozen.channel 0
        ∧ (0 < x_2_frozen.channel_cnt →
            (state_freeze x1 [.A_LONG (0 : Nat), .A_LONG 0]).x.channel 0
              = { x_2_frozen.channel 0 with is_frozen := false }))
    ∧ (∀ fuel, 3 ≤ fuel →
        (∀ c1, (x_2_frozen.channel c1).is_on = true → chan_run (x_2_frozen.channel c1)) →
        ∃ x1, perform_blocks fuel (fun _ _ => 0)
          [(fun _ _ => 1, 4), (fun _ _ => 1, 0), (fun _ _ => 1, 64)] x_2_frozen = some x1) :=
  C5_frozen_channel_unchanged x_2_frozen (fun _ _ => 0)
    [(fun _ _ => 1, 4), (fun _ _ => 1, 0), (fun _ _ => 1, 64)] 0 rfl

/-! ## The function `_state_ramp` -/

theorem length_wr_int (a : List ℚ) (j : Int) (v : ℚ) : (wr_int a j v).length = a.length := by
  unfold wr_int
  split <;> simp

theorem rd_wr_int_same (a : List ℚ) (j : Int) (v : ℚ) (h0 : 0 ≤ j) (h1 : j.toNat < a.length) :
    rd (wr_int a j v) j.toNat = v := by
  unfold wr_int
  rw [if_pos h0]
  exact rd_wr_same a j.toNat v h1

theorem rd_wr_int_ne (a : List ℚ) (j : Int) (m : Nat) (v : ℚ) (h : j ≠ m) :
    rd (wr_int a j v) m = rd a m := by
  unfold wr_int
  split
  · exact rd_wr_ne a j.toNat m v (by omega)
  · rfl

/-- The index map `ch1 ↦ (ch1 + offset) % out_cnt` of `_state_ramp` sends different outputs
to different indices. -/
theorem tmod_inj (M : Nat) (off : Int) (i j : Nat) (hi : i < M) (hj : j < M)
    (h : Int.tmod (i + off) M = Int.tmod (j + off) M) : i = j := by
  have e1 := Int.tmod_add_tdiv ((i : Int) + off) M
  have e2 := Int.tmod_add_tdiv ((j : Int) + off) M
  have hd : (M : Int) ∣ ((i : Int) - j) := by
    refine ⟨((i : Int) + off).tdiv M - ((j : Int) + off).tdiv M, ?_⟩
    rw [mul_sub]
    omega
  have hz : (i : Int) - j = 0 := by
    apply Int.eq_zero_of_abs_lt_dvd hd
    rw [abs_lt]
    constructor <;> omega
  omega

theorem targ_only_refl (c : t_channel) : targ_only c c := ⟨rfl, rfl, rfl⟩

theorem targ_only_trans {a b c : t_channel} (h1 : targ_only a b) (h2 : targ_only b c) :
    targ_only a c := by
  obtain ⟨e1, u1, a1⟩ := h1
  obtain ⟨e2, u2, a2⟩ := h2
  refine ⟨?_, by omega, by omega⟩
  conv_lhs => rw [e2, e1]

theorem ramp_body_frame (M : Nat) (state : t_state) (off : Int) (ch1 : Nat) (c : t_channel) :
    targ_only c (ramp_body M state off ch1 c) :=
  ⟨rfl, by simp [ramp_body, length_wr_int], by simp [ramp_body, length_wr_int]⟩

theorem ramp_loop_frame (M : Nat) (state : t_state) (off : Int) (n : Nat) (c0 : t_channel) :
    targ_only c0 (for_loop (ramp_body M state off) n c0) := by
  refine for_loop_inv (fun _ (c : t_channel) => targ_only c0 c) _ n c0 (targ_only_refl c0) ?_
  intro i _ t ht
  exact targ_only_trans ht (ramp_body_frame M state off i t)

/-- After the loop of `_state_ramp`, the target entry of index `(i + offset) % out_cnt` holds
the value of the state for the output `i`, wherever that index lies inside the arrays. -/
theorem ramp_loop_targets (M : Nat) (state : t_state) (off : Int) (n : Nat) (c0 : t_channel)
    (hn : n ≤ M) :
    ∀ i, i < n → 0 ≤ Int.tmod (i + off) M →
      (Int.tmod (i + off) M).toNat < c0.U_targ.length →
      (Int.tmod (i + off) M).toNat < c0.A_targ.length →
      rd (for_loop (ramp_body M state off) n c0).U_targ (Int.tmod (i + off) M).toNat
          = rd state.U_cur_arr i
      ∧ rd (for_loop (ramp_body M state off) n c0).A_targ (Int.tmod (i + off) M).toNat
          = rd state.A_arr i := by
  induction n with
  | zero =>
    intro i hi
    omega
  | succ k ih =>
    intro i hi h0 hU hA
    have hfr := ramp_loop_frame M state off k c0
    rw [for_loop]
    generalize for_loop (ramp_body M state off) k c0 = c at hfr ih
    by_cases hik : i = k
    · subst hik
      simp only [ramp_body]
      exact ⟨rd_wr_int_same _ _ _ h0 (by rw [hfr.2.1]; exact hU),
        rd_wr_int_same _ _ _ h0 (by rw [hfr.2.2]; exact hA)⟩
    · have hne : Int.tmod (k + off) M ≠ ((Int.tmod (i + off) M).toNat : Int) := by
        rw [Int.toNat_of_nonneg h0]
        intro e
        exact hik (tmod_inj M off i k (by omega) (by omega) e.symm)
      simp only [ramp_body]
      rw [rd_wr_int_ne _ _ _ _ hne, rd_wr_int_ne _ _ _ _ hne]
      exact ih (by omega) i (by omega) h0 hU hA

theorem ramp_loop_targets_zero (M : Nat) (state : t_state) (n : Nat) (c0 : t_channel)
    (hn : n ≤ M) (hU : n ≤ c0.U_targ.length) (hA : n ≤ c0.A_targ.length) :
    ∀ i, i < n →
      rd (for_loop (ramp_body M state 0) n c0).U_targ i = rd state.U_cur_arr i
      ∧ rd (for_loop (ramp_body M state 0) n c0).A_targ i = rd state.A_arr i := by
  intro i hi
  have e : Int.tmod ((i : Int) + 0) M = i := by
    rw [add_zero]
    exact Int.tmod_eq_of_lt (by omega) (by omega)
  have h := ramp_loop_targets M state 0 n c0 hn i hi (by rw [e]; omega)
    (by rw [e]; simp; omega) (by rw [e]; simp; omega)
  rw [e] at h
  simpa using h

/-- The channel that `_state_ramp` schedules: the countdown, the ramping mode and the index
of the state are set, then the targets are written. -/
theorem state_ramp_channel (x : t_diffuse) (ind : Nat) (state : t_state) (cntd off : Int)
    (hind : ind < x.channel_arr.length) :
    (_state_ramp x ind state cntd off).channel ind =
      for_loop (ramp_body x.out_cnt state off) state.cnt
        { x.channel ind with cntd := cntd, mode_type := MODE_TYPE_VAR,
                             state_ind := state.index } := by
  unfold _state_ramp
  exact channel_set_channel_same _ _ _ hind

theorem state_ramp_other (x : t_diffuse) (ind : Nat) (state : t_state) (cntd off : Int)
    (c : Nat) (hc : ind ≠ c) :
    (_state_ramp x ind state cntd off).channel c = x.channel c := by
  unfold _state_ramp
  exact channel_set_channel_ne _ _ _ _ hc

theorem state_ramp_only (x : t_diffuse) (ind : Nat) (state : t_state) (cntd off : Int) :
    channels_only x (_state_ramp x ind state cntd off) := by
  unfold _state_ramp
  exact channels_only_set _ _ _

/-! ## The ramping methods: what a successful call schedules -/

theorem find_channel_some (x : t_diffuse) (a : t_atom) (c : Nat)
    (h : _channel_find x a = some c) :
    (∃ n : Int, a = .A_LONG n ∧ index_int32 n x.channel_cnt = c) ∧ c < x.channel_cnt := by
  unfold _channel_find at h
  split at h
  · rename_i hc
    cases a with
    | A_LONG n =>
      simp only [atom_getlong] at hc h
      have hn : (index_int32 n x.channel_cnt).toNat = c := Option.some.inj h
      refine ⟨⟨n, rfl, ?_⟩, ?_⟩
      · omega
      · omega
    | A_FLOAT f => simp [is_long] at hc
    | A_SYM s => simp [is_long] at hc
  · exact absurd h (by simp)

theorem find_state_some (arr : List t_state) (cnt : Nat) (a : t_atom) (s : Nat)
    (h : _state_find arr cnt a = some s) :
    (∃ n : Int, a = .A_LONG n ∧ index_int32 n cnt = s) ∧ s < cnt := by
  unfold _state_find at h
  split at h
  · exact absurd h (by simp)
  · rename_i hc
    simp only [] at h
    split at h
    · exact absurd h (by simp)
    · rename_i hr
      cases a with
      | A_LONG n =>
        simp only [atom_getlong] at hr h
        have hn : (index_int32 n cnt).toNat = s := Option.some.inj h
        refine ⟨⟨n, rfl, ?_⟩, ?_⟩
        · omega
        · omega
      | A_FLOAT f => simp [is_long] at hc
      | A_SYM s => simp [is_long] at hc

theorem scheduled_frame (x : t_diffuse) (set_interp : t_diffuse → t_channel → t_channel)
    (hf : is_family set_interp) (sched : t_state) (cntd off : Int) (c0 : t_channel) :
    sched_frame c0 (scheduled x set_interp sched cntd off c0)
    ∧ (scheduled x set_interp sched cntd off c0).cntd = cntd
    ∧ (scheduled x set_interp sched cntd off c0).mode_type = MODE_TYPE_VAR
    ∧ (scheduled x set_interp sched cntd off c0).state_ind = sched.index
    ∧ (scheduled x set_interp sched cntd off c0).interp_func = (set_interp x c0).interp_func
    ∧ (scheduled x set_interp sched cntd off c0).interp_inv_func
        = (set_interp x c0).interp_inv_func
    ∧ (scheduled x set_interp sched cntd off c0).interp_param
        = (set_interp x c0).interp_param := by
  obtain ⟨e, lu, la⟩ := ramp_loop_frame x.out_cnt sched off sched.cnt
    { set_interp x c0 with cntd := cntd, mode_type := MODE_TYPE_VAR, state_ind := sched.index }
  unfold scheduled
  generalize for_loop _ _ _ = r at e lu la ⊢
  rw [e]
  rcases hf with h | h <;> subst h <;>
    exact ⟨⟨rfl, rfl, rfl, rfl, rfl, rfl, rfl, rfl, lu, la⟩, rfl, rfl, rfl, rfl, rfl, rfl⟩

theorem scheduled_targets_zero (x : t_diffuse)
    (set_interp : t_diffuse → t_channel → t_channel) (hf : is_family set_interp)
    (sched : t_state) (cntd : Int) (c0 : t_channel) (hcnt : sched.cnt ≤ x.out_cnt)
    (hU : sched.cnt ≤ c0.U_targ.length) (hA : sched.cnt ≤ c0.A_targ.length) :
    ∀ i, i < sched.cnt →
      rd (scheduled x set_interp sched cntd 0 c0).U_targ i = rd sched.U_cur_arr i
      ∧ rd (scheduled x set_interp sched cntd 0 c0).A_targ i = rd sched.A_arr i := by
  intro i hi
  unfold scheduled
  refine ramp_loop_targets_zero x.out_cnt sched sched.cnt _ hcnt ?_ ?_ i hi
  · rcases hf with h | h <;> subst h <;> exact hU
  · rcases hf with h | h <;> subst h <;> exact hA

theorem states_only_refl (x : t_diffuse) : states_only x x := ⟨rfl, rfl, rfl⟩

theorem states_only_trans {a b c : t_diffuse} (h1 : states_only a b) (h2 : states_only b c) :
    states_only a c := by
  obtain ⟨e1, l1, t1⟩ := h1
  obtain ⟨e2, l2, t2⟩ := h2
  refine ⟨?_, by omega, by omega⟩
  conv_lhs => rw [e2, e1]

theorem states_only_set_state (x : t_diffuse) (s : Nat) (st : t_state) :
    states_only x (x.set_state s st) :=
  ⟨rfl, by simp [t_diffuse.set_state], rfl⟩

theorem set_U_cur_cnt (st : t_state) (i : Nat) (v : ℚ) : (st.set_U_cur i v).cnt = st.cnt := by
  unfold t_state.set_U_cur
  split <;> rfl

theorem states_only_tmp (x : t_diffuse) (st : t_state) (h : st.cnt = x.state_tmp.cnt) :
    states_only x { x with state_tmp := st } :=
  ⟨rfl, rfl, h⟩

theorem states_only_loop (body : Nat → t_diffuse → t_diffuse)
    (hb : ∀ i y, states_only y (body i y)) (n : Nat) (x : t_diffuse) :
    states_only x (for_loop body n x) := by
  refine for_loop_inv (fun _ (y : t_diffuse) => states_only x y) body n x (states_only_refl x) ?_
  intro i _ t ht
  exact states_only_trans ht (hb i t)

theorem states_only_channel {x y : t_diffuse} (h : states_only x y) (c : Nat) :
    y.channel c = x.channel c := by
  unfold t_diffuse.channel
  rw [h.1]

theorem state_set_state_same (x : t_diffuse) (s : Nat) (st : t_state)
    (h : s < x.state_arr.length) : (x.set_state s st).state s = st := by
  unfold t_diffuse.state t_diffuse.set_state
  exact getD_set_same _ _ _ _ h

theorem state_set_channel (x : t_diffuse) (c s : Nat) (ch : t_channel) :
    (x.set_channel c ch).state s = x.state s := rfl

theorem channel_set_state (x : t_diffuse) (c s : Nat) (st : t_state) :
    (x.set_state s st).channel c = x.channel c := rfl

theorem family_of_states (set_interp : t_diffuse → t_channel → t_channel)
    (hf : is_family set_interp) {x y : t_diffuse} (h : states_only x y) (ch : t_channel) :
    set_interp y ch = set_interp x ch := by
  rcases hf with e | e <;> subst e
  · unfold set_interp_ramp
    rw [h.1]
  · unfold set_interp_xfade
    rw [h.1]

/-! ## The ramping methods: the engine before the call of `_state_ramp` -/

theorem armed_of_set (x y : t_diffuse) (set_interp : t_diffuse → t_channel → t_channel)
    (hf : is_family set_interp) (c : Nat) (h : states_only x y) :
    armed x set_interp c (y.set_channel c (set_interp y (y.channel c))) := by
  have e1 := family_of_states set_interp hf h (y.channel c)
  have e2 := states_only_channel h c
  obtain ⟨e, l, t⟩ := h
  refine ⟨?_, l, t⟩
  unfold t_diffuse.set_channel
  rw [e1, e2]
  conv_lhs => rw [e]

/-- The call of `_state_ramp` that ends a ramping method: the channel `c` becomes the
scheduled channel, no other channel changes, the states are the ones of before the call. -/
theorem armed_ramp {x y : t_diffuse} {set_interp : t_diffuse → t_channel → t_channel}
    {c : Nat} (h : armed x set_interp c y) (hc : c < x.channel_arr.length) (sched : t_state)
    (time : ℚ) (off : Int) :
    (_state_ramp y c sched (to_int32 (time * y.msr)) off).channel c
        = scheduled x set_interp sched (to_int32 (time * x.msr)) off (x.channel c)
    ∧ (∀ c1, c1 ≠ c →
        (_state_ramp y c sched (to_int32 (time * y.msr)) off).channel c1 = x.channel c1)
    ∧ (_state_ramp y c sched (to_int32 (time * y.msr)) off).state_tmp = y.state_tmp
    ∧ (_state_ramp y c sched (to_int32 (time * y.msr)) off).state_arr = y.state_arr
    ∧ channels_only y (_state_ramp y c sched (to_int32 (time * y.msr)) off) := by
  obtain ⟨e, _, _⟩ := h
  have hmsr : y.msr = x.msr := by rw [e]
  have hout : y.out_cnt = x.out_cnt := by rw [e]
  have harr : y.channel_arr = x.channel_arr.set c (set_interp x (x.channel c)) := by rw [e]
  have hyc : y.channel c = set_interp x (x.channel c) := by
    unfold t_diffuse.channel
    rw [harr]
    exact getD_set_same _ _ _ _ hc
  have hlen : c < y.channel_arr.length := by rw [harr]; simpa using hc
  refine ⟨?_, ?_, rfl, rfl, state_ramp_only _ _ _ _ _⟩
  · rw [state_ramp_channel _ _ _ _ _ hlen, hyc, hmsr, hout]
    rfl
  · intro c1 hc1
    rw [state_ramp_other _ _ _ _ _ _ (Ne.symm hc1)]
    unfold t_diffuse.channel
    rw [harr]
    exact getD_set_ne _ _ _ _ _ (Ne.symm hc1)

theorem ramp_to_sched_channel (x : t_diffuse) (c s : Nat) (absc : t_absc)
    (set_interp : t_diffuse → t_channel → t_channel) (time : ℚ) (hf : is_family set_interp)
    (hcl : c < x.channel_arr.length) (hsl : s < x.state_arr.length) :
    (ramp_to_sched x c s absc set_interp time).channel c
        = scheduled x set_interp { x.state s with U_cur := absc } (to_int32 (time * x.msr)) 0
            (x.channel c)
    ∧ ∀ c1, c1 ≠ c → (ramp_to_sched x c s absc set_interp time).channel c1 = x.channel c1 := by
  have ha := armed_of_set x (x.set_state s { x.state s with U_cur := absc }) set_interp hf c
    (states_only_set_state x s _)
  have e : ramp_to_sched x c s absc set_interp time
      = _state_ramp
          ((x.set_state s { x.state s with U_cur := absc }).set_channel c
            (set_interp (x.set_state s { x.state s with U_cur := absc })
              ((x.set_state s { x.state s with U_cur := absc }).channel c)))
          c { x.state s with U_cur := absc }
          (to_int32 (time
            * ((x.set_state s { x.state s with U_cur := absc }).set_channel c
                (set_interp (x.set_state s { x.state s with U_cur := absc })
                  ((x.set_state s { x.state s with U_cur := absc }).channel c))).msr)) 0 := by
    unfold ramp_to_sched
    simp only []
    rw [state_set_channel, state_set_state_same _ _ _ hsl]
  rw [e]
  obtain ⟨a1, a2, _⟩ := armed_ramp ha hcl { x.state s with U_cur := absc } time 0
  exact ⟨a1, a2⟩

/-- What a successful `ramp_to` leaves: the channel is scheduled to the state, whose
abscissa pointer is the one of the family; no other channel changes. -/
theorem ramp_to_ok (x : t_diffuse) (argv : List t_atom) (hwf : engine_wf x)
    (h : (state_ramp_to x argv).ok = true) :
    ∃ c s absc set_interp,
      _channel_find x (atom_at argv 0) = some c
      ∧ _state_find x.state_arr x.state_cnt (atom_at argv 1) = some s
      ∧ 0 < atom_getfloat (atom_at argv 2)
      ∧ ((atom_getsym (atom_at argv 3) = "ramp" ∧ absc = t_absc.rm
            ∧ set_interp = set_interp_ramp)
          ∨ (atom_getsym (atom_at argv 3) = "xfade" ∧ absc = t_absc.xf
            ∧ set_interp = set_interp_xfade))
      ∧ (state_ramp_to x argv).x.channel c
          = scheduled x set_interp { x.state s with U_cur := absc }
              (to_int32 (atom_getfloat (atom_at argv 2) * x.msr)) 0 (x.channel c)
      ∧ (∀ c1, c1 ≠ c → (state_ramp_to x argv).x.channel c1 = x.channel c1) := by
  unfold state_ramp_to at h ⊢
  by_cases hlen : argv.length ≠ 4
  · simp [hlen] at h
  cases hc : _channel_find x (atom_at argv 0) with
  | none => simp [hlen, hc] at h
  | some c =>
  cases hs : _state_find x.state_arr x.state_cnt (atom_at argv 1) with
  | none => simp [hlen, hc, hs] at h
  | some s =>
  by_cases hnum : is_number (atom_at argv 2) = false
  · simp [hlen, hc, hs, hnum] at h
  by_cases htime : atom_getfloat (atom_at argv 2) ≤ 0
  · simp [hlen, hc, hs, hnum, htime] at h
  have hcl : c < x.channel_arr.length := by
    rw [hwf.2.1]
    exact (find_channel_some x _ c hc).2
  have hsl : s < x.state_arr.length := by
    rw [hwf.2.2.1]
    exact (find_state_some _ _ _ s hs).2
  by_cases hr : atom_getsym (atom_at argv 3) = "ramp"
  · refine ⟨c, s, .rm, set_interp_ramp, rfl, rfl, by linarith, Or.inl ⟨hr, rfl, rfl⟩, ?_⟩
    simp only [hlen, hnum, htime, hr, if_true, if_false]
    exact ramp_to_sched_channel x c s .rm set_interp_ramp _ (Or.inl rfl) hcl hsl
  by_cases hx : atom_getsym (atom_at argv 3) = "xfade"
  · refine ⟨c, s, .xf, set_interp_xfade, rfl, rfl, by linarith, Or.inr ⟨hx, rfl, rfl⟩, ?_⟩
    simp only [hlen, hnum, htime, hr, hx, if_true, if_false]
    exact ramp_to_sched_channel x c s .xf set_interp_xfade _ (Or.inr rfl) hcl hsl
  · simp [hlen, hc, hs, hnum, htime, hr, hx] at h

/-! ## C7 : the targets after `ramp_to` -/

theorem channel_mem (x : t_diffuse) (c : Nat) (h : c < x.channel_arr.length) :
    x.channel c ∈ x.channel_arr := by
  unfold t_diffuse.channel
  rw [List.getD_eq_getElem _ _ h]
  exact List.getElem_mem h

theorem state_mem (x : t_diffuse) (s : Nat) (h : s < x.state_arr.length) :
    x.state s ∈ x.state_arr := by
  unfold t_diffuse.state
  rw [List.getD_eq_getElem _ _ h]
  exact List.getElem_mem h

theorem wf_channel (x : t_diffuse) (hwf : engine_wf x) (c : Nat) (h : c < x.channel_cnt) :
    channel_wf x.out_cnt (x.channel c) :=
  hwf.2.2.2.2.1 _ (channel_mem x c (by rw [hwf.2.1]; exact h))

theorem wf_state (x : t_diffuse) (hwf : engine_wf x) (s : Nat) (h : s < x.state_cnt) :
    state_wf x.out_cnt (x.state s) :=
  hwf.2.2.2.2.2.1 _ (state_mem x s (by rw [hwf.2.2.1]; exact h))

/-- C7: after a successful `ramp_to (channel, state, time, family)`, for every output `i`
the channel has `A_targ[i] = state.A_arr[i]` and `U_targ[i]` equal to the abscissa of the
family (`U_rm_arr[i]` for `ramp`, `U_xf_arr[i]` for `xfade`), at the same index; the mode is
ramping and the curve selection is the function, the inverse and the parameter of the family. -/
theorem C7_ramp_to_targets (x : t_diffuse) (argv : List t_atom) (hwf : engine_wf x)
    (hok : (state_ramp_to x argv).ok = true) :
    ∃ c s, _channel_find x (atom_at argv 0) = some c
      ∧ _state_find x.state_arr x.state_cnt (atom_at argv 1) = some s
      ∧ ((state_ramp_to x argv).x.channel c).mode_type = MODE_TYPE_VAR
      ∧ (∀ i, i < x.out_cnt →
          rd ((state_ramp_to x argv).x.channel c).A_targ i = rd (x.state s).A_arr i)
      ∧ ((atom_getsym (atom_at argv 3) = "ramp"
            ∧ (∀ i, i < x.out_cnt →
                rd ((state_ramp_to x argv).x.channel c).U_targ i = rd (x.state s).U_rm_arr i)
            ∧ ((state_ramp_to x argv).x.channel c).interp_func = x.ramp_func
            ∧ ((state_ramp_to x argv).x.channel c).interp_inv_func = x.ramp_inv_func
            ∧ ((state_ramp_to x argv).x.channel c).interp_param = x.ramp_param)
          ∨ (atom_getsym (atom_at argv 3) = "xfade"
            ∧ (∀ i, i < x.out_cnt →
                rd ((state_ramp_to x argv).x.channel c).U_targ i = rd (x.state s).U_xf_arr i)
            ∧ ((state_ramp_to x argv).x.channel c).interp_func = x.xfade_func
            ∧ ((state_ramp_to x argv).x.channel c).interp_inv_func = x.xfade_inv_func
            ∧ ((state_ramp_to x argv).x.channel c).interp_param = x.xfade_param)) := by
  obtain ⟨c, s, absc, set_interp, hc, hs, _, hfam, hch, _⟩ := ramp_to_ok x argv hwf hok
  have hf : is_family set_interp := by
    rcases hfam with ⟨_, _, e⟩ | ⟨_, _, e⟩
    · exact Or.inl e
    · exact Or.inr e
  have wc := wf_channel x hwf c (find_channel_some x _ c hc).2
  have ws := wf_state x hwf s (find_state_some _ _ _ s hs).2
  obtain ⟨_, _, fmode, _, ff, fi, fp⟩ := scheduled_frame x set_interp hf
    { x.state s with U_cur := absc }
    (to_int32 (atom_getfloat (atom_at argv 2) * x.msr)) 0 (x.channel c)
  have ht := scheduled_targets_zero x set_interp hf { x.state s with U_cur := absc }
    (to_int32 (atom_getfloat (atom_at argv 2) * x.msr)) (x.channel c)
    (by show (x.state s).cnt ≤ x.out_cnt; rw [ws.1])
    (by show (x.state s).cnt ≤ _; rw [ws.1, wc.2.2.2.1])
    (by show (x.state s).cnt ≤ _; rw [ws.1, wc.2.2.2.2])
  have hcnt : ({ x.state s with U_cur := absc } : t_state).cnt = x.out_cnt := ws.1
  refine ⟨c, s, hc, hs, ?_, ?_, ?_⟩
  · rw [hch]; exact fmode
  · intro i hi
    rw [hch]
    exact (ht i (by rw [hcnt]; exact hi)).2
  · rcases hfam with ⟨hsym, ha, hset⟩ | ⟨hsym, ha, hset⟩
    · subst ha hset
      refine Or.inl ⟨hsym, ?_, ?_, ?_, ?_⟩
      · intro i hi
        rw [hch]
        exact (ht i (by rw [hcnt]; exact hi)).1
      · rw [hch, ff]; rfl
      · rw [hch, fi]; rfl
      · rw [hch, fp]; rfl
    · subst ha hset
      refine Or.inr ⟨hsym, ?_, ?_, ?_, ?_⟩
      · intro i hi
        rw [hch]
        exact (ht i (by rw [hcnt]; exact hi)).1
      · rw [hch, ff]; rfl
      · rw [hch, fi]; rfl
      · rw [hch, fp]; rfl

/-- C7 at work: `ramp_to 0 1 10. xfade` on the engine `x_2`. -/
theorem C7_ramp_to_targets_witness :
    ∃ c s, _channel_find x_2 (atom_at argv_to_xfade 0) = some c
      ∧ _state_find x_2.state_arr x_2.state_cnt (atom_at argv_to_xfade 1) = some s
      ∧ ((state_ramp_to x_2 argv_to_xfade).x.channel c).mode_type = MODE_TYPE_VAR
      ∧ (∀ i, i < x_2.out_cnt →
          rd ((state_ramp_to x_2 argv_to_xfade).x.channel c).A_targ i = rd (x_2.state s).A_arr i)
      ∧ ((atom_getsym (atom_at argv_to_xfade 3) = "ramp"
            ∧ (∀ i, i < x_2.out_cnt →
                rd ((state_ramp_to x_2 argv_to_xfade).x.channel c).U_targ i
                  = rd (x_2.state s).U_rm_arr i)
            ∧ ((state_ramp_to x_2 argv_to_xfade).x.channel c).interp_func = x_2.ramp_func
            ∧ ((state_ramp_to x_2 argv_to_xfade).x.channel c).interp_inv_func = x_2.ramp_inv_func
            ∧ ((state_ramp_to x_2 argv_to_xfade).x.channel c).interp_param = x_2.ramp_param)
          ∨ (atom_getsym (atom_at argv_to_xfade 3) = "xfade"
            ∧ (∀ i, i < x_2.out_cnt →
                rd ((state_ramp_to x_2 argv_to_xfade).x.channel c).U_targ i
                  = rd (x_2.state s).U_xf_arr i)
            ∧ ((state_ramp_to x_2 argv_to_xfade).x.channel c).interp_func = x_2.xfade_func
            ∧ ((state_ramp_to x_2 argv_to_xfade).x.channel c).interp_inv_func
                = x_2.xfade_inv_func
            ∧ ((state_ramp_to x_2 argv_to_xfade).x.channel c).interp_param
                = x_2.xfade_param)) :=
  C7_ramp_to_targets x_2 argv_to_xfade (by decide) (by decide!)

/-! ## The ramping methods: `ramp_between`, `ramp_max`, `circular` -/

theorem ramp_max_pairs_states (channel : Nat) (interp_type : String) (argv : List t_atom) :
    ∀ (state_cnt atom : Nat) (x : t_diffuse),
      states_only x (ramp_max_pairs channel interp_type argv state_cnt atom x).x := by
  intro state_cnt
  induction state_cnt with
  | zero =>
    intro atom x
    exact states_only_refl x
  | succ n ih =>
    intro atom x
    unfold ramp_max_pairs
    cases _state_find x.state_arr x.state_cnt (atom_at argv atom) with
    | none => exact states_only_refl x
    | some state =>
      simp only []
      split
      · exact states_only_refl x
      · split
        · exact states_only_refl x
        · refine states_only_trans ?_ (ih _ _)
          refine states_only_trans (states_only_set_state x state _)
            (states_only_loop _ ?_ _ _)
          intro ch y
          exact ⟨rfl, rfl, set_U_cur_cnt _ _ _⟩

/-- C10 does not hold for `ramp_max`: `ramp_max 0 0 1. 7 0.5 10. ramp` on the engine `x_2`,
which has two states, fails at the state 7 of the second pair, yet the channel 0 has got the
curve selection of the ramp family (parameter 4 instead of -3), the scratch state holds the
maximum taken over the first pair, and the abscissa pointer of the state 0 is moved. -/
theorem C10_ramp_max_not_found_mutates :
    (state_ramp_max x_2 argv_max_bad).ok = false
    ∧ (x_2.channel 0).interp_param = -3
    ∧ ((state_ramp_max x_2 argv_max_bad).x.channel 0).interp_param = 4
    ∧ x_2.state_tmp.U_xf_arr = [0, 0]
    ∧ (state_ramp_max x_2 argv_max_bad).x.state_tmp.U_xf_arr = [0, 1]
    ∧ (x_2.state 0).U_cur = t_absc.xf
    ∧ ((state_ramp_max x_2 argv_max_bad).x.state 0).U_cur = t_absc.rm := by
  decide!

/-- The other methods of C10 leave the engine as it was when an index is not found: `ramp_to`,
`ramp_between`, `circular`, `velocity` and `freeze` for a channel or a state, `ramp_max` for
the channel. -/
theorem index_not_found_unchanged (x : t_diffuse) (argv : List t_atom) :
    ((_channel_find x (atom_at argv 0) = none
        ∨ _state_find x.state_arr x.state_cnt (atom_at argv 1) = none) →
      state_ramp_to x argv = ⟨x, false⟩)
    ∧ ((_channel_find x (atom_at argv 0) = none
        ∨ _state_find x.state_arr x.state_cnt (atom_at argv 1) = none
        ∨ _state_find x.state_arr x.state_cnt (atom_at argv 2) = none) →
      state_ramp_between x argv = ⟨x, false⟩)
    ∧ (_channel_find x (atom_at argv 0) = none → state_ramp_max x argv = ⟨x, false⟩)
    ∧ ((_channel_find x (atom_at argv 0) = none
        ∨ _state_find x.state_arr x.state_cnt (atom_at argv 2) = none) →
      state_circular x argv = ⟨x, false⟩)
    ∧ (_channel_find x (atom_at argv 0) = none → state_velocity x argv = ⟨x, false⟩)
    ∧ (_channel_find x (atom_at argv 0) = none → state_freeze x argv = ⟨x, false⟩) := by
  refine ⟨?_, ?_, ?_, ?_, ?_, ?_⟩
  · intro h
    unfold state_ramp_to
    split
    · rfl
    · rcases h with h | h
      · rw [h]
      · rw [h]
        cases _channel_find x (atom_at argv 0) <;> rfl
  · intro h
    unfold state_ramp_between
    split
    · rfl
    · rcases h with h | h | h
      · rw [h]
      · rw [h]
        cases _channel_find x (atom_at argv 0) <;> rfl
      · rw [h]
        cases _channel_find x (atom_at argv 0)
        · rfl
        · cases _state_find x.state_arr x.state_cnt (atom_at argv 1) <;> rfl
  · intro h
    unfold state_ramp_max
    simp only []
    split
    · rfl
    · rw [h]
  · intro h
    unfold state_circular
    split
    · rfl
    · rcases h with h | h
      · rw [h]
      · rw [h]
        cases _channel_find x (atom_at argv 0)
        · rfl
        · simp only []
          split
          · rfl
          · split <;> rfl
  · intro h
    unfold state_velocity
    split
    · rfl
    · rw [h]
  · intro h
    unfold state_freeze
    split
    · rfl
    · rw [h]

/-! ## C9 : what a ramping method overwrites and what it keeps -/

/-- One block of `L` samples, at least one, on an unfrozen ramping channel of velocity 1. -/
theorem block_v1 (x : t_diffuse) (in_ : Nat) (sig_in : Nat → ℚ) (sampleframes : Int)
    (fuel : Nat) (hfuel : 3 ≤ fuel) (st : t_chunk) (hs : ramp_start st.channel)
    (hout : x.out_cnt = st.channel.out_cnt) (hleft : 0 < st.smp_left) :
    ∃ st1, chunk_loop x in_ sig_in sampleframes fuel st = some st1 ∧
      ((st.smp_left ≤ st.channel.cntd
          ∧ cur_only { st.channel with cntd := st.channel.cntd - st.smp_left } st1.channel
          ∧ ∀ i, i < st.channel.out_cnt →
              rd st1.channel.U_cur i = U_next st.channel st.smp_left st.channel.cntd i
              ∧ rd st1.channel.A_cur i
                  = st.channel.interp_func
                      (U_next st.channel st.smp_left st.channel.cntd i)
                      st.channel.interp_param)
      ∨ (st.channel.cntd < st.smp_left
          ∧ cur_only { st.channel with cntd := INDEFINITE, mode_type := MODE_TYPE_FIX }
              st1.channel
          ∧ ∀ i, i < st.channel.out_cnt →
              rd st1.channel.U_cur i = rd st.channel.U_targ i
              ∧ rd st1.channel.A_cur i = rd st.channel.A_targ i)) := by
  obtain ⟨hfrozen, hmode, hvel, hc, hU, hA⟩ := hs
  obtain ⟨st1, h1, _, h3⟩ := chunk_loop_ramp x in_ sig_in sampleframes fuel hfuel st hfrozen
    hmode hc (by rw [hvel]; exact one_pos) hleft
  rw [smp_left_x_vel_one _ _ hvel, cntd_d_vel_one _ hvel] at h3
  refine ⟨st1, h1, ?_⟩
  rcases h3 with ⟨hz, e⟩ | ⟨hpos, hgt, e⟩ | ⟨hpos, hgt, heq, e⟩ | ⟨hpos, hgt, hlt, e⟩
  · have hco : cur_only { st.channel with cntd := 0 } st.channel := by
      refine ⟨?_, rfl, rfl⟩
      conv_lhs => rw [show st.channel = { st.channel with cntd := st.channel.cntd } from rfl]
      rw [hz]
    obtain ⟨k1, k2⟩ := completed_of_cur_only in_ st.channel st.channel hmode hco
    rw [e]
    exact Or.inr ⟨by omega, k1, k2 hU hA⟩
  · have hv := out_loop_var x sig_in (sampleframes - st.smp_left) st.smp_left st.channel.cntd
      { st with smp_left := 0,
                channel := { st.channel with cntd := st.channel.cntd - st.smp_left } }
      hmode hfrozen (by show st.channel.cntd - st.smp_left ≠ INDEFINITE; unfold INDEFINITE; omega)
      (by omega) (by rw [hout]; exact hU) (by rw [hout]; exact hA)
    rw [e]
    refine Or.inl ⟨by omega, (out_loop_frame _ _ _ _ _ _).1, ?_⟩
    intro i hi
    exact hv i (by rw [hout]; exact hi)
  · have hv := out_loop_var x sig_in (sampleframes - st.smp_left) st.channel.cntd
      st.channel.cntd
      { st with smp_left := st.smp_left - st.channel.cntd,
                channel := { st.channel with cntd := 0 } }
      hmode hfrozen (by show (0 : Int) ≠ INDEFINITE; decide)
      (by omega) (by rw [hout]; exact hU) (by rw [hout]; exact hA)
    have hfr := (out_loop_frame x sig_in (sampleframes - st.smp_left) st.channel.cntd
      st.channel.cntd
      { st with smp_left := st.smp_left - st.channel.cntd,
                channel := { st.channel with cntd := 0 } }).1
    rw [e]
    refine Or.inl ⟨by omega, ?_, ?_⟩
    · have e0 : st.channel.cntd - st.smp_left = 0 := by omega
      rw [e0]
      exact hfr
    · intro i hi
      have := hv i (by rw [hout]; exact hi)
      have hu : U_next st.channel st.smp_left st.channel.cntd i
          = U_next st.channel st.channel.cntd st.channel.cntd i := by rw [heq]
      rw [hu]
      exact this
  · obtain ⟨k1, k2⟩ := completed_of_cur_only in_ st.channel _ hmode
      (out_loop_frame x sig_in (sampleframes - st.smp_left) st.channel.cntd st.channel.cntd
        { st with smp_left := st.smp_left - st.channel.cntd,
                  channel := { st.channel with cntd := 0 } }).1
    rw [e]
    exact Or.inr ⟨hlt, k1, k2 hU hA⟩

theorem cur_only_cntd {c0 c c1 : t_channel} {k n : Int}
    (h1 : cur_only { c0 with cntd := k } c) (h2 : cur_only { c with cntd := n } c1) :
    cur_only { c0 with cntd := n } c1 := by
  obtain ⟨e1, u1, a1⟩ := h1
  obtain ⟨e2, u2, a2⟩ := h2
  refine ⟨?_, by rw [u2]; exact u1, by rw [a2]; exact a1⟩
  conv_lhs => rw [e2]
  congr 1 <;> rw [e1]

theorem cur_only_done {c0 c c1 : t_channel} {k : Int}
    (h1 : cur_only { c0 with cntd := k } c)
    (h2 : cur_only { c with cntd := INDEFINITE, mode_type := MODE_TYPE_FIX } c1) :
    cur_only { c0 with cntd := INDEFINITE, mode_type := MODE_TYPE_FIX } c1 := by
  obtain ⟨e1, u1, a1⟩ := h1
  obtain ⟨e2, u2, a2⟩ := h2
  refine ⟨?_, by rw [u2]; exact u1, by rw [a2]; exact a1⟩
  conv_lhs => rw [e2]
  congr 1 <;> rw [e1]

/-- A block of `L` samples takes the ramp from its state after `n` samples to its state after
`n + L` samples. -/
theorem ramp_v1_step (x : t_diffuse) (in_ : Nat) (sig_in : Nat → ℚ) (L : Nat) (fuel : Nat)
    (hfuel : 3 ≤ fuel) (c0 : t_channel) (hs : ramp_start c0) (hout : x.out_cnt = c0.out_cnt)
    (n : Nat) (st : t_chunk) (hleft : st.smp_left = L) (h : ramp_v1 c0 n st.channel) :
    ∃ st1, chunk_loop x in_ sig_in L fuel st = some st1 ∧ ramp_v1 c0 (n + L) st1.channel := by
  by_cases hL : L = 0
  · subst hL
    exact ⟨st, chunk_loop_done _ _ _ _ _ _ (by rw [hleft]; rfl), by simpa using h⟩
  have hLpos : 0 < L := Nat.pos_of_ne_zero hL
  have hLi : 0 < st.smp_left := by rw [hleft]; exact_mod_cast hLpos
  rcases h with ⟨hn, e⟩ | ⟨hn, hle, hco, hval⟩ | ⟨hlt, hco, hval⟩
  · subst hn
    obtain ⟨st1, h1, h2⟩ := block_v1 x in_ sig_in L fuel hfuel st (by rw [e]; exact hs)
      (by rw [e]; exact hout) hLi
    refine ⟨st1, h1, ?_⟩
    rw [e, hleft] at h2
    rcases h2 with ⟨a1, a2, a3⟩ | ⟨a1, a2, a3⟩
    · refine Or.inr (Or.inl ⟨by omega, by simpa using a1, by simpa using a2, ?_⟩)
      intro i hi
      obtain ⟨b1, b2⟩ := a3 i hi
      have hu : rd st1.channel.U_cur i
          = rd c0.U_cur i + ((0 + L : Nat) : ℚ) * (rd c0.U_targ i - rd c0.U_cur i) / c0.cntd := by
        rw [b1]
        simp [U_next]
      exact ⟨hu, by rw [b2, b1]⟩
    · exact Or.inr (Or.inr ⟨by simpa using a1, a2, a3⟩)
  · obtain ⟨hfrozen, hmode, hvel, hc, hU, hA⟩ := hs
    have e := hco.1
    have hs1 : ramp_start st.channel := by
      refine ⟨by rw [e]; exact hfrozen, by rw [e]; exact hmode, by rw [e]; exact hvel,
        by rw [e]; show 0 ≤ c0.cntd - n; omega, ?_, ?_⟩
      · rw [hco.2.1]; rw [e]; exact hU
      · rw [hco.2.2]; rw [e]; exact hA
    have ho : st.channel.out_cnt = c0.out_cnt := by rw [e]
    have hk : st.channel.cntd = c0.cntd - n := by rw [e]
    have hT : st.channel.U_targ = c0.U_targ := by rw [e]
    have hAT : st.channel.A_targ = c0.A_targ := by rw [e]
    have hf : st.channel.interp_func = c0.interp_func := by rw [e]
    have hp : st.channel.interp_param = c0.interp_param := by rw [e]
    obtain ⟨st1, h1, h2⟩ := block_v1 x in_ sig_in L fuel hfuel st hs1 (by rw [ho]; exact hout)
      hLi
    refine ⟨st1, h1, ?_⟩
    rw [hleft, hk] at h2
    rcases h2 with ⟨a1, a2, a3⟩ | ⟨a1, a2, a3⟩
    · refine Or.inr (Or.inl ⟨by omega, by push_cast; omega, ?_, ?_⟩)
      · have := cur_only_cntd hco a2
        have e2 : c0.cntd - (n : Int) - (L : Int) = c0.cntd - ((n + L : Nat) : Int) := by
          push_cast; ring
        rw [e2] at this
        exact this
      · intro i hi
        obtain ⟨b1, b2⟩ := a3 i (by rw [ho]; exact hi)
        have hkpos : (0 : ℚ) < ((c0.cntd - n : Int) : ℚ) := by
          have : (0 : Int) < c0.cntd - n := by omega
          exact_mod_cast this
        have hCpos : (0 : ℚ) < (c0.cntd : ℚ) := by
          have : (0 : Int) < c0.cntd := by omega
          exact_mod_cast this
        have hu : rd st1.channel.U_cur i
            = rd c0.U_cur i + ((n + L : Nat) : ℚ) * (rd c0.U_targ i - rd c0.U_cur i) / c0.cntd := by
          rw [b1]
          unfold U_next
          rw [hT, (hval i hi).1]
          push_cast at hkpos ⊢
          field_simp
          ring
        refine ⟨hu, ?_⟩
        rw [b2, hf, hp, ← b1]
    · refine Or.inr (Or.inr ⟨by push_cast; omega, cur_only_done hco a2, ?_⟩)
      intro i hi
      have := a3 i (by rw [ho]; exact hi)
      rw [hT, hAT] at this
      exact this
  · have e := hco.1
    have hind : st.channel.cntd = INDEFINITE := by rw [e]
    rw [chunk_loop_fixed x in_ sig_in L fuel (by omega) st hleft (Or.inr hind)]
    exact ⟨_, rfl, Or.inr (Or.inr ⟨by push_cast; omega, hco, hval⟩)⟩

/-! ## Following one channel through blocks -/

/-- One block, with a property `P` proved for what the chunk loop leaves of the channel `c`. -/
theorem perform64_track (fuel : Nat) (hfuel : 3 ≤ fuel) (x : t_diffuse)
    (in_arr out_arr : Nat → Nat → ℚ) (sampleframes : Nat)
    (hrun : ∀ c1, (x.channel c1).is_on = true → chan_run (x.channel c1)) (c : Nat)
    (hc : c < x.channel_cnt) (hon : (x.channel c).is_on = true) (P : t_channel → Prop)
    (hP : ∀ (y : t_diffuse) (st : t_chunk), channels_only x y → st.channel = x.channel c →
      st.smp_left = sampleframes →
      ∃ st1, chunk_loop y c (in_arr c) sampleframes fuel st = some st1 ∧ P st1.channel) :
    ∃ r, diffuse_perform64 fuel x in_arr out_arr sampleframes = some r
      ∧ channels_only x r.x
      ∧ (∀ c1, (r.x.channel c1).is_on = true → chan_run (r.x.channel c1))
      ∧ P (r.x.channel c) := by
  obtain ⟨r, h1, h2, h3, h4⟩ := perform64_block fuel hfuel x in_arr out_arr sampleframes hrun
  obtain ⟨_, _, _, k4⟩ := perform64_some fuel x in_arr out_arr sampleframes
    (fun c1 _ ch1 => c1 = c → P ch1) r
    (fun c1 y st st1 _ hy e1 e2 e3 hc1 => by
      subst hc1
      obtain ⟨st2, g1, g2⟩ := hP y st hy e1 e2
      rw [g1] at e3
      rw [← Option.some.inj e3]
      exact g2) h1
  exact ⟨r, h1, h2, run_preserved sampleframes x r.x hrun h3 h4, k4 c hc hon rfl⟩

theorem ramp_v1_on {c0 c : t_channel} {n : Nat} (h : ramp_v1 c0 n c) : c.is_on = c0.is_on := by
  rcases h with ⟨_, e⟩ | ⟨_, _, hco, _⟩ | ⟨_, hco, _⟩
  · rw [e]
  · rw [hco.1]
  · rw [hco.1]

/-- A ramp at velocity 1 through any sequence of blocks: the engine returns from every
block, and the channel is what `ramp_v1` tells for the total number of samples. -/
theorem ramp_v1_blocks (fuel : Nat) (hfuel : 3 ≤ fuel) (x : t_diffuse)
    (out_arr : Nat → Nat → ℚ) (blocks : List ((Nat → Nat → ℚ) × Nat)) (c : Nat)
    (hc : c < x.channel_cnt) (hon : (x.channel c).is_on = true)
    (hs : ramp_start (x.channel c)) (hout : x.out_cnt = (x.channel c).out_cnt)
    (hrun : ∀ c1, c1 ≠ c → (x.channel c1).is_on = true → chan_run (x.channel c1)) :
    ∃ x1, perform_blocks fuel out_arr blocks x = some x1
      ∧ ramp_v1 (x.channel c) (blocks_len blocks) (x1.channel c) := by
  have hrun1 : ∀ c1, (x.channel c1).is_on = true → chan_run (x.channel c1) := by
    intro c1 h1
    by_cases e : c1 = c
    · subst e
      exact Or.inr (Or.inr ⟨hs.2.1, hs.2.2.2.1, by rw [hs.2.2.1]; exact one_pos⟩)
    · exact hrun c1 e h1
  obtain ⟨x1, h1, h2⟩ := perform_blocks_ind fuel out_arr
    (fun n y => (∀ c1, (y.channel c1).is_on = true → chan_run (y.channel c1))
      ∧ channels_only x y ∧ ramp_v1 (x.channel c) n (y.channel c))
    (fun n y in_arr sampleframes hy => by
      obtain ⟨r1, r2, r3⟩ := hy
      have hyx : y.channel_cnt = x.channel_cnt := by rw [r2.1]
      have hyo : y.out_cnt = x.out_cnt := by rw [r2.1]
      obtain ⟨r, g1, g2, g3, g4⟩ := perform64_track fuel hfuel y in_arr out_arr sampleframes r1
        c (by rw [hyx]; exact hc) (by rw [ramp_v1_on r3]; exact hon)
        (fun ch => ramp_v1 (x.channel c) (n + sampleframes) ch)
        (fun z st hz e1 e2 => by
          have hzo : z.out_cnt = (x.channel c).out_cnt := by rw [hz.1]; rw [hyo]; exact hout
          exact ramp_v1_step z c (in_arr c) sampleframes fuel hfuel (x.channel c) hs hzo n st e2
            (by rw [e1]; exact r3))
      exact ⟨r, g1, g3, channels_only_trans r2 g2, g4⟩)
    blocks 0 x ⟨hrun1, channels_only_refl x, Or.inl ⟨rfl, rfl⟩⟩
  refine ⟨x1, h1, ?_⟩
  have := h2.2.2
  rw [Nat.zero_add] at this
  exact this

/-- Two channels that the same ramp has become after the same number of samples, one at
least, agree on the mode, the countdown and every entry of `U_cur` and `A_cur`. -/
theorem ramp_v1_unique {c0 ca cb : t_channel} {n : Nat} (hn : 0 < n) (ha : ramp_v1 c0 n ca)
    (hb : ramp_v1 c0 n cb) :
    ca.mode_type = cb.mode_type ∧ ca.cntd = cb.cntd
      ∧ ∀ i, i < c0.out_cnt → rd ca.U_cur i = rd cb.U_cur i ∧ rd ca.A_cur i = rd cb.A_cur i := by
  rcases ha with ⟨e, _⟩ | ⟨_, hle, hco, hval⟩ | ⟨hlt, hco, hval⟩
  · omega
  · rcases hb with ⟨e, _⟩ | ⟨_, _, hco2, hval2⟩ | ⟨hlt2, _, _⟩
    · omega
    · refine ⟨by rw [hco.1, hco2.1], by rw [hco.1, hco2.1], ?_⟩
      intro i hi
      have hu : rd ca.U_cur i = rd cb.U_cur i := by rw [(hval i hi).1, (hval2 i hi).1]
      exact ⟨hu, by rw [(hval i hi).2, (hval2 i hi).2, hu]⟩
    · omega
  · rcases hb with ⟨e, _⟩ | ⟨_, hle2, _, _⟩ | ⟨_, hco2, hval2⟩
    · omega
    · omega
    · refine ⟨by rw [hco.1, hco2.1], by rw [hco.1, hco2.1], ?_⟩
      intro i hi
      exact ⟨by rw [(hval i hi).1, (hval2 i hi).1], by rw [(hval i hi).2, (hval2 i hi).2]⟩

/-! ## C6 : one block or two -/

/-- C6, as stated, fails at velocity 1.5: from a countdown of 10 towards `[0, 1]`, one block
of 2 samples leaves `A_cur = [0, 1/3]` and the countdown 7, two blocks of 1 sample leave
`A_cur = [0, 11/36]` and the countdown 8. -/
theorem C6_rechunk_differs_at_velocity_3_2 :
    (perform_blocks 3 (fun _ _ => 0) [(fun _ _ => 1, 1 + 1)] x_2_fast).map
        (fun y => ((y.channel 0).A_cur, (y.channel 0).cntd)) = some ([0, 1/3], 7)
    ∧ (perform_blocks 3 (fun _ _ => 0) [(fun _ _ => 1, 1), (fun _ _ => 1, 1)] x_2_fast).map
        (fun y => ((y.channel 0).A_cur, (y.channel 0).cntd)) = some ([0, 11/36], 8) := by
  decide!

/-- C6, amended: at velocity 1, for a switched-on, unfrozen, ramping channel with a countdown
that is not negative and for all block lengths `L1` and `L2` of one sample at least, one block
of `L1 + L2` samples and a block of `L1` samples followed by a block of `L2` samples both
return and leave the same `A_cur` for every output (and the same `U_cur`, countdown and mode),
whatever the input vectors. -/
theorem C6_rechunk_velocity_one (fuel : Nat) (hfuel : 3 ≤ fuel) (x : t_diffuse)
    (out_arr in1 in2 in3 : Nat → Nat → ℚ) (L1 L2 : Nat) (hL1 : 1 ≤ L1) (hL2 : 1 ≤ L2)
    (c : Nat) (hc : c < x.channel_cnt) (hon : (x.channel c).is_on = true)
    (hs : ramp_start (x.channel c)) (hout : x.out_cnt = (x.channel c).out_cnt)
    (hrun : ∀ c1, c1 ≠ c → (x.channel c1).is_on = true → chan_run (x.channel c1)) :
    ∃ xa xb, perform_blocks fuel out_arr [(in1, L1 + L2)] x = some xa
      ∧ perform_blocks fuel out_arr [(in2, L1), (in3, L2)] x = some xb
      ∧ (xa.channel c).mode_type = (xb.channel c).mode_type
      ∧ (xa.channel c).cntd = (xb.channel c).cntd
      ∧ ∀ i, i < x.out_cnt →
          rd (xa.channel c).U_cur i = rd (xb.channel c).U_cur i
          ∧ rd (xa.channel c).A_cur i = rd (xb.channel c).A_cur i := by
  obtain ⟨xa, a1, a2⟩ := ramp_v1_blocks fuel hfuel x out_arr [(in1, L1 + L2)] c hc hon hs hout
    hrun
  obtain ⟨xb, b1, b2⟩ := ramp_v1_blocks fuel hfuel x out_arr [(in2, L1), (in3, L2)] c hc hon hs
    hout hrun
  have ea : blocks_len [(in1, L1 + L2)] = L1 + L2 := by simp [blocks_len]
  have eb : blocks_len [(in2, L1), (in3, L2)] = L1 + L2 := by simp [blocks_len]
  rw [ea] at a2
  rw [eb] at b2
  obtain ⟨u1, u2, u3⟩ := ramp_v1_unique (by omega) a2 b2
  refine ⟨xa, xb, a1, b1, u1, u2, ?_⟩
  intro i hi
  exact u3 i (by rw [← hout]; exact hi)

/-- C6, amended, at work: the engine `x_2_ramp`, ten samples before the end of a ramp at
velocity 1, with blocks of 4 and 6 samples: the second block ends the ramp. -/
theorem C6_rechunk_velocity_one_witness :
    ∃ xa xb, perform_blocks 3 (fun _ _ => 0) [(fun _ _ => 1, 4 + 6)] x_2_ramp = some xa
      ∧ perform_blocks 3 (fun _ _ => 0) [(fun _ _ => 1, 4), (fun _ _ => 1, 6)] x_2_ramp = some xb
      ∧ (xa.channel 0).mode_type = (xb.channel 0).mode_type
      ∧ (xa.channel 0).cntd = (xb.channel 0).cntd
      ∧ ∀ i, i < x_2_ramp.out_cnt →
          rd (xa.channel 0).U_cur i = rd (xb.channel 0).U_cur i
          ∧ rd (xa.channel 0).A_cur i = rd (xb.channel 0).A_cur i :=
  C6_rechunk_velocity_one 3 (le_refl 3) x_2_ramp (fun _ _ => 0) (fun _ _ => 1) (fun _ _ => 1)
    (fun _ _ => 1) 4 6 (by decide) (by decide) 0 (by decide) rfl
    ⟨by decide!, by decide!, by decide!, by decide!, by decide!, by decide!⟩ (by decide!)
    (fun c1 h1 hon1 => by
      have e : x_2_ramp.channel c1 = channel_null := by
        cases c1 with
        | zero => exact absurd rfl h1
        | succ k => rfl
      rw [e] at hon1
      exact absurd hon1 (by decide))

/-! ## C4 : the end of the ramp -/

theorem list_two_eq (l : List ℚ) (a b : ℚ) (hl : l.length = 2) (h0 : rd l 0 = a)
    (h1 : rd l 1 = b) : l = [a, b] := by
  match l, hl with
  | [u, v], _ =>
    simp [rd] at h0 h1
    rw [h0, h1]

/-- C4, as stated, fails. After `ramp_to 0 0 10. ramp` at 1000 Hz and one block of exactly 10
samples the channel is still in mode `MODE_TYPE_VAR`, with a countdown of 0: the block is
one chunk of 10 samples with the scaled countdown 10, which brings the abscissas to `[0, 1]`.
And the gain of the output 1, which the exact arithmetic brings to 1, is `1 - 2^-53` in the
arithmetic of the program: `dA` is the double nearest to 0.1, and ten additions of it to 0
give `0.99999999999999989`. -/
theorem C4_mode_not_fixed_after_exact_duration :
    (perform_blocks 3 (fun _ _ => 0) [(fun _ _ => 1, 10)] x_2_ramp).map
        (fun y => ((y.channel 0).A_cur, (y.channel 0).cntd,
          decide ((y.channel 0).mode_type = MODE_TYPE_FIX)))
      = some ([0, 1], 0, false)
    ∧ ¬ ((x_2_ramp.channel 0).cntd > smp_left_x_vel 10 (x_2_ramp.channel 0))
    ∧ cntd_d_vel (x_2_ramp.channel 0) = 10
    ∧ cast_exact ((10 : Int) * (x_2_ramp.channel 0).velocity)
    ∧ cast_exact ((x_2_ramp.channel 0).cntd / (x_2_ramp.channel 0).velocity)
    ∧ (rd (x_2_ramp.channel 0).U_cur 1, rd (x_2_ramp.channel 0).U_targ 1,
        rd (x_2_ramp.channel 0).A_cur 1, rd (x_2_ramp.channel 0).A_targ 1) = (0, 1, 0, 1)
    ∧ U_step_fl (rd (x_2_ramp.channel 0).U_cur 1) (rd (x_2_ramp.channel 0).U_targ 1) 10 10 = 1
    ∧ A_chunk_fl (x_2_ramp.channel 0).interp_func (x_2_ramp.channel 0).interp_param
          (rd (x_2_ramp.channel 0).U_cur 1) (rd (x_2_ramp.channel 0).U_targ 1)
          (rd (x_2_ramp.channel 0).A_cur 1) 10 10
        = 1 - 1 / 9007199254740992 := by
  decide!

/-- C4, amended: after `ramp_to 0 0 10. ramp` at 1000 Hz, velocity 1 and linear curves, the
target gains are `[0, 1]`; any blocks that total exactly 10 samples leave the channel still
ramping, on a countdown of 0 (nothing is said of the current gains then, which the sample
loop has summed with rounding); any blocks that total more than 10 samples leave the channel
fixed with the current gains `[0, 1]`, which `_state_iterate` copies from the targets. -/
theorem C4_exact_duration_reaches_targets (fuel : Nat) (hfuel : 3 ≤ fuel)
    (out_arr : Nat → Nat → ℚ) (blocks : List ((Nat → Nat → ℚ) × Nat))
    (hlen : 10 ≤ blocks_len blocks) :
    ∃ x1, perform_blocks fuel out_arr blocks x_2_ramp = some x1
      ∧ (x1.channel 0).A_targ = [0, 1]
      ∧ (blocks_len blocks = 10 →
          (x1.channel 0).mode_type = MODE_TYPE_VAR ∧ (x1.channel 0).cntd = 0)
      ∧ (10 < blocks_len blocks →
          (x1.channel 0).mode_type = MODE_TYPE_FIX ∧ (x1.channel 0).cntd = INDEFINITE
          ∧ (x1.channel 0).A_cur = (x1.channel 0).A_targ) := by
  obtain ⟨x1, h1, h2⟩ := ramp_v1_blocks fuel hfuel x_2_ramp out_arr blocks 0 (by decide)
    (by decide!) ⟨by decide!, by decide!, by decide!, by decide!, by decide!, by decide!⟩
    (by decide!)
    (fun c1 h1 hon1 => by
      have e : x_2_ramp.channel c1 = channel_null := by
        unfold t_diffuse.channel
        exact List.getD_eq_default _ _
          (by rw [show x_2_ramp.channel_arr.length = 1 from by decide!]; omega)
      rw [e] at hon1
      exact absurd hon1 (by decide))
  have hC : (x_2_ramp.channel 0).cntd = 10 := by decide!
  have hO : (x_2_ramp.channel 0).out_cnt = 2 := by decide!
  have hA : (x_2_ramp.channel 0).A_cur.length = 2 := by decide!
  have hM : (x_2_ramp.channel 0).mode_type = MODE_TYPE_VAR := by decide!
  have hT : (x_2_ramp.channel 0).A_targ = [0, 1] := by decide!
  refine ⟨x1, h1, ?_⟩
  rcases h2 with ⟨e, _⟩ | ⟨_, hle, hco, hval⟩ | ⟨hlt, hco, hval⟩
  · omega
  · rw [hC] at hle
    have hn : blocks_len blocks = 10 := by omega
    have eT : (x1.channel 0).A_targ = (x_2_ramp.channel 0).A_targ := by rw [hco.1]
    refine ⟨eT.trans hT, ?_, ?_⟩
    · intro _
      refine ⟨(congrArg t_channel.mode_type hco.1).trans hM, ?_⟩
      have e := congrArg t_channel.cntd hco.1
      have e2 : (x1.channel 0).cntd = (x_2_ramp.channel 0).cntd - (blocks_len blocks : Nat) := e
      rw [e2, hC, hn]
      norm_num
    · intro h
      omega
  · rw [hC] at hlt
    have hlenA : (x1.channel 0).A_cur.length = 2 := hco.2.2.trans hA
    have eT : (x1.channel 0).A_targ = (x_2_ramp.channel 0).A_targ := by rw [hco.1]
    have v0 := hval 0 (by rw [hO]; decide)
    have v1 := hval 1 (by rw [hO]; decide)
    have a0 : rd (x1.channel 0).A_cur 0 = 0 := by
      rw [v0.2]
      decide!
    have a1 : rd (x1.channel 0).A_cur 1 = 1 := by
      rw [v1.2]
      decide!
    refine ⟨eT.trans hT, ?_, ?_⟩
    · intro h
      have : (blocks_len blocks : Int) = 10 := by exact_mod_cast h
      omega
    · intro _
      refine ⟨congrArg t_channel.mode_type hco.1, congrArg t_channel.cntd hco.1, ?_⟩
      rw [eT, hT]
      exact list_two_eq _ 0 1 hlenA a0 a1

/-- C4, amended, at work: a block of 4 samples followed by a block of 6 samples leaves the
channel ramping on the countdown 0, and one more block of 1 sample leaves it fixed with the
gains `[0, 1]`. -/
theorem C4_exact_duration_reaches_targets_witness :
    (∃ x1, perform_blocks 3 (fun _ _ => 0) [(fun _ _ => 1, 4), (fun _ _ => 1, 6)] x_2_ramp
        = some x1
      ∧ (x1.channel 0).A_targ = [0, 1]
      ∧ (blocks_len [((fun _ _ => 1 : Nat → Nat → ℚ), 4), (fun _ _ => 1, 6)] = 10 →
          (x1.channel 0).mode_type = MODE_TYPE_VAR ∧ (x1.channel 0).cntd = 0)
      ∧ (10 < blocks_len [((fun _ _ => 1 : Nat → Nat → ℚ), 4), (fun _ _ => 1, 6)] →
          (x1.channel 0).mode_type = MODE_TYPE_FIX ∧ (x1.channel 0).cntd = INDEFINITE
          ∧ (x1.channel 0).A_cur = (x1.channel 0).A_targ))
    ∧ (perform_blocks 3 (fun _ _ => 0)
          [(fun _ _ => 1, 4), (fun _ _ => 1, 6), (fun _ _ => 1, 1)] x_2_ramp).map
        (fun y => ((y.channel 0).A_cur, (y.channel 0).cntd,
          decide ((y.channel 0).mode_type = MODE_TYPE_FIX)))
      = some ([0, 1], -1, true) :=
  ⟨C4_exact_duration_reaches_targets 3 (le_refl 3) (fun _ _ => 0)
    [(fun _ _ => 1, 4), (fun _ _ => 1, 6)] (by decide), by decide!⟩

/-! ## C3 : a ramp reaches its targets -/

theorem ramp_ge1_on {c0 c : t_channel} {n : Nat} (h : ramp_ge1 c0 n c) :
    c.is_on = c0.is_on := by
  rcases h with ⟨k, _, _, hco⟩ | ⟨hco, _⟩
  · rw [hco.1]
  · rw [hco.1]

theorem ramp_ge1_step (c0 : t_channel) (hfr : c0.is_frozen = false) (hv : 1 ≤ c0.velocity)
    (hU : c0.out_cnt ≤ c0.U_cur.length) (hA : c0.out_cnt ≤ c0.A_cur.length)
    (n L : Nat) (c c1 : t_channel) (h : ramp_ge1 c0 n c) (hb : block_rel L c c1) :
    ramp_ge1 c0 (n + L) c1 := by
  rcases h with ⟨k, hk, hkn, hco⟩ | ⟨hco, hval⟩
  · have efr : c.is_frozen = c0.is_frozen := by rw [hco.1]
    have ecn : c.cntd = k := congrArg t_channel.cntd hco.1
    have evel : c.velocity = c0.velocity := by rw [hco.1]
    have eout : c.out_cnt = c0.out_cnt := by rw [hco.1]
    have eUT : c.U_targ = c0.U_targ := by rw [hco.1]
    have eAT : c.A_targ = c0.A_targ := by rw [hco.1]
    have lU : c.U_cur.length = c0.U_cur.length := hco.2.1
    have lA : c.A_cur.length = c0.A_cur.length := hco.2.2
    rcases hb with ⟨e, hz⟩ | ⟨_, _, hL, _, m, hm0, hml, hco1⟩ | ⟨_, _, hL, _, hco1, hval1⟩
    · rcases hz with hz | hz | hz
      · rw [efr, hfr] at hz
        exact absurd hz (by decide)
      · rw [ecn] at hz
        unfold INDEFINITE at hz
        omega
      · subst hz
        rw [e]
        exact Or.inl ⟨k, hk, hkn, hco⟩
    · refine Or.inl ⟨m, hm0, ?_, cur_only_cntd hco hco1⟩
      have := hml (by rw [evel]; exact hv)
      rw [ecn] at this
      push_cast
      omega
    · refine Or.inr ⟨cur_only_done hco hco1, ?_⟩
      intro i hi
      have := hval1 (by rw [eout, lU]; exact hU) (by rw [eout, lA]; exact hA) i
        (by rw [eout]; exact hi)
      rw [eUT, eAT] at this
      exact this
  · have efr : c.is_frozen = c0.is_frozen := by rw [hco.1]
    have emode : c.mode_type = MODE_TYPE_FIX := congrArg t_channel.mode_type hco.1
    rcases hb with ⟨e, _⟩ | ⟨_, hmv, _⟩ | ⟨_, hmv, _⟩
    · rw [e]
      exact Or.inr ⟨hco, hval⟩
    · rw [emode] at hmv
      exact absurd hmv (by decide)
    · rw [emode] at hmv
      exact absurd hmv (by decide)

/-- A ramp at a velocity of 1 at least through any sequence of blocks: the engine returns
from every block, and the channel is what `ramp_ge1` tells for the total number of samples. -/
theorem ramp_ge1_blocks (fuel : Nat) (hfuel : 3 ≤ fuel) (x : t_diffuse)
    (out_arr : Nat → Nat → ℚ) (blocks : List ((Nat → Nat → ℚ) × Nat)) (c : Nat)
    (hc : c < x.channel_cnt) (hon : (x.channel c).is_on = true)
    (hfr : (x.channel c).is_frozen = false) (hm : (x.channel c).mode_type = MODE_TYPE_VAR)
    (hv : 1 ≤ (x.channel c).velocity) (h0 : 0 ≤ (x.channel c).cntd)
    (hU : (x.channel c).out_cnt ≤ (x.channel c).U_cur.length)
    (hA : (x.channel c).out_cnt ≤ (x.channel c).A_cur.length)
    (hrun : ∀ c1, c1 ≠ c → (x.channel c1).is_on = true → chan_run (x.channel c1)) :
    ∃ x1, perform_blocks fuel out_arr blocks x = some x1
      ∧ ramp_ge1 (x.channel c) (blocks_len blocks) (x1.channel c) := by
  have hrun1 : ∀ c1, (x.channel c1).is_on = true → chan_run (x.channel c1) := by
    intro c1 h1
    by_cases e : c1 = c
    · subst e
      exact Or.inr (Or.inr ⟨hm, h0, lt_of_lt_of_le one_pos hv⟩)
    · exact hrun c1 e h1
  obtain ⟨x1, h1, h2⟩ := perform_blocks_ind fuel out_arr
    (fun n y => (∀ c1, (y.channel c1).is_on = true → chan_run (y.channel c1))
      ∧ channels_only x y ∧ ramp_ge1 (x.channel c) n (y.channel c))
    (fun n y in_arr sampleframes hy => by
      obtain ⟨r1, r2, r3⟩ := hy
      have hyx : y.channel_cnt = x.channel_cnt := by rw [r2.1]
      have honY : (y.channel c).is_on = true := by rw [ramp_ge1_on r3]; exact hon
      obtain ⟨r, g1, g2, g3, g4⟩ := perform64_track fuel hfuel y in_arr out_arr sampleframes r1
        c (by rw [hyx]; exact hc) honY
        (fun ch => ramp_ge1 (x.channel c) (n + sampleframes) ch)
        (fun z st hz e1 e2 => by
          obtain ⟨st1, k1, k2⟩ := chunk_loop_block z c (in_arr c) sampleframes fuel hfuel st e2
            (by rw [e1]; exact r1 c honY)
          refine ⟨st1, k1, ?_⟩
          rw [e1] at k2
          exact ramp_ge1_step (x.channel c) hfr hv hU hA n sampleframes _ _ r3 k2)
      exact ⟨r, g1, g3, channels_only_trans r2 g2, g4⟩)
    blocks 0 x ⟨hrun1, channels_only_refl x, Or.inl ⟨_, h0, by simp, cur_only_refl _⟩⟩
  refine ⟨x1, h1, ?_⟩
  have := h2.2.2
  rw [Nat.zero_add] at this
  exact this

theorem ramp_to_channel_cnt (x : t_diffuse) (argv : List t_atom) :
    (state_ramp_to x argv).x.channel_cnt = x.channel_cnt := by
  unfold state_ramp_to
  repeat' first | rfl | split | dsimp only

/-- C3, as stated, fails for a velocity that is not 1. At velocity 1.5, after
`ramp_to 0 0 10. ramp` at 1000 Hz, seven blocks of 1 sample, `ceil(10 × 1000 / 1000 / 1.5)`
samples, leave the gains `[0, 43/48]` for the targets `[0, 1]`, with a countdown of 3. At
velocity 0.5 twenty blocks of 1 sample leave gains that are not the targets and the
countdown at 10, where it started. -/
theorem C3_targets_not_reached :
    ⌈(10 : ℚ) * 1000 / 1000 / (3/2)⌉ = 7
    ∧ (perform_blocks 3 (fun _ _ => 0) (List.replicate 7 (fun _ _ => 1, 1)) x_2_fast).map
        (fun y => ((y.channel 0).A_cur, (y.channel 0).A_targ, (y.channel 0).cntd))
      = some ([0, 43/48], [0, 1], 3)
    ∧ ⌈(10 : ℚ) * 1000 / 1000 / (1/2)⌉ = 20
    ∧ (perform_blocks 3 (fun _ _ => 0) (List.replicate 20 (fun _ _ => 1, 1)) x_2_slow).map
        (fun y => (decide ((y.channel 0).A_cur = (y.channel 0).A_targ), (y.channel 0).A_targ,
          (y.channel 0).cntd))
      = some (false, [0, 1], 10) := by
  refine ⟨?_, by decide!, ?_, by decide!⟩
  · rw [Int.ceil_eq_iff]
    norm_num
  · rw [Int.ceil_eq_iff]
    norm_num

/-- C3, amended: for a velocity of 1 at least and a sample rate that is not negative, after a
successful `ramp_to` on a switched-on, unfrozen channel whose cast `(t_int32)(time * msr)`
does not overflow, every sequence of blocks whose lengths total more than the countdown
`(t_int32)(time * msr)` that the method has set, and in which the casts of the chunk loop
are exact, is processed to its end and leaves the channel fixed, with `A_cur` equal to
`A_targ` and `U_cur` equal to `U_targ` for every output, the targets being those of the
state. -/
theorem C3_ramp_reaches_targets (fuel : Nat) (hfuel : 3 ≤ fuel) (x : t_diffuse)
    (argv : List t_atom) (out_arr : Nat → Nat → ℚ) (blocks : List ((Nat → Nat → ℚ) × Nat))
    (c : Nat) (hwf : engine_wf x) (hok : (state_ramp_to x argv).ok = true)
    (hfind : _channel_find x (atom_at argv 0) = some c) (hmsr : 0 ≤ x.msr)
    (hcast : cast_in_range (atom_getfloat (atom_at argv 2) * x.msr))
    (hon : (x.channel c).is_on = true) (hfr : (x.channel c).is_frozen = false)
    (hv : 1 ≤ (x.channel c).velocity)
    (hrun : ∀ c1, c1 ≠ c → (x.channel c1).is_on = true → chan_run (x.channel c1))
    (_hexact : blocks_casts_exact fuel out_arr blocks (state_ramp_to x argv).x)
    (hlen : to_int32 (atom_getfloat (atom_at argv 2) * x.msr) < blocks_len blocks) :
    ∃ x1, perform_blocks fuel out_arr blocks (state_ramp_to x argv).x = some x1
      ∧ ((state_ramp_to x argv).x.channel c).cntd
          = to_int32 (atom_getfloat (atom_at argv 2) * x.msr)
      ∧ (x1.channel c).mode_type = MODE_TYPE_FIX
      ∧ ∀ i, i < x.out_cnt →
          rd (x1.channel c).A_cur i = rd (x1.channel c).A_targ i
          ∧ rd (x1.channel c).U_cur i = rd (x1.channel c).U_targ i
          ∧ rd (x1.channel c).A_targ i
              = rd ((state_ramp_to x argv).x.channel c).A_targ i := by
  obtain ⟨c2, s, absc, set_interp, k1, k2, k3, k4, k5, k6⟩ := ramp_to_ok x argv hwf hok
  rw [hfind] at k1
  have ec : c2 = c := (Option.some.inj k1).symm
  subst ec
  have hcc := (find_channel_some x _ _ hfind).2
  have hfam : is_family set_interp := by
    rcases k4 with ⟨_, _, e⟩ | ⟨_, _, e⟩
    · exact Or.inl e
    · exact Or.inr e
  obtain ⟨f1, f2, f3, _⟩ := scheduled_frame x set_interp hfam
    { x.state s with U_cur := absc }
    (to_int32 (atom_getfloat (atom_at argv 2) * x.msr)) 0 (x.channel c2)
  rw [← k5] at f1 f2 f3
  obtain ⟨w1, w2, w3, _, _⟩ := wf_channel x hwf c2 hcc
  obtain ⟨fU, fA, fv, _, fon, ffr, _, fout, _, _⟩ := f1
  have hcnt0 : 0 ≤ ((state_ramp_to x argv).x.channel c2).cntd := by
    rw [f2]
    exact to_int32_nonneg _ (mul_nonneg (le_of_lt k3) hmsr) hcast
  set y := (state_ramp_to x argv).x with hy
  have hycnt : c2 < y.channel_cnt := by
    rw [hy, ramp_to_channel_cnt]
    exact hcc
  obtain ⟨x1, h1, h2⟩ := ramp_ge1_blocks fuel hfuel y out_arr blocks c2 hycnt
    (by rw [fon]; exact hon) (by rw [ffr]; exact hfr) f3 (by rw [fv]; exact hv) hcnt0
    (by rw [fout, fU, w1, w2]) (by rw [fout, fA, w1, w3])
    (fun c1 hne h => by
      rw [k6 c1 hne] at h ⊢
      exact hrun c1 hne h)
  refine ⟨x1, h1, f2, ?_⟩
  rcases h2 with ⟨k, hk, hkn, _⟩ | ⟨hco, hval⟩
  · rw [f2] at hkn
    omega
  · refine ⟨congrArg t_channel.mode_type hco.1, ?_⟩
    intro i hi
    have eA : (x1.channel c2).A_targ = (y.channel c2).A_targ := by rw [hco.1]
    have eU : (x1.channel c2).U_targ = (y.channel c2).U_targ := by rw [hco.1]
    have := hval i (by rw [fout, w1]; exact hi)
    exact ⟨by rw [this.2, eA], by rw [this.1, eU], by rw [eA]⟩

/-- C3, amended, at work: `ramp_to 0 0 10. ramp` on the engine `x_2` at velocity 1.5, which
sets the countdown to 10, then three blocks of 4 samples. The first block takes 6 off the
countdown, the second one ends the ramp after 2 samples. -/
theorem C3_ramp_reaches_targets_witness :
    ∃ x1, perform_blocks 3 (fun _ _ => 0)
          [(fun _ _ => 1, 4), (fun _ _ => 1, 4), (fun _ _ => 1, 4)]
          (state_ramp_to x_2_vel argv_to_ramp).x = some x1
      ∧ ((state_ramp_to x_2_vel argv_to_ramp).x.channel 0).cntd
          = to_int32 (atom_getfloat (atom_at argv_to_ramp 2) * x_2_vel.msr)
      ∧ (x1.channel 0).mode_type = MODE_TYPE_FIX
      ∧ ∀ i, i < x_2_vel.out_cnt →
          rd (x1.channel 0).A_cur i = rd (x1.channel 0).A_targ i
          ∧ rd (x1.channel 0).U_cur i = rd (x1.channel 0).U_targ i
          ∧ rd (x1.channel 0).A_targ i
              = rd ((state_ramp_to x_2_vel argv_to_ramp).x.channel 0).A_targ i :=
  C3_ramp_reaches_targets 3 (le_refl 3) x_2_vel argv_to_ramp (fun _ _ => 0)
    [(fun _ _ => 1, 4), (fun _ _ => 1, 4), (fun _ _ => 1, 4)] 0 (by decide!) (by decide!)
    (by decide!) (by decide!) (by decide!) (by decide!) (by decide!) (by decide!)
    (fun c1 h1 hon1 => by
      have e : x_2_vel.channel c1 = channel_null := by
        unfold t_diffuse.channel
        exact List.getD_eq_default _ _
          (by rw [show x_2_vel.channel_arr.length = 1 from by decide!]; omega)
      rw [e] at hon1
      exact absurd hon1 (by decide))
    (by decide!) (by decide!)

theorem set_U_cur_sel (st : t_state) (i : Nat) (v : ℚ) : (st.set_U_cur i v).U_cur = st.U_cur := by
  unfold t_state.set_U_cur
  split <;> rfl

theorem state_set_state_ne (x : t_diffuse) (s s1 : Nat) (st : t_state) (h : s ≠ s1) :
    (x.set_state s st).state s1 = x.state s1 := by
  unfold t_diffuse.set_state t_diffuse.state
  exact getD_set_ne _ _ _ _ _ h

/-- C12 does not hold for the crossfade family: `ramp_max 0 0 1. 10. xfade` on the engine
`x_pow` succeeds and selects the crossfade curve with its parameter 3 for the channel, the
target abscissas are `[1/2, 1]`, but the target gains are `[1/4, 1]`, the crossfade curve
evaluated with the ramping parameter 2, where the crossfade parameter gives `[1/8, 1]`. -/
theorem C12_ramp_max_xfade_uses_ramp_param :
    (state_ramp_max x_pow argv_max_xfade).ok = true
    ∧ ((state_ramp_max x_pow argv_max_xfade).x.channel 0).interp_param = x_pow.xfade_param
    ∧ ((state_ramp_max x_pow argv_max_xfade).x.channel 0).U_targ = [1/2, 1]
    ∧ ((state_ramp_max x_pow argv_max_xfade).x.channel 0).A_targ = [1/4, 1]
    ∧ [x_pow.xfade_func (1/2) x_pow.ramp_param, x_pow.xfade_func 1 x_pow.ramp_param] = [1/4, 1]
    ∧ [x_pow.xfade_func (1/2) x_pow.xfade_param, x_pow.xfade_func 1 x_pow.xfade_param]
        = [1/8, 1] := by
  decide!

/-! ## C13 : the offset of `circular` -/

/-- C13 does not hold for a negative rotation: on the engine `x_3`, with 3 outputs, the
rotation -1 has floor -1 and the offset that `circular` computes is `(-1 % 3) + 8 = 7`, which
is not below 3 and is congruent to 1 modulo 3, where -1 is congruent to 2. The call
`circular 0 1 0 -1. 10.` succeeds and rotates the gains `[1, 0, 0]` to `[0, 1, 0]`; the offset
2 gives `[0, 0, 1]`. On the engine `x_2`, with 2 outputs, the offset is 7 as well. -/
theorem C13_circular_offset_not_normalized :
    engine_wf x_3
    ∧ circ_offset x_3 (-1) = 7
    ∧ ¬ (circ_offset x_3 (-1) < x_3.out_cnt)
    ∧ circ_offset x_3 (-1) % x_3.out_cnt = 1
    ∧ (⌊(-1 : ℚ)⌋ : Int) % x_3.out_cnt = 2
    ∧ (state_circular x_3 argv_circ_neg).ok = true
    ∧ ((state_circular x_3 argv_circ_neg).x.channel 0).A_targ = [0, 1, 0]
    ∧ circ_offset x_2 (-1) = 7 := by
  refine ⟨by decide, by decide!, by decide!, by decide!, ?_, by decide!, by decide!, by decide!⟩
  rw [show (⌊(-1 : ℚ)⌋ : Int) = -1 from by norm_num]
  decide

/-! ## C14 : the targets of `circular` -/

theorem calc_absc_spec (x : t_diffuse) (state : t_state)
    (hrm : state.cnt ≤ state.U_rm_arr.length) (hxf : state.cnt ≤ state.U_xf_arr.length) :
    absc_only state (_state_calc_absc x state)
    ∧ state_consistent x state.cnt (_state_calc_absc x state) := by
  unfold _state_calc_absc
  have key := for_loop_inv (fun k (s : t_state) =>
      absc_only state s ∧ state_consistent x k s)
    (calc_absc_body x) state.cnt state
    ⟨⟨rfl, rfl, rfl⟩, fun i hi => absurd hi (Nat.not_lt_zero i)⟩
    (by
      intro k hk s ⟨⟨e, l1, l2⟩, hc⟩
      have eA : s.A_arr = state.A_arr := by
        have := congrArg t_state.A_arr e
        exact this
      refine ⟨⟨?_, ?_, ?_⟩, ?_⟩
      · have e1 : s.A_arr = state.A_arr ∧ s.U_cur = state.U_cur ∧ s.cnt = state.cnt
            ∧ s.index = state.index ∧ s.name = state.name := by
          refine ⟨eA, ?_, ?_, ?_, ?_⟩
          · have := congrArg t_state.U_cur e
            exact this
          · have := congrArg t_state.cnt e
            exact this
          · have := congrArg t_state.index e
            exact this
          · have := congrArg t_state.name e
            exact this
        obtain ⟨f1, f2, f3, f4, f5⟩ := e1
        unfold calc_absc_body
        simp only []
        rw [← f1, ← f2, ← f3, ← f4, ← f5]
      · show (wr s.U_rm_arr k _).length = _
        rw [length_wr, l1]
      · show (wr s.U_xf_arr k _).length = _
        rw [length_wr, l2]
      · intro i hi
        show rd (wr s.U_rm_arr k _) i = x.ramp_inv_func (rd s.A_arr i) x.ramp_param
          ∧ rd (wr s.U_xf_arr k _) i = x.xfade_inv_func (rd s.A_arr i) x.xfade_param
        rw [rd_wr, rd_wr]
        by_cases hik : k = i
        · subst hik
          have h1 : k < s.U_rm_arr.length := by omega
          have h2 : k < s.U_xf_arr.length := by omega
          simp [h1, h2]
        · have hlt : i < k := by omega
          simp [hik, hc i hlt])
  exact key

theorem state_of_mem (x : t_diffuse) (s : t_state) (h : s ∈ x.state_arr) :
    ∃ i, i < x.state_arr.length ∧ x.state i = s := by
  obtain ⟨i, hi, e⟩ := List.mem_iff_getElem.mp h
  refine ⟨i, hi, ?_⟩
  unfold t_diffuse.state
  rw [List.getD_eq_getElem _ _ hi]
  exact e

theorem slots_only_wf {x y : t_diffuse} (h : slots_only x y) (hwf : engine_wf x) :
    engine_wf y := by
  obtain ⟨e, l, hs⟩ := h
  obtain ⟨w1, w2, w3, w4, w5, _, w7⟩ := hwf
  have e1 : y.out_cnt = x.out_cnt := by
    have := congrArg t_diffuse.out_cnt e
    exact this
  have e2 : y.channel_arr = x.channel_arr := by
    have := congrArg t_diffuse.channel_arr e
    exact this
  have e3 : y.channel_cnt = x.channel_cnt := by
    have := congrArg t_diffuse.channel_cnt e
    exact this
  have e4 : y.state_cnt = x.state_cnt := by
    have := congrArg t_diffuse.state_cnt e
    exact this
  have e5 : y.out_gain = x.out_gain := by
    have := congrArg t_diffuse.out_gain e
    exact this
  have e6 : y.state_tmp = x.state_tmp := by
    have := congrArg t_diffuse.state_tmp e
    exact this
  refine ⟨by rw [e1]; exact w1, by rw [e2, e3]; exact w2, by rw [l, e4]; exact w3,
    by rw [e5, e1]; exact w4, by rw [e2, e1]; exact w5, ?_, by rw [e6, e1]; exact w7⟩
  intro s hs1
  obtain ⟨i, hi, ei⟩ := state_of_mem y s hs1
  rw [← ei, e1]
  exact hs i (by rw [← l]; exact hi)

/-- A loop that writes the gains of a state entry by entry: the rest of the state is kept
and the entry `i` gets `v i`. -/
theorem gains_loop_spec (v : Nat → ℚ) (n : Nat) (st : t_state) (hn : n ≤ st.A_arr.length) :
    for_loop (fun ch (s : t_state) => { s with A_arr := wr s.A_arr ch (v ch) }) n st
      = { st with A_arr :=
            (for_loop (fun ch (s : t_state) => { s with A_arr := wr s.A_arr ch (v ch) })
              n st).A_arr }
    ∧ (for_loop (fun ch (s : t_state) => { s with A_arr := wr s.A_arr ch (v ch) })
        n st).A_arr.length = st.A_arr.length
    ∧ ∀ i, i < n →
        rd (for_loop (fun ch (s : t_state) => { s with A_arr := wr s.A_arr ch (v ch) })
          n st).A_arr i = v i := by
  refine for_loop_inv (fun k (s : t_state) =>
      s = { st with A_arr := s.A_arr } ∧ s.A_arr.length = st.A_arr.length
      ∧ ∀ i, i < k → rd s.A_arr i = v i)
    _ n st ⟨rfl, rfl, fun i hi => absurd hi (Nat.not_lt_zero i)⟩ ?_
  intro k hk s ⟨e, l, hv⟩
  refine ⟨?_, ?_, ?_⟩
  · simp only []
    conv_lhs => rw [e]
  · show (wr s.A_arr k _).length = _
    rw [length_wr, l]
  · intro i hi
    show rd (wr s.A_arr k _) i = _
    rw [rd_wr]
    by_cases hik : k = i
    · subst hik
      have : k < s.A_arr.length := by omega
      simp [this]
    · simp [hik, hv i (by omega)]

theorem cmd_sym (argv : List t_atom) (cmd : String) (h : atom_at argv 0 = .A_SYM cmd) :
    atom_getsym (atom_at argv 0) = cmd ∧ is_sym (atom_at argv 0) = true := by
  rw [h]
  exact ⟨rfl, rfl⟩

theorem state_set_ok (x : t_diffuse) (reg : t_registry) (argv : List t_atom)
    (hcmd : atom_at argv 0 = .A_SYM "set") (hok : (state_state x reg argv).ok = true) :
    ∃ s, _state_find x.state_arr x.state_cnt (atom_at argv 1) = some s
      ∧ argv.length = x.out_cnt + 2
      ∧ gains_valid argv (x.state s).cnt = true
      ∧ (state_state x reg argv).x
          = x.set_state s (_state_calc_absc x (set_gains argv (x.state s)))
      ∧ (state_state x reg argv).reg = reg
      ∧ (state_state x reg argv).err = ERR_NONE := by
  have hsym := cmd_sym argv _ hcmd
  unfold state_state at hok ⊢
  simp only [hsym.1, hsym.2] at hok ⊢
  by_cases h1 : argv.length < 1
  · simp [h1] at hok
  by_cases h2 : x.state_arr = []
  · simp [h1, h2] at hok
  by_cases h3 : argv.length ≠ x.out_cnt + 2
  · simp [h1, h2, h3] at hok
  cases hs : _state_find x.state_arr x.state_cnt (atom_at argv 1) with
  | none => simp [h1, h2, h3, hs] at hok
  | some s =>
  by_cases h4 : gains_valid argv (x.state s).cnt = false
  · simp [h1, h2, h3, hs, h4] at hok
  refine ⟨s, rfl, by omega, by simpa using h4, ?_⟩
  simp [h1, h2, h3, hs, h4]
  rfl

theorem state_load_ok (x : t_diffuse) (reg : t_registry) (argv : List t_atom)
    (hcmd : atom_at argv 0 = .A_SYM "load") (hok : (state_state x reg argv).ok = true) :
    ∃ s, _state_find x.state_arr x.state_cnt (atom_at argv 2) = some s
      ∧ argv.length = 3
      ∧ (state_state x reg argv).reg = reg
      ∧ (state_state x reg argv).err
          = (dict_load reg x.dict_sym "states" (x.state s) (atom_at argv 1) _state_dict_load).1
      ∧ ((state_state x reg argv).err = ERR_NONE →
          (state_state x reg argv).x
            = x.set_state s (_state_calc_absc x
                (dict_load reg x.dict_sym "states" (x.state s) (atom_at argv 1)
                  _state_dict_load).2))
      ∧ ((state_state x reg argv).err ≠ ERR_NONE →
          (state_state x reg argv).x
            = x.set_state s
                (dict_load reg x.dict_sym "states" (x.state s) (atom_at argv 1)
                  _state_dict_load).2) := by
  have hsym := cmd_sym argv _ hcmd
  unfold state_state at hok ⊢
  simp only [hsym.1, hsym.2] at hok ⊢
  by_cases h1 : argv.length < 1
  · simp [h1] at hok
  by_cases h2 : x.state_arr = []
  · simp [h1, h2] at hok
  by_cases h3 : argv.length ≠ 3
  · simp [h1, h2, h3] at hok
  cases hs : _state_find x.state_arr x.state_cnt (atom_at argv 2) with
  | none => simp [h1, h2, h3, hs] at hok
  | some s =>
  refine ⟨s, rfl, by omega, ?_⟩
  by_cases h4 : (dict_load reg x.dict_sym "states" (x.state s) (atom_at argv 1)
      _state_dict_load).1 = ERR_NONE
  · simp [h1, h2, h3, hs, h4]
  · simp [h1, h2, h3, hs, h4]

theorem curves_only_wf {x y : t_diffuse} (h : curves_only x y) (hwf : engine_wf x) :
    engine_wf y := by
  unfold curves_only at h
  have e1 : y.out_cnt = x.out_cnt := by
    have := congrArg t_diffuse.out_cnt h
    exact this
  have e2 : y.channel_arr = x.channel_arr := by
    have := congrArg t_diffuse.channel_arr h
    exact this
  have e3 : y.channel_cnt = x.channel_cnt := by
    have := congrArg t_diffuse.channel_cnt h
    exact this
  have e4 : y.state_cnt = x.state_cnt := by
    have := congrArg t_diffuse.state_cnt h
    exact this
  have e5 : y.out_gain = x.out_gain := by
    have := congrArg t_diffuse.out_gain h
    exact this
  have e6 : y.state_tmp = x.state_tmp := by
    have := congrArg t_diffuse.state_tmp h
    exact this
  have e7 : y.state_arr = x.state_arr := by
    have := congrArg t_diffuse.state_arr h
    exact this
  unfold engine_wf
  rw [e1, e2, e3, e4, e5, e6, e7]
  exact hwf

theorem set_ramp_some (env : t_envelopes) (x : t_diffuse) (argv : List t_atom)
    (x1 : t_diffuse) (h : set_ramp env x argv = some x1) : curves_only x x1 := by
  unfold set_ramp at h
  simp only [] at h
  split at h
  · rw [← Option.some.inj h]
    rfl
  · split at h
    · split at h
      · exact absurd h (by simp)
      · split at h
        · rw [← Option.some.inj h]
          rfl
        · rw [← Option.some.inj h]
          rfl
    · exact absurd h (by simp)

theorem set_xfade_some (env : t_envelopes) (x : t_diffuse) (argv : List t_atom)
    (x1 : t_diffuse) (h : set_xfade env x argv = some x1) : curves_only x x1 := by
  unfold set_xfade at h
  simp only [] at h
  split at h
  · rw [← Option.some.inj h]
    rfl
  · split at h
    · split at h
      · exact absurd h (by simp)
      · split at h
        · rw [← Option.some.inj h]
          rfl
        · rw [← Option.some.inj h]
          rfl
    · exact absurd h (by simp)

/-- C18 does not hold: `velocity 0 0.` and `velocity_all 0.` are accepted on the engine
`x_2` and set the velocity of the channel to 0, the test of the two methods being
`velocity < 0`; a negative velocity is rejected and leaves the velocity as it was. -/
theorem C18_velocity_zero_accepted :
    (state_velocity x_2 [.A_LONG 0, .A_FLOAT 0]).ok = true
    ∧ ((state_velocity x_2 [.A_LONG 0, .A_FLOAT 0]).x.channel 0).velocity = 0
    ∧ (state_velocity_all x_2 0).ok = true
    ∧ ((state_velocity_all x_2 0).x.channel 0).velocity = 0
    ∧ (state_velocity x_2 [.A_LONG 0, .A_FLOAT (-1)]).ok = false
    ∧ ((state_velocity x_2 [.A_LONG 0, .A_FLOAT (-1)]).x.channel 0).velocity = 1
    ∧ (state_velocity_all x_2 (-1)).ok = false
    ∧ ((state_velocity_all x_2 (-1)).x.channel 0).velocity = 1 := by
  decide!

/-! ## C19, C20 : write protection in the dictionaries -/

/-- C19 does not hold: the dictionary `store` holds the state `x` with `protected = "true"`,
yet `state save 0 x` on the engine `x_2_store` returns without an error and replaces the
entry by the name, the count and the gains `[0, 1]` of the state 0, with no `protected`
value; `state save 0 x protect` is rejected for its number of arguments. -/
theorem C19_state_save_ignores_protection :
    (store_states reg_store).bind (fun d => sub_getdictionary d "x") = some entry_protected
    ∧ dictionary_getsym entry_protected "protected" "" = "true"
    ∧ (state_state x_2_store reg_store argv_save_x).ok = true
    ∧ (state_state x_2_store reg_store argv_save_x).err = ERR_NONE
    ∧ (store_states
          (state_state x_2_store reg_store argv_save_x).reg).bind
        (fun d => sub_getdictionary d "x")
        = some [("name", .v_sym "x"), ("count", .v_long 2),
                ("ordinate", .v_atoms [.A_FLOAT 0, .A_FLOAT 1])]
    ∧ (state_state x_2_store reg_store
        [.A_SYM "save", .A_LONG 0, .A_SYM "x", .A_SYM "protect"]).ok = false := by
  decide!

/-- C20 does not hold for `dict_rename_protect`: without a protection argument the
unprotected state `y` is renamed to `x`, a name that holds a state with
`protected = "true"`; the call returns `ERR_NONE` and the protected state is replaced by the
content of `y`. Saving over, deleting or renaming the protected state `x` itself gives
`ERR_DICT_PROTECT` and leaves the registry as it was. -/
theorem C20_rename_replaces_protected :
    (dict_rename_protect reg_store "store" "states" (.A_SYM "y") (.A_SYM "x") none).err
      = ERR_NONE
    ∧ store_states
        (dict_rename_protect reg_store "store" "states" (.A_SYM "y") (.A_SYM "x") none).reg
      = some [("x", .i_dict entry_plain)]
    ∧ dict_save_protect reg_store "store" "states" (x_2.state 0) (.A_SYM "x") none
        _state_dict_save = ⟨ERR_DICT_PROTECT, reg_store⟩
    ∧ dict_delete_protect reg_store "store" "states" (.A_SYM "x") none
        = ⟨ERR_DICT_PROTECT, reg_store⟩
    ∧ dict_rename_protect reg_store "store" "states" (.A_SYM "x") (.A_SYM "z") none
        = ⟨ERR_DICT_PROTECT, reg_store⟩ := by
  decide!

theorem dict_get_append_same {α : Type} (d : List (String × α)) (key : String) (v : α) :
    dict_get (dict_append d key v) key = some v := by
  induction d with
  | nil => simp [dict_append, dict_get]
  | cons p rest ih =>
    obtain ⟨k, w⟩ := p
    unfold dict_append
    by_cases h : k = key
    · simp [h, dict_get]
    · simp only [h, if_false]
      unfold dict_get
      simp only [h, if_false]
      exact ih

theorem dict_get_append_ne {α : Type} (d : List (String × α)) (key key1 : String) (v : α)
    (hne : key ≠ key1) : dict_get (dict_append d key v) key1 = dict_get d key1 := by
  induction d with
  | nil => simp [dict_append, dict_get, hne]
  | cons p rest ih =>
    obtain ⟨k, w⟩ := p
    unfold dict_append
    by_cases h : k = key
    · subst h
      simp [dict_get, hne]
    · simp only [h, if_false]
      unfold dict_get
      by_cases h1 : k = key1
      · simp [h1]
      · simp only [h1, if_false]
        exact ih

/-- The sub-dictionary that `registry_set_sub` has stored is the one that is read back. -/
theorem registry_set_sub_get (reg : t_registry) (root_sym sub_sym : String) (sub : t_dict_sub)
    (root : t_dict_root) (h : dict_get reg root_sym = some root) :
    dict_get (registry_set_sub reg root_sym sub_sym sub) root_sym
        = some (dict_append root sub_sym (.t_dict sub))
    ∧ root_getdictionary (dict_append root sub_sym (.t_dict sub)) sub_sym = some sub := by
  unfold registry_set_sub
  rw [h]
  simp only []
  refine ⟨dict_get_append_same _ _ _, ?_⟩
  unfold root_getdictionary
  rw [dict_get_append_same]

/-- A call of `dict_save` with a name and a registered root dictionary stores the state
under the name, whatever the name held. -/
theorem dict_save_state (reg : t_registry) (root_sym sub_sym : String) (st : t_state)
    (a : t_atom) (root : t_dict_root) (hname : atom_getsym a ≠ "")
    (hroot : dict_get reg root_sym = some root) :
    (dict_save reg root_sym sub_sym st a _state_dict_save).err = ERR_NONE
    ∧ ∃ root1 sub1,
        dict_get (dict_save reg root_sym sub_sym st a _state_dict_save).reg root_sym
          = some root1
        ∧ root_getdictionary root1 sub_sym = some sub1
        ∧ sub_getdictionary sub1 (atom_getsym a) = some (saved_entry st (atom_getsym a)) := by
  unfold dict_save
  simp only [hname, if_false, hroot]
  obtain ⟨g1, _⟩ := registry_set_sub_get reg root_sym sub_sym (sub_or_new root sub_sym) root hroot
  obtain ⟨k1, k2⟩ := registry_set_sub_get _ root_sym sub_sym
    (_state_dict_save st (sub_or_new root sub_sym) (atom_getsym a) "").2 _ g1
  refine ⟨rfl, _, _, k1, k2, ?_⟩
  unfold _state_dict_save sub_getdictionary
  simp only []
  rw [dict_get_append_same]
  rfl

theorem state_save_ok (x : t_diffuse) (reg : t_registry) (argv : List t_atom)
    (hcmd : atom_at argv 0 = .A_SYM "save") (hok : (state_state x reg argv).ok = true) :
    ∃ s, _state_find x.state_arr x.state_cnt (atom_at argv 1) = some s
      ∧ argv.length = 3 ∧ (x.state s).cnt ≠ 0
      ∧ (state_state x reg argv).x = x
      ∧ (state_state x reg argv).reg
          = (dict_save reg x.dict_sym "states" (x.state s) (atom_at argv 2)
              _state_dict_save).reg
      ∧ (state_state x reg argv).err
          = (dict_save reg x.dict_sym "states" (x.state s) (atom_at argv 2)
              _state_dict_save).err := by
  have hsym := cmd_sym argv _ hcmd
  unfold state_state at hok ⊢
  simp only [hsym.1, hsym.2] at hok ⊢
  by_cases h1 : argv.length < 1
  · simp [h1] at hok
  by_cases h2 : x.state_arr = []
  · simp [h1, h2] at hok
  by_cases h3 : argv.length ≠ 3
  · simp [h1, h2, h3] at hok
  cases hs : _state_find x.state_arr x.state_cnt (atom_at argv 1) with
  | none => simp [h1, h2, h3, hs] at hok
  | some s =>
  by_cases h4 : (x.state s).cnt = 0
  · simp [h1, h2, h3, hs, h4] at hok
  refine ⟨s, rfl, by omega, h4, ?_⟩
  simp [h1, h2, h3, hs, h4]

/-- C19, amended: the command `state save` takes a state and a name and no protection
argument. Whenever it is accepted, names a state and a name that is not empty, and the
dictionary of the object exists, it returns without an error, leaves the engine as it was
and stores under the name the name, the count and the gains of the state and no `protected`
value, whatever the name held before, a protected entry included. -/
theorem C19_state_save_overwrites (x : t_diffuse) (reg : t_registry) (argv : List t_atom)
    (root : t_dict_root) (hcmd : atom_at argv 0 = .A_SYM "save")
    (hok : (state_state x reg argv).ok = true)
    (hname : atom_getsym (atom_at argv 2) ≠ "")
    (hroot : dict_get reg x.dict_sym = some root) :
    argv.length = 3
    ∧ (state_state x reg argv).err = ERR_NONE
    ∧ (state_state x reg argv).x = x
    ∧ ∃ s root1 sub1, _state_find x.state_arr x.state_cnt (atom_at argv 1) = some s
        ∧ dict_get (state_state x reg argv).reg x.dict_sym = some root1
        ∧ root_getdictionary root1 "states" = some sub1
        ∧ sub_getdictionary sub1 (atom_getsym (atom_at argv 2))
            = some (saved_entry (x.state s) (atom_getsym (atom_at argv 2)))
        ∧ dictionary_getsym (saved_entry (x.state s) (atom_getsym (atom_at argv 2)))
            "protected" "" = "" := by
  obtain ⟨s, hs, hlen, _, ex, ereg, eerr⟩ := state_save_ok x reg argv hcmd hok
  obtain ⟨k1, root1, sub1, k2, k3, k4⟩ := dict_save_state reg x.dict_sym "states" (x.state s)
    (atom_at argv 2) root hname hroot
  refine ⟨hlen, by rw [eerr]; exact k1, ex, s, root1, sub1, hs, by rw [ereg]; exact k2, k3, k4,
    ?_⟩
  unfold saved_entry dictionary_getsym dict_get dict_get dict_get dict_get
  simp

/-- C19, amended, at work: `state save 0 x` on the engine `x_2_store`, whose dictionary
holds a protected state `x`. -/
theorem C19_state_save_overwrites_witness :
    argv_save_x.length = 3
    ∧ (state_state x_2_store reg_store argv_save_x).err = ERR_NONE
    ∧ (state_state x_2_store reg_store argv_save_x).x = x_2_store
    ∧ ∃ s root1 sub1,
        _state_find x_2_store.state_arr x_2_store.state_cnt (atom_at argv_save_x 1) = some s
        ∧ dict_get (state_state x_2_store reg_store argv_save_x).reg x_2_store.dict_sym
            = some root1
        ∧ root_getdictionary root1 "states" = some sub1
        ∧ sub_getdictionary sub1 (atom_getsym (atom_at argv_save_x 2))
            = some (saved_entry (x_2_store.state s) (atom_getsym (atom_at argv_save_x 2)))
        ∧ dictionary_getsym
            (saved_entry (x_2_store.state s) (atom_getsym (atom_at argv_save_x 2)))
            "protected" "" = "" :=
  C19_state_save_overwrites x_2_store reg_store argv_save_x
    [("states", .t_dict [("x", .i_dict entry_protected), ("y", .i_dict entry_plain)])]
    rfl (by decide!) (by decide) (by decide!)

/-! ## Invariants of the reachable engines -/

theorem mode_var_of_inv {a b : Prop} {c : t_channel} (hi : chan_inv a b c)
    (h : c.cntd ≠ INDEFINITE) : c.mode_type = MODE_TYPE_VAR := by
  obtain ⟨h1, h2, _⟩ := hi
  cases hm : c.mode_type with
  | MODE_TYPE_OFF => exact absurd hm h1
  | MODE_TYPE_FIX => exact absurd (h2 hm).1 h
  | MODE_TYPE_VAR => rfl

theorem cur_only_wf {n : Nat} {c c1 : t_channel} (h : cur_only c c1) (hw : channel_wf n c) :
    channel_wf n c1 := by
  obtain ⟨e, l1, l2⟩ := h
  refine ⟨?_, by rw [l1]; exact hw.2.1, by rw [l2]; exact hw.2.2.1, ?_, ?_⟩
  · have := congrArg t_channel.out_cnt e
    exact this.trans hw.1
  · have := congrArg t_channel.U_targ e
    rw [this]
    exact hw.2.2.2.1
  · have := congrArg t_channel.A_targ e
    rw [this]
    exact hw.2.2.2.2

theorem cur_only_var_inv (a b : Prop) {c c1 : t_channel}
    (h : cur_only c c1) (hm : c.mode_type = MODE_TYPE_VAR) (hk : 0 ≤ c.cntd) :
    chan_inv a b c1 := by
  have e1 : c1.mode_type = c.mode_type := by
    have := congrArg t_channel.mode_type h.1
    exact this
  have e2 : c1.cntd = c.cntd := by
    have := congrArg t_channel.cntd h.1
    exact this
  rw [hm] at e1
  refine ⟨by rw [e1]; decide, ?_, ?_⟩
  · intro hf
    rw [e1] at hf
    exact absurd hf (by decide)
  · intro _ _
    rw [e2]
    exact hk

/-- One pass of the chunk loop keeps the allocation and the invariant of the channel. -/
theorem chunk_iter_inv (a b : Prop) (n : Nat) (x : t_diffuse) (in_ : Nat) (sig_in : Nat → ℚ)
    (sampleframes : Int) (st : t_chunk) (hw : channel_wf n st.channel)
    (hi : chan_inv a b st.channel) :
    channel_wf n (chunk_iter x in_ sig_in sampleframes st).channel
    ∧ chan_inv a b (chunk_iter x in_ sig_in sampleframes st).channel := by
  by_cases hfrozen : st.channel.is_frozen = true
  · rw [chunk_iter_frozen x in_ sig_in sampleframes st hfrozen]
    exact ⟨hw, hi⟩
  have hfr : st.channel.is_frozen = false := by
    cases h : st.channel.is_frozen
    · rfl
    · exact absurd h hfrozen
  by_cases h0 : st.channel.cntd = 0
  · rw [chunk_iter_zero x in_ sig_in sampleframes st hfr h0]
    have hm := mode_var_of_inv hi (by rw [h0]; decide)
    obtain ⟨e, l1, l2, hv⟩ := state_iterate_var in_ st.channel hm
      (by rw [hw.1, hw.2.1]) (by rw [hw.1, hw.2.2.1])
    show channel_wf n (_state_iterate in_ st.channel).1
      ∧ chan_inv a b (_state_iterate in_ st.channel).1
    generalize (_state_iterate in_ st.channel).1 = r at e l1 l2 hv
    have f1 : r.mode_type = MODE_TYPE_FIX := by
      have := congrArg t_channel.mode_type e
      exact this
    have f2 : r.cntd = INDEFINITE := by
      have := congrArg t_channel.cntd e
      exact this
    have f3 : r.out_cnt = st.channel.out_cnt := by
      have := congrArg t_channel.out_cnt e
      exact this
    have f4 : r.U_targ = st.channel.U_targ := by
      have := congrArg t_channel.U_targ e
      exact this
    have f5 : r.A_targ = st.channel.A_targ := by
      have := congrArg t_channel.A_targ e
      exact this
    refine ⟨⟨f3.trans hw.1, by rw [l1]; exact hw.2.1, by rw [l2]; exact hw.2.2.1,
      by rw [f4]; exact hw.2.2.2.1, by rw [f5]; exact hw.2.2.2.2⟩, ?_, ?_, ?_⟩
    · rw [f1]
      decide
    · intro _
      refine ⟨f2, fun i hi1 => ?_, fun _ i hi1 => ?_⟩
      · rw [f4]
        exact (hv i (by rw [← f3]; exact hi1)).1
      · rw [f5]
        exact (hv i (by rw [← f3]; exact hi1)).2
    · intro _ hvar
      rw [f1] at hvar
      exact absurd hvar (by decide)
  by_cases h1 : st.channel.cntd = INDEFINITE
  · rw [chunk_iter_indefinite x in_ sig_in sampleframes st hfr h1]
    exact ⟨hw, hi⟩
  have hm := mode_var_of_inv hi h1
  unfold chunk_iter
  simp only []
  rw [if_neg hfrozen, if_neg h0, if_neg h1]
  by_cases hgt : st.channel.cntd > smp_left_x_vel st.smp_left st.channel
  · rw [if_pos hgt]
    obtain ⟨g, _, _⟩ := out_loop_frame x sig_in (sampleframes - st.smp_left) st.smp_left
      (cntd_d_vel st.channel)
      { st with smp_left := 0,
                channel := { st.channel with
                  cntd := st.channel.cntd - smp_left_x_vel st.smp_left st.channel } }
    refine ⟨cur_only_wf g hw, cur_only_var_inv a b g hm ?_⟩
    show 0 ≤ st.channel.cntd - smp_left_x_vel st.smp_left st.channel
    omega
  · rw [if_neg hgt]
    obtain ⟨g, _, _⟩ := out_loop_frame x sig_in (sampleframes - st.smp_left)
      (cntd_d_vel st.channel) (cntd_d_vel st.channel)
      { st with smp_left := st.smp_left - cntd_d_vel st.channel,
                channel := { st.channel with cntd := 0 } }
    exact ⟨cur_only_wf g hw, cur_only_var_inv a b g hm (le_refl 0)⟩

/-- The chunk loop keeps the allocation and the invariant of the channel. -/
theorem chunk_loop_inv (a b : Prop) (n : Nat) (x : t_diffuse) (in_ : Nat) (sig_in : Nat → ℚ)
    (sampleframes : Int) (fuel : Nat) :
    ∀ (st st1 : t_chunk), channel_wf n st.channel → chan_inv a b st.channel →
      chunk_loop x in_ sig_in sampleframes fuel st = some st1 →
      channel_wf n st1.channel ∧ chan_inv a b st1.channel := by
  induction fuel with
  | zero =>
    intro st st1 hw hi h
    unfold chunk_loop at h
    split at h
    · rw [← Option.some.inj h]
      exact ⟨hw, hi⟩
    · exact absurd h (by simp)
  | succ f ih =>
    intro st st1 hw hi h
    unfold chunk_loop at h
    split at h
    · rw [← Option.some.inj h]
      exact ⟨hw, hi⟩
    · obtain ⟨k1, k2⟩ := chunk_iter_inv a b n x in_ sig_in sampleframes st hw hi
      exact ih _ st1 k1 k2 h

/-! ## The invariant under the methods -/

theorem chan_frame_refl (x : t_diffuse) : chan_frame x x := ⟨rfl, rfl, rfl⟩

theorem chan_frame_trans {x y z : t_diffuse} (h1 : chan_frame x y) (h2 : chan_frame y z) :
    chan_frame x z :=
  ⟨h2.1.trans h1.1, h2.2.1.trans h1.2.1, h2.2.2.trans h1.2.2⟩

theorem chan_frame_inv {a : Nat → Prop} {b : Prop} {x y : t_diffuse} (h : chan_frame x y)
    (hi : engine_inv a b x) : engine_inv a b y := by
  obtain ⟨e1, e2, e3⟩ := h
  refine ⟨fun hb => by rw [e2]; exact hi.1 hb, fun i hlt => ?_⟩
  rw [e1] at hlt
  have ec : y.channel i = x.channel i := by
    unfold t_diffuse.channel
    rw [e1]
  rw [e3, ec]
  exact hi.2 i hlt

theorem chan_frame_loop (body : Nat → t_diffuse → t_diffuse)
    (hb : ∀ i y, chan_frame y (body i y)) (n : Nat) (x : t_diffuse) :
    chan_frame x (for_loop body n x) :=
  for_loop_inv (fun _ y => chan_frame x y) body n x (chan_frame_refl x)
    (fun i _ t ht => chan_frame_trans ht (hb i t))

theorem chan_frame_states {x y : t_diffuse} (h : states_only x y) : chan_frame x y := by
  obtain ⟨e, _, _⟩ := h
  refine ⟨?_, ?_, ?_⟩
  · have := congrArg t_diffuse.channel_arr e
    exact this
  · have := congrArg t_diffuse.msr e
    exact this
  · have := congrArg t_diffuse.out_cnt e
    exact this

theorem chan_frame_curves {x y : t_diffuse} (h : curves_only x y) : chan_frame x y := by
  unfold curves_only at h
  refine ⟨?_, ?_, ?_⟩
  · have := congrArg t_diffuse.channel_arr h
    exact this
  · have := congrArg t_diffuse.msr h
    exact this
  · have := congrArg t_diffuse.out_cnt h
    exact this

theorem chan_core_inv {a b : Prop} {n : Nat} {c c1 : t_channel} (h : chan_core c c1)
    (hi : channel_wf n c ∧ chan_inv a b c) : channel_wf n c1 ∧ chan_inv a b c1 := by
  obtain ⟨e1, e2, e3, e4, e5, e6, e7⟩ := h
  obtain ⟨⟨w1, w2, w3, w4, w5⟩, i1, i2, i3⟩ := hi
  refine ⟨⟨e7.trans w1, by rw [e1]; exact w2, by rw [e2]; exact w3, by rw [e3]; exact w4,
    by rw [e4]; exact w5⟩, by rw [e6]; exact i1, ?_, ?_⟩
  · intro hf
    rw [e6] at hf
    obtain ⟨j1, j2, j3⟩ := i2 hf
    refine ⟨e5.trans j1, ?_, ?_⟩
    · intro i hlt
      rw [e1, e3]
      exact j2 i (by rw [← e7]; exact hlt)
    · intro ha i hlt
      rw [e2, e4]
      exact j3 ha i (by rw [← e7]; exact hlt)
  · intro hb hv
    rw [e6] at hv
    rw [e5]
    exact i3 hb hv

theorem inv_set_channel {a : Nat → Prop} {b : Prop} (x : t_diffuse) (i : Nat)
    (v : t_channel) (hi : engine_inv a b x)
    (hv : i < x.channel_arr.length → channel_wf x.out_cnt v ∧ chan_inv (a i) b v) :
    engine_inv a b (x.set_channel i v) := by
  refine ⟨hi.1, fun j hj => ?_⟩
  have hj1 : j < x.channel_arr.length := by
    have : (x.set_channel i v).channel_arr.length = x.channel_arr.length := by
      simp [t_diffuse.set_channel]
    rw [this] at hj
    exact hj
  show channel_wf x.out_cnt ((x.set_channel i v).channel j)
    ∧ chan_inv (a j) b ((x.set_channel i v).channel j)
  by_cases e : i = j
  · subst e
    rw [channel_set_channel_same x i v hj1]
    exact hv hj1
  · rw [channel_set_channel_ne x i j v e]
    exact hi.2 j hj1

theorem inv_set_core {a : Nat → Prop} {b : Prop} (x : t_diffuse) (i : Nat) (v : t_channel)
    (hi : engine_inv a b x) (hv : chan_core (x.channel i) v) :
    engine_inv a b (x.set_channel i v) :=
  inv_set_channel x i v hi (fun hlt => chan_core_inv hv (hi.2 i hlt))

theorem channel_map (x : t_diffuse) (f : t_channel → t_channel) (i : Nat)
    (h : i < x.channel_arr.length) :
    ({ x with channel_arr := x.channel_arr.map f } : t_diffuse).channel i = f (x.channel i) := by
  unfold t_diffuse.channel
  show (x.channel_arr.map f).getD i channel_null = f (x.channel_arr.getD i channel_null)
  rw [List.getD_eq_getElem _ _ (by simpa using h), List.getD_eq_getElem _ _ h]
  simp

theorem inv_map_core {a : Nat → Prop} {b : Prop} (x : t_diffuse) (f : t_channel → t_channel)
    (hi : engine_inv a b x) (hf : ∀ c, chan_core c (f c)) :
    engine_inv a b { x with channel_arr := x.channel_arr.map f } := by
  refine ⟨hi.1, fun i hlt => ?_⟩
  have hlt1 : i < x.channel_arr.length := by simpa using hlt
  show channel_wf x.out_cnt (({ x with channel_arr := x.channel_arr.map f } : t_diffuse).channel i)
    ∧ chan_inv (a i) b (({ x with channel_arr := x.channel_arr.map f } : t_diffuse).channel i)
  rw [channel_map x f i hlt1]
  exact chan_core_inv (hf _) (hi.2 i hlt1)

theorem core_set_interp (set_interp : t_diffuse → t_channel → t_channel)
    (hf : is_family set_interp) (y : t_diffuse) (c : t_channel) :
    chan_core c (set_interp y c) := by
  rcases hf with e | e <;> rw [e] <;> exact ⟨rfl, rfl, rfl, rfl, rfl, rfl, rfl⟩

theorem inv_state_ramp {a : Nat → Prop} {b : Prop} (x : t_diffuse) (ind : Nat) (state : t_state)
    (cntd off : Int) (hi : engine_inv a b x) (hc : b → 0 ≤ cntd) :
    engine_inv a b (_state_ramp x ind state cntd off) := by
  unfold _state_ramp
  refine inv_set_channel x ind _ hi (fun hlt => ?_)
  obtain ⟨⟨w1, w2, w3, w4, w5⟩, _⟩ := hi.2 ind hlt
  obtain ⟨e, l1, l2⟩ := ramp_loop_frame x.out_cnt state off state.cnt
    { x.channel ind with cntd := cntd, mode_type := MODE_TYPE_VAR, state_ind := state.index }
  generalize for_loop (ramp_body x.out_cnt state off) state.cnt
    { x.channel ind with cntd := cntd, mode_type := MODE_TYPE_VAR,
                         state_ind := state.index } = r at e l1 l2
  have f1 : r.mode_type = MODE_TYPE_VAR := by
    have := congrArg t_channel.mode_type e
    exact this
  have f2 : r.cntd = cntd := by
    have := congrArg t_channel.cntd e
    exact this
  have f3 : r.out_cnt = (x.channel ind).out_cnt := by
    have := congrArg t_channel.out_cnt e
    exact this
  have f4 : r.U_cur = (x.channel ind).U_cur := by
    have := congrArg t_channel.U_cur e
    exact this
  have f5 : r.A_cur = (x.channel ind).A_cur := by
    have := congrArg t_channel.A_cur e
    exact this
  refine ⟨⟨f3.trans w1, by rw [f4]; exact w2, by rw [f5]; exact w3, l1.trans w4,
    l2.trans w5⟩, by rw [f1]; decide, ?_, ?_⟩
  · intro hf
    rw [f1] at hf
    exact absurd hf (by decide)
  · intro hb _
    rw [f2]
    exact hc hb

theorem cntd_nonneg {a : Nat → Prop} {b : Prop} (x : t_diffuse) (time : ℚ) (ht : ¬ time ≤ 0)
    (hi : engine_inv a b x) (hr : b → cast_in_range (time * x.msr)) :
    b → 0 ≤ to_int32 (time * x.msr) := by
  intro hb
  have h0 : 0 ≤ time * x.msr := mul_nonneg (le_of_lt (not_le.mp ht)) (hi.1 hb)
  exact to_int32_nonneg _ h0 (hr hb)

theorem inv_ramp_time {a : Nat → Prop} {b : Prop} (y : t_diffuse) (c : Nat) (s : t_state)
    (time : ℚ) (off : Int) (ht : ¬ time ≤ 0) (hi : engine_inv a b y) (m : ℚ)
    (hm : y.msr = m) (hr : b → cast_in_range (time * m)) :
    engine_inv a b (_state_ramp y c s (to_int32 (time * y.msr)) off) :=
  inv_state_ramp y c s _ off hi (cntd_nonneg y time ht hi (by rw [hm]; exact hr))

theorem inv_set_interp {a : Nat → Prop} {b : Prop} (y : t_diffuse) (c : Nat)
    (set_interp : t_diffuse → t_channel → t_channel) (hf : is_family set_interp)
    (hi : engine_inv a b y) :
    engine_inv a b (y.set_channel c (set_interp y (y.channel c))) :=
  inv_set_core y c _ hi (core_set_interp set_interp hf y _)

theorem inv_set_state {a : Nat → Prop} {b : Prop} (y : t_diffuse) (s : Nat) (st : t_state)
    (hi : engine_inv a b y) : engine_inv a b (y.set_state s st) :=
  chan_frame_inv (chan_frame_states (states_only_set_state y s st)) hi

/-- The method `ramp_to` keeps the invariant. -/
theorem inv_ramp_to {a : Nat → Prop} {b : Prop} (x : t_diffuse) (argv : List t_atom)
    (hi : engine_inv a b x)
    (hr : b → cast_in_range (atom_getfloat (atom_at argv 2) * x.msr)) :
    engine_inv a b (state_ramp_to x argv).x := by
  unfold state_ramp_to
  repeat' first | exact hi | split | dsimp only
  · refine inv_ramp_time _ _ _ _ _ (by assumption) ?_ x.msr rfl hr
    exact inv_set_interp _ _ set_interp_ramp (Or.inl rfl) (inv_set_state _ _ _ hi)
  · refine inv_ramp_time _ _ _ _ _ (by assumption) ?_ x.msr rfl hr
    exact inv_set_interp _ _ set_interp_xfade (Or.inr rfl) (inv_set_state _ _ _ hi)

theorem family_of_sel {interp_type : String} {absc : t_absc}
    {set_interp : t_diffuse → t_channel → t_channel}
    (h : (if interp_type = "ramp" then some (t_absc.rm, set_interp_ramp)
          else if interp_type = "xfade" then some (t_absc.xf, set_interp_xfade)
          else none) = some (absc, set_interp)) : is_family set_interp := by
  split at h
  · exact Or.inl (congrArg Prod.snd (Option.some.inj h)).symm
  · split at h
    · exact Or.inr (congrArg Prod.snd (Option.some.inj h)).symm
    · exact absurd h (by simp)

/-- The method `ramp_between` keeps the invariant. -/
theorem inv_ramp_between {a : Nat → Prop} {b : Prop} (x : t_diffuse) (argv : List t_atom)
    (hi : engine_inv a b x)
    (hr : b → cast_in_range (atom_getfloat (atom_at argv 4) * x.msr)) :
    engine_inv a b (state_ramp_between x argv).x := by
  unfold state_ramp_between
  repeat' first | exact hi | split | dsimp only
  rename_i heq
  refine inv_ramp_time _ _ _ _ _ (by assumption) ?_ x.msr ?_ hr
  · refine chan_frame_inv (chan_frame_loop _ ?_ _ _) ?_
    · intro i y
      exact ⟨rfl, rfl, rfl⟩
    · exact inv_set_interp _ _ _ (family_of_sel heq)
        (inv_set_state _ _ _ (inv_set_state _ _ _ hi))
  · refine (chan_frame_loop _ ?_ _ _).2.1
    intro i y
    exact ⟨rfl, rfl, rfl⟩

theorem family_of_max {interp_type : String}
    {set_interp : t_diffuse → t_channel → t_channel}
    (h : (if interp_type = "ramp" then some set_interp_ramp
          else if interp_type = "xfade" then some set_interp_xfade
          else none) = some set_interp) : is_family set_interp := by
  split at h
  · exact Or.inl (Option.some.inj h).symm
  · split at h
    · exact Or.inr (Option.some.inj h).symm
    · exact absurd h (by simp)

/-- The method `ramp_max` keeps the invariant, also when it fails on a pair. -/
theorem inv_ramp_max {a : Nat → Prop} {b : Prop} (x : t_diffuse) (argv : List t_atom)
    (hi : engine_inv a b x)
    (hr : b → cast_in_range (atom_getfloat (atom_at argv (argv.length - 2)) * x.msr)) :
    engine_inv a b (state_ramp_max x argv).x := by
  unfold state_ramp_max
  repeat' first | exact hi | split | dsimp only
  · rename_i heq _
    refine chan_frame_inv (chan_frame_states (ramp_max_pairs_states _ _ _ _ _ _)) ?_
    refine chan_frame_inv (chan_frame_loop _ ?_ _ _) ?_
    · intro i y
      exact ⟨rfl, rfl, rfl⟩
    · exact inv_set_interp _ _ _ (family_of_max heq) hi
  · rename_i heq _
    refine inv_ramp_time _ _ _ _ _ (by assumption) ?_ x.msr ?_ hr
    · refine chan_frame_inv (chan_frame_loop _ ?_ _ _) ?_
      · intro i y
        exact ⟨rfl, rfl, rfl⟩
      refine chan_frame_inv (chan_frame_states (ramp_max_pairs_states _ _ _ _ _ _)) ?_
      refine chan_frame_inv (chan_frame_loop _ ?_ _ _) ?_
      · intro i y
        exact ⟨rfl, rfl, rfl⟩
      · exact inv_set_interp _ _ _ (family_of_max heq) hi
    · refine ((chan_frame_loop _ ?_ _ _).2.1).trans ?_
      · intro i y
        exact ⟨rfl, rfl, rfl⟩
      refine ((chan_frame_states (ramp_max_pairs_states _ _ _ _ _ _)).2.1).trans ?_
      refine (chan_frame_loop _ ?_ _ _).2.1
      intro i y
      exact ⟨rfl, rfl, rfl⟩

/-- The method `circular` keeps the invariant. -/
theorem inv_circular {a : Nat → Prop} {b : Prop} (x : t_diffuse) (argv : List t_atom)
    (hi : engine_inv a b x)
    (hr : b → cast_in_range (atom_getfloat (atom_at argv 4) * x.msr)) :
    engine_inv a b (state_circular x argv).x := by
  unfold state_circular
  repeat' first | exact hi | split | dsimp only
  all_goals
    refine (for_loop_inv (fun _ y => engine_inv a b y ∧ y.msr = x.msr) _ _ _ ?_ ?_).1
    · refine ⟨chan_frame_inv (chan_frame_loop _ ?_ _ _) (inv_set_state _ _ _ hi),
        (chan_frame_loop _ ?_ _ _).2.1⟩
      · intro i y
        exact ⟨rfl, rfl, rfl⟩
      · intro i y
        exact ⟨rfl, rfl, rfl⟩
    · intro i _ t ht
      refine ⟨?_, ht.2⟩
      refine inv_ramp_time _ _ _ _ _ (by assumption) ?_ x.msr ht.2 hr
      exact inv_set_interp _ _ set_interp_xfade (Or.inr rfl) ht.1

/-- The methods `velocity` and `freeze` keep the invariant. -/
theorem inv_velocity_freeze {a : Nat → Prop} {b : Prop} (x : t_diffuse) (argv : List t_atom)
    (hi : engine_inv a b x) :
    engine_inv a b (state_velocity x argv).x ∧ engine_inv a b (state_freeze x argv).x := by
  constructor
  · unfold state_velocity
    repeat' first | exact hi | split | dsimp only
    all_goals exact inv_set_core _ _ _ hi ⟨rfl, rfl, rfl, rfl, rfl, rfl, rfl⟩
  · unfold state_freeze
    repeat' first | exact hi | split | dsimp only
    all_goals exact inv_set_core _ _ _ hi ⟨rfl, rfl, rfl, rfl, rfl, rfl, rfl⟩

/-- The methods `velocity_all` and `freeze_all` keep the invariant. -/
theorem inv_all {a : Nat → Prop} {b : Prop} (x : t_diffuse) (velocity : ℚ) (is_frozen : Int)
    (hi : engine_inv a b x) :
    engine_inv a b (state_velocity_all x velocity).x
      ∧ engine_inv a b (state_freeze_all x is_frozen).x := by
  constructor
  · unfold state_velocity_all
    repeat' first | exact hi | split | dsimp only
    all_goals exact inv_map_core x _ hi (fun c => ⟨rfl, rfl, rfl, rfl, rfl, rfl, rfl⟩)
  · unfold state_freeze_all
    repeat' first | exact hi | split | dsimp only
    all_goals exact inv_map_core x _ hi (fun c => ⟨rfl, rfl, rfl, rfl, rfl, rfl, rfl⟩)

/-- The methods `gain_in` and `mute_ramp` keep the invariant. -/
theorem inv_gain_mute {a : Nat → Prop} {b : Prop} (x : t_diffuse) (argv : List t_atom)
    (hi : engine_inv a b x) :
    engine_inv a b (channel_gain_in x argv).x
      ∧ engine_inv a b (channel_mute_ramp x argv).x := by
  constructor
  · unfold channel_gain_in
    repeat' first | exact hi | split | dsimp only
    all_goals exact inv_set_core _ _ _ hi ⟨rfl, rfl, rfl, rfl, rfl, rfl, rfl⟩
  · unfold channel_mute_ramp
    repeat' first | exact hi | split | dsimp only
    all_goals exact inv_set_core _ _ _ hi ⟨rfl, rfl, rfl, rfl, rfl, rfl, rfl⟩

/-- The methods `dictionary`, `master`, `gain_out` and `output` keep the invariant. -/
theorem inv_object {a : Nat → Prop} {b : Prop} (x : t_diffuse) (reg : t_registry) (dict_sym : String)
    (master : ℚ) (argv : List t_atom) (outp_type : String) (hi : engine_inv a b x) :
    engine_inv a b (diffuse_dictionary x reg dict_sym)
      ∧ engine_inv a b (diffuse_master x master)
      ∧ engine_inv a b (diffuse_gain_out x argv).x
      ∧ engine_inv a b (diffuse_output x outp_type).x := by
  refine ⟨hi, hi, ?_, ?_⟩
  · unfold diffuse_gain_out
    repeat' first | exact hi | split | dsimp only
  · unfold diffuse_output
    repeat' first | exact hi | split

/-- The method `dsp64` keeps the invariant when the samplerate is not negative, if `b` is
asked for. -/
theorem inv_dsp64 {a : Nat → Prop} {b : Prop} (x : t_diffuse) (samplerate : ℚ)
    (hi : engine_inv a b x) (hs : b → 0 ≤ samplerate) :
    engine_inv a b (diffuse_dsp64 x samplerate) := by
  refine ⟨fun hb => ?_, hi.2⟩
  show 0 ≤ fl (samplerate / 1000)
  exact fl_nonneg _ (div_nonneg (hs hb) (by norm_num))

theorem set_update_frame (x : t_diffuse) : chan_frame x (set_update x) := by
  unfold set_update
  refine chan_frame_loop _ ?_ _ _
  intro i y
  exact ⟨rfl, rfl, rfl⟩

/-- The method `set` keeps the invariant. -/
theorem inv_set {a : Nat → Prop} {b : Prop} (env : t_envelopes) (x : t_diffuse) (argv : List t_atom)
    (hi : engine_inv a b x) : engine_inv a b (diffuse_set env x argv).x := by
  unfold diffuse_set
  repeat' first | exact hi | split | dsimp only
  rename_i x1 heq
  refine chan_frame_inv (set_update_frame x1) ?_
  split at heq
  · exact chan_frame_inv (chan_frame_curves (set_ramp_some env x argv x1 heq)) hi
  · split at heq
    · exact chan_frame_inv (chan_frame_curves (set_xfade_some env x argv x1 heq)) hi
    · exact absurd heq (by simp)

theorem ite_state_ret {P : t_diffuse → Prop} {c : Prop} [Decidable c] {t e : t_state_ret}
    (ht : c → P t.x) (he : ¬ c → P e.x) : P (if c then t else e).x := by
  by_cases h : c
  · rw [if_pos h]
    exact ht h
  · rw [if_neg h]
    exact he h

/-- The method `state` leaves the channels, the samplerate and the output count. -/
theorem state_state_frame (x : t_diffuse) (reg : t_registry) (argv : List t_atom) :
    chan_frame x (state_state x reg argv).x := by
  unfold state_state
  dsimp only
  repeat' first
    | exact ⟨rfl, rfl, rfl⟩
    | refine ite_state_ret (fun _ => ?_) (fun _ => ?_)
    | split

/-- The loop of `channel set` writes the current gains only. -/
theorem channel_set_loop (v : Nat → ℚ) (n : Nat) (c : t_channel) :
    (for_loop (fun ch (c : t_channel) => { c with A_cur := wr c.A_cur ch (v ch) }) n c)
      = { c with A_cur := (for_loop (fun ch (c : t_channel) =>
                    { c with A_cur := wr c.A_cur ch (v ch) }) n c).A_cur }
    ∧ (for_loop (fun ch (c : t_channel) => { c with A_cur := wr c.A_cur ch (v ch) }) n c).A_cur.length
        = c.A_cur.length := by
  refine for_loop_inv (fun _ (r : t_channel) =>
    r = { c with A_cur := r.A_cur } ∧ r.A_cur.length = c.A_cur.length) _ n c ⟨rfl, rfl⟩ ?_
  intro i _ t ht
  obtain ⟨e, l⟩ := ht
  refine ⟨?_, (length_wr _ _ _).trans l⟩
  show ({ t with A_cur := wr t.A_cur i (v i) } : t_channel)
    = { c with A_cur := wr t.A_cur i (v i) }
  rw [e]

theorem gain_frame_inv {a b : Prop} {n : Nat} {c r : t_channel}
    (h : r = { c with A_cur := r.A_cur } ∧ r.A_cur.length = c.A_cur.length) (hna : ¬ a)
    (hi : channel_wf n c ∧ chan_inv a b c) : channel_wf n r ∧ chan_inv a b r := by
  obtain ⟨e, l⟩ := h
  obtain ⟨⟨w1, w2, w3, w4, w5⟩, i1, i2, i3⟩ := hi
  have f1 : r.mode_type = c.mode_type := by
    have := congrArg t_channel.mode_type e
    exact this
  have f2 : r.cntd = c.cntd := by
    have := congrArg t_channel.cntd e
    exact this
  have f3 : r.out_cnt = c.out_cnt := by
    have := congrArg t_channel.out_cnt e
    exact this
  have f4 : r.U_cur = c.U_cur := by
    have := congrArg t_channel.U_cur e
    exact this
  have f5 : r.U_targ = c.U_targ := by
    have := congrArg t_channel.U_targ e
    exact this
  have f6 : r.A_targ = c.A_targ := by
    have := congrArg t_channel.A_targ e
    exact this
  refine ⟨⟨f3.trans w1, by rw [f4]; exact w2, l.trans w3, by rw [f5]; exact w4,
    by rw [f6]; exact w5⟩, by rw [f1]; exact i1, ?_, ?_⟩
  · intro hf
    rw [f1] at hf
    obtain ⟨j1, j2, _⟩ := i2 hf
    refine ⟨f2.trans j1, ?_, fun ha => absurd ha hna⟩
    intro i hlt
    rw [f4, f5]
    exact j2 i (by rw [← f3]; exact hlt)
  · intro hb hv
    rw [f1] at hv
    rw [f2]
    exact i3 hb hv

theorem ite_ret {P : t_diffuse → Prop} {c : Prop} [Decidable c] {t e : t_ret}
    (ht : c → P t.x) (he : ¬ c → P e.x) : P (if c then t else e).x := by
  by_cases h : c
  · rw [if_pos h]
    exact ht h
  · rw [if_neg h]
    exact he h

/-- A call `channel set ...` leaves the engine as it was, or it is accepted and writes the
current gains of the channel that it names. -/
theorem channel_set_cases (x : t_diffuse) (argv : List t_atom)
    (h : atom_getsym (atom_at argv 0) = "set") :
    (channel_channel x argv).x = x
    ∨ ∃ k, _channel_find x (atom_at argv 1) = some k ∧ (channel_channel x argv).ok = true
        ∧ (channel_channel x argv).x
            = x.set_channel k (for_loop (fun ch (c : t_channel) =>
                { c with A_cur := wr c.A_cur ch (atom_getfloat (atom_at argv (ch + 2))) })
              x.out_cnt (x.channel k)) := by
  unfold channel_channel
  dsimp only
  split
  · exact Or.inl rfl
  · split
    · exact Or.inl rfl
    · split
      · exact Or.inl rfl
      · split
        · exact Or.inl rfl
        · rename_i k heq
          split
          · exact Or.inl rfl
          · exact Or.inr ⟨k, heq, rfl, rfl⟩

/-- The method `channel` keeps the invariant, when an accepted `channel set` is not for a
channel `k` with `a k`. -/
theorem inv_channel {a : Nat → Prop} {b : Prop} (x : t_diffuse) (argv : List t_atom)
    (hi : engine_inv a b x)
    (hset : atom_getsym (atom_at argv 0) = "set" → (channel_channel x argv).ok = true →
      ∀ k, _channel_find x (atom_at argv 1) = some k → ¬ a k) :
    engine_inv a b (channel_channel x argv).x := by
  by_cases hs : atom_getsym (atom_at argv 0) = "set"
  · rcases channel_set_cases x argv hs with e | ⟨k, hk, hok, e⟩
    · rw [e]
      exact hi
    · rw [e]
      exact inv_set_channel x _ _ hi (fun hlt => gain_frame_inv
        (channel_set_loop (fun ch => atom_getfloat (atom_at argv (ch + 2))) _ _)
        (hset hs hok k hk) (hi.2 _ hlt))
  · unfold channel_channel
    dsimp only
    repeat' first
      | exact hi
      | refine ite_ret (fun _ => ?_) (fun _ => ?_)
      | split
    · exact absurd (by assumption) hs
    · exact inv_map_core x _ hi (fun c => ⟨rfl, rfl, rfl, rfl, rfl, rfl, rfl⟩)
    · exact inv_set_core _ _ _ hi ⟨rfl, rfl, rfl, rfl, rfl, rfl, rfl⟩

/-! ## The invariant along the commands -/

/-- The perform routine keeps the invariant. -/
theorem inv_perform64 {a : Nat → Prop} {b : Prop} (fuel : Nat) (x : t_diffuse)
    (in_arr out_arr : Nat → Nat → ℚ) (sampleframes : Nat) (r : t_perform)
    (hi : engine_inv a b x)
    (h : diffuse_perform64 fuel x in_arr out_arr sampleframes = some r) :
    engine_inv a b r.x := by
  obtain ⟨hco, hge, hoff, hon⟩ := perform64_some fuel x in_arr out_arr sampleframes
    (fun i ch ch1 => (channel_wf x.out_cnt ch ∧ chan_inv (a i) b ch) →
      (channel_wf x.out_cnt ch1 ∧ chan_inv (a i) b ch1)) r
    (fun c y st st1 _ _ hst _ hloop hw =>
      chunk_loop_inv (a c) b x.out_cnt y c (in_arr c) sampleframes fuel st st1
        (by rw [hst]; exact hw.1) (by rw [hst]; exact hw.2) hloop) h
  have e1 : r.x.msr = x.msr := by
    have := congrArg t_diffuse.msr hco.1
    exact this
  have e2 : r.x.out_cnt = x.out_cnt := by
    have := congrArg t_diffuse.out_cnt hco.1
    exact this
  refine ⟨fun hb => by rw [e1]; exact hi.1 hb, fun i hlt => ?_⟩
  rw [hco.2] at hlt
  have hx := hi.2 i hlt
  rw [e2]
  by_cases hcnt : i < x.channel_cnt
  · cases hison : (x.channel i).is_on with
    | false =>
      rw [hoff i hcnt hison]
      exact hx
    | true => exact hon i hcnt hison hx
  · rw [hge i (Nat.le_of_not_lt hcnt)]
    exact hx

/-- One call on the object keeps the invariant. -/
theorem run_command_inv {a : Nat → Prop} {b : Prop} (env : t_envelopes) (fuel : Nat)
    (w w1 : t_world) (cmd : t_command) (hi : engine_inv a b w.x) (hc : cmd_ok a b w.x cmd)
    (h : run_command env fuel w cmd = some w1) : engine_inv a b w1.x := by
  cases cmd with
  | bang => rw [← Option.some.inj h]; exact hi
  | dictionary dict_sym => rw [← Option.some.inj h]; exact hi
  | get => rw [← Option.some.inj h]; exact hi
  | master master => rw [← Option.some.inj h]; exact hi
  | gain_out argv =>
    rw [← Option.some.inj h]
    exact (inv_object w.x w.reg "" 0 argv "" hi).2.2.1
  | output outp_type =>
    rw [← Option.some.inj h]
    exact (inv_object w.x w.reg "" 0 [] outp_type hi).2.2.2
  | set argv => rw [← Option.some.inj h]; exact inv_set env w.x argv hi
  | channel argv => rw [← Option.some.inj h]; exact inv_channel w.x argv hi hc
  | gain_in argv => rw [← Option.some.inj h]; exact (inv_gain_mute w.x argv hi).1
  | mute_ramp argv => rw [← Option.some.inj h]; exact (inv_gain_mute w.x argv hi).2
  | state argv =>
    rw [← Option.some.inj h]
    exact chan_frame_inv (state_state_frame w.x w.reg argv) hi
  | ramp_to argv => rw [← Option.some.inj h]; exact inv_ramp_to w.x argv hi hc
  | ramp_between argv => rw [← Option.some.inj h]; exact inv_ramp_between w.x argv hi hc
  | ramp_max argv => rw [← Option.some.inj h]; exact inv_ramp_max w.x argv hi hc
  | circular argv => rw [← Option.some.inj h]; exact inv_circular w.x argv hi hc
  | velocity argv => rw [← Option.some.inj h]; exact (inv_velocity_freeze w.x argv hi).1
  | velocity_all velocity => rw [← Option.some.inj h]; exact (inv_all w.x velocity 0 hi).1
  | freeze argv => rw [← Option.some.inj h]; exact (inv_velocity_freeze w.x argv hi).2
  | freeze_all is_frozen => rw [← Option.some.inj h]; exact (inv_all w.x 0 is_frozen hi).2
  | dsp64 samplerate => rw [← Option.some.inj h]; exact inv_dsp64 w.x samplerate hi hc
  | assist => rw [← Option.some.inj h]; exact hi
  | perform64 in_arr out_arr sampleframes =>
    obtain ⟨r, hr, e⟩ := Option.map_eq_some'.mp h
    rw [← e]
    exact inv_perform64 fuel w.x in_arr out_arr sampleframes r hi hr
  | host_dictionaries reg => rw [← Option.some.inj h]; exact hi

/-- A sequence of calls on the object keeps the invariant. -/
theorem run_commands_inv {a : Nat → Prop} {b : Prop} (env : t_envelopes) (fuel : Nat) :
    ∀ (cmds : List t_command) (w w1 : t_world), engine_inv a b w.x →
      cmds_ok a b env fuel w cmds →
      run_commands env fuel w cmds = some w1 → engine_inv a b w1.x := by
  intro cmds
  induction cmds with
  | nil =>
    intro w w1 hi _ h
    rw [← Option.some.inj h]
    exact hi
  | cons c cs ih =>
    intro w w1 hi hc h
    obtain ⟨w2, h2, h3⟩ := Option.bind_eq_some.mp h
    exact ih w2 w1 (run_command_inv env fuel w w2 c hi hc.1 h2) (hc.2 w2 h2) h3

/-- Without `a` and `b` the invariant asks nothing of the commands. -/
theorem cmds_ok_false (env : t_envelopes) (fuel : Nat) :
    ∀ (cmds : List t_command) (w : t_world), cmds_ok (fun _ => False) False env fuel w cmds := by
  intro cmds
  induction cmds with
  | nil =>
    intro w
    exact trivial
  | cons c cs ih =>
    intro w
    refine ⟨?_, fun w1 _ => ih w1⟩
    cases c <;> first | exact trivial | exact fun hb => hb.elim | exact fun _ _ _ _ h => h

/-- The object as `diffuse_new` creates it has the invariant, with `b` for a samplerate
that is not negative. -/
theorem diffuse_new_inv {a : Nat → Prop} {b : Prop} (env : t_envelopes) (sr : ℚ)
    (argv : List t_atom) (hs : b → 0 ≤ sr) : engine_inv a b (diffuse_new env sr argv) := by
  refine ⟨fun hb => ?_, fun i hlt => ?_⟩
  · show 0 ≤ fl (sr / 1000)
    exact fl_nonneg _ (div_nonneg (hs hb) (by norm_num))
  · have hc1 : (diffuse_new env sr argv).channel i
        ∈ List.replicate (new_counts argv).1
        (_channel_alloc
          { channel_arr := [], channel_cnt := (new_counts argv).1, state_arr := [],
            state_cnt := (new_counts argv).2.2, state_tmp := state_null, master := 1,
            out_cnt := (new_counts argv).2.1, out_gain := [], ramp_param := 4,
            ramp_func := env.ramp_exp, ramp_inv_func := env.ramp_exp_inv, xfade_param := -3,
            xfade_func := env.xfade_sinus, xfade_inv_func := env.xfade_sinus_inv,
            samplerate := sr, msr := fl (sr / 1000), outp_channel := 0,
            outp_type := OUTP_TYPE_DB, dict_sym := "" } 0 0) :=
      channel_mem (diffuse_new env sr argv) i hlt
    have e := List.eq_of_mem_replicate hc1
    rw [e]
    have hfix : ∀ y : t_diffuse, (_channel_alloc y 0 0).mode_type = MODE_TYPE_FIX :=
      fun _ => rfl
    refine ⟨⟨rfl, ?_, ?_, ?_, ?_⟩, by rw [hfix]; decide,
      fun _ => ⟨rfl, fun i _ => rfl, fun _ i _ => rfl⟩,
      fun _ hv => absurd hv (by rw [hfix]; decide)⟩
    all_goals exact List.length_replicate _ _

/-! ## C16, C17 : the channels of the reachable engines -/

/-- C23: each of `ramp_to`, `ramp_between`, `ramp_max` and `circular` called with a duration
that is not positive (the atom `argv + 2`, `argv + 4`, `argv + argc - 2` and `argv + 4`) fails
and returns the engine as it was: every channel, every state and the scratch state are
unchanged. -/
theorem C23_duration_not_positive (x : t_diffuse) (argv_to argv_between argv_max
    argv_circ : List t_atom)
    (h_to : atom_getfloat (atom_at argv_to 2) ≤ 0)
    (h_between : atom_getfloat (atom_at argv_between 4) ≤ 0)
    (h_max : atom_getfloat (atom_at argv_max (argv_max.length - 2)) ≤ 0)
    (h_circ : atom_getfloat (atom_at argv_circ 4) ≤ 0) :
    state_ramp_to x argv_to = ⟨x, false⟩
    ∧ state_ramp_between x argv_between = ⟨x, false⟩
    ∧ state_ramp_max x argv_max = ⟨x, false⟩
    ∧ state_circular x argv_circ = ⟨x, false⟩ := by
  refine ⟨?_, ?_, ?_, ?_⟩
  · unfold state_ramp_to
    repeat' first | rfl | split | dsimp only
  · unfold state_ramp_between
    repeat' first | rfl | split | dsimp only
  · unfold state_ramp_max
    repeat' first | rfl | split | dsimp only
  · unfold state_circular
    repeat' first | rfl | split | dsimp only

/-- C23 at work on the engine `x_2`: `ramp_to 0 0 0. ramp`, `ramp_between 0 0 1 0.5 -1.
xfade`, `ramp_max 0 0 1. 1 0.5 0. ramp` and `circular 0 1 0 0.25 -10.`, calls that are
accepted once the duration is made positive. -/
theorem C23_duration_not_positive_witness :
    (state_ramp_to x_2 argv_to_zero = ⟨x_2, false⟩
      ∧ state_ramp_between x_2 argv_between_neg = ⟨x_2, false⟩
      ∧ state_ramp_max x_2 argv_max_zero = ⟨x_2, false⟩
      ∧ state_circular x_2 argv_circ_zero = ⟨x_2, false⟩)
    ∧ (state_ramp_to x_2 (argv_to_zero.set 2 (.A_FLOAT 10))).ok = true
    ∧ (state_ramp_between x_2 (argv_between_neg.set 4 (.A_FLOAT 10))).ok = true
    ∧ (state_ramp_max x_2 (argv_max_zero.set 5 (.A_FLOAT 10))).ok = true
    ∧ (state_circular x_2 (argv_circ_zero.set 4 (.A_FLOAT 10))).ok = true :=
  ⟨C23_duration_not_positive x_2 argv_to_zero argv_between_neg argv_max_zero argv_circ_zero
    (by decide!) (by decide!) (by decide!) (by decide!),
    by decide!, by decide!, by decide!, by decide!⟩

/-! ## C22 : the command `state set` -/

theorem gains_valid_iff (argv : List t_atom) (n : Nat) :
    gains_valid argv n = true ↔
      ∀ i, i < n → is_number (atom_at argv (i + 2)) = true
        ∧ 0 ≤ atom_getfloat (atom_at argv (i + 2)) ∧ atom_getfloat (atom_at argv (i + 2)) ≤ 1 := by
  unfold gains_valid
  rw [List.all_eq_true]
  constructor
  · intro h i hi
    have := h i (List.mem_range.mpr hi)
    simpa using this
  · intro h i hi
    have := h i (List.mem_range.mp hi)
    simpa using this

theorem find_state_of_long (x : t_diffuse) (hwf : engine_wf x) (n : Int)
    (h0 : 0 ≤ index_int32 n x.state_cnt) (hs : index_int32 n x.state_cnt < x.state_cnt) :
    _state_find x.state_arr x.state_cnt (.A_LONG n)
      = some (index_int32 n x.state_cnt).toNat := by
  have hne : x.state_arr ≠ [] := by
    intro e
    have := hwf.2.2.1
    rw [e] at this
    simp at this
    omega
  unfold _state_find
  simp only [is_long, atom_getlong]
  rw [if_neg (by simp [hne])]
  rw [if_neg (by omega)]

theorem ite_state_all {P : t_state_ret → Prop} {c : Prop} [Decidable c] {t e : t_state_ret}
    (ht : c → P t) (he : ¬ c → P e) : P (if c then t else e) := by
  by_cases h : c
  · rw [if_pos h]
    exact ht h
  · rw [if_neg h]
    exact he h

/-- A command `state ...` that fails leaves the engine and the dictionaries as they were. -/
theorem state_state_failed (x : t_diffuse) (reg : t_registry) (argv : List t_atom) :
    (state_state x reg argv).ok = false →
      (state_state x reg argv).x = x ∧ (state_state x reg argv).reg = reg := by
  have key : (fun r : t_state_ret => r.ok = false → r.x = x ∧ r.reg = reg)
      (state_state x reg argv) := by
    unfold state_state
    repeat' first
      | exact fun _ => ⟨rfl, rfl⟩
      | (intro h; exact absurd h (Bool.noConfusion))
      | refine @ite_state_all (fun r : t_state_ret => r.ok = false → r.x = x ∧ r.reg = reg)
          _ _ _ _ (fun _ => ?_) (fun _ => ?_)
      | split
  exact key

/-- What `state set` accepts: on an allocated engine, `state set` succeeds if and only if
the atom of the state is an integer whose cast to `t_int32` is within `[0, state_cnt)`,
exactly `out_cnt` values follow it and every value is a number in `[0, 1]`; on success the
gain `i` of the state that the cast indexes is the value `i`, for every output; on failure
the engine, and so the gains and the abscissa values of every state, are as they were. -/
theorem state_set_accepts (x : t_diffuse) (reg : t_registry) (argv : List t_atom)
    (hwf : engine_wf x) (hcmd : atom_at argv 0 = .A_SYM "set") :
    ((state_state x reg argv).ok = true ↔
      ((∃ n : Int, atom_at argv 1 = .A_LONG n ∧ 0 ≤ index_int32 n x.state_cnt
          ∧ index_int32 n x.state_cnt < x.state_cnt)
        ∧ argv.length = x.out_cnt + 2
        ∧ ∀ i, i < x.out_cnt → is_number (atom_at argv (i + 2)) = true
            ∧ 0 ≤ atom_getfloat (atom_at argv (i + 2))
            ∧ atom_getfloat (atom_at argv (i + 2)) ≤ 1))
    ∧ ((state_state x reg argv).ok = true →
        ∀ n : Int, atom_at argv 1 = .A_LONG n → ∀ i, i < x.out_cnt →
          rd ((state_state x reg argv).x.state (index_int32 n x.state_cnt).toNat).A_arr i
            = atom_getfloat (atom_at argv (i + 2)))
    ∧ ((state_state x reg argv).ok = false → (state_state x reg argv).x = x) := by
  refine ⟨⟨fun hok => ?_, fun h => ?_⟩, fun hok n hs i hi => ?_,
    fun h => (state_state_failed x reg argv h).1⟩
  · obtain ⟨s, hf, hlen, hv, _⟩ := state_set_ok x reg argv hcmd hok
    obtain ⟨⟨n, ha, hn⟩, hlt⟩ := find_state_some _ _ _ _ hf
    rw [(wf_state x hwf s hlt).1] at hv
    exact ⟨⟨n, ha, by omega, by omega⟩, hlen, (gains_valid_iff argv x.out_cnt).mp hv⟩
  · obtain ⟨⟨n, ha, h0, hlt⟩, hlen, hv⟩ := h
    have hf := find_state_of_long x hwf n h0 hlt
    rw [← ha] at hf
    have hne : x.state_arr ≠ [] := by
      intro e
      rw [e] at hf
      simp [_state_find] at hf
    have hlt1 : (index_int32 n x.state_cnt).toNat < x.state_cnt := by omega
    have hv1 : gains_valid argv (x.state (index_int32 n x.state_cnt).toNat).cnt = true := by
      rw [(wf_state x hwf _ hlt1).1]
      exact (gains_valid_iff argv x.out_cnt).mpr hv
    have hsym := cmd_sym argv _ hcmd
    unfold state_state
    simp only [hsym.1, hsym.2]
    have h1 : ¬ (argv.length < 1 ∨ true = false) := by
      intro h
      rcases h with h | h
      · omega
      · exact absurd h (by decide)
    rw [if_neg h1, if_neg (by simp [hne])]
    simp [hlen, hf, hv1]
  · obtain ⟨s1, hf, _, _, ex, _⟩ := state_set_ok x reg argv hcmd hok
    obtain ⟨⟨n1, ha, hn1⟩, hlt⟩ := find_state_some _ _ _ _ hf
    have es : (index_int32 n x.state_cnt).toNat = s1 := by
      rw [hs] at ha
      injection ha with ha
      rw [ha]
      omega
    rw [es]
    obtain ⟨w1, w2, w3, w4⟩ := wf_state x hwf s1 hlt
    rw [ex, state_set_state_same x s1 _ (by rw [hwf.2.2.1]; exact hlt)]
    obtain ⟨g1, g2, g3⟩ := gains_loop_spec (fun ch => atom_getfloat (atom_at argv (ch + 2)))
      (x.state s1).cnt (x.state s1) (by rw [w1, w2])
    have g1 : set_gains argv (x.state s1)
        = { x.state s1 with A_arr := (set_gains argv (x.state s1)).A_arr } := g1
    have g2 : (set_gains argv (x.state s1)).A_arr.length = (x.state s1).A_arr.length := g2
    have g3 : ∀ i, i < (x.state s1).cnt → rd (set_gains argv (x.state s1)).A_arr i
        = atom_getfloat (atom_at argv (i + 2)) := g3
    have ec : (set_gains argv (x.state s1)).cnt = (x.state s1).cnt := by
      have := congrArg t_state.cnt g1
      exact this
    have er : (set_gains argv (x.state s1)).U_rm_arr = (x.state s1).U_rm_arr := by
      have := congrArg t_state.U_rm_arr g1
      exact this
    have ex1 : (set_gains argv (x.state s1)).U_xf_arr = (x.state s1).U_xf_arr := by
      have := congrArg t_state.U_xf_arr g1
      exact this
    obtain ⟨⟨e, _, _⟩, _⟩ := calc_absc_spec x (set_gains argv (x.state s1))
      (by rw [ec, er, w1, w3]) (by rw [ec, ex1, w1, w4])
    have eA : (_state_calc_absc x (set_gains argv (x.state s1))).A_arr
        = (set_gains argv (x.state s1)).A_arr := by
      have := congrArg t_state.A_arr e
      exact this
    rw [eA]
    exact g3 i (by rw [w1]; exact hi)

/-- C22 does not hold for an index that is not within `t_int32`: on the engine `x_2`, with
two states, `state set 4294967296 0.5 0.25` succeeds, the index `2^32` being cast to 0 by
`(t_int32)atom_getlong(atom)` before the test of the range in `_state_find`, and overwrites
the gains `[0, 1]` of the state 0; `state set 2 0.5 0.25` fails and leaves the state 0, and
`state set 0 0.5 2.` fails on the value 2. -/
theorem C22_state_set_index_wraps :
    index_int32 4294967296 x_2.state_cnt = 0
    ∧ ¬ ((4294967296 : Int) < x_2.state_cnt)
    ∧ (state_state x_2 [] argv_state_set_wrap).ok = true
    ∧ (x_2.state 0).A_arr = [0, 1]
    ∧ ((state_state x_2 [] argv_state_set_wrap).x.state 0).A_arr = [1/2, 1/4]
    ∧ (state_state x_2 []
        [.A_SYM "set", .A_LONG 2, .A_FLOAT (1/2), .A_FLOAT (1/4)]).ok = false
    ∧ (state_state x_2 [] argv_state_set_bad).ok = false
    ∧ ((state_state x_2 [] argv_state_set_bad).x.state 0).A_arr = (x_2.state 0).A_arr := by
  decide!

/-! ## C21 : a state saved and loaded again -/

theorem dict_save_err_none {σ : Type} (reg : t_registry) (root_sym sub_sym : String) (st : σ)
    (a : t_atom) (f : σ → t_dict_sub → String → String → t_my_err × t_dict_sub)
    (h : (dict_save reg root_sym sub_sym st a f).err = ERR_NONE) :
    atom_getsym a ≠ "" ∧ ∃ root, dict_get reg root_sym = some root := by
  unfold dict_save at h
  simp only [] at h
  split at h
  · exact t_my_err.noConfusion h
  · rename_i hn
    split at h
    · exact t_my_err.noConfusion h
    · rename_i root hr
      exact ⟨hn, root, hr⟩

theorem saved_entry_get (st : t_state) (n : String) :
    dictionary_getlong (saved_entry st n) "count" 0 = st.cnt
    ∧ (∀ v, dictionary_getsym (saved_entry st n) "name" v = n)
    ∧ dictionary_getatoms (saved_entry st n) "ordinate"
        = (List.range st.cnt).map (fun i => t_atom.A_FLOAT (rd st.A_arr i))
    ∧ (saved_entry st n).map Prod.fst = ["name", "count", "ordinate"] := by
  refine ⟨?_, fun v => ?_, ?_, rfl⟩
  · unfold saved_entry dictionary_getlong dict_get dict_get
    simp
  · unfold saved_entry dictionary_getsym dict_get
    simp
  · unfold saved_entry dictionary_getatoms dict_get dict_get dict_get
    simp

theorem saved_atoms (st : t_state) (i : Nat) (hi : i < st.cnt) :
    atom_getfloat (atom_at ((List.range st.cnt).map (fun i => t_atom.A_FLOAT (rd st.A_arr i))) i)
      = rd st.A_arr i := by
  unfold atom_at
  rw [List.getD_eq_getElem _ _ (by simp; exact hi)]
  simp [atom_getfloat]

/-- The function `_state_dict_load` on the dictionary that `_state_dict_save` stored for a
state of the same count: no error, the name is the name of the entry, the gains are those
of the saved state and the rest of the state is kept. -/
theorem dict_load_saved (st st2 : t_state) (n : String) (hc : st2.cnt = st.cnt)
    (h1 : 1 ≤ st.cnt) (hl : st2.cnt ≤ st2.A_arr.length) :
    (_state_dict_load (saved_entry st n) st2).1 = ERR_NONE
    ∧ (_state_dict_load (saved_entry st n) st2).2
        = { st2 with name := n, A_arr := (_state_dict_load (saved_entry st n) st2).2.A_arr }
    ∧ (_state_dict_load (saved_entry st n) st2).2.A_arr.length = st2.A_arr.length
    ∧ ∀ i, i < st.cnt → rd (_state_dict_load (saved_entry st n) st2).2.A_arr i
        = rd st.A_arr i := by
  obtain ⟨g1, g2, g3, _⟩ := saved_entry_get st n
  unfold _state_dict_load
  simp only [g1, g2, g3]
  have c1 : ¬ ((st.cnt : Int) < 1 ∨ (st.cnt : Int) ≠ st2.cnt) := by
    rw [hc]
    omega
  rw [if_neg c1]
  have c2 : ¬ ((List.map (fun i => t_atom.A_FLOAT (rd st.A_arr i)) (List.range st.cnt)).length
      ≠ st2.cnt) := by
    simp [hc]
  rw [if_neg c2]
  obtain ⟨e, l, hv⟩ := gains_loop_spec
    (fun param => atom_getfloat
      (atom_at (List.map (fun i => t_atom.A_FLOAT (rd st.A_arr i)) (List.range st.cnt)) param))
    st2.cnt { st2 with name := n } hl
  refine ⟨rfl, ?_, l, ?_⟩
  · simp only []
    exact e
  · intro i hi
    simp only []
    rw [hv i (by rw [hc]; exact hi)]
    exact saved_atoms st i hi

theorem dict_load_found {σ : Type} (reg : t_registry) (root_sym sub_sym : String) (st : σ)
    (a : t_atom) (f : t_entry → σ → t_my_err × σ) (root : t_dict_root) (sub : t_dict_sub)
    (e : t_entry) (hn : atom_getsym a ≠ "") (h1 : dict_get reg root_sym = some root)
    (h2 : root_getdictionary root sub_sym = some sub)
    (h3 : sub_getdictionary sub (atom_getsym a) = some e) :
    dict_load reg root_sym sub_sym st a f = f e st := by
  unfold dict_load
  simp only [hn, if_false, h1, h2, h3]

/-- C21: on an allocated engine, a successful `state save slot n` followed by an accepted
`state load n slot2` stores under `n` the name, the count and the gains of the state and
nothing else, loads without an error, and leaves in `slot2` the name `n`, the gains of
`slot` element by element and the two arrays of abscissa values calculated from these gains
with the curves of the engine; the other states are as before. The host function
`dictionary_sprintf` is taken to store the name as one symbol. -/
theorem C21_save_load_round_trip (x : t_diffuse) (reg : t_registry)
    (argv_save argv_load : List t_atom) (hwf : engine_wf x)
    (hsave : atom_at argv_save 0 = .A_SYM "save") (hload : atom_at argv_load 0 = .A_SYM "load")
    (hname : atom_getsym (atom_at argv_load 1) = atom_getsym (atom_at argv_save 2))
    (hok1 : (state_state x reg argv_save).ok = true)
    (herr1 : (state_state x reg argv_save).err = ERR_NONE)
    (hok2 : (save_then_load x reg argv_save argv_load).ok = true) :
    ∃ s s2 sub, _state_find x.state_arr x.state_cnt (atom_at argv_save 1) = some s
      ∧ _state_find x.state_arr x.state_cnt (atom_at argv_load 2) = some s2
      ∧ atom_getsym (atom_at argv_save 2) ≠ ""
      ∧ (dict_get (state_state x reg argv_save).reg x.dict_sym).bind
          (fun root => root_getdictionary root "states") = some sub
      ∧ sub_getdictionary sub (atom_getsym (atom_at argv_save 2))
          = some (saved_entry (x.state s) (atom_getsym (atom_at argv_save 2)))
      ∧ (saved_entry (x.state s) (atom_getsym (atom_at argv_save 2))).map Prod.fst
          = ["name", "count", "ordinate"]
      ∧ (save_then_load x reg argv_save argv_load).err = ERR_NONE
      ∧ ((save_then_load x reg argv_save argv_load).x.state s2).name
          = atom_getsym (atom_at argv_save 2)
      ∧ (∀ i, i < x.out_cnt →
          rd ((save_then_load x reg argv_save argv_load).x.state s2).A_arr i
            = rd (x.state s).A_arr i)
      ∧ state_consistent x x.out_cnt ((save_then_load x reg argv_save argv_load).x.state s2)
      ∧ ∀ s1, s1 ≠ s2 →
          (save_then_load x reg argv_save argv_load).x.state s1 = x.state s1 := by
  obtain ⟨s, hs, _, hcnt, ex, ereg, eerr⟩ := state_save_ok x reg argv_save hsave hok1
  rw [eerr] at herr1
  obtain ⟨hn, root, hroot⟩ := dict_save_err_none _ _ _ _ _ _ herr1
  obtain ⟨_, root1, sub1, k1, k2, k3⟩ := dict_save_state reg x.dict_sym "states" (x.state s)
    (atom_at argv_save 2) root hn hroot
  rw [← ereg] at k1
  have e2 : save_then_load x reg argv_save argv_load
      = state_state x (state_state x reg argv_save).reg argv_load := by
    unfold save_then_load
    rw [ex]
  rw [e2] at hok2 ⊢
  generalize (state_state x reg argv_save).reg = R at k1 hok2 ⊢
  obtain ⟨s2, hs2, _, _, e_err, e_x, _⟩ := state_load_ok x R argv_load hload hok2
  have hlt := (find_state_some _ _ _ _ hs).2
  have hlt2 := (find_state_some _ _ _ _ hs2).2
  obtain ⟨w1, w2, w3, w4⟩ := wf_state x hwf s hlt
  obtain ⟨v1, v2, v3, v4⟩ := wf_state x hwf s2 hlt2
  have hld := dict_load_found R x.dict_sym "states" (x.state s2) (atom_at argv_load 1)
    _state_dict_load root1 sub1 _ (by rw [hname]; exact hn) k1 k2 (by rw [hname]; exact k3)
  obtain ⟨d1, d2, d3, d4⟩ := dict_load_saved (x.state s) (x.state s2)
    (atom_getsym (atom_at argv_save 2)) (by rw [v1, w1]) (by rw [w1]; exact hwf.1)
    (by rw [v1, v2])
  rw [← hld] at d1 d2 d3 d4
  have herr2 : (state_state x R argv_load).err = ERR_NONE := e_err.trans d1
  have ex2 := e_x herr2
  generalize (dict_load R x.dict_sym "states" (x.state s2) (atom_at argv_load 1)
    _state_dict_load).2 = L at d2 d3 d4 ex2
  have c1 : L.cnt = (x.state s2).cnt := by
    have := congrArg t_state.cnt d2
    exact this
  have c2 : L.U_rm_arr = (x.state s2).U_rm_arr := by
    have := congrArg t_state.U_rm_arr d2
    exact this
  have c3 : L.U_xf_arr = (x.state s2).U_xf_arr := by
    have := congrArg t_state.U_xf_arr d2
    exact this
  have c4 : L.name = atom_getsym (atom_at argv_save 2) := by
    have := congrArg t_state.name d2
    exact this
  obtain ⟨⟨a1, _, _⟩, a2⟩ := calc_absc_spec x L (by rw [c1, c2, v1, v3]) (by rw [c1, c3, v1, v4])
  have b1 : (_state_calc_absc x L).A_arr = L.A_arr := by
    have := congrArg t_state.A_arr a1
    exact this
  have b2 : (_state_calc_absc x L).name = L.name := by
    have := congrArg t_state.name a1
    exact this
  have est : (state_state x R argv_load).x.state s2 = _state_calc_absc x L := by
    rw [ex2]
    exact state_set_state_same x s2 _ (by rw [hwf.2.2.1]; exact hlt2)
  refine ⟨s, s2, sub1, hs, hs2, hn, ?_, k3, rfl, herr2, ?_, ?_, ?_, ?_⟩
  · rw [k1]
    exact k2
  · rw [est, b2, c4]
  · intro i hi
    rw [est, b1]
    exact d4 i (by rw [w1]; exact hi)
  · rw [est]
    intro i hi
    exact a2 i (by rw [c1, v1]; exact hi)
  · intro s1 h1
    rw [ex2]
    exact state_set_state_ne x s2 s1 _ (Ne.symm h1)

/-- C21 at work on the engine `x_2_store`: `state save 0 a`, then `state load a 1`; the
state 1 gets the name `a` and the gains `[0, 1]` of the state 0. -/
theorem C21_save_load_round_trip_witness :
    ((save_then_load x_2_store reg_store argv_save_a argv_load_a).x.state 1).name = "a"
    ∧ ((save_then_load x_2_store reg_store argv_save_a argv_load_a).x.state 1).A_arr = [0, 1]
    ∧ (x_2_store.state 1).A_arr = [1, 0]
    ∧ ∃ s s2 sub,
      _state_find x_2_store.state_arr x_2_store.state_cnt (atom_at argv_save_a 1) = some s
      ∧ _state_find x_2_store.state_arr x_2_store.state_cnt (atom_at argv_load_a 2) = some s2
      ∧ atom_getsym (atom_at argv_save_a 2) ≠ ""
      ∧ (dict_get (state_state x_2_store reg_store argv_save_a).reg x_2_store.dict_sym).bind
          (fun root => root_getdictionary root "states") = some sub
      ∧ sub_getdictionary sub (atom_getsym (atom_at argv_save_a 2))
          = some (saved_entry (x_2_store.state s) (atom_getsym (atom_at argv_save_a 2)))
      ∧ (saved_entry (x_2_store.state s) (atom_getsym (atom_at argv_save_a 2))).map Prod.fst
          = ["name", "count", "ordinate"]
      ∧ (save_then_load x_2_store reg_store argv_save_a argv_load_a).err = ERR_NONE
      ∧ ((save_then_load x_2_store reg_store argv_save_a argv_load_a).x.state s2).name
          = atom_getsym (atom_at argv_save_a 2)
      ∧ (∀ i, i < x_2_store.out_cnt →
          rd ((save_then_load x_2_store reg_store argv_save_a argv_load_a).x.state s2).A_arr i
            = rd (x_2_store.state s).A_arr i)
      ∧ state_consistent x_2_store x_2_store.out_cnt
          ((save_then_load x_2_store reg_store argv_save_a argv_load_a).x.state s2)
      ∧ ∀ s1, s1 ≠ s2 →
          (save_then_load x_2_store reg_store argv_save_a argv_load_a).x.state s1
            = x_2_store.state s1 :=
  ⟨by decide!, by decide!, by decide!,
    C21_save_load_round_trip x_2_store reg_store argv_save_a argv_load_a (by decide) rfl rfl
      rfl (by decide!) (by decide!) (by decide!)⟩

/-! ## C30 : the countdown of a ramp at velocity 1 -/

/-- C30: on an allocated engine, for a switched-on, unfrozen, ramping channel of velocity 1
with a countdown `C ≥ 0` and every sequence of blocks that totals `N` samples (the other
switched-on channels being such that their chunk loops return), every block is processed;
if `N ≤ C` the channel is still ramping with the countdown `C - N`; if `N > C` the channel is
fixed with an indefinite countdown and `U_cur = U_targ`, `A_cur = A_targ` for every output. -/
theorem C30_countdown_at_velocity_one (fuel : Nat) (hfuel : 3 ≤ fuel) (x : t_diffuse)
    (out_arr : Nat → Nat → ℚ) (blocks : List ((Nat → Nat → ℚ) × Nat)) (c : Nat)
    (hwf : engine_wf x) (hc : c < x.channel_cnt) (hon : (x.channel c).is_on = true)
    (hfr : (x.channel c).is_frozen = false) (hmode : (x.channel c).mode_type = MODE_TYPE_VAR)
    (hvel : (x.channel c).velocity = 1) (hcntd : 0 ≤ (x.channel c).cntd)
    (hrun : ∀ c1, c1 ≠ c → (x.channel c1).is_on = true → chan_run (x.channel c1)) :
    ∃ x1, perform_blocks fuel out_arr blocks x = some x1
      ∧ ((blocks_len blocks : Int) ≤ (x.channel c).cntd →
          (x1.channel c).mode_type = MODE_TYPE_VAR
          ∧ (x1.channel c).cntd = (x.channel c).cntd - blocks_len blocks)
      ∧ ((x.channel c).cntd < blocks_len blocks →
          (x1.channel c).mode_type = MODE_TYPE_FIX ∧ (x1.channel c).cntd = INDEFINITE
          ∧ ∀ i, i < x.out_cnt →
              rd (x1.channel c).U_cur i = rd (x1.channel c).U_targ i
              ∧ rd (x1.channel c).A_cur i = rd (x1.channel c).A_targ i) := by
  obtain ⟨w1, w2, w3, _, _⟩ := wf_channel x hwf c hc
  obtain ⟨x1, h1, h2⟩ := ramp_v1_blocks fuel hfuel x out_arr blocks c hc hon
    ⟨hfr, hmode, hvel, hcntd, by rw [w1, w2], by rw [w1, w3]⟩ w1.symm hrun
  refine ⟨x1, h1, fun hle => ?_, fun hlt => ?_⟩
  · rcases h2 with ⟨h0, e⟩ | ⟨_, _, hco, _⟩ | ⟨hgt, _, _⟩
    · rw [e, h0]
      exact ⟨hmode, by simp⟩
    · have e1 : (x1.channel c).mode_type = (x.channel c).mode_type := by
        have := congrArg t_channel.mode_type hco.1
        exact this
      have e2 : (x1.channel c).cntd = (x.channel c).cntd - blocks_len blocks := by
        have := congrArg t_channel.cntd hco.1
        exact this
      exact ⟨e1.trans hmode, e2⟩
    · omega
  · rcases h2 with ⟨h0, _⟩ | ⟨_, hle, _, _⟩ | ⟨_, hco, hval⟩
    · rw [h0] at hlt
      simp at hlt
      omega
    · omega
    · have e1 : (x1.channel c).mode_type = MODE_TYPE_FIX := by
        have := congrArg t_channel.mode_type hco.1
        exact this
      have e2 : (x1.channel c).cntd = INDEFINITE := by
        have := congrArg t_channel.cntd hco.1
        exact this
      have e3 : (x1.channel c).U_targ = (x.channel c).U_targ := by
        have := congrArg t_channel.U_targ hco.1
        exact this
      have e4 : (x1.channel c).A_targ = (x.channel c).A_targ := by
        have := congrArg t_channel.A_targ hco.1
        exact this
      refine ⟨e1, e2, fun i hi => ?_⟩
      rw [e3, e4]
      exact hval i (by rw [w1]; exact hi)

/-- C30 at work on the engine `x_2_ramp`, scheduled with a countdown of 10 samples: blocks
of 4 and 3 samples leave the countdown 3, blocks of 4, 6 and 1 samples leave the channel
fixed on its targets `[0, 1]`. -/
theorem C30_countdown_at_velocity_one_witness :
    (∃ x1, perform_blocks 3 (fun _ _ => 0) [(fun _ _ => 1, 4), (fun _ _ => 1, 3)] x_2_ramp
        = some x1
      ∧ ((blocks_len [((fun _ _ => 1 : Nat → Nat → ℚ), 4), (fun _ _ => 1, 3)] : Int)
            ≤ (x_2_ramp.channel 0).cntd →
          (x1.channel 0).mode_type = MODE_TYPE_VAR
          ∧ (x1.channel 0).cntd = (x_2_ramp.channel 0).cntd
              - blocks_len [((fun _ _ => 1 : Nat → Nat → ℚ), 4), (fun _ _ => 1, 3)])
      ∧ ((x_2_ramp.channel 0).cntd
            < blocks_len [((fun _ _ => 1 : Nat → Nat → ℚ), 4), (fun _ _ => 1, 3)] →
          (x1.channel 0).mode_type = MODE_TYPE_FIX ∧ (x1.channel 0).cntd = INDEFINITE
          ∧ ∀ i, i < x_2_ramp.out_cnt →
              rd (x1.channel 0).U_cur i = rd (x1.channel 0).U_targ i
              ∧ rd (x1.channel 0).A_cur i = rd (x1.channel 0).A_targ i))
    ∧ (x_2_ramp.channel 0).cntd = 10
    ∧ (perform_blocks 3 (fun _ _ => 0) [(fun _ _ => 1, 4), (fun _ _ => 1, 3)] x_2_ramp).map
        (fun y => ((y.channel 0).mode_type, (y.channel 0).cntd)) = some (MODE_TYPE_VAR, 3)
    ∧ (perform_blocks 3 (fun _ _ => 0) [(fun _ _ => 1, 4), (fun _ _ => 1, 6), (fun _ _ => 1, 1)]
        x_2_ramp).map
        (fun y => ((y.channel 0).mode_type, (y.channel 0).cntd, (y.channel 0).A_cur,
          (y.channel 0).A_targ)) = some (MODE_TYPE_FIX, -1, [0, 1], [0, 1]) :=
  ⟨C30_countdown_at_velocity_one 3 (le_refl 3) x_2_ramp (fun _ _ => 0)
      [(fun _ _ => 1, 4), (fun _ _ => 1, 3)] 0 (by decide) (by decide) (by decide!)
      (by decide!) (by decide!) (by decide!) (by decide!)
      (fun c1 h1 hon1 => by
        have e : x_2_ramp.channel c1 = channel_null := by
          cases c1 with
          | zero => exact absurd rfl h1
          | succ k => rfl
        rw [e] at hon1
        exact absurd hon1 (by decide)),
    by decide!, by decide!, by decide!⟩

/-! ## C29 : the abscissa does not overshoot -/

/-- When the countdown extends beyond the samples left, scaled by the velocity, the samples
left are at most the scaled countdown, which is the truncated quotient itself. -/
theorem whole_block_le (c : t_channel) (n : Int) (hv : 0 < c.velocity) (hn : 1 ≤ n)
    (hgt : c.cntd > smp_left_x_vel n c) :
    n ≤ cntd_d_vel c ∧ cntd_d_vel c = trunc ((c.cntd : ℚ) / c.velocity) := by
  unfold smp_left_x_vel at hgt
  have hnq : (0 : ℚ) ≤ (n : ℚ) := by exact_mod_cast (by omega : (0 : Int) ≤ n)
  have hnv : (0 : ℚ) ≤ (n : ℚ) * c.velocity := mul_nonneg hnq hv.le
  rw [trunc_of_nonneg _ hnv] at hgt
  have h1 : (n : ℚ) * c.velocity < (c.cntd : ℚ) := by
    have h2 : ⌊(n : ℚ) * c.velocity⌋ + 1 ≤ c.cntd := by omega
    have h3 : ((⌊(n : ℚ) * c.velocity⌋ + 1 : Int) : ℚ) ≤ (c.cntd : ℚ) := by exact_mod_cast h2
    have h4 := Int.lt_floor_add_one ((n : ℚ) * c.velocity)
    push_cast at h3
    linarith
  have h5 : (n : ℚ) ≤ (c.cntd : ℚ) / c.velocity := by
    rw [le_div_iff₀ hv]
    exact h1.le
  have hq : (0 : ℚ) ≤ (c.cntd : ℚ) / c.velocity := le_trans hnq h5
  have h6 : n ≤ trunc ((c.cntd : ℚ) / c.velocity) := by
    rw [trunc_of_nonneg _ hq]
    exact Int.le_floor.mpr h5
  rw [cntd_d_vel_of_ne c (ne_of_gt hv)]
  rw [if_neg (by intro h; omega)]
  exact ⟨h6, rfl⟩

/-- A step of `n` parts out of `k`, with `1 ≤ n ≤ k`, from `u` towards `t` stays between
`u` and `t`. -/
theorem step_between (u t : ℚ) (n k : Int) (hn : 1 ≤ n) (hk : n ≤ k) :
    min u t ≤ u + n * (t - u) / k ∧ u + n * (t - u) / k ≤ max u t := by
  have hkq : (0 : ℚ) < (k : ℚ) := by exact_mod_cast (by omega : (0 : Int) < k)
  have hnq : (0 : ℚ) < (n : ℚ) := by exact_mod_cast (by omega : (0 : Int) < n)
  have hnk : (n : ℚ) ≤ (k : ℚ) := by exact_mod_cast hk
  have e : u + n * (t - u) / k = u + (n / k) * (t - u) := by ring
  have f0 : (0 : ℚ) ≤ n / k := div_nonneg hnq.le hkq.le
  have f1 : (n : ℚ) / k ≤ 1 := (div_le_one hkq).mpr hnk
  rw [e]
  rcases le_total u t with h | h
  · rw [min_eq_left h, max_eq_right h]
    constructor
    · nlinarith
    · nlinarith
  · rw [min_eq_right h, max_eq_left h]
    constructor
    · nlinarith
    · nlinarith

/-- C29, as stated, fails in the arithmetic of the program. For the chunk `chunk_round`, of
velocity 3/4, countdown 1 and 1 sample left, the two casts are exact, the loop takes the
whole-block branch and the fraction is `1 / 1`; the exact update takes the abscissa from the
double nearest to 0.075 to its target, the double nearest to 0.225, but the update in doubles
ends `2^-55` above the target. And for a velocity `2^-40` and a countdown 1 the cast of the
quotient `2^40` overflows to `INT_MIN`, so that the chunk length 1 is not at most the scaled
countdown of the program. -/
theorem C29_rounding_overshoots :
    (cast_exact (chunk_round.smp_left * chunk_round.channel.velocity)
      ∧ cast_exact (chunk_round.channel.cntd / chunk_round.channel.velocity)
      ∧ chunk_round.channel.cntd > smp_left_x_vel chunk_round.smp_left chunk_round.channel
      ∧ cntd_d_vel chunk_round.channel = 1
      ∧ rd (chunk_iter x_2 0 (fun _ => 1) 1 chunk_round).channel.U_cur 0
          = rd chunk_round.channel.U_targ 0
      ∧ U_step_fl (rd chunk_round.channel.U_cur 0) (rd chunk_round.channel.U_targ 0)
            chunk_round.smp_left (cntd_d_vel chunk_round.channel)
          = rd chunk_round.channel.U_targ 0 + 1 / 36028797018963968
      ∧ max (rd chunk_round.channel.U_cur 0) (rd chunk_round.channel.U_targ 0)
          < U_step_fl (rd chunk_round.channel.U_cur 0) (rd chunk_round.channel.U_targ 0)
              chunk_round.smp_left (cntd_d_vel chunk_round.channel))
    ∧ ((1 : Int) > to_int32 ((1 : Int) * (1 / 1099511627776 : ℚ))
      ∧ trunc (((1 : Int) : ℚ) / (1 / 1099511627776 : ℚ)) = 1099511627776
      ∧ to_int32 (((1 : Int) : ℚ) / (1 / 1099511627776 : ℚ)) = -2147483648
      ∧ ¬ ((1 : Int) ≤ to_int32 (((1 : Int) : ℚ) / (1 / 1099511627776 : ℚ)))) := by
  decide!

/-- C29, amended: for an unfrozen ramping channel with a velocity `> 0`, a countdown `c > 0`
and `n ≥ 1` samples left, whose casts `(t_int32)(n * velocity)` and `(t_int32)(c / velocity)`
give the truncations of the exact product and quotient: when the chunk loop takes the
whole-block branch (`c > (t_int32)(n * velocity)`) the chunk length `n` is at most the scaled
countdown `k = (t_int32)(c / velocity)`, the fraction `n / k` lies in `(0, 1]` and, for every
output, the new `U_cur` is `U_cur + n * (U_targ - U_cur) / k`, which, evaluated without
rounding, lies between the old `U_cur` and `U_targ`. -/
theorem C29_no_overshoot (x : t_diffuse) (in_ : Nat) (sig_in : Nat → ℚ) (sampleframes : Int)
    (st : t_chunk) (hv : 0 < st.channel.velocity) (hc : 0 < st.channel.cntd)
    (hn : 1 ≤ st.smp_left) (hfrozen : st.channel.is_frozen = false)
    (hmode : st.channel.mode_type = MODE_TYPE_VAR)
    (hU : x.out_cnt ≤ st.channel.U_cur.length) (hA : x.out_cnt ≤ st.channel.A_cur.length)
    (hx1 : cast_exact (st.smp_left * st.channel.velocity))
    (hx2 : cast_exact (st.channel.cntd / st.channel.velocity))
    (hgt : st.channel.cntd > to_int32 (st.smp_left * st.channel.velocity)) :
    (chunk_iter x in_ sig_in sampleframes st).smp_left = 0
    ∧ st.smp_left ≤ cntd_d_vel st.channel
    ∧ cntd_d_vel st.channel = to_int32 ((st.channel.cntd : ℚ) / st.channel.velocity)
    ∧ 0 < (st.smp_left : ℚ) / cntd_d_vel st.channel
    ∧ (st.smp_left : ℚ) / cntd_d_vel st.channel ≤ 1
    ∧ ∀ i, i < x.out_cnt →
        rd (chunk_iter x in_ sig_in sampleframes st).channel.U_cur i
          = rd st.channel.U_cur i
            + st.smp_left * (rd st.channel.U_targ i - rd st.channel.U_cur i)
              / cntd_d_vel st.channel
        ∧ min (rd st.channel.U_cur i) (rd st.channel.U_targ i)
            ≤ rd (chunk_iter x in_ sig_in sampleframes st).channel.U_cur i
        ∧ rd (chunk_iter x in_ sig_in sampleframes st).channel.U_cur i
            ≤ max (rd st.channel.U_cur i) (rd st.channel.U_targ i) := by
  have hgt1 : st.channel.cntd > smp_left_x_vel st.smp_left st.channel := by
    unfold smp_left_x_vel
    rw [← hx1]
    exact hgt
  obtain ⟨h1, h2⟩ := whole_block_le st.channel st.smp_left hv hn hgt1
  rw [← hx2] at h2
  have hkq : (0 : ℚ) < (cntd_d_vel st.channel : ℚ) := by
    exact_mod_cast (by omega : (0 : Int) < cntd_d_vel st.channel)
  have hnq : (0 : ℚ) < (st.smp_left : ℚ) := by
    exact_mod_cast (by omega : (0 : Int) < st.smp_left)
  have hw := chunk_iter_whole x in_ sig_in sampleframes st hfrozen hc hgt1
  have key0 := out_loop_frame x sig_in (sampleframes - st.smp_left) st.smp_left
    (cntd_d_vel st.channel)
    { st with smp_left := 0,
              channel := { st.channel with
                cntd := st.channel.cntd - smp_left_x_vel st.smp_left st.channel } }
  refine ⟨?_, h1, h2, div_pos hnq hkq, (div_le_one hkq).mpr (by exact_mod_cast h1), ?_⟩
  · rw [hw]
    exact key0.2.1
  intro i hi
  rw [hw]
  have key := out_loop_var x sig_in (sampleframes - st.smp_left) st.smp_left
    (cntd_d_vel st.channel)
    { st with smp_left := 0,
              channel := { st.channel with
                cntd := st.channel.cntd - smp_left_x_vel st.smp_left st.channel } }
    hmode hfrozen
    (by
      show st.channel.cntd - smp_left_x_vel st.smp_left st.channel ≠ INDEFINITE
      unfold INDEFINITE
      omega)
    hn hU hA i hi
  have e : rd (out_loop x sig_in (sampleframes - st.smp_left) st.smp_left
      (cntd_d_vel st.channel)
      { st with smp_left := 0,
                channel := { st.channel with
                  cntd := st.channel.cntd - smp_left_x_vel st.smp_left st.channel } }).channel.U_cur i
      = rd st.channel.U_cur i
        + st.smp_left * (rd st.channel.U_targ i - rd st.channel.U_cur i)
          / cntd_d_vel st.channel := key.1
  rw [e]
  exact ⟨rfl, step_between _ _ _ _ hn h1⟩

/-- C29, amended, at work on the channel of `x_2_slow`: the velocity is 1/2, the countdown 10
and 4 samples are left, so that the scaled countdown is 20 and the abscissas go from `[0, 0]`
a fifth of the way to `[0, 1]`. -/
theorem C29_no_overshoot_witness :
    (chunk_iter x_2_slow 0 (fun _ => 1) 4 chunk_slow_4).channel.U_cur = [0, 1/5]
    ∧ cntd_d_vel chunk_slow_4.channel = 20
    ∧ (chunk_iter x_2_slow 0 (fun _ => 1) 4 chunk_slow_4).smp_left = 0
    ∧ chunk_slow_4.smp_left ≤ cntd_d_vel chunk_slow_4.channel
    ∧ cntd_d_vel chunk_slow_4.channel
        = to_int32 ((chunk_slow_4.channel.cntd : ℚ) / chunk_slow_4.channel.velocity)
    ∧ 0 < (chunk_slow_4.smp_left : ℚ) / cntd_d_vel chunk_slow_4.channel
    ∧ (chunk_slow_4.smp_left : ℚ) / cntd_d_vel chunk_slow_4.channel ≤ 1
    ∧ ∀ i, i < x_2_slow.out_cnt →
        rd (chunk_iter x_2_slow 0 (fun _ => 1) 4 chunk_slow_4).channel.U_cur i
          = rd chunk_slow_4.channel.U_cur i
            + chunk_slow_4.smp_left
                * (rd chunk_slow_4.channel.U_targ i - rd chunk_slow_4.channel.U_cur i)
              / cntd_d_vel chunk_slow_4.channel
        ∧ min (rd chunk_slow_4.channel.U_cur i) (rd chunk_slow_4.channel.U_targ i)
            ≤ rd (chunk_iter x_2_slow 0 (fun _ => 1) 4 chunk_slow_4).channel.U_cur i
        ∧ rd (chunk_iter x_2_slow 0 (fun _ => 1) 4 chunk_slow_4).channel.U_cur i
            ≤ max (rd chunk_slow_4.channel.U_cur i) (rd chunk_slow_4.channel.U_targ i) :=
  ⟨by decide!, by decide!,
    C29_no_overshoot x_2_slow 0 (fun _ => 1) 4 chunk_slow_4 (by decide!) (by decide!)
      (by decide) (by decide!) (by decide!) (by decide!) (by decide!) (by decide!)
      (by decide!) (by decide!)⟩

/-! ## C28 : a ramped chunk -/

/-- The sample loop of a ramping channel adds to the sample `p + s` of the output vector,
for `s < n`, the input sample times the amplitude `a + s * dA` times the gain, and leaves
the other samples. -/
theorem var_samples_snd (sig_in : Nat → ℚ) (gain dA : ℚ) (p n : Nat) (a : ℚ)
    (so : Nat → ℚ) (j : Nat) :
    (var_samples sig_in gain dA p n (a, so)).2 j
      = if p ≤ j ∧ j < p + n then so j + sig_in j * (a + ((j - p : Nat) : ℚ) * dA) * gain
        else so j := by
  induction n with
  | zero =>
    have : ¬ (p ≤ j ∧ j < p + 0) := by omega
    rw [if_neg this]
    rfl
  | succ m ih =>
    have hfst := var_samples_fst sig_in gain dA p m (a, so)
    have e : var_samples sig_in gain dA p (m + 1) (a, so)
        = ((var_samples sig_in gain dA p m (a, so)).1 + dA,
           Function.update (var_samples sig_in gain dA p m (a, so)).2 (p + m)
             ((var_samples sig_in gain dA p m (a, so)).2 (p + m)
               + sig_in (p + m) * (var_samples sig_in gain dA p m (a, so)).1 * gain)) := rfl
    rw [e]
    simp only []
    by_cases hj : j = p + m
    · subst hj
      rw [Function.update_same, ih, hfst]
      have c1 : ¬ (p ≤ p + m ∧ p + m < p + m) := by omega
      have c2 : p ≤ p + m ∧ p + m < p + (m + 1) := by omega
      rw [if_neg c1, if_pos c2]
      simp
    · rw [Function.update_noteq hj, ih]
      by_cases c : p ≤ j ∧ j < p + m
      · rw [if_pos c, if_pos (by omega)]
      · rw [if_neg c, if_neg (by omega)]

theorem mix_same_refl (y : t_diffuse) : mix_same y y := ⟨rfl, rfl, rfl⟩

theorem mix_same_of_channels {x y : t_diffuse} (h : channels_only x y) : mix_same x y := by
  obtain ⟨e, _⟩ := h
  refine ⟨?_, ?_, ?_⟩
  · have := congrArg t_diffuse.master e
    exact this
  · have := congrArg t_diffuse.out_gain e
    exact this
  · have := congrArg t_diffuse.out_cnt e
    exact this

theorem out_body_shift (y y1 : t_diffuse) (sig_in : Nat → ℚ) (p cl cdv : Int) (out : Nat)
    (d : Nat → Nat → ℚ) (st st1 : t_chunk) (hm : mix_same y y1) (h : chunk_shift d st st1) :
    chunk_shift d (out_body y sig_in p cl cdv out st) (out_body y1 sig_in p cl cdv out st1) := by
  obtain ⟨m1, m2, _⟩ := hm
  obtain ⟨ec, es, eo⟩ := h
  unfold out_body
  simp only [ec, m1, m2]
  split
  · split
    · exact ⟨ec, es, eo⟩
    · refine ⟨?_, es, fun o j => ?_⟩
      · first | exact ec | rfl
      simp only []
      by_cases ho : o = out
      · subst ho
        simp only [Function.update_same, fix_samples_eq]
        split
        · rw [eo]
          ring
        · exact eo o j
      · simp only [Function.update_noteq ho]
        exact eo o j
  · split
    · split
      · first | exact ⟨ec, es, eo⟩ | exact ⟨rfl, es, eo⟩
      · refine ⟨?_, es, fun o j => ?_⟩
        · simp only [var_samples_fst]
        · simp only []
          by_cases ho : o = out
          · subst ho
            simp only [Function.update_same, var_samples_snd]
            split
            · rw [eo]
              ring
            · exact eo o j
          · simp only [Function.update_noteq ho]
            exact eo o j
    · first | exact ⟨ec, es, eo⟩ | exact ⟨rfl, es, eo⟩

theorem out_loop_shift (y y1 : t_diffuse) (sig_in : Nat → ℚ) (p cl cdv : Int)
    (d : Nat → Nat → ℚ) (st st1 : t_chunk) (hm : mix_same y y1) (h : chunk_shift d st st1) :
    chunk_shift d (out_loop y sig_in p cl cdv st) (out_loop y1 sig_in p cl cdv st1) := by
  unfold out_loop
  rw [hm.2.2]
  generalize y.out_cnt = n
  induction n with
  | zero => exact h
  | succ k ih => exact out_body_shift y y1 sig_in p cl cdv k d _ _ hm ih

theorem state_iterate_index (in_ in1 : Nat) (c : t_channel) :
    (_state_iterate in1 c).1 = (_state_iterate in_ c).1 := by
  unfold _state_iterate
  cases c.mode_type <;> rfl

theorem chunk_iter_shift (y y1 : t_diffuse) (in_ in1 : Nat) (sig_in : Nat → ℚ)
    (sampleframes : Int) (d : Nat → Nat → ℚ) (st st1 : t_chunk) (hm : mix_same y y1)
    (h : chunk_shift d st st1) :
    chunk_shift d (chunk_iter y in_ sig_in sampleframes st)
      (chunk_iter y1 in1 sig_in sampleframes st1) := by
  obtain ⟨ec, es, eo⟩ := h
  unfold chunk_iter
  simp only []
  rw [ec, es]
  split
  · exact out_loop_shift y y1 sig_in _ _ _ d _ _ hm ⟨rfl, rfl, eo⟩
  · split
    · exact ⟨state_iterate_index in_ in1 st.channel, rfl, eo⟩
    · split
      · exact out_loop_shift y y1 sig_in _ _ _ d _ _ hm ⟨rfl, rfl, eo⟩
      · split
        · exact out_loop_shift y y1 sig_in _ _ _ d _ _ hm ⟨rfl, rfl, eo⟩
        · exact out_loop_shift y y1 sig_in _ _ _ d _ _ hm ⟨rfl, rfl, eo⟩

/-- The chunk loop on output vectors with `d` added: it returns when the chunk loop on the
former vectors does, with the same channel and `d` added to the vectors. -/
theorem chunk_loop_shift (y y1 : t_diffuse) (in_ in1 : Nat) (sig_in : Nat → ℚ)
    (sampleframes : Int) (d : Nat → Nat → ℚ) (hm : mix_same y y1) (fuel : Nat) :
    ∀ (st st1 r : t_chunk), chunk_shift d st st1 →
      chunk_loop y in_ sig_in sampleframes fuel st = some r →
      ∃ r1, chunk_loop y1 in1 sig_in sampleframes fuel st1 = some r1 ∧ chunk_shift d r r1 := by
  induction fuel with
  | zero =>
    intro st st1 r h hr
    unfold chunk_loop at hr ⊢
    rw [h.2.1]
    split at hr
    · rename_i h0
      rw [if_pos h0]
      rw [← Option.some.inj hr]
      exact ⟨st1, rfl, h⟩
    · exact absurd hr (by simp)
  | succ f ih =>
    intro st st1 r h hr
    unfold chunk_loop at hr ⊢
    rw [h.2.1]
    split at hr
    · rename_i h0
      rw [if_pos h0]
      rw [← Option.some.inj hr]
      exact ⟨st1, rfl, h⟩
    · rename_i h0
      rw [if_neg h0]
      exact ih _ _ r (chunk_iter_shift y y1 in_ in1 sig_in sampleframes d st st1 hm h) hr

/-- The chunk loop that the channel loop runs for the channel `in_`, in terms of the chunk
loop on zeroed vectors. -/
theorem chunk_loop_of_zero (x y : t_diffuse) (hm : mix_same x y) (fuel sampleframes in_ : Nat)
    (channel : t_channel) (sig_in : Nat → ℚ) (oa : Nat → Nat → ℚ) (msgs : List t_msg)
    (errs : List String) :
    (∀ r, chan_out x fuel sampleframes channel sig_in = some r →
      ∃ r1, chunk_loop y in_ sig_in sampleframes fuel
          { channel := channel, smp_left := sampleframes, out_arr := oa, msgs := msgs,
            errs := errs } = some r1
        ∧ r1.channel = r.channel ∧ ∀ o j, r1.out_arr o j = oa o j + r.out_arr o j)
    ∧ (∀ r1, chunk_loop y in_ sig_in sampleframes fuel
          { channel := channel, smp_left := sampleframes, out_arr := oa, msgs := msgs,
            errs := errs } = some r1 →
        ∃ r, chan_out x fuel sampleframes channel sig_in = some r
          ∧ r1.channel = r.channel ∧ ∀ o j, r1.out_arr o j = oa o j + r.out_arr o j) := by
  constructor
  · intro r hr
    obtain ⟨r1, h1, h2, _, h4⟩ := chunk_loop_shift x y 0 in_ sig_in sampleframes oa hm fuel
      { channel := channel, smp_left := sampleframes, out_arr := fun _ _ => 0, msgs := [],
        errs := [] }
      { channel := channel, smp_left := sampleframes, out_arr := oa, msgs := msgs,
        errs := errs } r ⟨rfl, rfl, fun o j => by simp⟩ hr
    exact ⟨r1, h1, h2, fun o j => by rw [h4 o j]; ring⟩
  · intro r1 hr1
    obtain ⟨r, h1, h2, _, h4⟩ := chunk_loop_shift y x in_ 0 sig_in sampleframes
      (fun o j => - oa o j) ⟨hm.1.symm, hm.2.1.symm, hm.2.2.symm⟩ fuel
      { channel := channel, smp_left := sampleframes, out_arr := oa, msgs := msgs,
        errs := errs }
      { channel := channel, smp_left := sampleframes, out_arr := fun _ _ => 0, msgs := [],
        errs := [] } r1 ⟨rfl, rfl, fun o j => by simp⟩ hr1
    exact ⟨r, h1, h2.symm, fun o j => by rw [h4 o j]; ring⟩

/-- A returning pass of the channel loop, in terms of the chunk loop on zeroed vectors. -/
theorem channel_body_sum (x : t_diffuse) (fuel : Nat) (in_arr : Nat → Nat → ℚ)
    (sampleframes in_ : Nat) (s s1 : t_perform) (hm : mix_same x s.x)
    (h : channel_body fuel in_arr sampleframes in_ s = some s1) :
    chan_returns x fuel sampleframes (s.x.channel in_) (in_arr in_)
    ∧ channels_only s.x s1.x
    ∧ (∀ c, c ≠ in_ → s1.x.channel c = s.x.channel c)
    ∧ s1.x.channel in_ = chan_after x fuel sampleframes (s.x.channel in_) (in_arr in_)
    ∧ ∀ o j, s1.out_arr o j
        = s.out_arr o j + chan_add x fuel sampleframes (s.x.channel in_) (in_arr in_) o j := by
  unfold channel_body at h
  by_cases hon : (s.x.channel in_).is_on = true
  · have hoff : ¬ (s.x.channel in_).is_on = false := by simp [hon]
    simp only [if_neg hoff, Option.map_eq_some'] at h
    obtain ⟨st1, h1, h2⟩ := h
    subst h2
    obtain ⟨r, g1, g2, g3⟩ := (chunk_loop_of_zero x s.x hm fuel sampleframes in_
      (s.x.channel in_) (in_arr in_) s.out_arr s.msgs s.errs).2 st1 h1
    refine ⟨Or.inr ⟨r, g1⟩, channels_only_set _ _ _, ?_, ?_, ?_⟩
    · intro c hc
      exact channel_set_channel_ne _ _ _ _ (Ne.symm hc)
    · rw [channel_set_channel_same _ _ _ (channel_on_lt _ _ hon)]
      unfold chan_after
      rw [if_neg hoff, g1]
      exact g2
    · intro o j
      unfold chan_add
      rw [if_neg hoff, g1]
      exact g3 o j
  · have hoff : (s.x.channel in_).is_on = false := by simpa using hon
    simp only [hoff, if_true, Option.some.injEq] at h
    subst h
    refine ⟨Or.inl hoff, channels_only_refl _, fun _ _ => rfl, ?_, fun o j => ?_⟩
    · unfold chan_after
      rw [if_pos hoff]
    · unfold chan_add
      rw [if_pos hoff, add_zero]

/-- A pass of the channel loop returns when the chunk loop on zeroed vectors does. -/
theorem channel_body_returns (x : t_diffuse) (fuel : Nat) (in_arr : Nat → Nat → ℚ)
    (sampleframes in_ : Nat) (s : t_perform) (hm : mix_same x s.x)
    (h : chan_returns x fuel sampleframes (s.x.channel in_) (in_arr in_)) :
    ∃ s1, channel_body fuel in_arr sampleframes in_ s = some s1 := by
  unfold channel_body
  by_cases hoff : (s.x.channel in_).is_on = false
  · simp only [hoff, if_true]
    exact ⟨_, rfl⟩
  · rcases h with h | ⟨r, hr⟩
    · exact absurd h hoff
    · obtain ⟨r1, g1, _⟩ := (chunk_loop_of_zero x s.x hm fuel sampleframes in_
        (s.x.channel in_) (in_arr in_) s.out_arr s.msgs s.errs).1 r hr
      simp only [if_neg hoff, g1, Option.map_some']
      exact ⟨_, rfl⟩

theorem chans_add_succ (x : t_diffuse) (fuel sampleframes : Nat) (in_arr : Nat → Nat → ℚ)
    (k o j : Nat) :
    chans_add x fuel sampleframes in_arr (k + 1) o j
      = chans_add x fuel sampleframes in_arr k o j
        + chan_add x fuel sampleframes (x.channel k) (in_arr k) o j := by
  unfold chans_add
  rw [List.range_succ, List.map_append, List.sum_append]
  simp

/-- The channel loop, when it returns: every channel below `k` is what its own chunk loop
makes of it, and the output vectors hold what they held plus the sum of what the channels
add. -/
theorem channels_sum (fuel : Nat) (in_arr : Nat → Nat → ℚ) (sampleframes : Nat)
    (s0 : t_perform) :
    ∀ (k : Nat) (s : t_perform),
      for_loop_opt (channel_body fuel in_arr sampleframes) k s0 = some s →
      channels_only s0.x s.x
      ∧ (∀ c, k ≤ c → s.x.channel c = s0.x.channel c)
      ∧ (∀ c, c < k →
          chan_returns s0.x fuel sampleframes (s0.x.channel c) (in_arr c)
          ∧ s.x.channel c = chan_after s0.x fuel sampleframes (s0.x.channel c) (in_arr c))
      ∧ ∀ o j, s.out_arr o j = s0.out_arr o j + chans_add s0.x fuel sampleframes in_arr k o j := by
  intro k
  induction k with
  | zero =>
    intro s h
    simp only [for_loop_opt, Option.some.injEq] at h
    subst h
    exact ⟨channels_only_refl _, fun _ _ => rfl, fun c hc => absurd hc (Nat.not_lt_zero c),
      fun o j => by simp [chans_add]⟩
  | succ k ih =>
    intro s h
    rw [for_loop_opt] at h
    obtain ⟨sk, hk, hb⟩ := Option.bind_eq_some.mp h
    obtain ⟨i1, i2, i3, i4⟩ := ih sk hk
    obtain ⟨b0, b1, b2, b3, b4⟩ := channel_body_sum s0.x fuel in_arr sampleframes k sk s
      (mix_same_of_channels i1) hb
    have hkk : sk.x.channel k = s0.x.channel k := i2 k (le_refl k)
    rw [hkk] at b0 b3 b4
    refine ⟨channels_only_trans i1 b1, ?_, ?_, ?_⟩
    · intro c hc
      rw [b2 c (by omega)]
      exact i2 c (by omega)
    · intro c hc
      by_cases hck : c = k
      · subst hck
        exact ⟨b0, b3⟩
      · rw [b2 c hck]
        exact i3 c (by omega)
    · intro o j
      rw [b4 o j, i4 o j, chans_add_succ]
      ring

/-- The channel loop returns when the chunk loop of every channel below `k` does. -/
theorem channels_returns (fuel : Nat) (in_arr : Nat → Nat → ℚ) (sampleframes : Nat)
    (s0 : t_perform) :
    ∀ k : Nat,
      (∀ c, c < k → chan_returns s0.x fuel sampleframes (s0.x.channel c) (in_arr c)) →
      ∃ s, for_loop_opt (channel_body fuel in_arr sampleframes) k s0 = some s := by
  intro k
  induction k with
  | zero => exact fun _ => ⟨s0, rfl⟩
  | succ k ih =>
    intro h
    obtain ⟨sk, hk⟩ := ih (fun c hc => h c (by omega))
    obtain ⟨i1, i2, _, _⟩ := channels_sum fuel in_arr sampleframes s0 k sk hk
    have hkk : sk.x.channel k = s0.x.channel k := i2 k (le_refl k)
    obtain ⟨s1, h1⟩ := channel_body_returns s0.x fuel in_arr sampleframes k sk
      (mix_same_of_channels i1) (by rw [hkk]; exact h k (by omega))
    rw [for_loop_opt, hk]
    exact ⟨s1, h1⟩

/-- The perform routine, when it returns: every channel is what its own chunk loop makes
of it, and the output vectors are the zeroed vectors plus the sum of what the channels
add. -/
theorem perform64_sum (fuel : Nat) (x : t_diffuse) (in_arr out_arr : Nat → Nat → ℚ)
    (sampleframes : Nat) (r : t_perform)
    (h : diffuse_perform64 fuel x in_arr out_arr sampleframes = some r) :
    channels_only x r.x
    ∧ (∀ c, x.channel_cnt ≤ c → r.x.channel c = x.channel c)
    ∧ (∀ c, c < x.channel_cnt →
        chan_returns x fuel sampleframes (x.channel c) (in_arr c)
        ∧ r.x.channel c = chan_after x fuel sampleframes (x.channel c) (in_arr c))
    ∧ ∀ o j, r.out_arr o j
        = zero_outputs x.out_cnt sampleframes out_arr o j
          + chans_add x fuel sampleframes in_arr x.channel_cnt o j := by
  unfold diffuse_perform64 at h
  obtain ⟨s, hs, hr⟩ := Option.map_eq_some'.mp h
  have key := channels_sum fuel in_arr sampleframes
    { x := x, out_arr := zero_outputs x.out_cnt sampleframes out_arr, msgs := [], errs := [] }
    x.channel_cnt s hs
  have hx : r.x = s.x ∧ r.out_arr = s.out_arr := by
    rw [← hr]
    split <;> exact ⟨rfl, rfl⟩
  rw [hx.1, hx.2]
  exact key

/-- The perform routine returns when the chunk loop of every channel does. -/
theorem perform64_of_returns (fuel : Nat) (x : t_diffuse) (in_arr out_arr : Nat → Nat → ℚ)
    (sampleframes : Nat)
    (h : ∀ c, c < x.channel_cnt →
      chan_returns x fuel sampleframes (x.channel c) (in_arr c)) :
    ∃ r, diffuse_perform64 fuel x in_arr out_arr sampleframes = some r := by
  obtain ⟨s, hs⟩ := channels_returns fuel in_arr sampleframes
    { x := x, out_arr := zero_outputs x.out_cnt sampleframes out_arr, msgs := [], errs := [] }
    x.channel_cnt h
  unfold diffuse_perform64
  rw [hs]
  exact ⟨_, rfl⟩

theorem mix_same_symm {x y : t_diffuse} (h : mix_same x y) : mix_same y x :=
  ⟨h.1.symm, h.2.1.symm, h.2.2.symm⟩

/-- The chunk loop of a channel on zeroed vectors reads the master gain, the output gains
and the number of outputs of the engine, nothing else. -/
theorem chan_out_mix (x y : t_diffuse) (hm : mix_same x y) (fuel sampleframes : Nat)
    (channel : t_channel) (sig_in : Nat → ℚ) (r : t_chunk)
    (h : chan_out x fuel sampleframes channel sig_in = some r) :
    ∃ r1, chan_out y fuel sampleframes channel sig_in = some r1
      ∧ r1.channel = r.channel ∧ ∀ o j, r1.out_arr o j = r.out_arr o j := by
  obtain ⟨r1, h1, h2, h3⟩ := (chunk_loop_of_zero x y hm fuel sampleframes 0 channel sig_in
    (fun _ _ => 0) [] []).1 r h
  exact ⟨r1, h1, h2, fun o j => by rw [h3 o j]; simp⟩

/-- What a channel adds and becomes in one block is the same in two engines with the same
master gain, output gains and number of outputs. -/
theorem chan_mix (x y : t_diffuse) (hm : mix_same x y) (fuel sampleframes : Nat)
    (channel : t_channel) (sig_in : Nat → ℚ) :
    (chan_returns x fuel sampleframes channel sig_in →
      chan_returns y fuel sampleframes channel sig_in)
    ∧ chan_after y fuel sampleframes channel sig_in
        = chan_after x fuel sampleframes channel sig_in
    ∧ ∀ o j, chan_add y fuel sampleframes channel sig_in o j
        = chan_add x fuel sampleframes channel sig_in o j := by
  by_cases hoff : channel.is_on = false
  · refine ⟨fun _ => Or.inl hoff, ?_, fun o j => ?_⟩
    · unfold chan_after
      rw [if_pos hoff, if_pos hoff]
    · unfold chan_add
      rw [if_pos hoff, if_pos hoff]
  · cases hx : chan_out x fuel sampleframes channel sig_in with
    | some r =>
      obtain ⟨r1, h1, h2, h3⟩ := chan_out_mix x y hm fuel sampleframes channel sig_in r hx
      refine ⟨fun _ => Or.inr ⟨r1, h1⟩, ?_, fun o j => ?_⟩
      · unfold chan_after
        rw [if_neg hoff, if_neg hoff, hx, h1]
        exact h2
      · unfold chan_add
        rw [if_neg hoff, if_neg hoff, hx, h1]
        exact h3 o j
    | none =>
      have hy : chan_out y fuel sampleframes channel sig_in = none := by
        cases hy : chan_out y fuel sampleframes channel sig_in with
        | none => rfl
        | some r1 =>
          obtain ⟨r, h1, _⟩ := chan_out_mix y x (mix_same_symm hm) fuel sampleframes channel
            sig_in r1 hy
          rw [hx] at h1
          exact Option.noConfusion h1
      refine ⟨fun h => ?_, ?_, fun o j => ?_⟩
      · rcases h with h | ⟨r, hr⟩
        · exact absurd h hoff
        · rw [hx] at hr
          exact Option.noConfusion hr
      · unfold chan_after
        rw [if_neg hoff, if_neg hoff, hx, hy]
      · unfold chan_add
        rw [if_neg hoff, if_neg hoff, hx, hy]

theorem permute_channel (l : List Nat) (x : t_diffuse) (i : Nat) (hi : i < l.length) :
    (permute_channels l x).channel i = x.channel (l.getD i 0) := by
  unfold permute_channels t_diffuse.channel
  simp [List.getD_eq_getElem?_getD, List.getElem?_map, List.getElem?_eq_getElem hi]

theorem map_getD_range (l : List Nat) (F : Nat → ℚ) :
    (List.range l.length).map (fun c => F (l.getD c 0)) = l.map F := by
  apply List.ext_getElem
  · simp
  · intro i h1 h2
    have hi : i < l.length := by simpa using h2
    simp [List.getD_eq_getElem?_getD, List.getElem?_eq_getElem hi]

theorem perm_getD_lt {l : List Nat} {n : Nat} (hperm : l.Perm (List.range n)) (i : Nat)
    (hi : i < n) : l.getD i 0 < n := by
  have hl : l.length = n := by rw [hperm.length_eq, List.length_range]
  have hi1 : i < l.length := by omega
  have hm : l.getD i 0 ∈ l := by
    rw [List.getD_eq_getElem?_getD, List.getElem?_eq_getElem hi1]
    exact List.getElem_mem hi1
  exact List.mem_range.mp (hperm.mem_iff.mp hm)

/-- C25: over exact arithmetic the order of the channels does not affect the result
of `diffuse_perform64`: when the channel array is rearranged along a permutation `l` of the
channel indices and the input vectors along the same permutation, a call that returns on
the engine as it was returns on the rearranged engine too, every sample of every output
vector is the same, the channel left at the place `i` is the channel that was left at the
place `l[i]`, and the rest of the engine is the same. -/
theorem C25_channel_order (fuel : Nat) (x : t_diffuse) (l : List Nat)
    (in_arr out_arr : Nat → Nat → ℚ) (sampleframes : Nat) (r : t_perform)
    (hperm : l.Perm (List.range x.channel_cnt))
    (h : diffuse_perform64 fuel x in_arr out_arr sampleframes = some r) :
    ∃ r1, diffuse_perform64 fuel (permute_channels l x) (permute_inputs l in_arr) out_arr
        sampleframes = some r1
      ∧ (∀ o j, r1.out_arr o j = r.out_arr o j)
      ∧ (∀ i, i < x.channel_cnt → r1.x.channel i = r.x.channel (l.getD i 0))
      ∧ { r1.x with channel_arr := r.x.channel_arr } = r.x := by
  have hl : l.length = x.channel_cnt := by rw [hperm.length_eq, List.length_range]
  have hm : mix_same x (permute_channels l x) := ⟨rfl, rfl, rfl⟩
  obtain ⟨p1, _, p3, p4⟩ := perform64_sum fuel x in_arr out_arr sampleframes r h
  have hret : ∀ c, c < (permute_channels l x).channel_cnt →
      chan_returns (permute_channels l x) fuel sampleframes ((permute_channels l x).channel c)
        (permute_inputs l in_arr c) := by
    intro c hc
    have hc1 : c < x.channel_cnt := hc
    rw [permute_channel l x c (by omega)]
    exact (chan_mix x (permute_channels l x) hm fuel sampleframes _ _).1
      (p3 _ (perm_getD_lt hperm c hc1)).1
  obtain ⟨r1, h1⟩ := perform64_of_returns fuel (permute_channels l x) (permute_inputs l in_arr)
    out_arr sampleframes hret
  obtain ⟨q1, _, q3, q4⟩ := perform64_sum fuel (permute_channels l x) (permute_inputs l in_arr)
    out_arr sampleframes r1 h1
  refine ⟨r1, h1, fun o j => ?_, fun i hi => ?_, ?_⟩
  · rw [q4 o j, p4 o j]
    have e1 : (permute_channels l x).out_cnt = x.out_cnt := rfl
    have e2 : (permute_channels l x).channel_cnt = x.channel_cnt := rfl
    rw [e1, e2]
    congr 1
    unfold chans_add
    have e3 : (List.range x.channel_cnt).map
        (fun c => chan_add (permute_channels l x) fuel sampleframes
          ((permute_channels l x).channel c) (permute_inputs l in_arr c) o j)
        = l.map (fun c => chan_add x fuel sampleframes (x.channel c) (in_arr c) o j) := by
      rw [← map_getD_range l
        (fun c => chan_add x fuel sampleframes (x.channel c) (in_arr c) o j), hl]
      apply List.map_congr_left
      intro c hc
      have hc1 : c < x.channel_cnt := List.mem_range.mp hc
      rw [permute_channel l x c (by omega)]
      exact (chan_mix x (permute_channels l x) hm fuel sampleframes _ _).2.2 o j
    rw [e3]
    exact (hperm.map _).sum_eq
  · rw [(q3 i hi).2, (p3 _ (perm_getD_lt hperm i hi)).2, permute_channel l x i (by omega)]
    exact (chan_mix x (permute_channels l x) hm fuel sampleframes _ _).2.1
  · have a1 := p1.1
    have a2 := q1.1
    rw [a2]
    conv_rhs => rw [a1]
    rfl

/-- C25 at work on the engine `x_2_pair` and a block of 4 samples: the two channels and
their input vectors are swapped; the first output vector is `1, 3/2, 2, 5/2` either way. -/
theorem C25_channel_order_witness :
    [1, 0].Perm (List.range x_2_pair.channel_cnt)
    ∧ (∃ r, diffuse_perform64 3 x_2_pair in_pair (fun _ _ => 0) 4 = some r
      ∧ ∃ r1, diffuse_perform64 3 (permute_channels [1, 0] x_2_pair)
          (permute_inputs [1, 0] in_pair) (fun _ _ => 0) 4 = some r1
        ∧ (∀ o j, r1.out_arr o j = r.out_arr o j)
        ∧ (∀ i, i < x_2_pair.channel_cnt → r1.x.channel i = r.x.channel ([1, 0].getD i 0))
        ∧ { r1.x with channel_arr := r.x.channel_arr } = r.x)
    ∧ (diffuse_perform64 3 x_2_pair in_pair (fun _ _ => 0) 4).map
        (fun r => ((List.range 4).map (r.out_arr 0), (List.range 4).map (r.out_arr 1)))
        = some ([1, 3/2, 2, 5/2], [1/2, 17/20, 6/5, 31/20])
    ∧ (diffuse_perform64 3 (permute_channels [1, 0] x_2_pair) (permute_inputs [1, 0] in_pair)
        (fun _ _ => 0) 4).map
        (fun r => ((List.range 4).map (r.out_arr 0), (List.range 4).map (r.out_arr 1)))
        = some ([1, 3/2, 2, 5/2], [1/2, 17/20, 6/5, 31/20]) := by
  have hs : (diffuse_perform64 3 x_2_pair in_pair (fun _ _ => 0) 4).isSome = true := by
    decide!
  exact ⟨List.Perm.swap 0 1 [], ⟨_, (Option.some_get hs).symm,
    C25_channel_order 3 x_2_pair [1, 0] in_pair (fun _ _ => 0) 4 _ (List.Perm.swap 0 1 [])
      (Option.some_get hs).symm⟩, by decide!, by decide!⟩

theorem chan_add_off (x : t_diffuse) (fuel sampleframes : Nat) (channel : t_channel)
    (sig_in : Nat → ℚ) (o j : Nat) (h : channel.is_on = false) :
    chan_add x fuel sampleframes channel sig_in o j = 0 := by
  unfold chan_add
  rw [if_pos h]

theorem chan_after_off (x : t_diffuse) (fuel sampleframes : Nat) (channel : t_channel)
    (sig_in : Nat → ℚ) (h : channel.is_on = false) :
    chan_after x fuel sampleframes channel sig_in = channel := by
  unfold chan_after
  rw [if_pos h]

/-- Storing a channel that is off at the place of a channel that is off leaves a channel
that is off there. -/
theorem set_channel_off (x : t_diffuse) (c : Nat) (channel : t_channel)
    (hoff : (x.channel c).is_on = false) (h : channel.is_on = false) :
    ((x.set_channel c channel).channel c).is_on = false := by
  by_cases hc : c < x.channel_arr.length
  · rw [channel_set_channel_same x c channel hc]
    exact h
  · have e : x.set_channel c channel = x := by
      unfold t_diffuse.set_channel
      rw [List.set_eq_of_length_le (by omega)]
    rw [e]
    exact hoff

/-- A sum over a list leaves out a place where the term is 0. -/
theorem sum_filter_ne (f : Nat → ℚ) (c : Nat) (hc : f c = 0) (l : List Nat) :
    (l.map f).sum = ((l.filter (fun k => decide (k ≠ c))).map f).sum := by
  induction l with
  | nil => rfl
  | cons a l ih =>
    by_cases ha : a = c
    · subst ha
      rw [List.filter_cons_of_neg (by simp), List.map_cons, List.sum_cons, hc, zero_add]
      exact ih
    · rw [List.filter_cons_of_pos (by simpa using ha), List.map_cons, List.map_cons,
        List.sum_cons, List.sum_cons, ih]

/-- C24: a channel `c` that is switched off is left as it was by `diffuse_perform64`
and adds nothing to the output vectors: when the call returns, every sample of every output
vector is the zeroed vector plus the sum of what the chunk loops of the other channels add,
with no term for the channel `c`. It follows that the same call on the engine with any other
switched-off channel at the place `c`, whatever its mode, countdown and amplitudes, and with
any other input vector for `c`, returns too, with the same value of every sample of every
output vector, the same other channels, and the channel at the place `c` as it was
stored. -/
theorem C24_channel_off (fuel : Nat) (x : t_diffuse) (in_arr out_arr : Nat → Nat → ℚ)
    (sampleframes c : Nat) (r : t_perform) (hoff : (x.channel c).is_on = false)
    (h : diffuse_perform64 fuel x in_arr out_arr sampleframes = some r) :
    r.x.channel c = x.channel c
    ∧ (∀ o j, r.out_arr o j
        = zero_outputs x.out_cnt sampleframes out_arr o j
          + (((List.range x.channel_cnt).filter (fun k => decide (k ≠ c))).map
              (fun k => chan_add x fuel sampleframes (x.channel k) (in_arr k) o j)).sum)
    ∧ ∀ (channel : t_channel) (sig_in : Nat → ℚ), channel.is_on = false →
        ∃ r1, diffuse_perform64 fuel (x.set_channel c channel) (Function.update in_arr c sig_in)
            out_arr sampleframes = some r1
          ∧ (∀ o j, r1.out_arr o j = r.out_arr o j)
          ∧ (∀ c1, c1 ≠ c → r1.x.channel c1 = r.x.channel c1)
          ∧ r1.x.channel c = (x.set_channel c channel).channel c := by
  obtain ⟨_, p2, p3, p4⟩ := perform64_sum fuel x in_arr out_arr sampleframes r h
  have hkeep : ∀ (y : t_diffuse) (inp : Nat → Nat → ℚ) (s : t_perform),
      (y.channel c).is_on = false →
      diffuse_perform64 fuel y inp out_arr sampleframes = some s →
      s.x.channel c = y.channel c := by
    intro y inp s hy hs
    obtain ⟨_, q2, q3, _⟩ := perform64_sum fuel y inp out_arr sampleframes s hs
    by_cases hc : c < y.channel_cnt
    · rw [(q3 c hc).2]
      exact chan_after_off _ _ _ _ _ hy
    · exact q2 c (by omega)
  refine ⟨hkeep x in_arr r hoff h, fun o j => ?_, fun channel sig_in hch => ?_⟩
  · rw [p4 o j]
    congr 1
    exact sum_filter_ne (fun k => chan_add x fuel sampleframes (x.channel k) (in_arr k) o j) c
      (chan_add_off _ _ _ _ _ _ _ hoff) _
  have hm : mix_same x (x.set_channel c channel) := ⟨rfl, rfl, rfl⟩
  have hoff1 := set_channel_off x c channel hoff hch
  have hne : ∀ k, k ≠ c → (x.set_channel c channel).channel k = x.channel k :=
    fun k hk => channel_set_channel_ne x c k channel (Ne.symm hk)
  have hin : ∀ k, k ≠ c → Function.update in_arr c sig_in k = in_arr k :=
    fun k hk => Function.update_noteq hk _ _
  have hret : ∀ k, k < (x.set_channel c channel).channel_cnt →
      chan_returns (x.set_channel c channel) fuel sampleframes
        ((x.set_channel c channel).channel k) (Function.update in_arr c sig_in k) := by
    intro k hk
    by_cases hkc : k = c
    · subst hkc
      exact Or.inl hoff1
    · rw [hne k hkc, hin k hkc]
      exact (chan_mix x _ hm fuel sampleframes _ _).1 (p3 k hk).1
  obtain ⟨r1, h1⟩ := perform64_of_returns fuel (x.set_channel c channel)
    (Function.update in_arr c sig_in) out_arr sampleframes hret
  obtain ⟨_, q2, q3, q4⟩ := perform64_sum fuel (x.set_channel c channel)
    (Function.update in_arr c sig_in) out_arr sampleframes r1 h1
  have e1 : (x.set_channel c channel).out_cnt = x.out_cnt := rfl
  have e2 : (x.set_channel c channel).channel_cnt = x.channel_cnt := rfl
  refine ⟨r1, h1, fun o j => ?_, fun c1 hc1 => ?_, hkeep _ _ r1 hoff1 h1⟩
  · rw [q4 o j, p4 o j, e1, e2]
    congr 1
    unfold chans_add
    congr 1
    apply List.map_congr_left
    intro k _
    by_cases hkc : k = c
    · subst hkc
      rw [chan_add_off _ _ _ _ _ _ _ hoff1, chan_add_off _ _ _ _ _ _ _ hoff]
    · rw [hne k hkc, hin k hkc]
      exact (chan_mix x _ hm fuel sampleframes _ _).2.2 o j
  · by_cases hk : c1 < x.channel_cnt
    · rw [(q3 c1 hk).2, (p3 c1 hk).2, hne c1 hc1, hin c1 hc1]
      exact (chan_mix x _ hm fuel sampleframes _ _).2.1
    · rw [q2 c1 (by rw [e2]; omega), p2 c1 (by omega)]
      exact hne c1 hc1

/-- C24 at work on the engine `x_2_pair_off` and a block of 4 samples: the second channel
is off and the output vectors are the sum over the first channel alone; with the channel
`channel_2_off` in its place (fixed mode, countdown 0, amplitudes 1) and another input
vector, the output vectors are the same. -/
theorem C24_channel_off_witness :
    (x_2_pair_off.channel 1).is_on = false
    ∧ (∃ r, diffuse_perform64 3 x_2_pair_off in_pair (fun _ _ => 0) 4 = some r
      ∧ r.x.channel 1 = x_2_pair_off.channel 1
      ∧ (∀ o j, r.out_arr o j
          = zero_outputs x_2_pair_off.out_cnt 4 (fun _ _ => 0) o j
            + (((List.range x_2_pair_off.channel_cnt).filter (fun k => decide (k ≠ 1))).map
                (fun k => chan_add x_2_pair_off 3 4 (x_2_pair_off.channel k) (in_pair k)
                  o j)).sum)
      ∧ ∀ (channel : t_channel) (sig_in : Nat → ℚ), channel.is_on = false →
          ∃ r1, diffuse_perform64 3 (x_2_pair_off.set_channel 1 channel)
              (Function.update in_pair 1 sig_in) (fun _ _ => 0) 4 = some r1
            ∧ (∀ o j, r1.out_arr o j = r.out_arr o j)
            ∧ (∀ c1, c1 ≠ 1 → r1.x.channel c1 = r.x.channel c1)
            ∧ r1.x.channel 1 = (x_2_pair_off.set_channel 1 channel).channel 1)
    ∧ (diffuse_perform64 3 x_2_pair_off in_pair (fun _ _ => 0) 4).map
        (fun r => ((List.range 4).map (r.out_arr 0), (List.range 4).map (r.out_arr 1),
          (r.x.channel 1).cntd, (r.x.channel 1).A_cur))
        = some ([0, 0, 0, 0], [0, 1/10, 1/5, 3/10], -1, [1/2, 1/4])
    ∧ (diffuse_perform64 3 (x_2_pair_off.set_channel 1 channel_2_off)
        (Function.update in_pair 1 (fun _ => 7)) (fun _ _ => 0) 4).map
        (fun r => ((List.range 4).map (r.out_arr 0), (List.range 4).map (r.out_arr 1),
          (r.x.channel 1).cntd, (r.x.channel 1).A_cur))
        = some ([0, 0, 0, 0], [0, 1/10, 1/5, 3/10], 0, [1, 1]) := by
  have hs : (diffuse_perform64 3 x_2_pair_off in_pair (fun _ _ => 0) 4).isSome = true := by
    decide!
  exact ⟨by decide, ⟨_, (Option.some_get hs).symm,
    C24_channel_off 3 x_2_pair_off in_pair (fun _ _ => 0) 4 1 _ (by decide)
      (Option.some_get hs).symm⟩, by decide!, by decide!⟩

/-- The trace and the chunk loop return together. -/
theorem chunk_trace_loop (x : t_diffuse) (in_ : Nat) (sig_in : Nat → ℚ) (sampleframes : Int)
    (fuel : Nat) :
    ∀ (st : t_chunk) (tr : List t_pass),
      chunk_trace x in_ sig_in sampleframes fuel st = some tr →
      ∃ r, chunk_loop x in_ sig_in sampleframes fuel st = some r ∧ r.smp_left = 0 := by
  induction fuel with
  | zero =>
    intro st tr h
    unfold chunk_trace at h
    unfold chunk_loop
    split at h
    · rename_i h0
      rw [if_pos h0]
      exact ⟨st, rfl, h0⟩
    · exact Option.noConfusion h
  | succ f ih =>
    intro st tr h
    unfold chunk_trace at h
    unfold chunk_loop
    split at h
    · rename_i h0
      rw [if_pos h0]
      exact ⟨st, rfl, h0⟩
    · rename_i h0
      rw [if_neg h0]
      obtain ⟨tr1, h1, _⟩ := Option.map_eq_some'.mp h
      exact ih _ tr1 h1

theorem chunk_trace_done (x : t_diffuse) (in_ : Nat) (sig_in : Nat → ℚ) (sampleframes : Int)
    (fuel : Nat) (st : t_chunk) (h : st.smp_left = 0) :
    chunk_trace x in_ sig_in sampleframes fuel st = some [] := by
  cases fuel with
  | zero => unfold chunk_trace; rw [if_pos h]
  | succ f => unfold chunk_trace; rw [if_pos h]

theorem chunk_trace_step (x : t_diffuse) (in_ : Nat) (sig_in : Nat → ℚ) (sampleframes : Int)
    (fuel : Nat) (st : t_chunk) (h : st.smp_left ≠ 0) :
    chunk_trace x in_ sig_in sampleframes (fuel + 1) st
      = (chunk_trace x in_ sig_in sampleframes fuel
          (chunk_iter x in_ sig_in sampleframes st)).map
        (fun tr =>
          { chunk := chunk_plan sampleframes st,
            smp_left := (chunk_iter x in_ sig_in sampleframes st).smp_left } :: tr) := by
  rw [chunk_trace, if_neg h]

/-- The pass of a frozen channel: one chunk of the length of the block. -/
theorem pass_frozen (x : t_diffuse) (in_ : Nat) (sig_in : Nat → ℚ) (sampleframes : Int)
    (st : t_chunk) (hfrozen : st.channel.is_frozen = true) :
    chunk_plan sampleframes st = some (sampleframes - st.smp_left, sampleframes)
    ∧ (chunk_iter x in_ sig_in sampleframes st).smp_left = 0 := by
  refine ⟨?_, ?_⟩
  · unfold chunk_plan
    simp only [hfrozen, if_true]
  · rw [chunk_iter_frozen x in_ sig_in sampleframes st hfrozen]

/-- The pass of a channel with an indefinite countdown: one chunk of the samples left. -/
theorem pass_indefinite (x : t_diffuse) (in_ : Nat) (sig_in : Nat → ℚ) (sampleframes : Int)
    (st : t_chunk) (hfrozen : st.channel.is_frozen = false)
    (hcntd : st.channel.cntd = INDEFINITE) :
    chunk_plan sampleframes st = some (sampleframes - st.smp_left, st.smp_left)
    ∧ (chunk_iter x in_ sig_in sampleframes st).smp_left = 0 := by
  refine ⟨?_, ?_⟩
  · unfold chunk_plan
    have h0 : ¬ (st.channel.cntd = 0) := by rw [hcntd]; decide
    simp only [hfrozen, Bool.false_eq_true, if_false]
    rw [if_neg h0, if_pos hcntd]
  · rw [chunk_iter_indefinite x in_ sig_in sampleframes st hfrozen hcntd]

/-- The pass of a channel with a countdown of 0: no chunk, the samples left are the same. -/
theorem pass_zero (x : t_diffuse) (in_ : Nat) (sig_in : Nat → ℚ) (sampleframes : Int)
    (st : t_chunk) (hfrozen : st.channel.is_frozen = false) (hcntd : st.channel.cntd = 0) :
    chunk_plan sampleframes st = none
    ∧ (chunk_iter x in_ sig_in sampleframes st).smp_left = st.smp_left
    ∧ (chunk_iter x in_ sig_in sampleframes st).channel = (_state_iterate in_ st.channel).1 := by
  refine ⟨?_, ?_, ?_⟩
  · unfold chunk_plan
    simp only [hfrozen, Bool.false_eq_true, if_false]
    rw [if_pos hcntd]
  · rw [chunk_iter_zero x in_ sig_in sampleframes st hfrozen hcntd]
  · rw [chunk_iter_zero x in_ sig_in sampleframes st hfrozen hcntd]

/-- The trace from a ramping channel with a countdown of 0 that is not frozen: a pass
without chunk, then one chunk of the samples left. -/
theorem trace_after_zero (n : Nat) (x : t_diffuse) (in_ : Nat) (sig_in : Nat → ℚ)
    (sampleframes : Int) (fuel : Nat) (st : t_chunk) (hleft : st.smp_left ≠ 0)
    (hw : channel_wf n st.channel) (hmode : st.channel.mode_type = MODE_TYPE_VAR)
    (hfrozen : st.channel.is_frozen = false) (hcntd : st.channel.cntd = 0) :
    chunk_trace x in_ sig_in sampleframes (fuel + 2) st
      = some [{ chunk := none, smp_left := st.smp_left },
              { chunk := some (sampleframes - st.smp_left, st.smp_left), smp_left := 0 }] := by
  obtain ⟨a1, a2, a3⟩ := pass_zero x in_ sig_in sampleframes st hfrozen hcntd
  obtain ⟨e, _, _, _⟩ := state_iterate_var in_ st.channel hmode
    (by rw [hw.1, hw.2.1]) (by rw [hw.1, hw.2.2.1])
  have f1 : (chunk_iter x in_ sig_in sampleframes st).channel.cntd = INDEFINITE := by
    rw [a3]
    have := congrArg t_channel.cntd e
    exact this
  have f2 : (chunk_iter x in_ sig_in sampleframes st).channel.is_frozen = false := by
    rw [a3]
    have := congrArg t_channel.is_frozen e
    exact this.trans hfrozen
  obtain ⟨b1, b2⟩ := pass_indefinite x in_ sig_in sampleframes
    (chunk_iter x in_ sig_in sampleframes st) f2 f1
  rw [chunk_trace_step _ _ _ _ _ _ hleft, chunk_trace_step _ _ _ _ _ _ (by rw [a2]; exact hleft),
    chunk_trace_done _ _ _ _ _ _ b2, a1, a2, b1, b2, a2]
  rfl

/-- For operands that are not negative the remainder of C is the remainder of the
division with floor, and it lies below the divisor. -/
theorem tmod_of_nonneg (i : Nat) (off : Int) (M : Nat) (hM : 1 ≤ M) (hoff : 0 ≤ off) :
    Int.tmod (i + off) M = (i + off) % M
    ∧ 0 ≤ ((i : Int) + off) % M ∧ (((i : Int) + off) % M).toNat < M := by
  have h0 : (0 : Int) ≤ (i : Int) + off := by omega
  have hM0 : (M : Int) ≠ 0 := by omega
  have h1 := Int.emod_nonneg ((i : Int) + off) hM0
  have h2 := Int.emod_lt_of_pos ((i : Int) + off) (show (0 : Int) < M by omega)
  refine ⟨?_, h1, by omega⟩
  rw [Int.tmod_eq_emod h0 (by omega)]

/-- The index map `i ↦ (i + offset) mod M` reaches every index below `M`. -/
theorem shift_mod_surj (M : Nat) (off : Int) (hM : 1 ≤ M) (j : Nat) (hj : j < M) :
    ∃ i : Nat, i < M ∧ (((i : Int) + off) % M).toNat = j := by
  have hM0 : (M : Int) ≠ 0 := by omega
  have h1 := Int.emod_nonneg ((j : Int) - off) hM0
  have h2 := Int.emod_lt_of_pos ((j : Int) - off) (show (0 : Int) < M by omega)
  refine ⟨(((j : Int) - off) % M).toNat, by omega, ?_⟩
  rw [Int.toNat_of_nonneg h1, Int.emod_add_emod, sub_add_cancel]
  rw [Int.emod_eq_of_lt (by omega) (by omega)]
  simp

/-- C38: for `M ≥ 1` outputs, an offset that is not negative and a state of `M` values,
`_state_ramp` writes every target index once: the index `(i + offset) % M` of C is the
remainder `(i + offset) mod M`, it lies below `M`, the map `i ↦ (i + offset) mod M` is a
bijection of the indices below `M`, and afterwards `A_targ[(i + offset) mod M]` is the gain
`i` of the state and `U_targ[(i + offset) mod M]` the selected abscissa `i` of the state, so
that every target entry holds a value of the state. -/
theorem C38_ramp_writes_every_target (x : t_diffuse) (ind : Nat) (state : t_state)
    (cntd offset : Int) (hM : 1 ≤ x.out_cnt) (hoff : 0 ≤ offset)
    (hcnt : state.cnt = x.out_cnt) (hind : ind < x.channel_arr.length)
    (hU : (x.channel ind).U_targ.length = x.out_cnt)
    (hA : (x.channel ind).A_targ.length = x.out_cnt) :
    (∀ i, i < x.out_cnt →
      Int.tmod (i + offset) x.out_cnt = (i + offset) % x.out_cnt
      ∧ (((i : Int) + offset) % x.out_cnt).toNat < x.out_cnt
      ∧ rd ((_state_ramp x ind state cntd offset).channel ind).A_targ
          (((i : Int) + offset) % x.out_cnt).toNat = rd state.A_arr i
      ∧ rd ((_state_ramp x ind state cntd offset).channel ind).U_targ
          (((i : Int) + offset) % x.out_cnt).toNat = rd state.U_cur_arr i)
    ∧ (∀ i j, i < x.out_cnt → j < x.out_cnt →
        (((i : Int) + offset) % x.out_cnt).toNat = (((j : Int) + offset) % x.out_cnt).toNat →
        i = j)
    ∧ (∀ j, j < x.out_cnt →
        ∃ i, i < x.out_cnt ∧ (((i : Int) + offset) % x.out_cnt).toNat = j
          ∧ rd ((_state_ramp x ind state cntd offset).channel ind).A_targ j = rd state.A_arr i
          ∧ rd ((_state_ramp x ind state cntd offset).channel ind).U_targ j
              = rd state.U_cur_arr i) := by
  have key : ∀ i, i < x.out_cnt →
      Int.tmod (i + offset) x.out_cnt = (i + offset) % x.out_cnt
      ∧ (((i : Int) + offset) % x.out_cnt).toNat < x.out_cnt
      ∧ rd ((_state_ramp x ind state cntd offset).channel ind).A_targ
          (((i : Int) + offset) % x.out_cnt).toNat = rd state.A_arr i
      ∧ rd ((_state_ramp x ind state cntd offset).channel ind).U_targ
          (((i : Int) + offset) % x.out_cnt).toNat = rd state.U_cur_arr i := by
    intro i hi
    obtain ⟨e, h0, hlt⟩ := tmod_of_nonneg i offset x.out_cnt hM hoff
    have h := ramp_loop_targets x.out_cnt state offset state.cnt
      { x.channel ind with cntd := cntd, mode_type := MODE_TYPE_VAR, state_ind := state.index }
      (by rw [hcnt]) i (by rw [hcnt]; exact hi) (by rw [e]; exact h0)
      (by rw [e]; show _ < (x.channel ind).U_targ.length; rw [hU]; exact hlt)
      (by rw [e]; show _ < (x.channel ind).A_targ.length; rw [hA]; exact hlt)
    rw [e] at h
    rw [state_ramp_channel x ind state cntd offset hind]
    exact ⟨e, hlt, h.2, h.1⟩
  refine ⟨key, fun i j hi hj h => ?_, fun j hj => ?_⟩
  · obtain ⟨e1, g1, _⟩ := tmod_of_nonneg i offset x.out_cnt hM hoff
    obtain ⟨e2, g2, _⟩ := tmod_of_nonneg j offset x.out_cnt hM hoff
    refine tmod_inj x.out_cnt offset i j hi hj ?_
    rw [e1, e2]
    omega
  · obtain ⟨i, hi, e⟩ := shift_mod_surj x.out_cnt offset hM j hj
    obtain ⟨_, _, k3, k4⟩ := key i hi
    rw [e] at k3 k4
    exact ⟨i, hi, e, k3, k4⟩

/-- C38 at work on the engine `x_3`: `_state_ramp` with the gains `[1, 0, 0]` of the state 0
and the offset 4 writes the targets `[0, 1, 0]`. -/
theorem C38_ramp_writes_every_target_witness :
    ((∀ i, i < x_3.out_cnt →
      Int.tmod (i + 4) x_3.out_cnt = (i + 4) % x_3.out_cnt
      ∧ (((i : Int) + 4) % x_3.out_cnt).toNat < x_3.out_cnt
      ∧ rd ((_state_ramp x_3 0 (x_3.state 0) 10 4).channel 0).A_targ
          (((i : Int) + 4) % x_3.out_cnt).toNat = rd (x_3.state 0).A_arr i
      ∧ rd ((_state_ramp x_3 0 (x_3.state 0) 10 4).channel 0).U_targ
          (((i : Int) + 4) % x_3.out_cnt).toNat = rd (x_3.state 0).U_cur_arr i)
    ∧ (∀ i j, i < x_3.out_cnt → j < x_3.out_cnt →
        (((i : Int) + 4) % x_3.out_cnt).toNat = (((j : Int) + 4) % x_3.out_cnt).toNat →
        i = j)
    ∧ (∀ j, j < x_3.out_cnt →
        ∃ i, i < x_3.out_cnt ∧ (((i : Int) + 4) % x_3.out_cnt).toNat = j
          ∧ rd ((_state_ramp x_3 0 (x_3.state 0) 10 4).channel 0).A_targ j
              = rd (x_3.state 0).A_arr i
          ∧ rd ((_state_ramp x_3 0 (x_3.state 0) 10 4).channel 0).U_targ j
              = rd (x_3.state 0).U_cur_arr i))
    ∧ ((_state_ramp x_3 0 (x_3.state 0) 10 4).channel 0).A_targ = [0, 1, 0]
    ∧ ((_state_ramp x_3 0 (x_3.state 0) 10 4).channel 0).U_targ = [0, 1, 0] :=
  ⟨C38_ramp_writes_every_target x_3 0 (x_3.state 0) 10 4 (by decide) (by decide) (by decide)
    (by decide) (by decide) (by decide), by decide!, by decide!⟩

theorem perform_frame_refl (c : t_channel) : perform_frame c c :=
  ⟨rfl, rfl, rfl, rfl, rfl, rfl, rfl, rfl, rfl, rfl, rfl, rfl⟩

theorem perform_frame_trans {a b c : t_channel} (h1 : perform_frame a b)
    (h2 : perform_frame b c) : perform_frame a c := by
  obtain ⟨a1, a2, a3, a4, a5, a6, a7, a8, a9, a10, a11, a12⟩ := h1
  obtain ⟨b1, b2, b3, b4, b5, b6, b7, b8, b9, b10, b11, b12⟩ := h2
  exact ⟨b1.trans a1, b2.trans a2, b3.trans a3, b4.trans a4, b5.trans a5, b6.trans a6,
    b7.trans a7, b8.trans a8, b9.trans a9, b10.trans a10, b11.trans a11, b12.trans a12⟩

theorem perform_frame_of_cur_only {c c1 : t_channel} (h : cur_only c c1) :
    perform_frame c c1 := by
  have e := h.1
  refine ⟨?_, ?_, ?_, ?_, ?_, ?_, ?_, ?_, ?_, ?_, ?_, ?_⟩
  · have := congrArg t_channel.U_targ e
    exact this
  · have := congrArg t_channel.A_targ e
    exact this
  · have := congrArg t_channel.velocity e
    exact this
  · have := congrArg t_channel.gain e
    exact this
  · have := congrArg t_channel.interp_func e
    exact this
  · have := congrArg t_channel.interp_inv_func e
    exact this
  · have := congrArg t_channel.interp_param e
    exact this
  · have := congrArg t_channel.state_ind e
    exact this
  · have := congrArg t_channel.is_on e
    exact this
  · have := congrArg t_channel.is_frozen e
    exact this
  · have := congrArg t_channel.is_mute_ramp e
    exact this
  · have := congrArg t_channel.out_cnt e
    exact this

/-- The function `_state_iterate` keeps the frame of the channel. -/
theorem state_iterate_perform_frame (ind : Nat) (channel : t_channel) :
    perform_frame channel (_state_iterate ind channel).1 := by
  cases hm : channel.mode_type with
  | MODE_TYPE_VAR =>
    exact perform_frame_trans
      (show perform_frame channel
          { channel with cntd := INDEFINITE, mode_type := MODE_TYPE_FIX } from
        ⟨rfl, rfl, rfl, rfl, rfl, rfl, rfl, rfl, rfl, rfl, rfl, rfl⟩)
      (perform_frame_of_cur_only (state_iterate_frame ind channel hm))
  | MODE_TYPE_FIX =>
    unfold _state_iterate
    simp only [hm]
    exact perform_frame_refl _
  | MODE_TYPE_OFF =>
    unfold _state_iterate
    simp only [hm]
    exact perform_frame_refl _

/-- One pass of the chunk loop keeps the frame of the channel. -/
theorem chunk_iter_perform_frame (x : t_diffuse) (in_ : Nat) (sig_in : Nat → ℚ)
    (sampleframes : Int) (st : t_chunk) :
    perform_frame st.channel (chunk_iter x in_ sig_in sampleframes st).channel := by
  unfold chunk_iter
  simp only []
  split
  · exact perform_frame_of_cur_only (out_loop_frame x sig_in _ _ _ _).1
  · split
    · exact state_iterate_perform_frame in_ st.channel
    · split
      · exact perform_frame_of_cur_only (out_loop_frame x sig_in _ _ _ _).1
      · split
        · exact perform_frame_trans
            (show perform_frame st.channel
                { st.channel with
                  cntd := st.channel.cntd - smp_left_x_vel st.smp_left st.channel } from
              ⟨rfl, rfl, rfl, rfl, rfl, rfl, rfl, rfl, rfl, rfl, rfl, rfl⟩)
            (perform_frame_of_cur_only (out_loop_frame x sig_in _ _ _ _).1)
        · exact perform_frame_trans
            (show perform_frame st.channel { st.channel with cntd := 0 } from
              ⟨rfl, rfl, rfl, rfl, rfl, rfl, rfl, rfl, rfl, rfl, rfl, rfl⟩)
            (perform_frame_of_cur_only (out_loop_frame x sig_in _ _ _ _).1)

/-- The chunk loop keeps the frame of the channel. -/
theorem chunk_loop_perform_frame (x : t_diffuse) (in_ : Nat) (sig_in : Nat → ℚ)
    (sampleframes : Int) (fuel : Nat) :
    ∀ (st st1 : t_chunk), chunk_loop x in_ sig_in sampleframes fuel st = some st1 →
      perform_frame st.channel st1.channel := by
  induction fuel with
  | zero =>
    intro st st1 h
    unfold chunk_loop at h
    split at h
    · rw [← Option.some.inj h]
      exact perform_frame_refl _
    · exact absurd h (by simp)
  | succ f ih =>
    intro st st1 h
    unfold chunk_loop at h
    split at h
    · rw [← Option.some.inj h]
      exact perform_frame_refl _
    · exact perform_frame_trans (chunk_iter_perform_frame x in_ sig_in sampleframes st)
        (ih _ st1 h)

/-- The chunk loop leaves a channel with an indefinite countdown as it was. -/
theorem chunk_loop_indefinite_same (x : t_diffuse) (in_ : Nat) (sig_in : Nat → ℚ)
    (sampleframes fuel : Nat) (st st1 : t_chunk) (hleft : st.smp_left = sampleframes)
    (hc : st.channel.cntd = INDEFINITE)
    (h : chunk_loop x in_ sig_in sampleframes fuel st = some st1) :
    st1.channel = st.channel := by
  cases fuel with
  | zero =>
    unfold chunk_loop at h
    split at h
    · rw [← Option.some.inj h]
    · exact absurd h (by simp)
  | succ f =>
    rw [chunk_loop_fixed x in_ sig_in sampleframes (f + 1) (by omega) st hleft (Or.inr hc)] at h
    rw [← Option.some.inj h]

/-- C39: a call of `diffuse_perform64` that returns leaves the engine as it was but for its
channels: the states, the scratch state, the master gain and the output gains are the same;
of every channel it keeps `U_targ`, `A_targ`, the velocity, the input gain, the curve
selection (the function, its inverse and the parameter), `state_ind` and the on, frozen and
mute flags; and a channel that is fixed with an indefinite countdown is left as it was in
every field. -/
theorem C39_perform_frame (fuel : Nat) (x : t_diffuse) (in_arr out_arr : Nat → Nat → ℚ)
    (sampleframes : Nat) (r : t_perform)
    (h : diffuse_perform64 fuel x in_arr out_arr sampleframes = some r) :
    r.x = { x with channel_arr := r.x.channel_arr }
    ∧ r.x.state_arr = x.state_arr ∧ r.x.state_tmp = x.state_tmp
    ∧ r.x.master = x.master ∧ r.x.out_gain = x.out_gain
    ∧ (∀ c, perform_frame (x.channel c) (r.x.channel c))
    ∧ (∀ c, (x.channel c).mode_type = MODE_TYPE_FIX → (x.channel c).cntd = INDEFINITE →
        r.x.channel c = x.channel c) := by
  obtain ⟨hco, hge, hoff, hon⟩ := perform64_some fuel x in_arr out_arr sampleframes
    (fun _ ch ch1 => perform_frame ch ch1 ∧ (ch.cntd = INDEFINITE → ch1 = ch)) r
    (fun c y st st1 _ _ hst hleft hloop => by
      rw [← hst]
      exact ⟨chunk_loop_perform_frame y c (in_arr c) sampleframes fuel st st1 hloop,
        fun hc => chunk_loop_indefinite_same y c (in_arr c) sampleframes fuel st st1 hleft hc
          hloop⟩) h
  have hall : ∀ c, perform_frame (x.channel c) (r.x.channel c)
      ∧ ((x.channel c).cntd = INDEFINITE → r.x.channel c = x.channel c) := by
    intro c
    by_cases hc : c < x.channel_cnt
    · cases hison : (x.channel c).is_on with
      | false =>
        rw [hoff c hc hison]
        exact ⟨perform_frame_refl _, fun _ => rfl⟩
      | true => exact hon c hc hison
    · rw [hge c (Nat.le_of_not_lt hc)]
      exact ⟨perform_frame_refl _, fun _ => rfl⟩
  refine ⟨hco.1, ?_, ?_, ?_, ?_, fun c => (hall c).1, fun c _ hc => (hall c).2 hc⟩
  · have := congrArg t_diffuse.state_arr hco.1
    exact this
  · have := congrArg t_diffuse.state_tmp hco.1
    exact this
  · have := congrArg t_diffuse.master hco.1
    exact this
  · have := congrArg t_diffuse.out_gain hco.1
    exact this

/-- C39 at work on the engine `x_2_pair` and a block of 4 samples: the first channel ramps,
and keeps its targets `[0, 1]` while its countdown goes from 10 to 6; the second channel is
fixed with an indefinite countdown and is left as it was. -/
theorem C39_perform_frame_witness :
    (∃ r, diffuse_perform64 3 x_2_pair in_pair (fun _ _ => 0) 4 = some r
      ∧ r.x = { x_2_pair with channel_arr := r.x.channel_arr }
      ∧ r.x.state_arr = x_2_pair.state_arr ∧ r.x.state_tmp = x_2_pair.state_tmp
      ∧ r.x.master = x_2_pair.master ∧ r.x.out_gain = x_2_pair.out_gain
      ∧ (∀ c, perform_frame (x_2_pair.channel c) (r.x.channel c))
      ∧ (∀ c, (x_2_pair.channel c).mode_type = MODE_TYPE_FIX →
          (x_2_pair.channel c).cntd = INDEFINITE → r.x.channel c = x_2_pair.channel c))
    ∧ (diffuse_perform64 3 x_2_pair in_pair (fun _ _ => 0) 4).map
        (fun r => ((r.x.channel 0).cntd, (r.x.channel 0).A_cur, (r.x.channel 0).A_targ,
          (r.x.channel 1).cntd, (r.x.channel 1).A_cur))
        = some (6, [0, 2/5], [0, 1], -1, [1/2, 1/4])
    ∧ (x_2_pair.channel 0).cntd = 10 := by
  have hs : (diffuse_perform64 3 x_2_pair in_pair (fun _ _ => 0) 4).isSome = true := by
    decide!
  exact ⟨⟨_, (Option.some_get hs).symm,
    C39_perform_frame 3 x_2_pair in_pair (fun _ _ => 0) 4 _ (Option.some_get hs).symm⟩,
    by decide!, by decide!⟩

/-- More passes than the chunk loop needs do not change what it returns. -/
theorem chunk_loop_more (x : t_diffuse) (in_ : Nat) (sig_in : Nat → ℚ) (sampleframes : Int)
    (fuel : Nat) :
    ∀ (st r : t_chunk) (k : Nat), chunk_loop x in_ sig_in sampleframes fuel st = some r →
      chunk_loop x in_ sig_in sampleframes (fuel + k) st = some r := by
  induction fuel with
  | zero =>
    intro st r k h
    unfold chunk_loop at h
    split at h
    · rename_i h0
      rw [chunk_loop_done _ _ _ _ _ _ h0]
      exact h
    · exact absurd h (by simp)
  | succ f ih =>
    intro st r k h
    unfold chunk_loop at h
    split at h
    · rename_i h0
      rw [chunk_loop_done _ _ _ _ _ _ h0]
      exact h
    · rename_i h0
      have e : f + 1 + k = (f + k) + 1 := by omega
      rw [e, chunk_loop, if_neg h0]
      exact ih _ r k h

/-- The pass of a countdown, neither 0 nor indefinite, that extends beyond the block: one
chunk of the samples left. -/
theorem pass_whole_ne (x : t_diffuse) (in_ : Nat) (sig_in : Nat → ℚ) (sampleframes : Int)
    (st : t_chunk) (hfrozen : st.channel.is_frozen = false) (h0 : st.channel.cntd ≠ 0)
    (h1 : st.channel.cntd ≠ INDEFINITE)
    (hgt : st.channel.cntd > smp_left_x_vel st.smp_left st.channel) :
    chunk_plan sampleframes st = some (sampleframes - st.smp_left, st.smp_left)
    ∧ (chunk_iter x in_ sig_in sampleframes st).smp_left = 0 := by
  refine ⟨?_, ?_⟩
  · unfold chunk_plan
    simp only [hfrozen, Bool.false_eq_true, if_false]
    rw [if_neg h0, if_neg h1, if_pos hgt]
  · unfold chunk_iter
    simp only [hfrozen, Bool.false_eq_true, if_false]
    rw [if_neg h0, if_neg h1, if_pos hgt]
    exact (out_loop_frame x sig_in _ _ _ _).2.1

/-- The pass of a countdown, neither 0 nor indefinite, that does not extend beyond the
block: a chunk of `cntd_d_vel` samples, after which the countdown is 0. -/
theorem pass_finish_ne (x : t_diffuse) (in_ : Nat) (sig_in : Nat → ℚ) (sampleframes : Int)
    (st : t_chunk) (hfrozen : st.channel.is_frozen = false) (h0 : st.channel.cntd ≠ 0)
    (h1 : st.channel.cntd ≠ INDEFINITE)
    (hle : ¬ st.channel.cntd > smp_left_x_vel st.smp_left st.channel) :
    chunk_plan sampleframes st = some (sampleframes - st.smp_left, cntd_d_vel st.channel)
    ∧ (chunk_iter x in_ sig_in sampleframes st).smp_left
        = st.smp_left - cntd_d_vel st.channel
    ∧ cur_only { st.channel with cntd := 0 } (chunk_iter x in_ sig_in sampleframes st).channel := by
  have e : chunk_iter x in_ sig_in sampleframes st =
      out_loop x sig_in (sampleframes - st.smp_left) (cntd_d_vel st.channel)
        (cntd_d_vel st.channel)
        { st with smp_left := st.smp_left - cntd_d_vel st.channel,
                  channel := { st.channel with cntd := 0 } } := by
    unfold chunk_iter
    simp only [hfrozen, Bool.false_eq_true, if_false]
    rw [if_neg h0, if_neg h1, if_neg hle]
  refine ⟨?_, ?_, ?_⟩
  · unfold chunk_plan
    simp only [hfrozen, Bool.false_eq_true, if_false]
    rw [if_neg h0, if_neg h1, if_neg hle]
  · rw [e]
    exact (out_loop_frame x sig_in _ _ _ _).2.1
  · rw [e]
    exact (out_loop_frame x sig_in _ _ _ _).1

/-- The passes of the chunk loop of a channel whose mode is not off and whose countdown is
indefinite when it is fixed, whatever the countdown of a ramping channel, in a block of `L`
samples: one chunk, with or without a pass of `_state_iterate` before it, or a chunk, a pass
of `_state_iterate` and a chunk. -/
theorem chunk_trace_any (n : Nat) (x : t_diffuse) (in_ : Nat) (sig_in : Nat → ℚ) (L : Nat)
    (hL : 1 ≤ L) (fuel : Nat) (st : t_chunk) (hleft : st.smp_left = L)
    (hw : channel_wf n st.channel) (hi : chan_inv False False st.channel) :
    (∃ c1 : Int × Int,
      chunk_trace x in_ sig_in L (fuel + 3) st = some [{ chunk := some c1, smp_left := 0 }])
    ∨ (∃ c1 : Int × Int, ∃ l : Int,
        chunk_trace x in_ sig_in L (fuel + 3) st
          = some [{ chunk := none, smp_left := l }, { chunk := some c1, smp_left := 0 }])
    ∨ ∃ c1 c2 : Int × Int, ∃ l : Int,
        chunk_trace x in_ sig_in L (fuel + 3) st
          = some [{ chunk := some c1, smp_left := l }, { chunk := none, smp_left := l },
                  { chunk := some c2, smp_left := 0 }] := by
  have hne : st.smp_left ≠ 0 := by rw [hleft]; omega
  by_cases hfrozen : st.channel.is_frozen = true
  · obtain ⟨a1, a2⟩ := pass_frozen x in_ sig_in L st hfrozen
    left
    refine ⟨((L : Int) - st.smp_left, (L : Int)), ?_⟩
    rw [chunk_trace_step _ _ _ _ _ _ hne, chunk_trace_done _ _ _ _ _ _ a2, a1, a2]
    rfl
  have hfr : st.channel.is_frozen = false := by
    cases h : st.channel.is_frozen
    · rfl
    · exact absurd h hfrozen
  by_cases h0 : st.channel.cntd = 0
  · right
    left
    have hm := mode_var_of_inv hi (by rw [h0]; decide)
    exact ⟨_, _, trace_after_zero n x in_ sig_in L (fuel + 1) st hne hw hm hfr h0⟩
  by_cases h1 : st.channel.cntd = INDEFINITE
  · obtain ⟨a1, a2⟩ := pass_indefinite x in_ sig_in L st hfr h1
    left
    refine ⟨((L : Int) - st.smp_left, st.smp_left), ?_⟩
    rw [chunk_trace_step _ _ _ _ _ _ hne, chunk_trace_done _ _ _ _ _ _ a2, a1, a2]
    rfl
  have hm : st.channel.mode_type = MODE_TYPE_VAR := mode_var_of_inv hi h1
  by_cases hgt : st.channel.cntd > smp_left_x_vel st.smp_left st.channel
  · obtain ⟨a1, a2⟩ := pass_whole_ne x in_ sig_in L st hfr h0 h1 hgt
    left
    refine ⟨((L : Int) - st.smp_left, st.smp_left), ?_⟩
    rw [chunk_trace_step _ _ _ _ _ _ hne, chunk_trace_done _ _ _ _ _ _ a2, a1, a2]
    rfl
  · obtain ⟨a1, a2, a3⟩ := pass_finish_ne x in_ sig_in L st hfr h0 h1 hgt
    by_cases hk : (chunk_iter x in_ sig_in L st).smp_left = 0
    · left
      refine ⟨((L : Int) - st.smp_left, cntd_d_vel st.channel), ?_⟩
      rw [chunk_trace_step _ _ _ _ _ _ hne, chunk_trace_done _ _ _ _ _ _ hk, a1, hk]
      rfl
    · right
      right
      have g1 : (chunk_iter x in_ sig_in L st).channel.cntd = 0 := by
        have := congrArg t_channel.cntd a3.1
        exact this
      have g2 : (chunk_iter x in_ sig_in L st).channel.is_frozen = false := by
        have := congrArg t_channel.is_frozen a3.1
        exact this.trans hfr
      have g3 : (chunk_iter x in_ sig_in L st).channel.mode_type = MODE_TYPE_VAR := by
        have := congrArg t_channel.mode_type a3.1
        exact this.trans hm
      have g4 : channel_wf n (chunk_iter x in_ sig_in L st).channel :=
        cur_only_wf a3 hw
      have key := trace_after_zero n x in_ sig_in L fuel (chunk_iter x in_ sig_in L st) hk g4
        g3 g2 g1
      refine ⟨((L : Int) - st.smp_left, cntd_d_vel st.channel),
        ((L : Int) - (chunk_iter x in_ sig_in L st).smp_left,
          (chunk_iter x in_ sig_in L st).smp_left),
        (chunk_iter x in_ sig_in L st).smp_left, ?_⟩
      rw [chunk_trace_step _ _ _ _ _ _ hne, key, a1]
      rfl

/-- C33: for a channel that is switched on, with a velocity above 0, in a state reached
from `diffuse_new` through calls on the object and blocks of the perform routine
(samplerates not negative), and a block of `L ≥ 0` samples: the chunk loop returns after
three passes at most, with no sample left, and more passes allowed give the same result;
when it takes three passes, they are a chunk, a pass of `_state_iterate` that leaves the
number of samples left, and a chunk that ends the block. -/
theorem C33_chunk_loop_terminates (env : t_envelopes) (fuel : Nat) (sr : ℚ)
    (argv : List t_atom) (reg : t_registry) (cmds : List t_command) (w : t_world)
    (hsr : 0 ≤ sr) (hdsp : ∀ samplerate, t_command.dsp64 samplerate ∈ cmds → 0 ≤ samplerate)
    (h : run_commands env fuel (world_new env sr argv reg) cmds = some w)
    (c : Nat) (hon : (w.x.channel c).is_on = true) (hv : 0 < (w.x.channel c).velocity)
    (L : Nat) (y : t_diffuse) (sig_in : Nat → ℚ) (st : t_chunk)
    (hst : st.channel = w.x.channel c) (hleft : st.smp_left = L) :
    ∃ tr r, chunk_trace y c sig_in L 3 st = some tr ∧ tr.length ≤ 3
      ∧ chunk_loop y c sig_in L 3 st = some r ∧ r.smp_left = 0
      ∧ (∀ fuel1, 3 ≤ fuel1 → chunk_loop y c sig_in L fuel1 st = some r)
      ∧ (tr.length = 3 → trace_finishing tr) := by
  have hinv := @run_commands_inv (fun _ => False) False env fuel cmds
    (world_new env sr argv reg) w (diffuse_new_inv env sr argv (fun hb => hb.elim))
    (cmds_ok_false env fuel cmds _) h
  obtain ⟨hw, hi⟩ := hinv.2 c (channel_on_lt w.x c hon)
  rw [← hst] at hw hi
  have hfin : ∀ tr, chunk_trace y c sig_in L 3 st = some tr →
      tr.length ≤ 3 ∧ (tr.length = 3 → trace_finishing tr) →
      ∃ tr r, chunk_trace y c sig_in L 3 st = some tr ∧ tr.length ≤ 3
        ∧ chunk_loop y c sig_in L 3 st = some r ∧ r.smp_left = 0
        ∧ (∀ fuel1, 3 ≤ fuel1 → chunk_loop y c sig_in L fuel1 st = some r)
        ∧ (tr.length = 3 → trace_finishing tr) := by
    intro tr htr hp
    obtain ⟨r, hr, hr0⟩ := chunk_trace_loop y c sig_in L 3 st tr htr
    refine ⟨tr, r, htr, hp.1, hr, hr0, fun fuel1 hf => ?_, hp.2⟩
    obtain ⟨k, rfl⟩ : ∃ k, fuel1 = 3 + k := ⟨fuel1 - 3, by omega⟩
    exact chunk_loop_more y c sig_in L 3 st r k hr
  by_cases hL : L = 0
  · have h0 : st.smp_left = 0 := by rw [hleft, hL]; rfl
    refine hfin [] (chunk_trace_done y c sig_in L 3 st h0) ⟨by simp, fun e => ?_⟩
    simp at e
  · have key := chunk_trace_any w.x.out_cnt y c sig_in L (by omega) 0 st hleft hw hi
    rcases key with ⟨c1, e⟩ | ⟨c1, l, e⟩ | ⟨c1, c2, l, e⟩
    · refine hfin _ e ⟨by simp, fun e1 => ?_⟩
      simp at e1
    · refine hfin _ e ⟨by simp, fun e1 => ?_⟩
      simp at e1
    · exact hfin _ e ⟨by simp, fun _ => ⟨_, _, _, rfl⟩⟩

/-- C33 at work: after `dsp64` at 1000 samples per second, `channel on 0` and `ramp_to 0 0
4. ramp` the first channel has a countdown of 4; in a block of 6 samples the chunk loop
takes three passes, and in a block of 0 samples none. -/
theorem C33_chunk_loop_terminates_witness :
    (∃ w, run_commands env_linear 3 (world_new env_linear 1000 [] []) cmds_on_ramp = some w
      ∧ (w.x.channel 0).is_on = true ∧ 0 < (w.x.channel 0).velocity
      ∧ ∃ tr r,
        chunk_trace w.x 0 (fun _ => 1) (6 : Nat) 3
            { channel := w.x.channel 0, smp_left := (6 : Nat), out_arr := fun _ _ => 0,
              msgs := [], errs := [] } = some tr
        ∧ tr.length ≤ 3
        ∧ chunk_loop w.x 0 (fun _ => 1) (6 : Nat) 3
            { channel := w.x.channel 0, smp_left := (6 : Nat), out_arr := fun _ _ => 0,
              msgs := [], errs := [] } = some r
        ∧ r.smp_left = 0
        ∧ (∀ fuel1, 3 ≤ fuel1 →
            chunk_loop w.x 0 (fun _ => 1) (6 : Nat) fuel1
              { channel := w.x.channel 0, smp_left := (6 : Nat), out_arr := fun _ _ => 0,
                msgs := [], errs := [] } = some r)
        ∧ (tr.length = 3 → trace_finishing tr))
    ∧ (run_commands env_linear 3 (world_new env_linear 1000 [] []) cmds_on_ramp).bind
        (fun w => (chunk_trace w.x 0 (fun _ => 1) (6 : Nat) 3
          { channel := w.x.channel 0, smp_left := (6 : Nat), out_arr := fun _ _ => 0,
            msgs := [], errs := [] }).map List.length) = some 3
    ∧ (run_commands env_linear 3 (world_new env_linear 1000 [] []) cmds_on_ramp).bind
        (fun w => (chunk_trace w.x 0 (fun _ => 1) (0 : Nat) 3
          { channel := w.x.channel 0, smp_left := (0 : Nat), out_arr := fun _ _ => 0,
            msgs := [], errs := [] }).map List.length) = some 0
    ∧ (run_commands env_linear 3 (world_new env_linear 1000 [] []) cmds_on_ramp).bind
        (fun w => (chunk_loop w.x 0 (fun _ => 1) (6 : Nat) 2
          { channel := w.x.channel 0, smp_left := (6 : Nat), out_arr := fun _ _ => 0,
            msgs := [], errs := [] }).map (fun r => r.smp_left)) = none := by
  have hs : (run_commands env_linear 3 (world_new env_linear 1000 [] [])
      cmds_on_ramp).isSome = true := by decide!
  have hch : ∀ w, run_commands env_linear 3 (world_new env_linear 1000 [] []) cmds_on_ramp
      = some w → (w.x.channel 0).is_on = true ∧ 0 < (w.x.channel 0).velocity := by
    intro w hw
    have h1 : (run_commands env_linear 3 (world_new env_linear 1000 [] []) cmds_on_ramp).map
        (fun w => decide ((w.x.channel 0).is_on = true ∧ 0 < (w.x.channel 0).velocity))
        = some true := by decide!
    rw [hw] at h1
    simpa using h1
  have hon := (hch _ (Option.some_get hs).symm).1
  have hv := (hch _ (Option.some_get hs).symm).2
  exact ⟨⟨_, (Option.some_get hs).symm, hon, hv,
    C33_chunk_loop_terminates env_linear 3 1000 [] [] cmds_on_ramp _ (by decide!)
      (fun samplerate hm => by
        simp [cmds_on_ramp] at hm
        rw [hm]
        norm_num)
      (Option.some_get hs).symm 0 hon hv 6 _ (fun _ => 1) _ rfl rfl⟩,
    by decide!, by decide!, by decide!⟩

/-- The chunk loop of a block of one sample on such a channel leaves it such a channel:
`(t_int32)(1 * 0.5)` is 0 and the countdown is lowered by 0. -/
theorem stalled_chunk_loop (x : t_diffuse) (in_ : Nat) (sig_in : Nat → ℚ) (fuel : Nat)
    (hfuel : 1 ≤ fuel) (st : t_chunk) (hleft : st.smp_left = ((1 : Nat) : Int))
    (h : stalled st.channel) :
    ∃ st1, chunk_loop x in_ sig_in ((1 : Nat) : Int) fuel st = some st1
      ∧ stalled st1.channel := by
  obtain ⟨hon, hfr, hmode, hc, hv⟩ := h
  obtain ⟨f, rfl⟩ : ∃ f, fuel = f + 1 := ⟨fuel - 1, by omega⟩
  have hx : smp_left_x_vel st.smp_left st.channel = 0 := by
    unfold smp_left_x_vel
    rw [hleft, hv]
    decide!
  have hpos : 0 < st.channel.cntd := by rw [hc]; decide
  have hgt : st.channel.cntd > smp_left_x_vel st.smp_left st.channel := by
    rw [hx]
    exact hpos
  have hne : st.smp_left ≠ 0 := by rw [hleft]; decide
  have e := chunk_iter_whole x in_ sig_in ((1 : Nat) : Int) st hfr hpos hgt
  obtain ⟨g1, g2, _⟩ := out_loop_frame x sig_in (((1 : Nat) : Int) - st.smp_left) st.smp_left
    (cntd_d_vel st.channel)
    { st with smp_left := 0,
              channel := { st.channel with
                cntd := st.channel.cntd - smp_left_x_vel st.smp_left st.channel } }
  rw [← e] at g1 g2
  refine ⟨chunk_iter x in_ sig_in ((1 : Nat) : Int) st, ?_, ?_⟩
  · rw [chunk_loop, if_neg hne]
    exact chunk_loop_done _ _ _ _ _ _ g2
  · have e1 := g1.1
    refine ⟨?_, ?_, ?_, ?_, ?_⟩
    · have := congrArg t_channel.is_on e1
      exact this.trans hon
    · have := congrArg t_channel.is_frozen e1
      exact this.trans hfr
    · have := congrArg t_channel.mode_type e1
      exact this.trans hmode
    · have := congrArg t_channel.cntd e1
      rw [this]
      show st.channel.cntd - smp_left_x_vel st.smp_left st.channel = 10
      rw [hx, hc]
      rfl
    · have := congrArg t_channel.velocity e1
      exact this.trans hv

/-- Blocks of one sample, as many as one likes, leave such a channel such a channel. -/
theorem stalled_blocks (out_arr : Nat → Nat → ℚ) (in_arr : Nat → Nat → ℚ) :
    ∀ (n : Nat) (x : t_diffuse), 0 < x.channel_cnt → stalled (x.channel 0) →
      (∀ c1, (x.channel c1).is_on = true → chan_run (x.channel c1)) →
      ∃ y, perform_blocks 3 out_arr (List.replicate n (in_arr, 1)) x = some y
        ∧ stalled (y.channel 0) := by
  intro n
  induction n with
  | zero =>
    intro x _ hs _
    exact ⟨x, rfl, hs⟩
  | succ k ih =>
    intro x hcnt hs hrun
    obtain ⟨r, h1, h2, h3, h4⟩ := perform64_track 3 (le_refl 3) x in_arr out_arr 1 hrun 0 hcnt
      hs.1 stalled
      (fun y st _ e1 e2 =>
        stalled_chunk_loop y 0 (in_arr 0) 3 (by decide) st e2 (by rw [e1]; exact hs))
    have hcnt1 : 0 < r.x.channel_cnt := by
      have := congrArg t_diffuse.channel_cnt h2.1
      rw [this]
      exact hcnt
    obtain ⟨y, g1, g2⟩ := ih r.x hcnt1 h4 h3
    refine ⟨y, ?_, g2⟩
    rw [List.replicate_succ, perform_blocks, h1]
    exact g1

/-- C31 does not hold at velocity 0.5 with blocks of one sample: the channel of the engine
`x_2_slow` is switched on, unfrozen and ramping with the countdown 10; for a block of one
sample `(t_int32)(1 * 0.5)` is 0, the countdown is above it and is lowered by it: after one
block the channel is still ramping with the countdown 10, its amplitudes having moved from
`[0, 0]` to `[0, 1/20]`, and so it is after any number of blocks of one sample. -/
theorem C31_ramp_stalls_at_velocity_half :
    (x_2_slow.channel 0).is_on = true ∧ (x_2_slow.channel 0).is_frozen = false
    ∧ (x_2_slow.channel 0).mode_type = MODE_TYPE_VAR ∧ (x_2_slow.channel 0).cntd = 10
    ∧ (x_2_slow.channel 0).velocity = 1/2
    ∧ smp_left_x_vel 1 (x_2_slow.channel 0) = 0
    ∧ (diffuse_perform64 3 x_2_slow (fun _ _ => 1) (fun _ _ => 0) 1).map
        (fun r => ((r.x.channel 0).mode_type, (r.x.channel 0).cntd, (r.x.channel 0).A_cur))
        = some (MODE_TYPE_VAR, 10, [0, 1/20])
    ∧ ∀ n : Nat, ∃ y,
        perform_blocks 3 (fun _ _ => 0) (List.replicate n (fun _ _ => 1, 1)) x_2_slow = some y
        ∧ (y.channel 0).mode_type = MODE_TYPE_VAR ∧ (y.channel 0).cntd = 10 := by
  have hs : stalled (x_2_slow.channel 0) :=
    ⟨by decide!, by decide!, by decide!, by decide!, by decide!⟩
  refine ⟨hs.1, hs.2.1, hs.2.2.1, hs.2.2.2.1, hs.2.2.2.2, by decide!, by decide!, fun n => ?_⟩
  have hlen : x_2_slow.channel_arr.length = 1 := by decide!
  obtain ⟨y, h1, h2⟩ := stalled_blocks (fun _ _ => 0) (fun _ _ => 1) n x_2_slow (by decide!) hs
    (fun c1 hon => by
      have e : c1 = 0 := by
        have := channel_on_lt x_2_slow c1 hon
        omega
      rw [e]
      exact Or.inr (Or.inr ⟨hs.2.2.1, by rw [hs.2.2.2.1]; decide,
        by rw [hs.2.2.2.2]; norm_num⟩))
  exact ⟨y, h1, h2.2.2.1, h2.2.2.2.1⟩

/-- The body of the loop of `_state_ramp` writes at the index `ramp_index`. -/
theorem ramp_body_index (out_cnt : Nat) (state : t_state) (offset : Int) (ch1 : Nat)
    (c : t_channel) :
    ramp_body out_cnt state offset ch1 c
      = { c with U_targ := wr_int c.U_targ (ramp_index out_cnt offset ch1)
                   (rd state.U_cur_arr ch1),
                 A_targ := wr_int c.A_targ (ramp_index out_cnt offset ch1)
                   (rd state.A_arr ch1) } := rfl

/-- C32 does not hold with more than 9 outputs: on the object `x_10`, with 10 outputs and
the gains `[1, 0, ..., 0]` in the state 0, the rotation -9 has floor -9 and the offset that
`circular` computes is `(-9 % 10) + 8 = -1`; `circular 0 1 0 -9. 10.` is accepted, and for
the output 0 of the channel of rank 0 the index that `_state_ramp` writes is
`(0 + -1 + 0) % 10 = -1`, which is not within `[0, 10)`. In the embedding the write is
dropped: the gain 1 of the state is in no target of the channel. On the engine `x_3`, with 3
outputs, the same rotation gives the offset 8. -/
theorem C32_circular_index_negative :
    x_10.out_cnt = 10 ∧ x_10.channel_cnt = 1
    ∧ (x_10.state 0).A_arr = [1, 0, 0, 0, 0, 0, 0, 0, 0, 0]
    ∧ circ_offset x_10 (-9) = -1
    ∧ (state_circular x_10 argv_circ_neg_9).ok = true
    ∧ ramp_index x_10.out_cnt (circ_offset x_10 (-9) + 0) 0 = -1
    ∧ ¬ (0 ≤ ramp_index x_10.out_cnt (circ_offset x_10 (-9) + 0) 0)
    ∧ ((state_circular x_10 argv_circ_neg_9).x.channel 0).A_targ
        = [0, 0, 0, 0, 0, 0, 0, 0, 0, 0]
    ∧ (state_circular x_10 argv_circ_neg_9).x.state_tmp.A_arr
        = [1, 0, 0, 0, 0, 0, 0, 0, 0, 0]
    ∧ circ_offset x_3 (-9) = 8 := by
  refine ⟨by decide!, by decide!, by decide!, by decide!, by decide!, by decide!, by decide!,
    by decide!, by decide!, by decide!⟩

/-- C36 does not hold when the array of gains has another length than the count: the
dictionary holds the state `z` with the count 2, the output count of the engine `x_2_long`,
and three gains; `state load z 0` fails with `ERR_COUNT`, the gains `[0, 1]` and the
abscissa values of the state 0 are unchanged, but its name is `z` where it was `null`:
`_state_dict_load` reads the name before it tests the length of the array. The state `t`,
with the count 3, fails the first test of `_state_dict_load`: `state load t 0` gives
`ERR_COUNT` and leaves the state 0 as it was. -/
theorem C36_failed_load_renames_state :
    (x_2_long.state 0).name = "null" ∧ (x_2_long.state 0).cnt = 2
    ∧ (x_2_long.state 0).A_arr = [0, 1]
    ∧ (state_state x_2_long reg_long argv_load_z).err = ERR_COUNT
    ∧ ((state_state x_2_long reg_long argv_load_z).x.state 0).name = "z"
    ∧ ((state_state x_2_long reg_long argv_load_z).x.state 0).A_arr = [0, 1]
    ∧ ((state_state x_2_long reg_long argv_load_z).x.state 0).U_rm_arr
        = (x_2_long.state 0).U_rm_arr
    ∧ ((state_state x_2_long reg_long argv_load_z).x.state 0).U_xf_arr
        = (x_2_long.state 0).U_xf_arr
    ∧ (state_state x_2_long reg_long argv_load_t).err = ERR_COUNT
    ∧ ((state_state x_2_long reg_long argv_load_t).x.state 0).name = "null"
    ∧ ((state_state x_2_long reg_long argv_load_t).x.state 0).A_arr = [0, 1] := by
  refine ⟨by decide!, by decide!, by decide!, by decide!, by decide!, by decide!, by decide!,
    by decide!, by decide!, by decide!, by decide!⟩

/-- C35 does not hold after `channel set`: with linear curves, of which the forward function
inverts the inverse, `channel set 0 0.5 0.25` on the object as created leaves the channel 0
with the amplitudes `A_cur = [1/2, 1/4]` and the abscissa values `U_cur = [0, 0]`, at which
the curve of the channel gives `[0, 0]`: the method writes `A_cur` and does not call
`_channel_calc_absc`. A block of 4 samples later the channel is the same. -/
theorem C35_channel_set_leaves_abscissas :
    (∀ a p : ℚ, env_linear.xfade_sinus (env_linear.xfade_sinus_inv a p) p = a)
    ∧ (∀ a p : ℚ, env_linear.ramp_exp (env_linear.ramp_exp_inv a p) p = a)
    ∧ (run_commands env_linear 3 (world_new env_linear 1000 [] []) (cmds_channel_set 0)).map
        (fun w => ((w.x.channel 0).A_cur, (w.x.channel 0).U_cur, curve_at_U_cur (w.x.channel 0),
          (w.x.channel 0).mode_type))
        = some ([1/2, 1/4], [0, 0], [0, 0], MODE_TYPE_FIX)
    ∧ (run_commands env_linear 3 (world_new env_linear 1000 [] []) (cmds_channel_set 1)).map
        (fun w => ((w.x.channel 0).A_cur, (w.x.channel 0).U_cur, curve_at_U_cur (w.x.channel 0),
          (w.x.channel 0).mode_type))
        = some ([1/2, 1/4], [0, 0], [0, 0], MODE_TYPE_FIX) := by
  refine ⟨fun _ _ => rfl, fun _ _ => rfl, by decide!, by decide!⟩

/-! ## The indices of the states -/

end Diffuse
